import Mathlib

set_option autoImplicit false

/-! The adaptive vtbl cache of Mach7 (`vtbl_map<1,T>` and `vtbl_map<2,T>`)

A shallow embedding of `vtblmap4st-1.hpp` and `vtblmap4st-2.hpp`.

* An entry pointer (`stored_type*`) is the position of the entry in the entry
  store, the list of all `stored_type` cells allocated so far.  `new
  stored_type[n]` appends `n` value-initialised cells, so the address of a cell
  never changes.
* `size_t` and `intptr_t` values are natural numbers; keys are the non-negative
  `intptr_t` values.  `1<<log_size` is `2^log_size`.
* The two source files differ in the key type, in the slot computation, in the
  emptiness test and in the parameter search of `update`; these four parts are
  collected in `KeyOps`, with the instances `ops1` (N = 1) and `ops2` (N = 2).
  Every other function is written once and reads as either source file.
-/

namespace mch

/-! ## Constants and helpers declared outside the two source files -/

/-- The tuning constants the two files use but do not declare.  The first
three are of type `bit_offset_t`; the log sizes and offsets computed from them
are taken to fit that type, so that its casts do not change a value. -/
structure Config where
  max_log_size : Nat
  max_log_inc : Nat
  irrelevant_bits : Nat
  initial_collisions_before_update : Int
  renewed_collisions_before_update : Int
  deriving DecidableEq

/-- Loop of `req_bits`: one bit, and one more for every halving that leaves a
non-zero value.  The first argument bounds the number of iterations. -/
def req_bits_aux : Nat → Nat → Nat
  | 0, _ => 1
  | n + 1, v => if v / 2 = 0 then 1 else 1 + req_bits_aux n (v / 2)

/-- Modelled from the spec: `req_bits`, the "bits required to represent a value"
helper, is not in the sources.  A value `v > 0` needs `log2 v + 1` bits and `0`
needs one bit: the spec's scenario "construct with hint=1 (table size 2)" fixes
`req_bits 0 = 1`. -/
def req_bits (v : Nat) : Nat :=
  req_bits_aux v v

/-- Loop of `trailing_zeros`: count the zero bits below the lowest set bit. -/
def trailing_zeros_aux : Nat → Nat → Nat
  | 0, _ => 0
  | n + 1, v => if v % 2 = 1 then 0 else 1 + trailing_zeros_aux n (v / 2)

/-- Modelled from the spec: `trailing_zeros`, the "trailing-zero count" helper,
is not in the sources.  Zero has no set bit; the count is then `0`. -/
def trailing_zeros (v : Nat) : Nat :=
  if v = 0 then 0 else trailing_zeros_aux v v

/-- Loop of `bits_set`. -/
def bits_set_aux : Nat → Nat → Nat
  | 0, _ => 0
  | n + 1, v => if v = 0 then 0 else v % 2 + bits_set_aux n (v / 2)

/-- Modelled from the spec: `bits_set`, the "population count" helper, is not in
the sources. -/
def bits_set (v : Nat) : Nat :=
  bits_set_aux v v

/-- Loop of `interleave`. -/
def interleave_aux : Nat → Nat → Nat → Nat
  | 0, _, _ => 0
  | n + 1, x, y =>
    if x = 0 ∧ y = 0 then 0
    else x % 2 + 2 * (y % 2) + 4 * interleave_aux n (x / 2) (y / 2)

/-- Modelled from the spec: `interleave` is not in the sources.  It "takes bits
from each shifted key in a fixed, deterministic round-robin order": bit `b` of
the first argument becomes bit `2b`, bit `b` of the second becomes bit `2b+1`. -/
def interleave (x y : Nat) : Nat :=
  interleave_aux (x + y) x y

/-- Modelled from the spec: the macro `XTL_BIT_SET(histogram, pos)` is not in
the sources.  The bit histogram ("count the number of distinct occupied slots
via a bitmap") is one natural number, the concatenation of its words. -/
def bit_set (hist pos : Nat) : Nat :=
  hist ||| (1 <<< pos)

/-! ## Entries and the entry store -/

/-- The struct `cache_descriptor::stored_type`: the key (`vtbl`, resp. `vtbl[N]`) and the
value. -/
structure stored_type (κ T : Type) where
  vtbl : κ
  value : T
  deriving DecidableEq

/-- The struct `cache_descriptor`: `cache_mask`, `optimal_shift`, `used` and the
variable-sized array `cache` of entry pointers. -/
structure cache_descriptor (σ : Type) where
  cache_mask : Nat
  optimal_shift : σ
  used : Nat
  cache : List Nat
  deriving DecidableEq

/-- Running best estimate of the parameter search in `update`:
`max_cache_entries`, `no` and `zo`. -/
structure estimate (σ : Type) where
  max_cache_entries : Nat
  no : Nat
  zo : σ
  deriving DecidableEq

/-- What differs between `vtblmap4st-1.hpp` and `vtblmap4st-2.hpp`. -/
structure KeyOps (κ σ : Type) where
  /-- the key of a value-initialised `stored_type` -/
  zero : κ
  /-- the emptiness test of an entry: `vtbl == 0`, resp. `vtbl[0] == 0` -/
  vacant : κ → Bool
  /-- the checks `XTL_ASSERT(vtbl)`, resp. `XTL_ASSERT(vtbl0)` and `XTL_ASSERT(vtbl1)` -/
  nonzero : κ → Bool
  /-- index computed by `operator[]`, resp. `loc`, from shift(s), mask and key -/
  slot : σ → Nat → κ → Nat
  /-- the shift(s) set by the first constructor (`std::fill`) -/
  fill : Nat → σ
  /-- the search of `update` for `no` and `zo`, from the constants, the
  descriptor's mask, shift(s) and `used`, the keys of the entries in slot order
  and the new key -/
  search : Config → Nat → Nat → List κ → κ → Nat × σ

section core

variable {κ σ T : Type} [DecidableEq κ] [DecidableEq σ]

/-- Key of the entry at address `p` (`p->vtbl`). -/
def vtbl_at (o : KeyOps κ σ) (store : List (stored_type κ T)) (p : Nat) : κ :=
  match store.get? p with
  | some e => e.vtbl
  | none => o.zero

/-- Assignment `p->vtbl = vtbl`. -/
def set_vtbl (store : List (stored_type κ T)) (p : Nat) (vtbl : κ) :
    List (stored_type κ T) :=
  match store.get? p with
  | some e => store.set p { e with vtbl := vtbl }
  | none => store

/-- Allocation `new stored_type[n]`: `n` value-initialised entries at the end of
the store. -/
def new_entries (o : KeyOps κ σ) [Inhabited T] (store : List (stored_type κ T)) (n : Nat) :
    List (stored_type κ T) :=
  store ++ List.replicate n { vtbl := o.zero, value := default }

/-- A loop `for (size_t i = 0; i <= cache_mask; ++i) if (p(i)) goto ...`:
the first index at which the test succeeds. -/
def first_slot (p : Nat → Bool) (cache_mask : Nat) : Option Nat :=
  (List.range (cache_mask + 1)).find? p

/-- Effect of `std::swap(ce, *cv)` on the array `cache`, `ce` being slot `h` and
`cv` slot `i`. -/
def swap_slots (cache : List Nat) (h i : Nat) : List Nat :=
  (cache.set h (cache.getD i 0)).set i (cache.getD h 0)

/-- First constructor `cache_descriptor(log_size, shift)`. -/
def cache_descriptor.create (o : KeyOps κ σ) [Inhabited T] (log_size : Nat) (shift : Nat)
    (store : List (stored_type κ T)) :
    List (stored_type κ T) × cache_descriptor σ :=
  let cache_mask := 2 ^ log_size - 1
  let cache_entries := store.length
  (new_entries o store (2 ^ log_size),
   { cache_mask := cache_mask
     optimal_shift := o.fill shift
     used := 0
     cache := (List.range (cache_mask + 1)).map (fun i => cache_entries + i) })

/-- Second constructor `cache_descriptor(log_size, shift(s), old)`: the first
`old.cache_mask + 1` slots take the pointers of `old`, the remaining ones point
to `cache_mask - old.cache_mask` new entries.  The constructor asserts
`cache_mask >= old.cache_mask`, so the `size_t` difference does not wrap; the
only caller, `update`, passes a log size that is at least the current one. -/
def cache_descriptor.transplant (o : KeyOps κ σ) [Inhabited T] (log_size : Nat) (shifts : σ)
    (old : cache_descriptor σ) (store : List (stored_type κ T)) :
    List (stored_type κ T) × cache_descriptor σ :=
  let cache_mask := 2 ^ log_size - 1
  let first := (List.range (old.cache_mask + 1)).map (fun i => old.cache.getD i 0)
  if cache_mask - old.cache_mask ≠ 0 then
    let cache_entries := store.length
    (new_entries o store (cache_mask - old.cache_mask),
     { cache_mask := cache_mask
       optimal_shift := shifts
       used := old.used
       cache := first ++
         (List.range (cache_mask - old.cache_mask)).map (fun j => cache_entries + j) })
  else
    (store,
     { cache_mask := cache_mask, optimal_shift := shifts, used := old.used, cache := first })

/-- The member `is_full()`: no entry is left for a new key. -/
def cache_descriptor.is_full (d : cache_descriptor σ) : Bool :=
  decide (d.used > d.cache_mask)

/-- The member `size()`: the number of slots. -/
def cache_descriptor.size (d : cache_descriptor σ) : Nat :=
  d.cache_mask + 1

/-- Index of the slot `operator[]`, resp. `loc`, returns a reference to. -/
def cache_descriptor.loc (o : KeyOps κ σ) (d : cache_descriptor σ) (vtbl : κ) : Nat :=
  o.slot d.optimal_shift d.cache_mask vtbl

/-- Entry pointer held by slot `i` (`cache[i]`). -/
def cache_descriptor.at (d : cache_descriptor σ) (i : Nat) : Nat :=
  d.cache.getD i 0

/-- The function `cache_descriptor::get`.  The result is the store, the descriptor and the
index of the slot the returned reference `ce` designates. -/
def cache_descriptor.get (o : KeyOps κ σ) (store : List (stored_type κ T))
    (d : cache_descriptor σ) (vtbl : κ) :
    List (stored_type κ T) × cache_descriptor σ × Nat :=
  let ce := d.loc o vtbl
  if vtbl_at o store (d.at ce) ≠ vtbl then
    match first_slot (fun i => decide (vtbl_at o store (d.at i) = vtbl)) d.cache_mask with
    | some cv => (store, { d with cache := swap_slots d.cache ce cv }, ce)
    | none =>
      if d.used ≤ d.cache_mask then
        match first_slot (fun i => o.vacant (vtbl_at o store (d.at i))) d.cache_mask with
        | some cv =>
          (set_vtbl store (d.at cv) vtbl,
           { d with used := d.used + 1, cache := swap_slots d.cache ce cv }, ce)
        | none => (store, d, ce)
      else (store, d, ce)
  else (store, d, ce)

/-- The class `vtbl_map<N,T>`: its members `descriptor`, `last_table_size` and
`collisions_before_update` (an `int`, here an integer), together with the entry
store its descriptors allocate from. -/
structure vtbl_map (κ σ T : Type) where
  store : List (stored_type κ T)
  descriptor : cache_descriptor σ
  last_table_size : Nat
  collisions_before_update : Int

/-- Constructor `vtbl_map(expected_size)`.  It does not initialise
`last_table_size`, whose indeterminate value is the argument `lts`. -/
def vtbl_map.create (o : KeyOps κ σ) [Inhabited T] (cfg : Config) (expected_size : Nat)
    (lts : Nat) : vtbl_map κ σ T :=
  let r := cache_descriptor.create o (req_bits (expected_size - 1)) cfg.irrelevant_bits
    ([] : List (stored_type κ T))
  { store := r.1
    descriptor := r.2
    last_table_size := lts
    collisions_before_update := cfg.initial_collisions_before_update }

/-- First part of `vtbl_map<N,T>::update`, up to and including the replacement
of the descriptor: the keys of the entries are read in slot order, the search
yields `no` and `zo`, and if they differ from the current parameters a new
descriptor is built from the old one, with `no` raised to the current log size
`k`.  The result is the store and the live descriptor. -/
def vtbl_map.update_descriptor (o : KeyOps κ σ) [Inhabited T] (cfg : Config)
    (m : vtbl_map κ σ T) (vtbl : κ) : List (stored_type κ T) × cache_descriptor σ :=
  let d := m.descriptor
  let keys := (List.range (d.cache_mask + 1)).map (fun i => vtbl_at o m.store (d.at i))
  let k := req_bits d.cache_mask
  let found := o.search cfg d.cache_mask d.used keys vtbl
  let no := found.1
  let zo := found.2
  if d.optimal_shift ≠ zo ∨ no ≠ k then
    cache_descriptor.transplant o (if no < k then k else no) zo d m.store
  else (m.store, d)

/-- The function `vtbl_map<N,T>::update`: the search and replacement of the descriptor, the
reset of `collisions_before_update`, then `descriptor->get(vtbl)` and the
update of `last_table_size`.  The result is the map and the entry `res` whose
value is returned by reference. -/
def vtbl_map.update (o : KeyOps κ σ) [Inhabited T] (cfg : Config) (m : vtbl_map κ σ T)
    (vtbl : κ) : vtbl_map κ σ T × Nat :=
  let r := vtbl_map.update_descriptor o cfg m vtbl
  let g := cache_descriptor.get o r.1 r.2 vtbl
  ({ store := g.1
     descriptor := g.2.1
     last_table_size := g.2.1.used
     collisions_before_update := cfg.renewed_collisions_before_update },
   g.2.1.at g.2.2)

/-- The function `vtbl_map<N,T>::get`.  The result is the map and the entry whose value is
returned by reference. -/
def vtbl_map.get (o : KeyOps κ σ) [Inhabited T] (cfg : Config) (m : vtbl_map κ σ T)
    (vtbl : κ) : vtbl_map κ σ T × Nat :=
  let d := m.descriptor
  let ce := d.loc o vtbl
  if vtbl_at o m.store (d.at ce) ≠ vtbl then
    if d.is_full then vtbl_map.update o cfg m vtbl
    else if o.vacant (vtbl_at o m.store (d.at ce)) = false then
      let c := m.collisions_before_update - 1
      if c ≤ 0 ∧ d.used ≠ m.last_table_size then
        vtbl_map.update o cfg { m with collisions_before_update := c } vtbl
      else
        let g := cache_descriptor.get o m.store d vtbl
        ({ m with store := g.1, descriptor := g.2.1, collisions_before_update := c },
         g.2.1.at ce)
    else
      let g := cache_descriptor.get o m.store d vtbl
      ({ m with store := g.1, descriptor := g.2.1 }, g.2.1.at ce)
  else (m, d.at ce)

end core

/-! ## The parameter search of `update`, N = 1 -/

/-- First loop of `vtbl_map<1,T>::update`: the bits in which the stored keys
and the new one differ (`diff`), computed along the chain `prev`. -/
def diff1 (keys : List Nat) (vtbl : Nat) : Nat :=
  (keys.foldl
    (fun (a : Nat × Nat) v => if v ≠ 0 then (a.1 ||| (a.2 ^^^ v), v) else a) (0, vtbl)).1

/-- Body of the loop over offsets, N = 1: the histogram is cleared, the slot of
the new key is marked, then the slot of every stored key; `entries` is the
number of bits set. -/
def entries1 (keys : List Nat) (vtbl i j : Nat) : Nat :=
  let cache_size := 2 ^ i
  let cache_mask := cache_size - 1
  bits_set
    (keys.foldl (fun hist v => if v ≠ 0 then bit_set hist ((v >>> j) &&& cache_mask) else hist)
      (bit_set 0 ((vtbl >>> j) &&& cache_mask)))

/-- Loop `for (j = z; j <= m-i; ++j)` of `vtbl_map<1,T>::update` over the
remaining offsets; the flag tells that the loop was left by `break`. -/
def search1_offsets (keys : List Nat) (vtbl used i : Nat) :
    List Nat → estimate Nat → estimate Nat × Bool
  | [], e => (e, false)
  | j :: js, e =>
    let entries := entries1 keys vtbl i j
    let e1 : estimate Nat :=
      if entries > e.max_cache_entries then { max_cache_entries := entries, no := i, zo := j }
      else e
    if entries = used + 1 then (e1, true) else search1_offsets keys vtbl used i js e1

/-- Loop `for (i = l1; i <= l2; ++i)` of `vtbl_map<1,T>::update` over the
remaining log sizes; after a `break` of the inner loop `i` is `l2+1` and the
loop ends. -/
def search1_sizes (keys : List Nat) (vtbl used m z : Nat) :
    List Nat → estimate Nat → estimate Nat
  | [], e => e
  | i :: is, e =>
    let r := search1_offsets keys vtbl used i (List.range' z (m + 1 - i - z)) e
    if r.2 then r.1 else search1_sizes keys vtbl used m z is r.1

/-- The search of `vtbl_map<1,T>::update`: from `diff` to the final `no`, `zo`. -/
def search1 (cfg : Config) (cache_mask used : Nat) (keys : List Nat) (vtbl : Nat) :
    Nat × Nat :=
  let diff := diff1 keys vtbl
  let k := req_bits cache_mask
  let n := req_bits used
  let m := req_bits diff
  let z := trailing_zeros (diff % 2 ^ 32)
  let l1 := min cfg.max_log_size (max k n)
  let l2 := min cfg.max_log_size (max k (n + cfg.max_log_inc))
  let e := search1_sizes keys vtbl used m z (List.range' l1 (l2 + 1 - l1))
    { max_cache_entries := 0, no := l1, zo := z }
  (e.no, e.zo)

/-- The parts of `vtblmap4st-1.hpp` that depend on N = 1. -/
def ops1 : KeyOps Nat Nat where
  zero := 0
  vacant := fun vtbl => vtbl == 0
  nonzero := fun vtbl => vtbl != 0
  slot := fun optimal_shift cache_mask vtbl => (vtbl >>> optimal_shift) &&& cache_mask
  fill := fun shift => shift
  search := search1

/-! ## The parameter search of `update`, N = 2 -/

/-- First loop of `vtbl_map<2,T>::update`: `diff[s]` for both dimensions. -/
def diff2 (keys : List (Nat × Nat)) (vtbl : Nat × Nat) : Nat × Nat :=
  (diff1 (keys.map Prod.fst) vtbl.1, diff1 (keys.map Prod.snd) vtbl.2)

/-- Body of the innermost loop, N = 2: the number of bits set in the histogram
after marking the slot of the new pair and of every stored pair. -/
def entries2 (keys : List (Nat × Nat)) (vtbl : Nat × Nat) (cache_mask j0 j1 : Nat) : Nat :=
  bits_set
    (keys.foldl
      (fun hist v =>
        if v.1 ≠ 0 then bit_set hist (interleave (v.1 >>> j0) (v.2 >>> j1) &&& cache_mask)
        else hist)
      (bit_set 0 (interleave (vtbl.1 >>> j0) (vtbl.2 >>> j1) &&& cache_mask)))

/-- Loop `for (j1 = z[1]; j1 <= m[1]-i; ++j1)` of `vtbl_map<2,T>::update` over
the remaining offsets; the flag tells that the loop was left by `break`. -/
def search2_offsets1 (keys : List (Nat × Nat)) (vtbl : Nat × Nat) (used i cache_mask j0 : Nat) :
    List Nat → estimate (Nat × Nat) → estimate (Nat × Nat) × Bool
  | [], e => (e, false)
  | j1 :: js, e =>
    let entries := entries2 keys vtbl cache_mask j0 j1
    let e1 : estimate (Nat × Nat) :=
      if entries > e.max_cache_entries then
        { max_cache_entries := entries, no := i, zo := (j0, j1) }
      else e
    if entries = used + 1 then (e1, true)
    else search2_offsets1 keys vtbl used i cache_mask j0 js e1

/-- Loop `for (j0 = z[0]; j0 <= m[0]-i; ++j0)` of `vtbl_map<2,T>::update`, from
the current `j0` and `i`.  The `break` of the inner loop leaves this loop
running with `i = l2+1` and the `cache_mask` of the current log size.  The first
argument bounds the number of iterations. -/
def search2_offsets0 (keys : List (Nat × Nat)) (vtbl : Nat × Nat)
    (used l2 cache_mask : Nat) (m z : Nat × Nat) :
    Nat → Nat → Nat → estimate (Nat × Nat) → estimate (Nat × Nat) × Nat
  | 0, _, i, e => (e, i)
  | fuel + 1, j0, i, e =>
    if j0 + i ≤ m.1 then
      let r := search2_offsets1 keys vtbl used i cache_mask j0
        (List.range' z.2 (m.2 + 1 - i - z.2)) e
      search2_offsets0 keys vtbl used l2 cache_mask m z fuel (j0 + 1)
        (if r.2 then l2 + 1 else i) r.1
    else (e, i)

/-- Loop `for (i = l1; i <= l2; ++i)` of `vtbl_map<2,T>::update`, from the
current `i`.  The first argument bounds the number of iterations. -/
def search2_sizes (keys : List (Nat × Nat)) (vtbl : Nat × Nat) (used l2 : Nat)
    (m z : Nat × Nat) : Nat → Nat → estimate (Nat × Nat) → estimate (Nat × Nat)
  | 0, _, e => e
  | fuel + 1, i, e =>
    if i ≤ l2 then
      let r := search2_offsets0 keys vtbl used l2 (2 ^ i - 1) m z (m.1 + 1) z.1 i e
      search2_sizes keys vtbl used l2 m z fuel (r.2 + 1) r.1
    else e

/-- The search of `vtbl_map<2,T>::update`: from `diff` to the final `no`, `zo`. -/
def search2 (cfg : Config) (cache_mask used : Nat) (keys : List (Nat × Nat))
    (vtbl : Nat × Nat) : Nat × (Nat × Nat) :=
  let diff := diff2 keys vtbl
  let k := req_bits cache_mask
  let n := req_bits used
  let m := (req_bits diff.1, req_bits diff.2)
  let z := (trailing_zeros diff.1, trailing_zeros diff.2)
  let l1 := min cfg.max_log_size (max k n)
  let l2 := min cfg.max_log_size (max k (n + cfg.max_log_inc))
  let e := search2_sizes keys vtbl used l2 m z (l2 + 1) l1
    { max_cache_entries := 0, no := l1, zo := z }
  (e.no, e.zo)

/-- The parts of `vtblmap4st-2.hpp` that depend on N = 2. -/
def ops2 : KeyOps (Nat × Nat) (Nat × Nat) where
  zero := (0, 0)
  vacant := fun vtbl => vtbl.1 == 0
  nonzero := fun vtbl => vtbl.1 != 0 && vtbl.2 != 0
  slot := fun optimal_shift cache_mask vtbl =>
    interleave (vtbl.1 >>> optimal_shift.1) (vtbl.2 >>> optimal_shift.2) &&& cache_mask
  fill := fun shift => (shift, shift)
  search := search2

/-! ## Specification vocabulary -/

section vocabulary

variable {κ σ T : Type} [DecidableEq κ] [DecidableEq σ]

/-- Value of the entry at address `p` (`p->value`), when `p` is allocated. -/
def value_at (store : List (stored_type κ T)) (p : Nat) : Option T :=
  (store.get? p).map (fun e => e.value)

/-- Assignment `*r = v` by the client through a reference `r` to the value
cell of the entry at address `p`. -/
def set_value (store : List (stored_type κ T)) (p : Nat) (v : T) :
    List (stored_type κ T) :=
  match store.get? p with
  | some e => store.set p { e with value := v }
  | none => store

/-- What the proofs use of the key-dependent parts: a value-initialised entry
tests empty, a key that passes the `XTL_ASSERT`s does not, the slot index is
masked, and the search never returns a log size below its lower bound `l1`. -/
structure KeyOps.Lawful (o : KeyOps κ σ) : Prop where
  vacant_zero : o.vacant o.zero = true
  vacant_of_nonzero : ∀ vtbl, o.nonzero vtbl = true → o.vacant vtbl = false
  slot_le : ∀ shifts cache_mask vtbl, o.slot shifts cache_mask vtbl ≤ cache_mask
  search_ge : ∀ cfg cache_mask used keys vtbl,
    min cfg.max_log_size (max (req_bits cache_mask) (req_bits used)) ≤
      (o.search cfg cache_mask used keys vtbl).1

/-- Representation invariant of a descriptor over the entry store: the slots
hold each allocated entry exactly once, there are `cache_mask + 1 = 2^k` slots
with `k ≥ 1`, every key is all-zero or passes the `XTL_ASSERT`s, no two entries
hold the same such key, and `used` counts the slots whose entry is occupied. -/
structure cache_descriptor.Inv (o : KeyOps κ σ) (store : List (stored_type κ T))
    (d : cache_descriptor σ) : Prop where
  perm : d.cache.Perm (List.range store.length)
  size : d.cache.length = d.cache_mask + 1
  pow : ∃ k, 1 ≤ k ∧ d.cache_mask + 1 = 2 ^ k
  keys : ∀ p, vtbl_at o store p = o.zero ∨ o.nonzero (vtbl_at o store p) = true
  uniq : ∀ p q, vtbl_at o store p = vtbl_at o store q →
    o.nonzero (vtbl_at o store p) = true → p = q
  count : d.used = d.cache.countP (fun p => !o.vacant (vtbl_at o store p))

/-- The states of a `vtbl_map` a client can produce: construction with a
positive `expected_size` (and any indeterminate `last_table_size`), `get` with
keys that pass the `XTL_ASSERT`s, and assignments through the references `get`
has handed out, which designate occupied entries. -/
inductive Reachable (o : KeyOps κ σ) [Inhabited T] (cfg : Config) : vtbl_map κ σ T → Prop
  | create (expected_size lts : Nat) (h : 1 ≤ expected_size) :
      Reachable o cfg (vtbl_map.create o cfg expected_size lts)
  | get (m : vtbl_map κ σ T) (vtbl : κ) (hm : Reachable o cfg m)
      (h : o.nonzero vtbl = true) : Reachable o cfg (vtbl_map.get o cfg m vtbl).1
  | assign (m : vtbl_map κ σ T) (p : Nat) (v : T) (hm : Reachable o cfg m)
      (h : o.vacant (vtbl_at o m.store p) = false) :
      Reachable o cfg { m with store := set_value m.store p v }

/-- A sequence of `get` calls from the first key to the last; the result is the
final map and the entries returned, in call order. -/
def vtbl_map.gets (o : KeyOps κ σ) [Inhabited T] (cfg : Config) (m : vtbl_map κ σ T) :
    List κ → vtbl_map κ σ T × List Nat
  | [] => (m, [])
  | vtbl :: rest =>
    let r := vtbl_map.get o cfg m vtbl
    let t := vtbl_map.gets o cfg r.1 rest
    (t.1, r.2 :: t.2)

/-- The number `n` is the smallest power of two that is at least `h`. -/
def smallest_pow2_ge (h n : Nat) : Prop :=
  (∃ k, n = 2 ^ k) ∧ h ≤ n ∧ ∀ j, h ≤ 2 ^ j → n ≤ 2 ^ j

/-- The key `vtbl` is stored: some entry of the store holds it. -/
def vtbl_map.stores (o : KeyOps κ σ) (m : vtbl_map κ σ T) (vtbl : κ) : Prop :=
  ∃ p, vtbl_at o m.store p = vtbl

/-- The table is full and its log size has reached the ceiling `max_log_size`,
so that `update` cannot make room for a further key. -/
def vtbl_map.at_ceiling (cfg : Config) (m : vtbl_map κ σ T) : Prop :=
  m.descriptor.cache_mask < m.descriptor.used ∧
    cfg.max_log_size ≤ req_bits m.descriptor.cache_mask

end vocabulary

/-! ## Sample constants for the worked examples -/

/-- A choice of the tuning constants: ceiling `2^27` slots, one extra log size
searched, three irrelevant low bits, `update` at the first collision and then
after every sixteenth. -/
def sample_config : Config :=
  { max_log_size := 27
    max_log_inc := 1
    irrelevant_bits := 3
    initial_collisions_before_update := 1
    renewed_collisions_before_update := 16 }

/-- The constants of `sample_config` with the ceiling lowered to `2^1` slots,
so that a table of two slots is already at the ceiling. -/
def small_config : Config :=
  { sample_config with max_log_size := 1 }

/-- The cache `vtbl_map<1,int>(1)` of two slots after `get` of the keys `0x50`,
`0x30`, `0x20` and `0x10`, under `sample_config`: four slots, shift 4, all four
keys stored, and the entry of `0x50` in slot 0 although its slot is 1. -/
def example_map : vtbl_map Nat Nat Nat :=
  (vtbl_map.gets ops1 sample_config (vtbl_map.create ops1 sample_config 1 0)
    [0x50, 0x30, 0x20, 0x10]).1

/-- The cache `vtbl_map<1,int>(1)` of two slots after `get` of the keys `0x10`
and `0x20`, under `small_config`: the table is full and at the ceiling. -/
def ceiling_map : vtbl_map Nat Nat Nat :=
  (vtbl_map.gets ops1 small_config (vtbl_map.create ops1 small_config 1 0) [0x10, 0x20]).1

/-- The cache `vtbl_map<1,int>(1)` as constructed under `sample_config`: two
slots, no key stored. -/
def fresh_map : vtbl_map Nat Nat Nat :=
  vtbl_map.create ops1 sample_config 1 0

/-! ## The predecessor's array and the destructor

Here a pointer is a machine address, `0` being the null pointer, and an array
of pointers is a list of addresses. -/

/-- First loop of the second constructor, over the slots `i <= old.cache_mask`
that remain: `cache[i] = 0; std::swap(cache[i], old.cache[i])`.  The arguments
and the result are the arrays `cache` and `old.cache`. -/
def transplant_loop : List Nat → List Nat → List Nat → List Nat × List Nat
  | [], cache, old => (cache, old)
  | i :: rest, cache, old =>
    let zeroed := cache.set i 0
    transplant_loop rest (zeroed.set i (old.getD i 0)) (old.set i (zeroed.getD i 0))

/-- Inner loop of the destructor, from the current `j`:
`for (; j <= cache_mask && intptr_t(cache[j])-intptr_t(cache[j-1]) == sizeof(stored_type); ++j);`
The result is the final `j`.  The first argument bounds the number of
iterations. -/
def run_end (sizeof cache_mask : Nat) (cache : List Nat) : Nat → Nat → Nat
  | 0, j => j
  | fuel + 1, j =>
    if j ≤ cache_mask ∧ (cache.getD j 0 : Int) - (cache.getD (j - 1) 0 : Int) = (sizeof : Int)
    then run_end sizeof cache_mask cache fuel (j + 1)
    else j

/-- Outer loop of the destructor over the sorted array, from the current `i`:
a non-null `cache[i]` is passed to `delete[]` and `i` moves past the run of
pointers spaced `sizeof(stored_type)` apart, a null one is skipped.  The result
is the list of the addresses passed to `delete[]`.  The first argument bounds
the number of iterations. -/
def destroy_loop (sizeof cache_mask : Nat) (cache : List Nat) : Nat → Nat → List Nat
  | 0, _ => []
  | fuel + 1, i =>
    if i ≤ cache_mask then
      if cache.getD i 0 ≠ 0 then
        cache.getD i 0 ::
          destroy_loop sizeof cache_mask cache fuel
            (run_end sizeof cache_mask cache (cache_mask + 1) (i + 1))
      else destroy_loop sizeof cache_mask cache fuel (i + 1)
    else []

/-- The destructor `~cache_descriptor()`: `std::sort` of the array, then the
loop.  The result is the list of the addresses passed to `delete[]`. -/
def destroy (sizeof cache_mask : Nat) (cache : List Nat) : List Nat :=
  destroy_loop sizeof cache_mask (cache.insertionSort (fun a b => a ≤ b)) (cache_mask + 1) 0

/-! ## Vocabulary for the parameter search -/

/-- Keys of the entries in slot order, as the loops of `update` read them
(`descriptor->cache[c]->vtbl` for `c = 0 .. cache_mask`). -/
def vtbl_map.slot_keys {κ σ T : Type} (o : KeyOps κ σ) (m : vtbl_map κ σ T) : List κ :=
  (List.range (m.descriptor.cache_mask + 1)).map
    (fun i => vtbl_at o m.store (m.descriptor.at i))

/-- Number of distinct slots that the log size `i` and the offsets `j` give to
the new key and to the keys of the occupied entries. -/
def distinct_slots {κ σ : Type} (o : KeyOps κ σ) (keys : List κ) (vtbl : κ) (i : Nat)
    (j : σ) : Nat :=
  ((vtbl :: keys.filter (fun v => !o.vacant v)).map (o.slot j (2 ^ i - 1))).dedup.length

/-- The search range of `vtbl_map<1,T>::update` in iteration order: the log
sizes `l1 <= i <= l2` ascending and, for each, the offsets `z <= j <= m - i`
ascending. -/
def candidates1 (l1 l2 z m : Nat) : List (Nat × Nat) :=
  (List.range' l1 (l2 + 1 - l1)).flatMap
    (fun i => (List.range' z (m + 1 - i - z)).map (fun j => (i, j)))

/-- The search range of `vtbl_map<2,T>::update` in iteration order: the log
sizes `l1 <= i <= l2` ascending and, for each, the offsets
`z[0] <= j0 <= m[0] - i` and `z[1] <= j1 <= m[1] - i`, the second running
faster. -/
def candidates2 (l1 l2 : Nat) (z m : Nat × Nat) : List (Nat × (Nat × Nat)) :=
  (List.range' l1 (l2 + 1 - l1)).flatMap
    (fun i => (List.range' z.1 (m.1 + 1 - i - z.1)).flatMap
      (fun j0 => (List.range' z.2 (m.2 + 1 - i - z.2)).map (fun j1 => (i, (j0, j1)))))

/-- The search range of `update` for the map `m` and the new key `vtbl`, N = 1,
with the bounds `l1`, `l2`, `z` and `m` computed as `update` does. -/
def search_range1 {T : Type} (cfg : Config) (m : vtbl_map Nat Nat T) (vtbl : Nat) : List (Nat × Nat) :=
  let diff := diff1 (m.slot_keys ops1) vtbl
  let k := req_bits m.descriptor.cache_mask
  let n := req_bits m.descriptor.used
  candidates1 (min cfg.max_log_size (max k n))
    (min cfg.max_log_size (max k (n + cfg.max_log_inc)))
    (trailing_zeros (diff % 2 ^ 32)) (req_bits diff)

/-- The search range of `update` for the map `m` and the new key `vtbl`, N = 2,
with the bounds `l1`, `l2`, `z` and `m` computed as `update` does. -/
def search_range2 {T : Type} (cfg : Config) (m : vtbl_map (Nat × Nat) (Nat × Nat) T) (vtbl : Nat × Nat) :
    List (Nat × (Nat × Nat)) :=
  let diff := diff2 (m.slot_keys ops2) vtbl
  let k := req_bits m.descriptor.cache_mask
  let n := req_bits m.descriptor.used
  candidates2 (min cfg.max_log_size (max k n))
    (min cfg.max_log_size (max k (n + cfg.max_log_inc)))
    (trailing_zeros diff.1, trailing_zeros diff.2) (req_bits diff.1, req_bits diff.2)

/-- The candidate `c` is the first of the list `cands` that attains the maximal
score: every candidate before it scores less, none after it scores more. -/
def first_maximum {α : Type} (score : α → Nat) (cands : List α) (c : α) : Prop :=
  ∃ before after, cands = before ++ c :: after ∧
    (∀ x ∈ before, score x < score c) ∧ (∀ x ∈ after, score x ≤ score c)

/-- The estimate `e` is the best of the candidates `seen` so far: its
`max_cache_entries` bounds their scores, it is the initial estimate `e0` while
none was seen, and otherwise `(no, zo)` is the first candidate seen that scores
it. -/
def best_so_far {σ : Type} (score : Nat × σ → Nat) (e0 e : estimate σ)
    (seen : List (Nat × σ)) : Prop :=
  (∀ x ∈ seen, score x ≤ e.max_cache_entries) ∧
  (seen = [] → e = e0) ∧
  (seen ≠ [] → score (e.no, e.zo) = e.max_cache_entries ∧
    ∃ before after, seen = before ++ (e.no, e.zo) :: after ∧
      ∀ x ∈ before, score x < e.max_cache_entries)

/-! ## Vocabulary for the index array and the trigger -/

/-- The index array of `d` is one-to-one over the store: it has `cache_mask + 1`
slots, every slot holds the address of an allocated entry, and no two slots
hold the same address. -/
def cache_descriptor.one_to_one {κ σ T : Type} (store : List (stored_type κ T))
    (d : cache_descriptor σ) : Prop :=
  d.cache.length = d.cache_mask + 1 ∧
  (∀ i, i ≤ d.cache_mask → d.at i < store.length) ∧
  (∀ i j, i ≤ d.cache_mask → j ≤ d.cache_mask → d.at i = d.at j → i = j)

/-- The states that follow a state `m`: `m` itself, and what `get` with a key
that passes the `XTL_ASSERT`s or an assignment through a reference `get` has
handed out makes of a state that follows `m`. -/
inductive Later {κ σ T : Type} [DecidableEq κ] [DecidableEq σ] (o : KeyOps κ σ) [Inhabited T]
    (cfg : Config) (m : vtbl_map κ σ T) : vtbl_map κ σ T → Prop
  | refl : Later o cfg m m
  | get (m' : vtbl_map κ σ T) (vtbl : κ) (h : Later o cfg m m')
      (hv : o.nonzero vtbl = true) : Later o cfg m (vtbl_map.get o cfg m' vtbl).1
  | assign (m' : vtbl_map κ σ T) (p : Nat) (v : T) (h : Later o cfg m m')
      (hocc : o.vacant (vtbl_at o m'.store p) = false) :
      Later o cfg m { m' with store := set_value m'.store p v }

/-- The cache `vtbl_map<2,int>(1)` of two slots after `get` of the pairs
`(0x100, 0x200)` and `(0x100, 0x300)`, under `small_config`: the table is full
and at the ceiling. -/
def ceiling_map2 : vtbl_map (Nat × Nat) (Nat × Nat) Nat :=
  (vtbl_map.gets ops2 small_config (vtbl_map.create ops2 small_config 1 0)
    [(0x100, 0x200), (0x100, 0x300)]).1

/-- Keys of the occupied entries, in slot order: the keys the cache stores. -/
def vtbl_map.stored_keys {κ σ T : Type} (o : KeyOps κ σ) (m : vtbl_map κ σ T) : List κ :=
  (m.slot_keys o).filter (fun v => !o.vacant v)

/-- The condition under which the facade `get` calls `update(vtbl)`: a miss,
and the table is full or the entry in the expected slot is occupied, the
decremented throttle counter is not positive and `used` is not
`last_table_size`. -/
def vtbl_map.calls_update {κ σ T : Type} [DecidableEq κ] (o : KeyOps κ σ)
    (m : vtbl_map κ σ T) (vtbl : κ) : Prop :=
  vtbl_at o m.store (m.descriptor.at (m.descriptor.loc o vtbl)) ≠ vtbl ∧
  (m.descriptor.is_full = true ∨
    (o.vacant (vtbl_at o m.store (m.descriptor.at (m.descriptor.loc o vtbl))) = false ∧
      m.collisions_before_update - 1 ≤ 0 ∧ m.descriptor.used ≠ m.last_table_size))

/-- Every slot references an entry that is unoccupied or holds a key of `ks`
whose slot it is: no stored key is away from its slot. -/
def vtbl_map.at_home {κ σ T : Type} (o : KeyOps κ σ) (ks : List κ) (m : vtbl_map κ σ T) :
    Prop :=
  ∀ i, i ≤ m.descriptor.cache_mask →
    o.vacant (vtbl_at o m.store (m.descriptor.at i)) = true ∨
      (vtbl_at o m.store (m.descriptor.at i) ∈ ks ∧
        m.descriptor.loc o (vtbl_at o m.store (m.descriptor.at i)) = i)

/-! ## Entry chunks and their placement in memory -/

/-- The chunks `new stored_type[...]` allocates along a sequence of `get`
calls, as pairs (first entry, number of entries): a `get` allocates at most
once, in the second constructor called by `update`, and the entries it
allocates are those it appends to the store. -/
def vtbl_map.chunks {κ σ T : Type} [DecidableEq κ] [DecidableEq σ] (o : KeyOps κ σ)
    [Inhabited T] (cfg : Config) : vtbl_map κ σ T → List κ → List (Nat × Nat)
  | _, [] => []
  | m, vtbl :: rest =>
    let m1 := (vtbl_map.get o cfg m vtbl).1
    (if m.store.length < m1.store.length then
      [(m.store.length, m1.store.length - m.store.length)] else []) ++
      vtbl_map.chunks o cfg m1 rest

/-- The chunks of a cache's lifetime: the one the first constructor allocates
for `vtbl_map(expected_size)`, then those of the `get` calls. -/
def vtbl_map.lifetime_chunks {κ σ T : Type} [DecidableEq κ] [DecidableEq σ] (o : KeyOps κ σ)
    [Inhabited T] (cfg : Config) (expected_size lts : Nat) (keys : List κ) :
    List (Nat × Nat) :=
  (0, (vtbl_map.create o cfg expected_size lts : vtbl_map κ σ T).store.length) ::
    vtbl_map.chunks o cfg (vtbl_map.create o cfg expected_size lts : vtbl_map κ σ T) keys

/-- Machine address of entry `p` when the chunks are placed at the base
addresses `bases`, in allocation order, and an entry takes `sizeof` bytes. -/
def entry_addr (sizeof : Nat) (chunks : List (Nat × Nat)) (bases : List Nat) (p : Nat) : Nat :=
  match (chunks.zip bases).find? (fun c => decide (c.1.1 ≤ p ∧ p < c.1.1 + c.1.2)) with
  | some c => c.2 + sizeof * (p - c.1.1)
  | none => 0

/-- Whether the facade `get` calls `update` can be computed. -/
instance vtbl_map.calls_update_decidable {κ σ T : Type} [DecidableEq κ] (o : KeyOps κ σ)
    (m : vtbl_map κ σ T) (vtbl : κ) : Decidable (m.calls_update o vtbl) :=
  inferInstanceAs (Decidable
    (vtbl_at o m.store (m.descriptor.at (m.descriptor.loc o vtbl)) ≠ vtbl ∧
      (m.descriptor.is_full = true ∨
        (o.vacant (vtbl_at o m.store (m.descriptor.at (m.descriptor.loc o vtbl))) = false ∧
          m.collisions_before_update - 1 ≤ 0 ∧ m.descriptor.used ≠ m.last_table_size))))

/-- Number of calls of `update` during a sequence of `get` calls. -/
def vtbl_map.update_calls {κ σ T : Type} [DecidableEq κ] [DecidableEq σ] (o : KeyOps κ σ)
    [Inhabited T] (cfg : Config) : vtbl_map κ σ T → List κ → Nat
  | _, [] => 0
  | m, vtbl :: rest =>
    (if m.calls_update o vtbl then 1 else 0) +
      vtbl_map.update_calls o cfg (vtbl_map.get o cfg m vtbl).1 rest

/-! ## Vocabulary for lookups under fixed parameters -/

/-- A sequence of `cache_descriptor::get` calls on one descriptor; the result
is the final store and descriptor. -/
def cache_descriptor.gets {κ σ T : Type} [DecidableEq κ] (o : KeyOps κ σ)
    (store : List (stored_type κ T)) (d : cache_descriptor σ) :
    List κ → List (stored_type κ T) × cache_descriptor σ
  | [] => (store, d)
  | vtbl :: rest =>
    let r := cache_descriptor.get o store d vtbl
    cache_descriptor.gets o r.1 r.2.1 rest

/-- The key `vtbl` is stored: an occupied entry holds it. -/
def stored_in {κ σ T : Type} (o : KeyOps κ σ) (store : List (stored_type κ T)) (vtbl : κ) :
    Prop :=
  (∃ p, vtbl_at o store p = vtbl) ∧ o.vacant vtbl = false

/-- The key `vtbl` is in its slot: the entry referenced from the slot of `vtbl`
holds `vtbl`, so that a lookup of `vtbl` is a hit. -/
def cache_descriptor.placed {κ σ T : Type} (o : KeyOps κ σ) (store : List (stored_type κ T))
    (d : cache_descriptor σ) (vtbl : κ) : Prop :=
  vtbl_at o store (d.at (d.loc o vtbl)) = vtbl

/-- The cache `example_map` after `get(0x90)`, which reorganizes it: sixteen
slots, shift 4, and the five stored keys have five different slots; the key
`0x50` is referenced from slot 0, not from its slot 5. -/
def perfect_map : vtbl_map Nat Nat Nat :=
  (vtbl_map.gets ops1 sample_config example_map [0x90]).1

/-- The cache `vtbl_map<1,int>(1)` under `sample_config` after `get` of the keys
`0x10000000000` and `0x20000000000`, which differ in bits 40 and 41 only: the
table of two slots is full. -/
def wide_map : vtbl_map Nat Nat Nat :=
  (vtbl_map.gets ops1 sample_config (vtbl_map.create ops1 sample_config 1 0)
    [0x10000000000, 0x20000000000]).1

/-! ## The Fibonacci functions of `test/time/numbers.cpp`

The `int` arithmetic is done over the unbounded integers; `/` and `%` are the
truncating division and remainder of C++.  The first argument bounds the depth
of the recursion; `none` stands for a call that has no result within this
depth or reaches `XTL_UNREACHABLE`. -/

/-- Template function `sqr`. -/
def sqr (x : Int) : Int := x * x

/-- Function `fib`. -/
def fib : Nat → Int → Option Int
  | 0, _ => none
  | fuel + 1, n =>
    if n = 1 ∨ n = 2 then some 1
    else if Int.tmod n 2 = 0 then
      (fib fuel (Int.tdiv n 2 + 1)).bind fun a =>
        (fib fuel (Int.tdiv n 2 - 1)).bind fun b => some (sqr a - sqr b)
    else if Int.tmod n 2 = 1 then
      (fib fuel (Int.tdiv n 2 + 1)).bind fun a =>
        (fib fuel (Int.tdiv n 2)).bind fun b => some (sqr a + sqr b)
    else none

/-- Function `fib_opt`. -/
def fib_opt : Nat → Int → Option Int
  | 0, _ => none
  | fuel + 1, n =>
    if n = 1 ∨ n = 2 then some 1
    else if Int.tmod n 2 = 0 then
      (fib_opt fuel (Int.tdiv n 2 + 1)).bind fun a =>
        (fib_opt fuel (Int.tdiv n 2 - 1)).bind fun b => some (sqr a - sqr b)
    else
      (fib_opt fuel (Int.tdiv n 2 + 1)).bind fun a =>
        (fib_opt fuel (Int.tdiv n 2)).bind fun b => some (sqr a + sqr b)

/-- The Fibonacci numbers as the specification gives them: `F(1) = F(2) = 1`
and `F(n) = F(n-1) + F(n-2)`; `F(0) = 0` is the value with which the recurrence
gives `F(2)`. -/
def fibonacci : Nat → Int
  | 0 => 0
  | 1 => 1
  | n + 2 => fibonacci (n + 1) + fibonacci n

/-! ## The type switches of `test/time/time-xtl-any.cpp` -/

/-- A `boost::any` (`VP`) by its content: a `P`, a `Q` or an `R` with its `int`
member, or anything else (another type, or empty).  The members are taken as
unbounded integers. -/
inductive VP where
  | P (m_p : Int)
  | Q (m_q : Int)
  | R (m_r : Int)
  | other
  deriving DecidableEq, Repr

/-- Function `do_mach7_1`.  The macros `Match`, `Case` and `EndMatch` and the
pattern `C<T>()` are not in the sources; a `Match` statement is read as the
type switch it is named after: the first `Case` whose patterns accept the
dynamic types of the subjects is executed, `match0` and `match1` being the
subjects at these types. -/
def do_mach7_1 : VP → Int
  | VP.P m_p => m_p
  | VP.Q m_q => m_q
  | VP.R m_r => m_r
  | VP.other => -1

/-- Function `do_mach7_1v`, with the patterns `vP`, `vQ`, `vR`. -/
def do_mach7_1v : VP → Int
  | VP.P m_p => m_p
  | VP.Q m_q => m_q
  | VP.R m_r => m_r
  | VP.other => -1

/-- Function `do_visit_1`: the chain of `boost::any_cast`s. -/
def do_visit_1 (vp : VP) : Int :=
  match vp with
  | VP.P m_p => m_p
  | _ =>
    match vp with
    | VP.Q m_q => m_q
    | _ =>
      match vp with
      | VP.R m_r => m_r
      | _ => -1

/-- Function `do_mach7_2`. -/
def do_mach7_2 : VP → VP → Int
  | VP.P m_p, VP.P n_p => 20 * m_p + n_p
  | VP.P m_p, VP.Q n_q => 20 * m_p + n_q
  | VP.P m_p, VP.R n_r => 20 * m_p + n_r
  | VP.Q m_q, VP.P n_p => 40 * m_q + n_p
  | VP.Q m_q, VP.Q n_q => 40 * m_q + n_q
  | VP.Q m_q, VP.R n_r => 40 * m_q + n_r
  | VP.R m_r, VP.P n_p => 60 * m_r + n_p
  | VP.R m_r, VP.Q n_q => 60 * m_r + n_q
  | VP.R m_r, VP.R n_r => 60 * m_r + n_r
  | _, _ => -1

/-- Function `do_mach7_2v`, with the patterns `vP`, `vQ`, `vR`. -/
def do_mach7_2v : VP → VP → Int
  | VP.P m_p, VP.P n_p => 20 * m_p + n_p
  | VP.P m_p, VP.Q n_q => 20 * m_p + n_q
  | VP.P m_p, VP.R n_r => 20 * m_p + n_r
  | VP.Q m_q, VP.P n_p => 40 * m_q + n_p
  | VP.Q m_q, VP.Q n_q => 40 * m_q + n_q
  | VP.Q m_q, VP.R n_r => 40 * m_q + n_r
  | VP.R m_r, VP.P n_p => 60 * m_r + n_p
  | VP.R m_r, VP.Q n_q => 60 * m_r + n_q
  | VP.R m_r, VP.R n_r => 60 * m_r + n_r
  | _, _ => -1

/-- Function `do_visit_2`: the nested chains of `boost::any_cast`s; a first
argument that is a `P`, a `Q` or an `R` with a second argument that is none of
them falls through to `return -1`. -/
def do_visit_2 (vp1 vp2 : VP) : Int :=
  match vp1 with
  | VP.P m_p =>
    match vp2 with
    | VP.P n_p => 20 * m_p + n_p
    | VP.Q n_q => 20 * m_p + n_q
    | VP.R n_r => 20 * m_p + n_r
    | VP.other => -1
  | VP.Q m_q =>
    match vp2 with
    | VP.P n_p => 20 * m_q + n_p
    | VP.Q n_q => 20 * m_q + n_q
    | VP.R n_r => 20 * m_q + n_r
    | VP.other => -1
  | VP.R m_r =>
    match vp2 with
    | VP.P n_p => 20 * m_r + n_p
    | VP.Q n_q => 20 * m_r + n_q
    | VP.R n_r => 20 * m_r + n_r
    | VP.other => -1
  | VP.other => -1

/-- The array `args` of `time-xtl-any.cpp`, from which `main` draws the
arguments. -/
def args : List VP :=
  [VP.P 0, VP.Q 1, VP.R 2, VP.P 3, VP.Q 4, VP.R 5, VP.P 6, VP.Q 7, VP.R 8, VP.P 9,
   VP.Q 10, VP.R 11, VP.P 12, VP.Q 13, VP.R 14, VP.P 15, VP.Q 16, VP.R 17, VP.P 18, VP.Q 19]

/-! ## The bit histogram of the parameter search

The histograms that `update` builds, one for each execution of the body of its
innermost loop, in the order of the run. -/

/-- Upper bound `l2` of the log sizes that `update` tries. -/
def update_l2 (cfg : Config) (cache_mask used : Nat) : Nat :=
  min cfg.max_log_size (max (req_bits cache_mask) (req_bits used + cfg.max_log_inc))

/-- Number `cache_histogram_size` of words of the histogram for the upper bound
`l2`: `1 + ((1<<l2) - 1)/XTL_BIT_SIZE(intptr_t)`.  The macro `XTL_BIT_SIZE` is
not in the sources; `bit_size` is the number of bits of a word. -/
def cache_histogram_size (bit_size l2 : Nat) : Nat :=
  1 + (2 ^ l2 - 1) / bit_size

/-- The histogram `cache_histogram` of `vtbl_map<1,T>::update` for log size `i`
and offset `j`, after the marking loop. -/
def histogram1 (keys : List Nat) (vtbl i j : Nat) : Nat :=
  let cache_size := 2 ^ i
  let cache_mask := cache_size - 1
  keys.foldl (fun hist v => if v ≠ 0 then bit_set hist ((v >>> j) &&& cache_mask) else hist)
    (bit_set 0 ((vtbl >>> j) &&& cache_mask))

/-- Histograms built by the loop `for (j = z; j <= m-i; ++j)` of
`vtbl_map<1,T>::update` over the remaining offsets. -/
def search1_offsets_histograms (keys : List Nat) (vtbl used i : Nat) : List Nat → List Nat
  | [] => []
  | j :: js =>
    histogram1 keys vtbl i j ::
      (if entries1 keys vtbl i j = used + 1 then []
       else search1_offsets_histograms keys vtbl used i js)

/-- Histograms built by the loop `for (i = l1; i <= l2; ++i)` of
`vtbl_map<1,T>::update` over the remaining log sizes. -/
def search1_sizes_histograms (keys : List Nat) (vtbl used m z : Nat) :
    List Nat → estimate Nat → List Nat
  | [], _ => []
  | i :: is, e =>
    let r := search1_offsets keys vtbl used i (List.range' z (m + 1 - i - z)) e
    search1_offsets_histograms keys vtbl used i (List.range' z (m + 1 - i - z)) ++
      (if r.2 then [] else search1_sizes_histograms keys vtbl used m z is r.1)

/-- Histograms built by the search of `vtbl_map<1,T>::update`. -/
def update_histograms1 (cfg : Config) (cache_mask used : Nat) (keys : List Nat) (vtbl : Nat) :
    List Nat :=
  let diff := diff1 keys vtbl
  let k := req_bits cache_mask
  let n := req_bits used
  let m := req_bits diff
  let z := trailing_zeros (diff % 2 ^ 32)
  let l1 := min cfg.max_log_size (max k n)
  let l2 := min cfg.max_log_size (max k (n + cfg.max_log_inc))
  search1_sizes_histograms keys vtbl used m z (List.range' l1 (l2 + 1 - l1))
    { max_cache_entries := 0, no := l1, zo := z }

/-- The histogram `cache_histogram` of `vtbl_map<2,T>::update` for the mask
`cache_mask` and the offsets `j0`, `j1`, after the marking loop. -/
def histogram2 (keys : List (Nat × Nat)) (vtbl : Nat × Nat) (cache_mask j0 j1 : Nat) : Nat :=
  keys.foldl
    (fun hist v =>
      if v.1 ≠ 0 then bit_set hist (interleave (v.1 >>> j0) (v.2 >>> j1) &&& cache_mask)
      else hist)
    (bit_set 0 (interleave (vtbl.1 >>> j0) (vtbl.2 >>> j1) &&& cache_mask))

/-- Histograms built by the loop `for (j1 = z[1]; j1 <= m[1]-i; ++j1)` of
`vtbl_map<2,T>::update` over the remaining offsets. -/
def search2_offsets1_histograms (keys : List (Nat × Nat)) (vtbl : Nat × Nat)
    (used cache_mask j0 : Nat) : List Nat → List Nat
  | [] => []
  | j1 :: js =>
    histogram2 keys vtbl cache_mask j0 j1 ::
      (if entries2 keys vtbl cache_mask j0 j1 = used + 1 then []
       else search2_offsets1_histograms keys vtbl used cache_mask j0 js)

/-- Histograms built by the loop `for (j0 = z[0]; j0 <= m[0]-i; ++j0)` of
`vtbl_map<2,T>::update`, from the current `j0` and `i`; after the `break` of
the inner loop it runs on with `i = l2+1` and the same `cache_mask`. -/
def search2_offsets0_histograms (keys : List (Nat × Nat)) (vtbl : Nat × Nat)
    (used l2 cache_mask : Nat) (m z : Nat × Nat) :
    Nat → Nat → Nat → estimate (Nat × Nat) → List Nat
  | 0, _, _, _ => []
  | fuel + 1, j0, i, e =>
    if j0 + i ≤ m.1 then
      let r := search2_offsets1 keys vtbl used i cache_mask j0
        (List.range' z.2 (m.2 + 1 - i - z.2)) e
      search2_offsets1_histograms keys vtbl used cache_mask j0
          (List.range' z.2 (m.2 + 1 - i - z.2)) ++
        search2_offsets0_histograms keys vtbl used l2 cache_mask m z fuel (j0 + 1)
          (if r.2 then l2 + 1 else i) r.1
    else []

/-- Histograms built by the loop `for (i = l1; i <= l2; ++i)` of
`vtbl_map<2,T>::update`, from the current `i`. -/
def search2_sizes_histograms (keys : List (Nat × Nat)) (vtbl : Nat × Nat) (used l2 : Nat)
    (m z : Nat × Nat) : Nat → Nat → estimate (Nat × Nat) → List Nat
  | 0, _, _ => []
  | fuel + 1, i, e =>
    if i ≤ l2 then
      let r := search2_offsets0 keys vtbl used l2 (2 ^ i - 1) m z (m.1 + 1) z.1 i e
      search2_offsets0_histograms keys vtbl used l2 (2 ^ i - 1) m z (m.1 + 1) z.1 i e ++
        search2_sizes_histograms keys vtbl used l2 m z fuel (r.2 + 1) r.1
    else []

/-- Histograms built by the search of `vtbl_map<2,T>::update`. -/
def update_histograms2 (cfg : Config) (cache_mask used : Nat) (keys : List (Nat × Nat))
    (vtbl : Nat × Nat) : List Nat :=
  let diff := diff2 keys vtbl
  let k := req_bits cache_mask
  let n := req_bits used
  let m := (req_bits diff.1, req_bits diff.2)
  let z := (trailing_zeros diff.1, trailing_zeros diff.2)
  let l1 := min cfg.max_log_size (max k n)
  let l2 := min cfg.max_log_size (max k (n + cfg.max_log_inc))
  search2_sizes_histograms keys vtbl used l2 m z (l2 + 1) l1
    { max_cache_entries := 0, no := l1, zo := z }

/-- The cache `vtbl_map<2,int>(1)` under `sample_config` after `get` of the
pairs `(0x100,0x200)` and `(0x100,0x300)`: the table of two slots is full. -/
def pair_map : vtbl_map (Nat × Nat) (Nat × Nat) Nat :=
  (vtbl_map.gets ops2 sample_config (vtbl_map.create ops2 sample_config 1 0)
    [(0x100, 0x200), (0x100, 0x300)]).1

/-! ## Allocation requests of the second constructor -/

/-- The cache `vtbl_map<1,int>(4)` under `sample_config` after `get` of the keys
`0x8`, `0x10`, `0x20` and `0x30`; the last call reorganizes: four slots,
shift 4, the four keys have four different slots, and the table is full. -/
def full_perfect_map : vtbl_map Nat Nat Nat :=
  (vtbl_map.gets ops1 sample_config (vtbl_map.create ops1 sample_config 4 0)
    [0x8, 0x10, 0x20, 0x30]).1

/-! # Theorems -/

set_option linter.unusedSectionVars false

section lists

theorem first_slot_some {p : Nat → Bool} {n i : Nat} (h : first_slot p n = some i) :
    i ≤ n ∧ p i = true ∧ ∀ j, j < i → p j = false := by
  unfold first_slot at h
  rw [List.find?_eq_some] at h
  obtain ⟨hp, as, bs, hr, has⟩ := h
  have hlen : as.length < (List.range (n + 1)).length := by
    rw [hr]; simp
  have hi : (List.range (n + 1))[as.length]? = some i := by
    rw [hr, List.getElem?_append_right (Nat.le_refl _)]; simp
  rw [List.getElem?_range (by simpa using hlen)] at hi
  have hi' : as.length = i := by simpa using hi
  refine ⟨?_, hp, ?_⟩
  · simp at hlen; omega
  · intro j hj
    have hj' : j < as.length := by omega
    have : (List.range (n + 1))[j]? = some j := List.getElem?_range (by simp at hlen; omega)
    rw [hr, List.getElem?_append_left hj'] at this
    have hm : j ∈ as := List.mem_iff_getElem?.2 ⟨j, this⟩
    simpa using has j hm

theorem first_slot_none {p : Nat → Bool} {n : Nat} (h : first_slot p n = none) :
    ∀ i, i ≤ n → p i = false := by
  unfold first_slot at h
  rw [List.find?_eq_none] at h
  intro i hi
  have := h i (List.mem_range.2 (by omega))
  simpa using this

theorem first_slot_isSome {p : Nat → Bool} {n i : Nat} (hi : i ≤ n) (hp : p i = true) :
    ∃ j, first_slot p n = some j := by
  cases h : first_slot p n with
  | none => have := first_slot_none h i hi; simp [hp] at this
  | some j => exact ⟨j, rfl⟩

theorem perm_cons_set {α : Type} (a : α) :
    ∀ (t : List α) (i : Nat) (h : i < t.length), (t[i] :: t.set i a).Perm (a :: t)
  | b :: t, 0, _ => by simpa using List.Perm.swap a b t
  | b :: t, i + 1, h => by
    have hi : i < t.length := by simpa using h
    have ih := perm_cons_set a t i hi
    simp only [List.getElem_cons_succ, List.set_cons_succ]
    exact ((List.Perm.swap b t[i] (t.set i a)).trans (ih.cons b)).trans (List.Perm.swap a b t)

theorem swap_slots_perm : ∀ (c : List Nat) (h i : Nat), h < c.length → i < c.length →
    (swap_slots c h i).Perm c
  | a :: t, 0, 0, _, _ => by simp [swap_slots]
  | a :: t, 0, i + 1, _, hi => by
    have hi' : i < t.length := by simpa using hi
    simpa [swap_slots, List.getD_eq_getElem?_getD, List.getElem?_eq_getElem hi'] using
      perm_cons_set a t i hi'
  | a :: t, h + 1, 0, hh, _ => by
    have hh' : h < t.length := by simpa using hh
    simpa [swap_slots, List.getD_eq_getElem?_getD, List.getElem?_eq_getElem hh'] using
      perm_cons_set a t h hh'
  | a :: t, h + 1, i + 1, hh, hi => by
    have ih := swap_slots_perm t h i (by simpa using hh) (by simpa using hi)
    simpa [swap_slots] using ih

theorem swap_slots_length (c : List Nat) (h i : Nat) : (swap_slots c h i).length = c.length := by
  simp [swap_slots]

theorem swap_slots_getD (c : List Nat) (h i j : Nat) (hh : h < c.length) (hi : i < c.length) :
    (swap_slots c h i).getD j 0 =
      if j = i then c.getD h 0 else if j = h then c.getD i 0 else c.getD j 0 := by
  simp only [swap_slots, List.getD_eq_getElem?_getD, List.getElem?_set, List.length_set]
  by_cases h1 : j = i
  · subst h1; simp [hi]
  · by_cases h2 : j = h
    · subst h2; simp [hh, Ne.symm h1, h1]
    · simp [h1, h2, Ne.symm h1, Ne.symm h2]

end lists
section store
variable {κ σ T : Type} [DecidableEq κ] [DecidableEq σ]

theorem vtbl_at_of_le (o : KeyOps κ σ) (store : List (stored_type κ T)) (p : Nat)
    (h : store.length ≤ p) : vtbl_at o store p = o.zero := by
  simp [vtbl_at, List.get?_eq_getElem?, List.getElem?_eq_none h]

theorem lt_of_vtbl_at_ne (o : KeyOps κ σ) (store : List (stored_type κ T)) (p : Nat)
    (h : vtbl_at o store p ≠ o.zero) : p < store.length := by
  by_contra hc
  exact h (vtbl_at_of_le o store p (by omega))

theorem set_vtbl_length (store : List (stored_type κ T)) (p : Nat) (vtbl : κ) :
    (set_vtbl store p vtbl).length = store.length := by
  unfold set_vtbl
  split <;> simp

theorem vtbl_at_set_vtbl (o : KeyOps κ σ) (store : List (stored_type κ T)) (p q : Nat)
    (vtbl : κ) (hp : p < store.length) :
    vtbl_at o (set_vtbl store p vtbl) q = if q = p then vtbl else vtbl_at o store q := by
  unfold set_vtbl vtbl_at
  simp only [List.get?_eq_getElem?, List.getElem?_eq_getElem hp, List.getElem?_set]
  by_cases h : q = p
  · subst h; simp [hp]
  · simp [h, Ne.symm h]

theorem value_at_set_vtbl (store : List (stored_type κ T)) (p q : Nat) (vtbl : κ) :
    value_at (set_vtbl store p vtbl) q = value_at store q := by
  unfold set_vtbl value_at
  simp only [List.get?_eq_getElem?]
  by_cases hp : p < store.length
  · simp only [List.getElem?_eq_getElem hp, List.getElem?_set]
    by_cases h : p = q
    · subst h; simp [hp]
    · simp [h]
  · simp [List.getElem?_eq_none (Nat.le_of_not_lt hp)]

theorem set_value_length (store : List (stored_type κ T)) (p : Nat) (v : T) :
    (set_value store p v).length = store.length := by
  unfold set_value
  split <;> simp

theorem vtbl_at_set_value (o : KeyOps κ σ) (store : List (stored_type κ T)) (p q : Nat)
    (v : T) : vtbl_at o (set_value store p v) q = vtbl_at o store q := by
  unfold set_value vtbl_at
  simp only [List.get?_eq_getElem?]
  by_cases hp : p < store.length
  · simp only [List.getElem?_eq_getElem hp, List.getElem?_set]
    by_cases h : p = q
    · subst h; simp [hp]
    · simp [h]
  · simp [List.getElem?_eq_none (Nat.le_of_not_lt hp)]

theorem value_at_set_value (store : List (stored_type κ T)) (p q : Nat) (v : T)
    (hp : p < store.length) :
    value_at (set_value store p v) q = if q = p then some v else value_at store q := by
  unfold set_value value_at
  simp only [List.get?_eq_getElem?, List.getElem?_eq_getElem hp, List.getElem?_set]
  by_cases h : q = p
  · subst h; simp [hp]
  · simp [h, Ne.symm h]

theorem new_entries_length (o : KeyOps κ σ) [Inhabited T] (store : List (stored_type κ T))
    (n : Nat) : (new_entries o store n).length = store.length + n := by
  simp [new_entries]

theorem vtbl_at_new_entries (o : KeyOps κ σ) [Inhabited T] (store : List (stored_type κ T))
    (n p : Nat) : vtbl_at o (new_entries o store n) p = vtbl_at o store p := by
  unfold new_entries vtbl_at
  simp only [List.get?_eq_getElem?, List.getElem?_append]
  by_cases hp : p < store.length
  · simp [hp]
  · simp only [hp, if_false, List.getElem?_replicate, List.getElem?_eq_none (Nat.le_of_not_lt hp)]
    by_cases h2 : p - store.length < n <;> simp [h2]

theorem value_at_new_entries (o : KeyOps κ σ) [Inhabited T] (store : List (stored_type κ T))
    (n p : Nat) :
    value_at (new_entries o store n) p =
      if p < store.length then value_at store p
      else if p < store.length + n then some default else none := by
  unfold new_entries value_at
  simp only [List.get?_eq_getElem?, List.getElem?_append]
  by_cases hp : p < store.length
  · simp [hp]
  · simp only [hp, if_false, List.getElem?_replicate]
    by_cases h2 : p < store.length + n
    · have : p - store.length < n := by omega
      simp [h2, this]
    · have : ¬ p - store.length < n := by omega
      simp [h2, this]

theorem value_at_isSome (store : List (stored_type κ T)) (p : Nat) :
    (value_at store p).isSome = true ↔ p < store.length := by
  unfold value_at
  simp only [List.get?_eq_getElem?, Option.isSome_map']
  constructor
  · intro h
    by_contra hc
    simp [List.getElem?_eq_none (Nat.le_of_not_lt hc)] at h
  · intro h
    simp [List.getElem?_eq_getElem h]

end store
section descriptor
variable {κ σ T : Type} [DecidableEq κ] [DecidableEq σ]

/-- The four exits of `cache_descriptor::get`: the key is where it should be,
it is found elsewhere and swapped, an empty entry is claimed and swapped, or
nothing can be done. -/
theorem get_cases (o : KeyOps κ σ) (store : List (stored_type κ T)) (d : cache_descriptor σ)
    (vtbl : κ) :
    (vtbl_at o store (d.at (d.loc o vtbl)) = vtbl ∧
      cache_descriptor.get o store d vtbl = (store, d, d.loc o vtbl)) ∨
    (vtbl_at o store (d.at (d.loc o vtbl)) ≠ vtbl ∧
      ∃ cv, first_slot (fun i => decide (vtbl_at o store (d.at i) = vtbl)) d.cache_mask = some cv ∧
        cache_descriptor.get o store d vtbl =
          (store, { d with cache := swap_slots d.cache (d.loc o vtbl) cv }, d.loc o vtbl)) ∨
    (vtbl_at o store (d.at (d.loc o vtbl)) ≠ vtbl ∧
      first_slot (fun i => decide (vtbl_at o store (d.at i) = vtbl)) d.cache_mask = none ∧
      d.used ≤ d.cache_mask ∧
      ∃ cv, first_slot (fun i => o.vacant (vtbl_at o store (d.at i))) d.cache_mask = some cv ∧
        cache_descriptor.get o store d vtbl =
          (set_vtbl store (d.at cv) vtbl,
           { d with used := d.used + 1, cache := swap_slots d.cache (d.loc o vtbl) cv },
           d.loc o vtbl)) ∨
    (vtbl_at o store (d.at (d.loc o vtbl)) ≠ vtbl ∧
      first_slot (fun i => decide (vtbl_at o store (d.at i) = vtbl)) d.cache_mask = none ∧
      (d.cache_mask < d.used ∨
        first_slot (fun i => o.vacant (vtbl_at o store (d.at i))) d.cache_mask = none) ∧
      cache_descriptor.get o store d vtbl = (store, d, d.loc o vtbl)) := by
  by_cases h : vtbl_at o store (d.at (d.loc o vtbl)) = vtbl
  · left
    exact ⟨h, by simp [cache_descriptor.get, h]⟩
  · right
    cases h1 : first_slot (fun i => decide (vtbl_at o store (d.at i) = vtbl)) d.cache_mask with
    | some cv =>
      left
      exact ⟨h, cv, rfl, by simp [cache_descriptor.get, h, h1]⟩
    | none =>
      right
      by_cases h2 : d.used ≤ d.cache_mask
      · cases h3 : first_slot (fun i => o.vacant (vtbl_at o store (d.at i))) d.cache_mask with
        | some cv =>
          left
          exact ⟨h, rfl, h2, cv, rfl, by simp [cache_descriptor.get, h, h1, h2, h3]⟩
        | none =>
          right
          exact ⟨h, rfl, Or.inr rfl, by simp [cache_descriptor.get, h, h1, h2, h3]⟩
      · right
        exact ⟨h, rfl, Or.inl (by omega), by simp [cache_descriptor.get, h, h1, h2]⟩

theorem get_slot (o : KeyOps κ σ) (store : List (stored_type κ T)) (d : cache_descriptor σ)
    (vtbl : κ) : (cache_descriptor.get o store d vtbl).2.2 = d.loc o vtbl := by
  rcases get_cases o store d vtbl with h | ⟨_, cv, _, h⟩ | ⟨_, _, _, cv, _, h⟩ | ⟨_, _, _, h⟩ <;>
    simp [h]

theorem get_cache_mask (o : KeyOps κ σ) (store : List (stored_type κ T))
    (d : cache_descriptor σ) (vtbl : κ) :
    (cache_descriptor.get o store d vtbl).2.1.cache_mask = d.cache_mask := by
  rcases get_cases o store d vtbl with h | ⟨_, cv, _, h⟩ | ⟨_, _, _, cv, _, h⟩ | ⟨_, _, _, h⟩ <;>
    simp [h]

theorem get_optimal_shift (o : KeyOps κ σ) (store : List (stored_type κ T))
    (d : cache_descriptor σ) (vtbl : κ) :
    (cache_descriptor.get o store d vtbl).2.1.optimal_shift = d.optimal_shift := by
  rcases get_cases o store d vtbl with h | ⟨_, cv, _, h⟩ | ⟨_, _, _, cv, _, h⟩ | ⟨_, _, _, h⟩ <;>
    simp [h]

theorem get_store_length (o : KeyOps κ σ) (store : List (stored_type κ T))
    (d : cache_descriptor σ) (vtbl : κ) :
    (cache_descriptor.get o store d vtbl).1.length = store.length := by
  rcases get_cases o store d vtbl with h | ⟨_, cv, _, h⟩ | ⟨_, _, _, cv, _, h⟩ | ⟨_, _, _, h⟩ <;>
    simp [h, set_vtbl_length]

theorem get_value_at (o : KeyOps κ σ) (store : List (stored_type κ T))
    (d : cache_descriptor σ) (vtbl : κ) (p : Nat) :
    value_at (cache_descriptor.get o store d vtbl).1 p = value_at store p := by
  rcases get_cases o store d vtbl with h | ⟨_, cv, _, h⟩ | ⟨_, _, _, cv, _, h⟩ | ⟨_, _, _, h⟩ <;>
    simp [h, value_at_set_vtbl]

theorem get_used_le (o : KeyOps κ σ) (store : List (stored_type κ T))
    (d : cache_descriptor σ) (vtbl : κ) :
    d.used ≤ (cache_descriptor.get o store d vtbl).2.1.used := by
  rcases get_cases o store d vtbl with h | ⟨_, cv, _, h⟩ | ⟨_, _, _, cv, _, h⟩ | ⟨_, _, _, h⟩ <;>
    simp [h]

end descriptor
section invariant
variable {κ σ T : Type} [DecidableEq κ] [DecidableEq σ]

theorem countP_flip {l : List Nat} {f g : Nat → Bool} {p : Nat} (hn : l.Nodup) (hp : p ∈ l)
    (hfg : ∀ q, q ≠ p → f q = g q) (hf : f p = false) (hg : g p = true) :
    l.countP g = l.countP f + 1 := by
  induction l with
  | nil => simp at hp
  | cons a t ih =>
    rw [List.nodup_cons] at hn
    by_cases ha : a = p
    · subst ha
      have ht : t.countP g = t.countP f := by
        apply List.countP_congr
        intro q hq
        have : q ≠ a := fun e => hn.1 (e ▸ hq)
        rw [hfg q this]
      simp [List.countP_cons, hf, hg, ht]
    · have hp' : p ∈ t := by
        rcases List.mem_cons.1 hp with e | e
        · exact absurd e.symm ha
        · exact e
      have := ih hn.2 hp'
      simp only [List.countP_cons, this, hfg a ha]
      omega

theorem nonzero_zero {o : KeyOps κ σ} (ho : o.Lawful) : o.nonzero o.zero = false := by
  cases h : o.nonzero o.zero with
  | false => rfl
  | true => have := ho.vacant_of_nonzero _ h; rw [ho.vacant_zero] at this; cases this

theorem cache_descriptor.Inv.store_length {o : KeyOps κ σ} {store : List (stored_type κ T)}
    {d : cache_descriptor σ} (h : d.Inv o store) : store.length = d.cache_mask + 1 := by
  have := h.perm.length_eq
  rw [List.length_range] at this
  rw [← this, h.size]

theorem cache_descriptor.Inv.at_lt {o : KeyOps κ σ} {store : List (stored_type κ T)}
    {d : cache_descriptor σ} (h : d.Inv o store) {i : Nat} (hi : i ≤ d.cache_mask) :
    d.at i < store.length := by
  have hl : i < d.cache.length := by rw [h.size]; omega
  have hm : d.at i ∈ d.cache := by
    unfold cache_descriptor.at
    rw [List.getD_eq_getElem _ _ hl]
    exact List.getElem_mem hl
  exact List.mem_range.1 ((h.perm.mem_iff).1 hm)

theorem cache_descriptor.Inv.at_mem {o : KeyOps κ σ} {store : List (stored_type κ T)}
    {d : cache_descriptor σ} (h : d.Inv o store) {i : Nat} (hi : i ≤ d.cache_mask) :
    d.at i ∈ d.cache := by
  have hl : i < d.cache.length := by rw [h.size]; omega
  unfold cache_descriptor.at
  rw [List.getD_eq_getElem _ _ hl]
  exact List.getElem_mem hl

theorem cache_descriptor.Inv.slot_of {o : KeyOps κ σ} {store : List (stored_type κ T)}
    {d : cache_descriptor σ} (h : d.Inv o store) {p : Nat} (hp : p < store.length) :
    ∃ i, i ≤ d.cache_mask ∧ d.at i = p := by
  have hm : p ∈ d.cache := (h.perm.mem_iff).2 (List.mem_range.2 hp)
  obtain ⟨i, hi, e⟩ := List.getElem_of_mem hm
  refine ⟨i, ?_, ?_⟩
  · rw [h.size] at hi; omega
  · unfold cache_descriptor.at
    rw [List.getD_eq_getElem _ _ hi]
    exact e

theorem cache_descriptor.Inv.nodup {o : KeyOps κ σ} {store : List (stored_type κ T)}
    {d : cache_descriptor σ} (h : d.Inv o store) : d.cache.Nodup :=
  (h.perm.nodup_iff).2 (List.nodup_range _)

theorem cache_descriptor.Inv.at_inj {o : KeyOps κ σ} {store : List (stored_type κ T)}
    {d : cache_descriptor σ} (h : d.Inv o store) {i j : Nat} (hi : i ≤ d.cache_mask)
    (hj : j ≤ d.cache_mask) (e : d.at i = d.at j) : i = j := by
  have hli : i < d.cache.length := by rw [h.size]; omega
  have hlj : j < d.cache.length := by rw [h.size]; omega
  unfold cache_descriptor.at at e
  rw [List.getD_eq_getElem _ _ hli, List.getD_eq_getElem _ _ hlj] at e
  exact (h.nodup.getElem_inj_iff).1 e

/-- A key held by some entry is found by the first scan of `get`, in the slot
of that entry. -/
theorem cache_descriptor.Inv.scan_found {o : KeyOps κ σ} (ho : o.Lawful) {store : List (stored_type κ T)}
    {d : cache_descriptor σ} (h : d.Inv o store) {vtbl : κ} (hv : o.nonzero vtbl = true)
    {p : Nat} (hp : vtbl_at o store p = vtbl) :
    ∃ cv, first_slot (fun i => decide (vtbl_at o store (d.at i) = vtbl)) d.cache_mask = some cv ∧
      cv ≤ d.cache_mask ∧ d.at cv = p := by
  have hne : vtbl_at o store p ≠ o.zero := by
    intro e
    rw [hp] at e
    rw [e, nonzero_zero ho] at hv
    cases hv
  obtain ⟨i, hi, hpi⟩ := h.slot_of (lt_of_vtbl_at_ne o store p hne)
  obtain ⟨cv, hcv⟩ := first_slot_isSome (p := fun i => decide (vtbl_at o store (d.at i) = vtbl))
    hi (by simp [hpi, hp])
  have hs := first_slot_some hcv
  refine ⟨cv, hcv, hs.1, ?_⟩
  have e : vtbl_at o store (d.at cv) = vtbl := by simpa using hs.2.1
  exact h.uniq _ _ (e.trans hp.symm) (by rw [e]; exact hv)

/-- A table that is not full has a slot whose entry is empty. -/
theorem cache_descriptor.Inv.scan_vacant {o : KeyOps κ σ} {store : List (stored_type κ T)}
    {d : cache_descriptor σ} (h : d.Inv o store) (hu : d.used ≤ d.cache_mask) :
    ∃ cv, first_slot (fun i => o.vacant (vtbl_at o store (d.at i))) d.cache_mask = some cv := by
  have hlt : d.cache.countP (fun p => !o.vacant (vtbl_at o store p)) < d.cache.length := by
    rw [← h.count, h.size]; omega
  have hne : ¬ ∀ a ∈ d.cache, (fun p => !o.vacant (vtbl_at o store p)) a = true := by
    intro hall
    have := List.countP_eq_length.2 hall
    omega
  push_neg at hne
  obtain ⟨p, hp, hv⟩ := hne
  obtain ⟨i, hi, hpi⟩ := h.slot_of (List.mem_range.1 ((h.perm.mem_iff).1 hp))
  exact first_slot_isSome hi (by simpa [hpi] using hv)

theorem cache_descriptor.Inv.swap {o : KeyOps κ σ} {store : List (stored_type κ T)}
    {d : cache_descriptor σ} (h : d.Inv o store) {i j : Nat} (hi : i ≤ d.cache_mask)
    (hj : j ≤ d.cache_mask) :
    cache_descriptor.Inv o store { d with cache := swap_slots d.cache i j } := by
  have hli : i < d.cache.length := by rw [h.size]; omega
  have hlj : j < d.cache.length := by rw [h.size]; omega
  have hp := swap_slots_perm d.cache i j hli hlj
  exact
    { perm := hp.trans h.perm
      size := by simp [swap_slots_length, h.size]
      pow := h.pow
      keys := h.keys
      uniq := h.uniq
      count := by
        show d.used = _
        rw [h.count]
        exact (hp.countP_eq _).symm }

theorem cache_descriptor.Inv.claim {o : KeyOps κ σ} (ho : o.Lawful) {store : List (stored_type κ T)}
    {d : cache_descriptor σ} (h : d.Inv o store) {i cv : Nat} (hi : i ≤ d.cache_mask)
    (hcv : cv ≤ d.cache_mask) {vtbl : κ} (hv : o.nonzero vtbl = true)
    (hvac : o.vacant (vtbl_at o store (d.at cv)) = true)
    (hnew : ∀ p, vtbl_at o store p ≠ vtbl) :
    cache_descriptor.Inv o (set_vtbl store (d.at cv) vtbl)
      { d with used := d.used + 1, cache := swap_slots d.cache i cv } := by
  have hli : i < d.cache.length := by rw [h.size]; omega
  have hlj : cv < d.cache.length := by rw [h.size]; omega
  have hp := swap_slots_perm d.cache i cv hli hlj
  have hlt := h.at_lt hcv
  have key : ∀ q, vtbl_at o (set_vtbl store (d.at cv) vtbl) q =
      if q = d.at cv then vtbl else vtbl_at o store q :=
    fun q => vtbl_at_set_vtbl o store (d.at cv) q vtbl hlt
  exact
    { perm := by
        show (swap_slots d.cache i cv).Perm _
        rw [set_vtbl_length]
        exact hp.trans h.perm
      size := by simp [swap_slots_length, h.size]
      pow := h.pow
      keys := by
        intro p
        rw [key]
        split
        · exact Or.inr hv
        · exact h.keys p
      uniq := by
        intro p q e hn
        rw [key] at e hn
        rw [key] at e
        by_cases h1 : p = d.at cv <;> by_cases h2 : q = d.at cv
        · rw [h1, h2]
        · simp only [h1, h2, if_true, if_false] at e
          exact absurd e.symm (hnew q)
        · simp only [h1, h2, if_true, if_false] at e
          exact absurd e (hnew p)
        · simp only [h1, h2, if_false] at e hn
          exact h.uniq p q e hn
      count := by
        show d.used + 1 = (swap_slots d.cache i cv).countP _
        rw [hp.countP_eq, h.count]
        symm
        apply countP_flip h.nodup (h.at_mem hcv)
        · intro q hq
          simp [key, hq]
        · simp [hvac]
        · simp [key, ho.vacant_of_nonzero _ hv] }

end invariant
section descriptor_get
variable {κ σ T : Type} [DecidableEq κ] [DecidableEq σ]

theorem loc_le {o : KeyOps κ σ} (ho : o.Lawful) (d : cache_descriptor σ) (vtbl : κ) :
    d.loc o vtbl ≤ d.cache_mask :=
  ho.slot_le _ _ _

theorem cache_descriptor.Inv.absent {o : KeyOps κ σ} (ho : o.Lawful)
    {store : List (stored_type κ T)} {d : cache_descriptor σ} (h : d.Inv o store) {vtbl : κ}
    (hv : o.nonzero vtbl = true)
    (hs : first_slot (fun i => decide (vtbl_at o store (d.at i) = vtbl)) d.cache_mask = none) :
    ∀ p, vtbl_at o store p ≠ vtbl := by
  intro p hp
  obtain ⟨cv, hcv, _⟩ := h.scan_found ho hv hp
  rw [hs] at hcv
  cases hcv

/-- The function `cache_descriptor::get` keeps the representation invariant. -/
theorem get_inv {o : KeyOps κ σ} (ho : o.Lawful) {store : List (stored_type κ T)}
    {d : cache_descriptor σ} (h : d.Inv o store) {vtbl : κ} (hv : o.nonzero vtbl = true) :
    cache_descriptor.Inv o (cache_descriptor.get o store d vtbl).1
      (cache_descriptor.get o store d vtbl).2.1 := by
  rcases get_cases o store d vtbl with
    ⟨_, e⟩ | ⟨_, cv, hcv, e⟩ | ⟨_, hs, _, cv, hcv, e⟩ | ⟨_, _, _, e⟩
  · rw [e]; exact h
  · rw [e]; exact h.swap (loc_le ho d vtbl) (first_slot_some hcv).1
  · rw [e]
    have hc := first_slot_some hcv
    exact h.claim ho (loc_le ho d vtbl) hc.1 hv hc.2.1 (h.absent ho hv hs)
  · rw [e]; exact h

theorem swap_at (d : cache_descriptor σ) {i j : Nat} (hi : i < d.cache.length)
    (hj : j < d.cache.length) :
    cache_descriptor.at { d with cache := swap_slots d.cache i j } i = d.at j := by
  unfold cache_descriptor.at
  simp only
  rw [swap_slots_getD _ _ _ _ hi hj]
  by_cases e : i = j
  · simp [e]
  · simp [e]

/-- Result of `cache_descriptor::get` of a key some entry holds: the reference returned
designates that entry, and neither the store nor `used` changes. -/
theorem get_stored {o : KeyOps κ σ} (ho : o.Lawful) {store : List (stored_type κ T)}
    {d : cache_descriptor σ} (h : d.Inv o store) {vtbl : κ} (hv : o.nonzero vtbl = true)
    {p : Nat} (hp : vtbl_at o store p = vtbl) :
    (cache_descriptor.get o store d vtbl).1 = store ∧
    (cache_descriptor.get o store d vtbl).2.1.used = d.used ∧
    (cache_descriptor.get o store d vtbl).2.1.at (d.loc o vtbl) = p := by
  have hl := loc_le ho d vtbl
  have hli : d.loc o vtbl < d.cache.length := by rw [h.size]; omega
  obtain ⟨cv0, hcv0, hcvle, hcvp⟩ := h.scan_found ho hv hp
  have hlj : cv0 < d.cache.length := by rw [h.size]; omega
  rcases get_cases o store d vtbl with
    ⟨hk, e⟩ | ⟨_, cv, hcv, e⟩ | ⟨_, hs, _, cv, hcv, e⟩ | ⟨_, hs, _, e⟩
  · rw [e]
    exact ⟨rfl, rfl, h.uniq _ _ (hk.trans hp.symm) (by rw [hk]; exact hv)⟩
  · rw [hcv0] at hcv
    cases hcv
    rw [e]
    exact ⟨rfl, rfl, (swap_at d hli hlj).trans hcvp⟩
  · rw [hs] at hcv0; cases hcv0
  · rw [hs] at hcv0; cases hcv0

/-- Result of `cache_descriptor::get` of a key no entry holds, in a table that is not
full: an entry that was empty now holds the key and is the one returned. -/
theorem get_fresh {o : KeyOps κ σ} (ho : o.Lawful) {store : List (stored_type κ T)}
    {d : cache_descriptor σ} (h : d.Inv o store) {vtbl : κ}
    (hnew : ∀ p, vtbl_at o store p ≠ vtbl) (hu : d.used ≤ d.cache_mask) :
    ∃ p, p < store.length ∧ o.vacant (vtbl_at o store p) = true ∧
      (cache_descriptor.get o store d vtbl).1 = set_vtbl store p vtbl ∧
      (cache_descriptor.get o store d vtbl).2.1.used = d.used + 1 ∧
      (cache_descriptor.get o store d vtbl).2.1.at (d.loc o vtbl) = p := by
  have hl := loc_le ho d vtbl
  have hli : d.loc o vtbl < d.cache.length := by rw [h.size]; omega
  rcases get_cases o store d vtbl with
    ⟨hk, _⟩ | ⟨_, cv, hcv, _⟩ | ⟨_, hs, _, cv, hcv, e⟩ | ⟨_, hs, hf, e⟩
  · exact absurd hk (hnew _)
  · have := (first_slot_some hcv).2.1
    exact absurd (by simpa using this) (hnew _)
  · have hc := first_slot_some hcv
    have hlj : cv < d.cache.length := by rw [h.size]; omega
    rw [e]
    exact ⟨d.at cv, h.at_lt hc.1, hc.2.1, rfl, rfl, swap_at _ hli hlj⟩
  · rcases hf with hf | hf
    · omega
    · obtain ⟨cv, hcv⟩ := h.scan_vacant (o := o) hu
      rw [hf] at hcv
      cases hcv

/-- Result of `cache_descriptor::get` of a key no entry holds, in a full table: nothing
changes. -/
theorem get_stuck {o : KeyOps κ σ} (store : List (stored_type κ T))
    (d : cache_descriptor σ) {vtbl : κ}
    (hnew : ∀ p, vtbl_at o store p ≠ vtbl) (hu : d.cache_mask < d.used) :
    cache_descriptor.get o store d vtbl = (store, d, d.loc o vtbl) := by
  rcases get_cases o store d vtbl with
    ⟨hk, _⟩ | ⟨_, cv, hcv, _⟩ | ⟨_, hs, hle, _⟩ | ⟨_, hs, hf, e⟩
  · exact absurd hk (hnew _)
  · have := (first_slot_some hcv).2.1
    exact absurd (by simpa using this) (hnew _)
  · omega
  · exact e

/-- Keys are written only into empty entries: an entry keeps a key that does
not test empty. -/
theorem get_vtbl_at {o : KeyOps κ σ} {store : List (stored_type κ T)}
    {d : cache_descriptor σ} (vtbl : κ) (p : Nat)
    (hocc : o.vacant (vtbl_at o store p) = false) :
    vtbl_at o (cache_descriptor.get o store d vtbl).1 p = vtbl_at o store p := by
  rcases get_cases o store d vtbl with
    ⟨_, e⟩ | ⟨_, cv, hcv, e⟩ | ⟨_, hs, _, cv, hcv, e⟩ | ⟨_, _, _, e⟩
  · rw [e]
  · rw [e]
  · rw [e]
    have hc := first_slot_some hcv
    by_cases hlt : d.at cv < store.length
    · rw [vtbl_at_set_vtbl o store _ _ _ hlt]
      have : p ≠ d.at cv := by
        intro e2
        rw [e2, hc.2.1] at hocc
        cases hocc
      simp [this]
    · simp [set_vtbl, List.get?_eq_getElem?, List.getElem?_eq_none (Nat.le_of_not_lt hlt)]
  · rw [e]

end descriptor_get
section arithmetic

theorem req_bits_aux_spec : ∀ (n v : Nat), v ≤ n →
    1 ≤ req_bits_aux n v ∧ v < 2 ^ req_bits_aux n v ∧
      (v ≠ 0 → 2 ^ (req_bits_aux n v - 1) ≤ v)
  | 0, v, h => by
    have : v = 0 := by omega
    subst this
    simp [req_bits_aux]
  | n + 1, v, h => by
    unfold req_bits_aux
    by_cases h0 : v / 2 = 0
    · simp only [h0, if_true]
      have : v < 2 := by omega
      refine ⟨le_refl _, by simpa using this, ?_⟩
      intro hv
      simp
      omega
    · simp only [h0, if_false]
      have ih := req_bits_aux_spec n (v / 2) (by omega)
      obtain ⟨h1, h2, h3⟩ := ih
      have h3' := h3 h0
      refine ⟨by omega, ?_, ?_⟩
      · rw [Nat.add_comm, Nat.pow_succ]
        omega
      · intro _
        have e : 1 + req_bits_aux n (v / 2) - 1 = (req_bits_aux n (v / 2) - 1) + 1 := by omega
        rw [e, Nat.pow_succ]
        omega

theorem req_bits_pos (v : Nat) : 1 ≤ req_bits v :=
  (req_bits_aux_spec v v (le_refl _)).1

theorem lt_two_pow_req_bits (v : Nat) : v < 2 ^ req_bits v :=
  (req_bits_aux_spec v v (le_refl _)).2.1

theorem two_pow_req_bits_le (v : Nat) (h : v ≠ 0) : 2 ^ (req_bits v - 1) ≤ v :=
  (req_bits_aux_spec v v (le_refl _)).2.2 h

theorem req_bits_eq {v k : Nat} (hk : 1 ≤ k) (h1 : 2 ^ (k - 1) ≤ v) (h2 : v < 2 ^ k) :
    req_bits v = k := by
  have hv : v ≠ 0 := by
    have := Nat.two_pow_pos (k - 1)
    omega
  have a := lt_two_pow_req_bits v
  have b := two_pow_req_bits_le v hv
  have c := req_bits_pos v
  have l1 : k - 1 < req_bits v := (Nat.pow_lt_pow_iff_right Nat.one_lt_two).1 (by omega)
  have l2 : req_bits v - 1 < k := (Nat.pow_lt_pow_iff_right Nat.one_lt_two).1 (by omega)
  omega

theorem req_bits_mask {k : Nat} (hk : 1 ≤ k) : req_bits (2 ^ k - 1) = k := by
  have h1 : 2 ^ (k - 1) < 2 ^ k := (Nat.pow_lt_pow_iff_right Nat.one_lt_two).2 (by omega)
  have h2 := Nat.two_pow_pos k
  exact req_bits_eq hk (by omega) (by omega)

theorem req_bits_mono {a b : Nat} (h : a ≤ b) : req_bits a ≤ req_bits b := by
  by_cases ha : a = 0
  · subst ha
    have : req_bits 0 = 1 := by decide
    rw [this]
    exact req_bits_pos b
  · have h1 := two_pow_req_bits_le a ha
    have h2 := lt_two_pow_req_bits b
    have : req_bits a - 1 < req_bits b := (Nat.pow_lt_pow_iff_right Nat.one_lt_two).1 (by omega)
    omega

theorem lt_req_bits_of_le {k v : Nat} (h : 2 ^ k ≤ v) : k < req_bits v := by
  have h2 := lt_two_pow_req_bits v
  exact (Nat.pow_lt_pow_iff_right Nat.one_lt_two).1 (by omega)

end arithmetic
section search

theorem search1_offsets_no (keys : List Nat) (vtbl used i L : Nat) (hi : L ≤ i) :
    ∀ (js : List Nat) (e : estimate Nat), L ≤ e.no →
      L ≤ (search1_offsets keys vtbl used i js e).1.no
  | [], e, h => by simpa [search1_offsets] using h
  | j :: js, e, h => by
    unfold search1_offsets
    simp only
    have he : L ≤ (if entries1 keys vtbl i j > e.max_cache_entries then
        ({ max_cache_entries := entries1 keys vtbl i j, no := i, zo := j } : estimate Nat)
        else e).no := by
      split <;> simp [hi, h]
    split
    · exact he
    · exact search1_offsets_no keys vtbl used i L hi js _ he

theorem search1_sizes_no (keys : List Nat) (vtbl used m z L : Nat) :
    ∀ (is : List Nat) (e : estimate Nat), (∀ i ∈ is, L ≤ i) → L ≤ e.no →
      L ≤ (search1_sizes keys vtbl used m z is e).no
  | [], e, _, h => by simpa [search1_sizes] using h
  | i :: is, e, hall, h => by
    unfold search1_sizes
    simp only
    have hi : L ≤ i := hall i (List.mem_cons_self _ _)
    have he := search1_offsets_no keys vtbl used i L hi (List.range' z (m + 1 - i - z)) e h
    split
    · exact he
    · exact search1_sizes_no keys vtbl used m z L is _
        (fun x hx => hall x (List.mem_cons_of_mem _ hx)) he

theorem search1_ge (cfg : Config) (cache_mask used : Nat) (keys : List Nat) (vtbl : Nat) :
    min cfg.max_log_size (max (req_bits cache_mask) (req_bits used)) ≤
      (search1 cfg cache_mask used keys vtbl).1 := by
  unfold search1
  simp only
  apply search1_sizes_no
  · intro i hi
    exact (List.mem_range'_1.1 hi).1
  · exact le_refl _

theorem search2_offsets1_no (keys : List (Nat × Nat)) (vtbl : Nat × Nat)
    (used i cache_mask j0 L : Nat) (hi : L ≤ i) :
    ∀ (js : List Nat) (e : estimate (Nat × Nat)), L ≤ e.no →
      L ≤ (search2_offsets1 keys vtbl used i cache_mask j0 js e).1.no
  | [], e, h => by simpa [search2_offsets1] using h
  | j :: js, e, h => by
    unfold search2_offsets1
    simp only
    have he : L ≤ (if entries2 keys vtbl cache_mask j0 j > e.max_cache_entries then
        ({ max_cache_entries := entries2 keys vtbl cache_mask j0 j, no := i, zo := (j0, j) } :
          estimate (Nat × Nat))
        else e).no := by
      split <;> simp [hi, h]
    split
    · exact he
    · exact search2_offsets1_no keys vtbl used i cache_mask j0 L hi js _ he

theorem search2_offsets0_no (keys : List (Nat × Nat)) (vtbl : Nat × Nat)
    (used l2 cache_mask : Nat) (m z : Nat × Nat) (L : Nat) (hL : L ≤ l2 + 1) :
    ∀ (fuel j0 i : Nat) (e : estimate (Nat × Nat)), L ≤ i → L ≤ e.no →
      L ≤ (search2_offsets0 keys vtbl used l2 cache_mask m z fuel j0 i e).1.no ∧
      L ≤ (search2_offsets0 keys vtbl used l2 cache_mask m z fuel j0 i e).2
  | 0, j0, i, e, hi, h => by simpa [search2_offsets0] using ⟨h, hi⟩
  | fuel + 1, j0, i, e, hi, h => by
    unfold search2_offsets0
    split
    · simp only
      apply search2_offsets0_no keys vtbl used l2 cache_mask m z L hL fuel
      · split <;> assumption
      · exact search2_offsets1_no keys vtbl used i cache_mask j0 L hi _ e h
    · exact ⟨h, hi⟩

theorem search2_sizes_no (keys : List (Nat × Nat)) (vtbl : Nat × Nat) (used l2 : Nat)
    (m z : Nat × Nat) (L : Nat) (hL : L ≤ l2 + 1) :
    ∀ (fuel i : Nat) (e : estimate (Nat × Nat)), L ≤ i → L ≤ e.no →
      L ≤ (search2_sizes keys vtbl used l2 m z fuel i e).no
  | 0, i, e, _, h => by simpa [search2_sizes] using h
  | fuel + 1, i, e, hi, h => by
    unfold search2_sizes
    split
    · simp only
      have r := search2_offsets0_no keys vtbl used l2 (2 ^ i - 1) m z L hL (m.1 + 1) z.1 i e hi h
      exact search2_sizes_no keys vtbl used l2 m z L hL fuel _ _ (by omega) r.1
    · exact h

theorem search2_ge (cfg : Config) (cache_mask used : Nat) (keys : List (Nat × Nat))
    (vtbl : Nat × Nat) :
    min cfg.max_log_size (max (req_bits cache_mask) (req_bits used)) ≤
      (search2 cfg cache_mask used keys vtbl).1 := by
  unfold search2
  simp only
  apply search2_sizes_no
  · have : max (req_bits cache_mask) (req_bits used) ≤
        max (req_bits cache_mask) (req_bits used + cfg.max_log_inc) :=
      max_le_max (le_refl _) (Nat.le_add_right _ _)
    have := min_le_min (le_refl cfg.max_log_size) this
    omega
  · exact le_refl _
  · exact le_refl _

theorem lawful1 : ops1.Lawful where
  vacant_zero := rfl
  vacant_of_nonzero := by
    intro vtbl h
    simp only [ops1, bne_iff_ne, ne_eq] at h
    simp [ops1, h]
  slot_le := fun _ _ _ => Nat.and_le_right
  search_ge := search1_ge

theorem lawful2 : ops2.Lawful where
  vacant_zero := rfl
  vacant_of_nonzero := by
    intro vtbl h
    simp only [ops2, Bool.and_eq_true, bne_iff_ne, ne_eq] at h
    simp [ops2, h.1]
  slot_le := fun _ _ _ => Nat.and_le_right
  search_ge := search2_ge

end search
section constructors
variable {κ σ T : Type} [DecidableEq κ] [DecidableEq σ]

theorem map_getD_range (l : List Nat) (n : Nat) (h : l.length = n) :
    (List.range n).map (fun i => l.getD i 0) = l := by
  apply List.ext_getElem?
  intro i
  rw [List.getElem?_map]
  by_cases hi : i < n
  · rw [List.getElem?_range hi]
    simp [List.getD_eq_getElem?_getD, List.getElem?_eq_getElem (h ▸ hi)]
  · rw [List.getElem?_eq_none (by simp; omega), List.getElem?_eq_none (by omega)]
    rfl

/-- Both branches of the second constructor: the old pointers, then the
addresses of `cache_mask - old.cache_mask` new entries (none when the masks
are equal). -/
theorem transplant_eq (o : KeyOps κ σ) [Inhabited T] (log_size : Nat) (shifts : σ)
    (old : cache_descriptor σ) (store : List (stored_type κ T)) :
    cache_descriptor.transplant o log_size shifts old store =
      (new_entries o store (2 ^ log_size - 1 - old.cache_mask),
       { cache_mask := 2 ^ log_size - 1
         optimal_shift := shifts
         used := old.used
         cache := (List.range (old.cache_mask + 1)).map (fun i => old.cache.getD i 0) ++
           (List.range (2 ^ log_size - 1 - old.cache_mask)).map (fun j => store.length + j) }) := by
  unfold cache_descriptor.transplant
  by_cases h : 2 ^ log_size - 1 - old.cache_mask = 0
  · simp [h, new_entries]
  · simp [h]

theorem transplant_inv {o : KeyOps κ σ} [Inhabited T] (ho : o.Lawful)
    {store : List (stored_type κ T)} {d : cache_descriptor σ} (h : d.Inv o store)
    (log_size : Nat) (shifts : σ) (h1 : 1 ≤ log_size) (hm : d.cache_mask ≤ 2 ^ log_size - 1) :
    cache_descriptor.Inv o (cache_descriptor.transplant o log_size shifts d store).1
      (cache_descriptor.transplant o log_size shifts d store).2 := by
  rw [transplant_eq, map_getD_range _ _ h.size]
  have hpos := Nat.two_pow_pos log_size
  exact
    { perm := by
        show (d.cache ++ _).Perm _
        rw [new_entries_length, List.range_add]
        exact h.perm.append_right _
      size := by
        show (d.cache ++ _).length = _
        simp [h.size]
        omega
      pow := ⟨log_size, h1, by show 2 ^ log_size - 1 + 1 = _; omega⟩
      keys := by
        intro p
        rw [vtbl_at_new_entries]
        exact h.keys p
      uniq := by
        intro p q
        rw [vtbl_at_new_entries, vtbl_at_new_entries]
        exact h.uniq p q
      count := by
        show d.used = (d.cache ++ _).countP _
        rw [List.countP_append, h.count]
        have : List.countP (fun p => !o.vacant (vtbl_at o (new_entries o store
            (2 ^ log_size - 1 - d.cache_mask)) p))
            (List.map (fun j => store.length + j)
              (List.range (2 ^ log_size - 1 - d.cache_mask))) = 0 := by
          rw [List.countP_eq_zero]
          intro a ha
          obtain ⟨j, _, rfl⟩ := List.mem_map.1 ha
          rw [vtbl_at_new_entries, vtbl_at_of_le o store _ (by omega)]
          simp [ho.vacant_zero]
        rw [this]
        simp only [vtbl_at_new_entries]
        rfl }

theorem transplant_at {o : KeyOps κ σ} [Inhabited T]
    {store : List (stored_type κ T)} {d : cache_descriptor σ} (h : d.Inv o store)
    (log_size : Nat) (shifts : σ) {i : Nat} (hi : i ≤ d.cache_mask) :
    (cache_descriptor.transplant o log_size shifts d store).2.at i = d.at i := by
  rw [transplant_eq, map_getD_range _ _ h.size]
  unfold cache_descriptor.at
  simp only [List.getD_eq_getElem?_getD]
  rw [List.getElem?_append_left (by rw [h.size]; omega)]

theorem create_inv (o : KeyOps κ σ) [Inhabited T] (ho : o.Lawful) (log_size shift : Nat)
    (h1 : 1 ≤ log_size) :
    cache_descriptor.Inv o
      (cache_descriptor.create o log_size shift ([] : List (stored_type κ T))).1
      (cache_descriptor.create o log_size shift ([] : List (stored_type κ T))).2 := by
  have hpos := Nat.two_pow_pos log_size
  have hs : 2 ^ log_size - 1 + 1 = 2 ^ log_size := by omega
  have hz : ∀ p, vtbl_at o (new_entries o ([] : List (stored_type κ T)) (2 ^ log_size)) p
      = o.zero := by
    intro p
    rw [vtbl_at_new_entries]
    exact vtbl_at_of_le o _ p (by simp)
  unfold cache_descriptor.create
  simp only [List.length_nil, Nat.zero_add, List.map_id', hs]
  exact
    { perm := by simp [new_entries_length]
      size := by simp [hs]
      pow := ⟨log_size, h1, hs⟩
      keys := fun p => Or.inl (hz p)
      uniq := by
        intro p q _ hn
        rw [hz, nonzero_zero ho] at hn
        cases hn
      count := by
        show 0 = _
        symm
        rw [List.countP_eq_zero]
        intro a _
        simp [hz, ho.vacant_zero] }

end constructors
section reorganize
variable {κ σ T : Type} [DecidableEq κ] [DecidableEq σ]

/-- The first part of `update` either keeps the descriptor or replaces it by
one built from it, with a log size that is neither below the current one nor
below the one the search returned. -/
theorem update_descriptor_cases (o : KeyOps κ σ) [Inhabited T] (cfg : Config)
    (m : vtbl_map κ σ T) (vtbl : κ) :
    vtbl_map.update_descriptor o cfg m vtbl = (m.store, m.descriptor) ∨
    ∃ log_size zo, req_bits m.descriptor.cache_mask ≤ log_size ∧
      (o.search cfg m.descriptor.cache_mask m.descriptor.used
        ((List.range (m.descriptor.cache_mask + 1)).map
          (fun i => vtbl_at o m.store (m.descriptor.at i))) vtbl).1 ≤ log_size ∧
      vtbl_map.update_descriptor o cfg m vtbl =
        cache_descriptor.transplant o log_size zo m.descriptor m.store ∧
      log_size ≤ max (req_bits m.descriptor.cache_mask)
        (o.search cfg m.descriptor.cache_mask m.descriptor.used
          ((List.range (m.descriptor.cache_mask + 1)).map
            (fun i => vtbl_at o m.store (m.descriptor.at i))) vtbl).1 := by
  unfold vtbl_map.update_descriptor
  simp only
  split
  · right
    refine ⟨_, _, ?_, ?_, rfl, ?_⟩
    · split <;> omega
    · split <;> omega
    · split
      · exact le_max_left _ _
      · exact le_max_right _ _
  · left; rfl

theorem update_descriptor_vtbl_at (o : KeyOps κ σ) [Inhabited T] (cfg : Config)
    (m : vtbl_map κ σ T) (vtbl : κ) (p : Nat) :
    vtbl_at o (vtbl_map.update_descriptor o cfg m vtbl).1 p = vtbl_at o m.store p := by
  rcases update_descriptor_cases o cfg m vtbl with e | ⟨ls, zo, _, _, e, _⟩
  · rw [e]
  · rw [e, transplant_eq, vtbl_at_new_entries]

theorem update_descriptor_length (o : KeyOps κ σ) [Inhabited T] (cfg : Config)
    (m : vtbl_map κ σ T) (vtbl : κ) :
    m.store.length ≤ (vtbl_map.update_descriptor o cfg m vtbl).1.length := by
  rcases update_descriptor_cases o cfg m vtbl with e | ⟨ls, zo, _, _, e, _⟩
  · rw [e]
  · rw [e, transplant_eq, new_entries_length]; omega

theorem update_descriptor_value_at (o : KeyOps κ σ) [Inhabited T] (cfg : Config)
    (m : vtbl_map κ σ T) (vtbl : κ) (p : Nat) :
    value_at (vtbl_map.update_descriptor o cfg m vtbl).1 p =
      if p < m.store.length then value_at m.store p
      else if p < (vtbl_map.update_descriptor o cfg m vtbl).1.length then some default
      else none := by
  rcases update_descriptor_cases o cfg m vtbl with e | ⟨ls, zo, _, _, e, _⟩
  · rw [e]
    by_cases hp : p < m.store.length
    · simp [hp]
    · simp only [hp, if_false]
      unfold value_at
      simp [List.get?_eq_getElem?, List.getElem?_eq_none (Nat.le_of_not_lt hp)]
  · rw [e, transplant_eq, value_at_new_entries, new_entries_length]

theorem update_descriptor_used (o : KeyOps κ σ) [Inhabited T] (cfg : Config)
    (m : vtbl_map κ σ T) (vtbl : κ) :
    (vtbl_map.update_descriptor o cfg m vtbl).2.used = m.descriptor.used := by
  rcases update_descriptor_cases o cfg m vtbl with e | ⟨ls, zo, _, _, e, _⟩
  · rw [e]
  · rw [e, transplant_eq]

theorem update_descriptor_mask_le (o : KeyOps κ σ) [Inhabited T] (cfg : Config)
    (m : vtbl_map κ σ T) (vtbl : κ) :
    m.descriptor.cache_mask ≤ (vtbl_map.update_descriptor o cfg m vtbl).2.cache_mask := by
  rcases update_descriptor_cases o cfg m vtbl with e | ⟨ls, zo, hk, _, e, _⟩
  · rw [e]
  · rw [e, transplant_eq]
    show _ ≤ 2 ^ ls - 1
    have h1 := lt_two_pow_req_bits m.descriptor.cache_mask
    have h2 : 2 ^ req_bits m.descriptor.cache_mask ≤ 2 ^ ls :=
      Nat.pow_le_pow_right (by omega) hk
    omega

theorem update_descriptor_inv {o : KeyOps κ σ} [Inhabited T] (ho : o.Lawful) (cfg : Config)
    {m : vtbl_map κ σ T} (h : m.descriptor.Inv o m.store) (vtbl : κ) :
    cache_descriptor.Inv o (vtbl_map.update_descriptor o cfg m vtbl).1
      (vtbl_map.update_descriptor o cfg m vtbl).2 := by
  rcases update_descriptor_cases o cfg m vtbl with e | ⟨ls, zo, hk, _, e, _⟩
  · rw [e]; exact h
  · rw [e]
    have h1 := lt_two_pow_req_bits m.descriptor.cache_mask
    have h2 : 2 ^ req_bits m.descriptor.cache_mask ≤ 2 ^ ls :=
      Nat.pow_le_pow_right (by omega) hk
    have h3 := req_bits_pos m.descriptor.cache_mask
    exact transplant_inv ho h ls zo (by omega) (by omega)

theorem update_descriptor_at {o : KeyOps κ σ} [Inhabited T] (cfg : Config)
    {m : vtbl_map κ σ T} (h : m.descriptor.Inv o m.store) (vtbl : κ) {i : Nat}
    (hi : i ≤ m.descriptor.cache_mask) :
    (vtbl_map.update_descriptor o cfg m vtbl).2.at i = m.descriptor.at i := by
  rcases update_descriptor_cases o cfg m vtbl with e | ⟨ls, zo, _, _, e, _⟩
  · rw [e]
  · rw [e]; exact transplant_at h ls zo hi

theorem cache_descriptor.Inv.used_le {o : KeyOps κ σ} {store : List (stored_type κ T)}
    {d : cache_descriptor σ} (h : d.Inv o store) : d.used ≤ d.cache_mask + 1 := by
  rw [h.count, ← h.size]
  exact List.countP_le_length _

theorem cache_descriptor.Inv.size_eq_two_pow {o : KeyOps κ σ} {store : List (stored_type κ T)}
    {d : cache_descriptor σ} (h : d.Inv o store) :
    d.cache_mask + 1 = 2 ^ req_bits d.cache_mask := by
  obtain ⟨k, hk, e⟩ := h.pow
  have : d.cache_mask = 2 ^ k - 1 := by omega
  rw [this, mch.req_bits_mask hk]
  have := Nat.two_pow_pos k
  omega

/-- A full table below the ceiling `max_log_size` is replaced by a larger one,
which has room for one more key. -/
theorem update_descriptor_room {o : KeyOps κ σ} [Inhabited T] (ho : o.Lawful) (cfg : Config)
    {m : vtbl_map κ σ T} (h : m.descriptor.Inv o m.store) (vtbl : κ)
    (hc : ¬ (m.descriptor.cache_mask < m.descriptor.used ∧
      cfg.max_log_size ≤ req_bits m.descriptor.cache_mask)) :
    (vtbl_map.update_descriptor o cfg m vtbl).2.used ≤
      (vtbl_map.update_descriptor o cfg m vtbl).2.cache_mask := by
  rw [update_descriptor_used]
  have hmask := update_descriptor_mask_le o cfg m vtbl
  by_cases hfull : m.descriptor.cache_mask < m.descriptor.used
  · have hk : req_bits m.descriptor.cache_mask < cfg.max_log_size := by
      by_contra hk
      exact hc ⟨hfull, by omega⟩
    have hu := h.used_le
    have hp := h.size_eq_two_pow
    have hn : req_bits m.descriptor.cache_mask < req_bits m.descriptor.used :=
      lt_req_bits_of_le (by omega)
    have hs := ho.search_ge cfg m.descriptor.cache_mask m.descriptor.used
      ((List.range (m.descriptor.cache_mask + 1)).map
          (fun i => vtbl_at o m.store (m.descriptor.at i))) vtbl
    have hl1 : req_bits m.descriptor.cache_mask + 1 ≤
        min cfg.max_log_size (max (req_bits m.descriptor.cache_mask)
          (req_bits m.descriptor.used)) := by
      rw [Nat.le_min]
      exact ⟨by omega, le_trans (by omega) (le_max_right _ _)⟩
    rcases update_descriptor_cases o cfg m vtbl with e | ⟨ls, zo, _, hno, e, _⟩
    · exfalso
      have : vtbl_map.update_descriptor o cfg m vtbl = (m.store, m.descriptor) := e
      unfold vtbl_map.update_descriptor at this
      simp only at this
      split at this
      · rename_i hcond
        rw [transplant_eq] at this
        have hm := congrArg (fun r => r.2.cache_mask) this
        simp only at hm
        have hpow : 2 ^ (req_bits m.descriptor.cache_mask + 1) ≤
            2 ^ (if (o.search cfg m.descriptor.cache_mask m.descriptor.used
              ((List.range (m.descriptor.cache_mask + 1)).map
                (fun i => vtbl_at o m.store (m.descriptor.at i))) vtbl).1 <
                  req_bits m.descriptor.cache_mask
              then req_bits m.descriptor.cache_mask
              else (o.search cfg m.descriptor.cache_mask m.descriptor.used
                ((List.range (m.descriptor.cache_mask + 1)).map
                  (fun i => vtbl_at o m.store (m.descriptor.at i))) vtbl).1) :=
          Nat.pow_le_pow_right (by omega) (by split <;> omega)
        rw [Nat.pow_succ] at hpow
        omega
      · rename_i hcond
        push_neg at hcond
        omega
    · rw [e, transplant_eq]
      show _ ≤ 2 ^ ls - 1
      have hpow : 2 ^ (req_bits m.descriptor.cache_mask + 1) ≤ 2 ^ ls :=
        Nat.pow_le_pow_right (by omega) (by omega)
      rw [Nat.pow_succ] at hpow
      omega
  · omega

end reorganize
section map_update
variable {κ σ T : Type} [DecidableEq κ] [DecidableEq σ]

theorem cache_descriptor.Inv.congr {o : KeyOps κ σ} {store store2 : List (stored_type κ T)}
    {d : cache_descriptor σ} (h : d.Inv o store) (hl : store2.length = store.length)
    (hk : ∀ p, vtbl_at o store2 p = vtbl_at o store p) : d.Inv o store2 :=
  { perm := by rw [hl]; exact h.perm
    size := h.size
    pow := h.pow
    keys := by intro p; rw [hk]; exact h.keys p
    uniq := by intro p q; rw [hk, hk]; exact h.uniq p q
    count := by simp only [hk]; exact h.count }

/-- The function `update` does not read `collisions_before_update` nor `last_table_size`. -/
theorem update_congr (o : KeyOps κ σ) [Inhabited T] (cfg : Config) (m : vtbl_map κ σ T)
    (lts : Nat) (c : Int) (vtbl : κ) :
    vtbl_map.update o cfg
      { m with last_table_size := lts, collisions_before_update := c } vtbl =
      vtbl_map.update o cfg m vtbl := rfl

theorem update_store (o : KeyOps κ σ) [Inhabited T] (cfg : Config) (m : vtbl_map κ σ T)
    (vtbl : κ) :
    (vtbl_map.update o cfg m vtbl).1.store =
      (cache_descriptor.get o (vtbl_map.update_descriptor o cfg m vtbl).1
        (vtbl_map.update_descriptor o cfg m vtbl).2 vtbl).1 := rfl

theorem update_inv {o : KeyOps κ σ} [Inhabited T] (ho : o.Lawful) (cfg : Config)
    {m : vtbl_map κ σ T} (h : m.descriptor.Inv o m.store) {vtbl : κ}
    (hv : o.nonzero vtbl = true) :
    cache_descriptor.Inv o (vtbl_map.update o cfg m vtbl).1.store
      (vtbl_map.update o cfg m vtbl).1.descriptor :=
  get_inv ho (update_descriptor_inv ho cfg h vtbl) hv

theorem update_value_at (o : KeyOps κ σ) [Inhabited T] (cfg : Config)
    (m : vtbl_map κ σ T) (vtbl : κ) (p : Nat) :
    value_at (vtbl_map.update o cfg m vtbl).1.store p =
      if p < m.store.length then value_at m.store p
      else if p < (vtbl_map.update o cfg m vtbl).1.store.length then some default
      else none := by
  rw [update_store, get_value_at, get_store_length, update_descriptor_value_at]

theorem update_length (o : KeyOps κ σ) [Inhabited T] (cfg : Config)
    (m : vtbl_map κ σ T) (vtbl : κ) :
    m.store.length ≤ (vtbl_map.update o cfg m vtbl).1.store.length := by
  show _ ≤ (cache_descriptor.get o _ _ vtbl).1.length
  rw [get_store_length]
  exact update_descriptor_length o cfg m vtbl

theorem update_vtbl_at (o : KeyOps κ σ) [Inhabited T] (cfg : Config)
    (m : vtbl_map κ σ T) (vtbl : κ) (p : Nat)
    (hocc : o.vacant (vtbl_at o m.store p) = false) :
    vtbl_at o (vtbl_map.update o cfg m vtbl).1.store p = vtbl_at o m.store p := by
  show vtbl_at o (cache_descriptor.get o _ _ vtbl).1 p = _
  rw [get_vtbl_at vtbl p (by rw [update_descriptor_vtbl_at]; exact hocc),
    update_descriptor_vtbl_at]

theorem update_mask_le (o : KeyOps κ σ) [Inhabited T] (cfg : Config)
    (m : vtbl_map κ σ T) (vtbl : κ) :
    m.descriptor.cache_mask ≤ (vtbl_map.update o cfg m vtbl).1.descriptor.cache_mask := by
  show _ ≤ (cache_descriptor.get o _ _ vtbl).2.1.cache_mask
  rw [get_cache_mask]
  exact update_descriptor_mask_le o cfg m vtbl

/-- Result of `update` with a key some entry holds returns that entry; no key changes
and `used` stays. -/
theorem update_stored {o : KeyOps κ σ} [Inhabited T] (ho : o.Lawful) (cfg : Config)
    {m : vtbl_map κ σ T} (h : m.descriptor.Inv o m.store) {vtbl : κ}
    (hv : o.nonzero vtbl = true) {p : Nat} (hp : vtbl_at o m.store p = vtbl) :
    (vtbl_map.update o cfg m vtbl).2 = p ∧
    (vtbl_map.update o cfg m vtbl).1.descriptor.used = m.descriptor.used ∧
    ∀ q, vtbl_at o (vtbl_map.update o cfg m vtbl).1.store q = vtbl_at o m.store q := by
  have hi := update_descriptor_inv ho cfg h vtbl
  have hp2 : vtbl_at o (vtbl_map.update_descriptor o cfg m vtbl).1 p = vtbl := by
    rw [update_descriptor_vtbl_at]; exact hp
  obtain ⟨e1, e2, e3⟩ := get_stored ho hi hv hp2
  refine ⟨?_, ?_, ?_⟩
  · show (cache_descriptor.get o _ _ vtbl).2.1.at (cache_descriptor.get o _ _ vtbl).2.2 = p
    rw [get_slot]; exact e3
  · show (cache_descriptor.get o _ _ vtbl).2.1.used = _
    rw [e2, update_descriptor_used]
  · intro q
    show vtbl_at o (cache_descriptor.get o _ _ vtbl).1 q = _
    rw [e1, update_descriptor_vtbl_at]

/-- Result of `update` with a key no entry holds, unless the table is full at the
ceiling: an entry that was empty, or a new one, takes the key and is returned;
no other key changes and `used` grows by one. -/
theorem update_fresh {o : KeyOps κ σ} [Inhabited T] (ho : o.Lawful) (cfg : Config)
    {m : vtbl_map κ σ T} (h : m.descriptor.Inv o m.store) {vtbl : κ}
    (hnew : ∀ p, vtbl_at o m.store p ≠ vtbl)
    (hc : ¬ (m.descriptor.cache_mask < m.descriptor.used ∧
      cfg.max_log_size ≤ req_bits m.descriptor.cache_mask)) :
    o.vacant (vtbl_at o m.store (vtbl_map.update o cfg m vtbl).2) = true ∧
    (vtbl_map.update o cfg m vtbl).2 < (vtbl_map.update o cfg m vtbl).1.store.length ∧
    (vtbl_map.update o cfg m vtbl).1.descriptor.used = m.descriptor.used + 1 ∧
    ∀ q, vtbl_at o (vtbl_map.update o cfg m vtbl).1.store q =
      if q = (vtbl_map.update o cfg m vtbl).2 then vtbl else vtbl_at o m.store q := by
  have hi := update_descriptor_inv ho cfg h vtbl
  have hroom := update_descriptor_room ho cfg h vtbl hc
  have hnew2 : ∀ p, vtbl_at o (vtbl_map.update_descriptor o cfg m vtbl).1 p ≠ vtbl := by
    intro p; rw [update_descriptor_vtbl_at]; exact hnew p
  obtain ⟨p, hlt, hvac, e1, e2, e3⟩ := get_fresh ho hi hnew2 hroom
  have hres : (vtbl_map.update o cfg m vtbl).2 = p := by
    show (cache_descriptor.get o _ _ vtbl).2.1.at (cache_descriptor.get o _ _ vtbl).2.2 = p
    rw [get_slot]; exact e3
  rw [hres]
  refine ⟨?_, ?_, ?_, ?_⟩
  · rw [← update_descriptor_vtbl_at o cfg m vtbl]; exact hvac
  · show p < (cache_descriptor.get o _ _ vtbl).1.length
    rw [get_store_length]; exact hlt
  · show (cache_descriptor.get o _ _ vtbl).2.1.used = _
    rw [e2, update_descriptor_used]
  · intro q
    show vtbl_at o (cache_descriptor.get o _ _ vtbl).1 q = _
    rw [e1, vtbl_at_set_vtbl o _ _ _ _ hlt, update_descriptor_vtbl_at]

end map_update
section map_get
variable {κ σ T : Type} [DecidableEq κ] [DecidableEq σ]

/-- The three exits of `vtbl_map::get`: a hit, a call of `update`, or a call
of `cache_descriptor::get` on a table that is not full. -/
theorem map_get_cases (o : KeyOps κ σ) [Inhabited T] (cfg : Config) (m : vtbl_map κ σ T)
    (vtbl : κ) :
    (vtbl_at o m.store (m.descriptor.at (m.descriptor.loc o vtbl)) = vtbl ∧
      vtbl_map.get o cfg m vtbl = (m, m.descriptor.at (m.descriptor.loc o vtbl))) ∨
    (vtbl_at o m.store (m.descriptor.at (m.descriptor.loc o vtbl)) ≠ vtbl ∧
      vtbl_map.get o cfg m vtbl = vtbl_map.update o cfg m vtbl) ∨
    (vtbl_at o m.store (m.descriptor.at (m.descriptor.loc o vtbl)) ≠ vtbl ∧
      m.descriptor.used ≤ m.descriptor.cache_mask ∧
      ∃ c, vtbl_map.get o cfg m vtbl =
        ({ m with
            store := (cache_descriptor.get o m.store m.descriptor vtbl).1
            descriptor := (cache_descriptor.get o m.store m.descriptor vtbl).2.1
            collisions_before_update := c },
         (cache_descriptor.get o m.store m.descriptor vtbl).2.1.at
           (m.descriptor.loc o vtbl))) := by
  by_cases h : vtbl_at o m.store (m.descriptor.at (m.descriptor.loc o vtbl)) = vtbl
  · left
    exact ⟨h, by simp [vtbl_map.get, h]⟩
  · right
    by_cases hf : m.descriptor.is_full = true
    · left
      exact ⟨h, by simp [vtbl_map.get, h, hf]⟩
    · have hu : m.descriptor.used ≤ m.descriptor.cache_mask := by
        simp only [cache_descriptor.is_full, decide_eq_true_eq] at hf
        omega
      by_cases ho : o.vacant (vtbl_at o m.store (m.descriptor.at (m.descriptor.loc o vtbl)))
          = false
      · by_cases ht : m.collisions_before_update - 1 ≤ 0 ∧
            m.descriptor.used ≠ m.last_table_size
        · left
          refine ⟨h, ?_⟩
          simp [vtbl_map.get, h, hf, ho, ht]
          rfl
        · right
          refine ⟨h, hu, m.collisions_before_update - 1, ?_⟩
          simp [vtbl_map.get, h, hf, ho]
          intro a b
          exact absurd ⟨by omega, b⟩ ht
      · right
        refine ⟨h, hu, m.collisions_before_update, ?_⟩
        simp [vtbl_map.get, h, hf, ho]

theorem map_get_inv {o : KeyOps κ σ} [Inhabited T] (ho : o.Lawful) (cfg : Config)
    {m : vtbl_map κ σ T} (h : m.descriptor.Inv o m.store) {vtbl : κ}
    (hv : o.nonzero vtbl = true) :
    cache_descriptor.Inv o (vtbl_map.get o cfg m vtbl).1.store
      (vtbl_map.get o cfg m vtbl).1.descriptor := by
  rcases map_get_cases o cfg m vtbl with ⟨_, e⟩ | ⟨_, e⟩ | ⟨_, _, c, e⟩
  · rw [e]; exact h
  · rw [e]; exact update_inv ho cfg h hv
  · rw [e]; exact get_inv ho h hv

theorem map_get_value_at (o : KeyOps κ σ) [Inhabited T] (cfg : Config)
    (m : vtbl_map κ σ T) (vtbl : κ) (p : Nat) :
    value_at (vtbl_map.get o cfg m vtbl).1.store p =
      if p < m.store.length then value_at m.store p
      else if p < (vtbl_map.get o cfg m vtbl).1.store.length then some default
      else none := by
  have hout : ∀ (st : List (stored_type κ T)), ¬ p < st.length → value_at st p = none := by
    intro st hp
    unfold value_at
    simp [List.get?_eq_getElem?, List.getElem?_eq_none (Nat.le_of_not_lt hp)]
  rcases map_get_cases o cfg m vtbl with ⟨_, e⟩ | ⟨_, e⟩ | ⟨_, _, c, e⟩
  · rw [e]
    by_cases hp : p < m.store.length
    · simp [hp]
    · simp [hp, hout m.store hp]
  · rw [e]; exact update_value_at o cfg m vtbl p
  · rw [e]
    simp only [get_value_at, get_store_length]
    by_cases hp : p < m.store.length
    · simp [hp]
    · simp [hp, hout m.store hp]

theorem map_get_length (o : KeyOps κ σ) [Inhabited T] (cfg : Config)
    (m : vtbl_map κ σ T) (vtbl : κ) :
    m.store.length ≤ (vtbl_map.get o cfg m vtbl).1.store.length := by
  rcases map_get_cases o cfg m vtbl with ⟨_, e⟩ | ⟨_, e⟩ | ⟨_, _, c, e⟩
  · rw [e]
  · rw [e]; exact update_length o cfg m vtbl
  · rw [e]; simp [get_store_length]

theorem map_get_vtbl_at (o : KeyOps κ σ) [Inhabited T] (cfg : Config)
    (m : vtbl_map κ σ T) (vtbl : κ) (p : Nat)
    (hocc : o.vacant (vtbl_at o m.store p) = false) :
    vtbl_at o (vtbl_map.get o cfg m vtbl).1.store p = vtbl_at o m.store p := by
  rcases map_get_cases o cfg m vtbl with ⟨_, e⟩ | ⟨_, e⟩ | ⟨_, _, c, e⟩
  · rw [e]
  · rw [e]; exact update_vtbl_at o cfg m vtbl p hocc
  · rw [e]; exact get_vtbl_at vtbl p hocc

theorem map_get_mask_le (o : KeyOps κ σ) [Inhabited T] (cfg : Config)
    (m : vtbl_map κ σ T) (vtbl : κ) :
    m.descriptor.cache_mask ≤ (vtbl_map.get o cfg m vtbl).1.descriptor.cache_mask := by
  rcases map_get_cases o cfg m vtbl with ⟨_, e⟩ | ⟨_, e⟩ | ⟨_, _, c, e⟩
  · rw [e]
  · rw [e]; exact update_mask_le o cfg m vtbl
  · rw [e]; simp [get_cache_mask]

/-- Result of `get` with a key some entry holds returns that entry; no key changes and
`used` stays. -/
theorem map_get_stored {o : KeyOps κ σ} [Inhabited T] (ho : o.Lawful) (cfg : Config)
    {m : vtbl_map κ σ T} (h : m.descriptor.Inv o m.store) {vtbl : κ}
    (hv : o.nonzero vtbl = true) {p : Nat} (hp : vtbl_at o m.store p = vtbl) :
    (vtbl_map.get o cfg m vtbl).2 = p ∧
    (vtbl_map.get o cfg m vtbl).1.descriptor.used = m.descriptor.used ∧
    ∀ q, vtbl_at o (vtbl_map.get o cfg m vtbl).1.store q = vtbl_at o m.store q := by
  rcases map_get_cases o cfg m vtbl with ⟨hk, e⟩ | ⟨_, e⟩ | ⟨_, _, c, e⟩
  · rw [e]
    exact ⟨h.uniq _ _ (hk.trans hp.symm) (by rw [hk]; exact hv), rfl, fun _ => rfl⟩
  · rw [e]; exact update_stored ho cfg h hv hp
  · rw [e]
    obtain ⟨e1, e2, e3⟩ := get_stored ho h hv hp
    exact ⟨e3, e2, fun q => by simp only [e1]⟩

/-- Result of `get` with a key no entry holds, unless the table is full at the ceiling:
an entry that was empty, or a new one, takes the key and is returned; no other
key changes and `used` grows by one. -/
theorem map_get_fresh {o : KeyOps κ σ} [Inhabited T] (ho : o.Lawful) (cfg : Config)
    {m : vtbl_map κ σ T} (h : m.descriptor.Inv o m.store) {vtbl : κ}
    (hnew : ∀ p, vtbl_at o m.store p ≠ vtbl)
    (hc : ¬ (m.descriptor.cache_mask < m.descriptor.used ∧
      cfg.max_log_size ≤ req_bits m.descriptor.cache_mask)) :
    o.vacant (vtbl_at o m.store (vtbl_map.get o cfg m vtbl).2) = true ∧
    (vtbl_map.get o cfg m vtbl).2 < (vtbl_map.get o cfg m vtbl).1.store.length ∧
    (vtbl_map.get o cfg m vtbl).1.descriptor.used = m.descriptor.used + 1 ∧
    ∀ q, vtbl_at o (vtbl_map.get o cfg m vtbl).1.store q =
      if q = (vtbl_map.get o cfg m vtbl).2 then vtbl else vtbl_at o m.store q := by
  rcases map_get_cases o cfg m vtbl with ⟨hk, _⟩ | ⟨_, e⟩ | ⟨_, hu, c, e⟩
  · exact absurd hk (hnew _)
  · rw [e]; exact update_fresh ho cfg h hnew hc
  · rw [e]
    obtain ⟨p, hlt, hvac, e1, e2, e3⟩ := get_fresh ho h hnew hu
    simp only [e3, e1, e2, set_vtbl_length]
    exact ⟨hvac, hlt, trivial, fun q => vtbl_at_set_vtbl o _ _ _ _ hlt⟩

end map_get
section reachable
variable {κ σ T : Type} [DecidableEq κ] [DecidableEq σ]

/-- Every reachable state satisfies the representation invariant. -/
theorem reachable_inv {o : KeyOps κ σ} [Inhabited T] (ho : o.Lawful) {cfg : Config}
    {m : vtbl_map κ σ T} (h : Reachable o cfg m) : m.descriptor.Inv o m.store := by
  induction h with
  | create expected_size lts h1 =>
    exact create_inv o ho _ _ (req_bits_pos _)
  | get m vtbl _ hv ih => exact map_get_inv ho cfg ih hv
  | assign m p v _ _ ih =>
    exact ih.congr (set_value_length _ _ _) (fun q => vtbl_at_set_value o _ _ _ _)

theorem vacant_of_le (o : KeyOps κ σ) (ho : o.Lawful) (store : List (stored_type κ T))
    (p : Nat) (h : store.length ≤ p) : o.vacant (vtbl_at o store p) = true := by
  rw [vtbl_at_of_le o store p h]; exact ho.vacant_zero

/-- In every reachable state the entries that test empty still hold the
default value: the client writes only through references `get` returned. -/
theorem reachable_default {o : KeyOps κ σ} [Inhabited T] (ho : o.Lawful) {cfg : Config}
    {m : vtbl_map κ σ T} (h : Reachable o cfg m) :
    ∀ p, p < m.store.length → o.vacant (vtbl_at o m.store p) = true →
      value_at m.store p = some default := by
  induction h with
  | create expected_size lts h1 =>
    intro p hp _
    have hp' : p < (new_entries o ([] : List (stored_type κ T))
        (2 ^ req_bits (expected_size - 1))).length := hp
    show value_at (new_entries o ([] : List (stored_type κ T)) _) p = _
    rw [value_at_new_entries]
    rw [new_entries_length] at hp'
    simp at hp' ⊢
    exact hp'
  | get m vtbl _ hv ih =>
    intro p hp hvac
    rw [map_get_value_at]
    by_cases hlt : p < m.store.length
    · simp only [hlt, if_true]
      apply ih p hlt
      by_contra hocc
      have hocc' : o.vacant (vtbl_at o m.store p) = false := by
        cases hx : o.vacant (vtbl_at o m.store p) with
        | false => rfl
        | true => exact absurd hx hocc
      rw [map_get_vtbl_at o cfg m vtbl p hocc', hocc'] at hvac
      cases hvac
    · simp [hlt, hp]
  | assign m p v _ hocc ih =>
    intro q hq hvac
    rw [set_value_length] at hq
    rw [vtbl_at_set_value] at hvac
    have hp : p < m.store.length := by
      by_contra hc
      rw [vacant_of_le o ho m.store p (by omega)] at hocc
      cases hocc
    rw [value_at_set_value _ _ _ _ hp]
    have : q ≠ p := by
      intro e
      rw [e, hocc] at hvac
      cases hvac
    simp only [this, if_false]
    exact ih q hq hvac

theorem cache_descriptor.Inv.nonzero_of_occupied {o : KeyOps κ σ} (ho : o.Lawful)
    {store : List (stored_type κ T)} {d : cache_descriptor σ} (h : d.Inv o store) {p : Nat}
    (hocc : o.vacant (vtbl_at o store p) = false) : o.nonzero (vtbl_at o store p) = true := by
  rcases h.keys p with e | e
  · rw [e, ho.vacant_zero] at hocc; cases hocc
  · exact e

end reachable
section claims
variable {κ σ T : Type} [DecidableEq κ] [DecidableEq σ]

/-! ## Grow-only -/

theorem map_get_grow (o : KeyOps κ σ) [Inhabited T] (cfg : Config) (m : vtbl_map κ σ T)
    (vtbl : κ) :
    m.descriptor.cache_mask ≤ (vtbl_map.get o cfg m vtbl).1.descriptor.cache_mask ∧
    req_bits m.descriptor.cache_mask ≤
      req_bits (vtbl_map.get o cfg m vtbl).1.descriptor.cache_mask :=
  ⟨map_get_mask_le o cfg m vtbl, req_bits_mono (map_get_mask_le o cfg m vtbl)⟩

/-- C5 (grow-only): for every state of a cache, N = 1 or N = 2, and every key,
the `cache_mask` of the live descriptor after `get` is at least the one before,
and so is the size exponent `req_bits cache_mask` that `update` reads as `k`;
this covers the calls in which the search returns a log size below the current
one or one capped by `max_log_size`. -/
theorem grow_only [Inhabited T] (cfg : Config) :
    (∀ (m : vtbl_map Nat Nat T) (vtbl : Nat),
      m.descriptor.cache_mask ≤ (vtbl_map.get ops1 cfg m vtbl).1.descriptor.cache_mask ∧
      req_bits m.descriptor.cache_mask ≤
        req_bits (vtbl_map.get ops1 cfg m vtbl).1.descriptor.cache_mask) ∧
    (∀ (m : vtbl_map (Nat × Nat) (Nat × Nat) T) (vtbl : Nat × Nat),
      m.descriptor.cache_mask ≤ (vtbl_map.get ops2 cfg m vtbl).1.descriptor.cache_mask ∧
      req_bits m.descriptor.cache_mask ≤
        req_bits (vtbl_map.get ops2 cfg m vtbl).1.descriptor.cache_mask) :=
  ⟨fun m vtbl => map_get_grow ops1 cfg m vtbl, fun m vtbl => map_get_grow ops2 cfg m vtbl⟩

/-! ## No loss on reorganization -/

theorem cache_descriptor.Inv.unique_slot {o : KeyOps κ σ} {store : List (stored_type κ T)}
    {d : cache_descriptor σ} (h : d.Inv o store) {p : Nat} (hp : p < store.length) :
    ∃ i, i ≤ d.cache_mask ∧ d.at i = p ∧ ∀ j, j ≤ d.cache_mask → d.at j = p → j = i := by
  obtain ⟨i, hi, e⟩ := h.slot_of hp
  exact ⟨i, hi, e, fun j hj ej => h.at_inj hj hi (ej.trans e.symm)⟩

theorem update_no_loss {o : KeyOps κ σ} [Inhabited T] (ho : o.Lawful) (cfg : Config)
    {m : vtbl_map κ σ T} (hm : Reachable o cfg m) {vtbl : κ} (hv : o.nonzero vtbl = true)
    {p : Nat} (hocc : o.vacant (vtbl_at o m.store p) = false) :
    (∃ i, i ≤ (vtbl_map.update o cfg m vtbl).1.descriptor.cache_mask ∧
      (vtbl_map.update o cfg m vtbl).1.descriptor.at i = p ∧
      ∀ j, j ≤ (vtbl_map.update o cfg m vtbl).1.descriptor.cache_mask →
        (vtbl_map.update o cfg m vtbl).1.descriptor.at j = p → j = i) ∧
    vtbl_at o (vtbl_map.update o cfg m vtbl).1.store p = vtbl_at o m.store p ∧
    value_at (vtbl_map.update o cfg m vtbl).1.store p = value_at m.store p ∧
    (vtbl_map.get o cfg (vtbl_map.update o cfg m vtbl).1 (vtbl_at o m.store p)).2 = p := by
  have hi := reachable_inv ho hm
  have hi2 := update_inv ho cfg hi hv (m := m)
  have hp : p < m.store.length := by
    by_contra hc
    rw [vacant_of_le o ho m.store p (by omega)] at hocc
    cases hocc
  have hk := update_vtbl_at o cfg m vtbl p hocc
  refine ⟨hi2.unique_slot (lt_of_lt_of_le hp (update_length o cfg m vtbl)), hk, ?_, ?_⟩
  · rw [update_value_at]; simp [hp]
  · exact (map_get_stored ho cfg hi2 (hi.nonzero_of_occupied ho hocc) hk).1

/-- C6 (no loss on reorganization): for every call `update(K_new)` from a
reachable state, N = 1 or N = 2, every entry `p` that held a non-zero key
before the call is afterwards referenced by exactly one slot of the live
descriptor and holds the same key and the same value; and a following `get`
of that key returns the entry `p`. -/
theorem no_loss_on_reorganization [Inhabited T] (cfg : Config) :
    (∀ (m : vtbl_map Nat Nat T) (vtbl : Nat) (p : Nat), Reachable ops1 cfg m →
      ops1.nonzero vtbl = true → ops1.vacant (vtbl_at ops1 m.store p) = false →
      (∃ i, i ≤ (vtbl_map.update ops1 cfg m vtbl).1.descriptor.cache_mask ∧
        (vtbl_map.update ops1 cfg m vtbl).1.descriptor.at i = p ∧
        ∀ j, j ≤ (vtbl_map.update ops1 cfg m vtbl).1.descriptor.cache_mask →
          (vtbl_map.update ops1 cfg m vtbl).1.descriptor.at j = p → j = i) ∧
      vtbl_at ops1 (vtbl_map.update ops1 cfg m vtbl).1.store p = vtbl_at ops1 m.store p ∧
      value_at (vtbl_map.update ops1 cfg m vtbl).1.store p = value_at m.store p ∧
      (vtbl_map.get ops1 cfg (vtbl_map.update ops1 cfg m vtbl).1
        (vtbl_at ops1 m.store p)).2 = p) ∧
    (∀ (m : vtbl_map (Nat × Nat) (Nat × Nat) T) (vtbl : Nat × Nat) (p : Nat),
      Reachable ops2 cfg m →
      ops2.nonzero vtbl = true → ops2.vacant (vtbl_at ops2 m.store p) = false →
      (∃ i, i ≤ (vtbl_map.update ops2 cfg m vtbl).1.descriptor.cache_mask ∧
        (vtbl_map.update ops2 cfg m vtbl).1.descriptor.at i = p ∧
        ∀ j, j ≤ (vtbl_map.update ops2 cfg m vtbl).1.descriptor.cache_mask →
          (vtbl_map.update ops2 cfg m vtbl).1.descriptor.at j = p → j = i) ∧
      vtbl_at ops2 (vtbl_map.update ops2 cfg m vtbl).1.store p = vtbl_at ops2 m.store p ∧
      value_at (vtbl_map.update ops2 cfg m vtbl).1.store p = value_at m.store p ∧
      (vtbl_map.get ops2 cfg (vtbl_map.update ops2 cfg m vtbl).1
        (vtbl_at ops2 m.store p)).2 = p) :=
  ⟨fun _ _ _ hm hv hocc => update_no_loss lawful1 cfg hm hv hocc,
   fun _ _ _ hm hv hocc => update_no_loss lawful2 cfg hm hv hocc⟩

end claims
section claims2
variable {κ σ T : Type} [DecidableEq κ] [DecidableEq σ]

/-! ## The reorganization trigger -/

theorem map_get_trigger (o : KeyOps κ σ) [Inhabited T] (cfg : Config) (m : vtbl_map κ σ T)
    (vtbl : κ)
    (hmiss : vtbl_at o m.store (m.descriptor.at (m.descriptor.loc o vtbl)) ≠ vtbl) :
    ((m.descriptor.cache_mask < m.descriptor.used ∨
        (o.vacant (vtbl_at o m.store (m.descriptor.at (m.descriptor.loc o vtbl))) = false ∧
          m.collisions_before_update - 1 ≤ 0 ∧ m.descriptor.used ≠ m.last_table_size)) →
      vtbl_map.get o cfg m vtbl =
        vtbl_map.update o cfg
          { m with collisions_before_update :=
              if ¬ m.descriptor.cache_mask < m.descriptor.used ∧
                  o.vacant (vtbl_at o m.store (m.descriptor.at (m.descriptor.loc o vtbl))) = false
              then m.collisions_before_update - 1 else m.collisions_before_update } vtbl) ∧
    (¬ (m.descriptor.cache_mask < m.descriptor.used ∨
        (o.vacant (vtbl_at o m.store (m.descriptor.at (m.descriptor.loc o vtbl))) = false ∧
          m.collisions_before_update - 1 ≤ 0 ∧ m.descriptor.used ≠ m.last_table_size)) →
      vtbl_map.get o cfg m vtbl =
        ({ m with
            store := (cache_descriptor.get o m.store m.descriptor vtbl).1
            descriptor := (cache_descriptor.get o m.store m.descriptor vtbl).2.1
            collisions_before_update :=
              if ¬ m.descriptor.cache_mask < m.descriptor.used ∧
                  o.vacant (vtbl_at o m.store (m.descriptor.at (m.descriptor.loc o vtbl))) = false
              then m.collisions_before_update - 1 else m.collisions_before_update },
         (cache_descriptor.get o m.store m.descriptor vtbl).2.1.at (m.descriptor.loc o vtbl)) ∧
      (vtbl_map.get o cfg m vtbl).1.descriptor.cache_mask = m.descriptor.cache_mask ∧
      (vtbl_map.get o cfg m vtbl).1.descriptor.optimal_shift = m.descriptor.optimal_shift ∧
      (vtbl_map.get o cfg m vtbl).1.last_table_size = m.last_table_size) := by
  by_cases hf : m.descriptor.cache_mask < m.descriptor.used
  · have hfull : m.descriptor.is_full = true := by
      simp [cache_descriptor.is_full, hf]
    constructor
    · intro _
      simp [vtbl_map.get, hmiss, hfull, hf]
    · intro hn
      exact absurd (Or.inl hf) hn
  · have hfull : m.descriptor.is_full = false := by
      simp [cache_descriptor.is_full, hf]
    by_cases hocc : o.vacant (vtbl_at o m.store (m.descriptor.at (m.descriptor.loc o vtbl)))
        = false
    · by_cases ht : m.collisions_before_update - 1 ≤ 0 ∧
          m.descriptor.used ≠ m.last_table_size
      · constructor
        · intro _
          unfold vtbl_map.get
          simp only [hmiss, hfull, hocc, hf, ht, ne_eq, not_false_eq_true, and_self, if_true,
            Bool.false_eq_true, if_false]
        · intro hn
          exact absurd (Or.inr ⟨hocc, ht⟩) hn
      · constructor
        · intro hy
          rcases hy with hy | ⟨_, hy⟩
          · exact absurd hy hf
          · exact absurd hy ht
        · intro _
          have e : vtbl_map.get o cfg m vtbl =
              ({ m with
                  store := (cache_descriptor.get o m.store m.descriptor vtbl).1
                  descriptor := (cache_descriptor.get o m.store m.descriptor vtbl).2.1
                  collisions_before_update := m.collisions_before_update - 1 },
               (cache_descriptor.get o m.store m.descriptor vtbl).2.1.at
                 (m.descriptor.loc o vtbl)) := by
            unfold vtbl_map.get
            simp only [hmiss, hfull, hocc, ht, ne_eq, not_false_eq_true, if_true,
              Bool.false_eq_true, if_false]
          rw [e]
          simp [hf, hocc, get_cache_mask, get_optimal_shift]
    · have e : vtbl_map.get o cfg m vtbl =
          ({ m with
              store := (cache_descriptor.get o m.store m.descriptor vtbl).1
              descriptor := (cache_descriptor.get o m.store m.descriptor vtbl).2.1 },
           (cache_descriptor.get o m.store m.descriptor vtbl).2.1.at
             (m.descriptor.loc o vtbl)) := by
        unfold vtbl_map.get
        simp only [hmiss, hfull, hocc, ne_eq, not_false_eq_true, if_true,
          Bool.false_eq_true, if_false]
        simp
      constructor
      · intro hy
        rcases hy with hy | ⟨hy, _⟩
        · exact absurd hy hf
        · exact absurd hy hocc
      · intro _
        rw [e]
        simp [hf, hocc, get_cache_mask, get_optimal_shift]

/-! ## `cache_descriptor::get`, key present elsewhere -/

theorem get_elsewhere {o : KeyOps κ σ} (ho : o.Lawful) {store : List (stored_type κ T)}
    {d : cache_descriptor σ} (h : d.Inv o store) {vtbl : κ} (hv : o.nonzero vtbl = true)
    {i : Nat} (hi : i ≤ d.cache_mask) (hne : i ≠ d.loc o vtbl)
    (hk : vtbl_at o store (d.at i) = vtbl) :
    cache_descriptor.get o store d vtbl =
      (store, { d with cache := swap_slots d.cache (d.loc o vtbl) i }, d.loc o vtbl) ∧
    (cache_descriptor.get o store d vtbl).2.1.at (d.loc o vtbl) = d.at i ∧
    (cache_descriptor.get o store d vtbl).2.1.at i = d.at (d.loc o vtbl) ∧
    (∀ j, j ≠ i → j ≠ d.loc o vtbl →
      (cache_descriptor.get o store d vtbl).2.1.at j = d.at j) ∧
    (∀ p, vtbl_at o (cache_descriptor.get o store d vtbl).1 p = vtbl_at o store p) ∧
    (cache_descriptor.get o store d vtbl).2.1.used = d.used ∧
    (cache_descriptor.get o store d vtbl).2.2 = d.loc o vtbl ∧
    vtbl_at o (cache_descriptor.get o store d vtbl).1
      ((cache_descriptor.get o store d vtbl).2.1.at (d.loc o vtbl)) = vtbl := by
  have hl := loc_le ho d vtbl
  have hli : d.loc o vtbl < d.cache.length := by rw [h.size]; omega
  have hlj : i < d.cache.length := by rw [h.size]; omega
  obtain ⟨cv, hcv, hcvle, hcvp⟩ := h.scan_found ho hv hk
  have hcvi : cv = i := h.at_inj hcvle hi hcvp
  subst hcvi
  have hmiss : vtbl_at o store (d.at (d.loc o vtbl)) ≠ vtbl := by
    intro e
    have := h.uniq _ _ (e.trans hk.symm) (by rw [e]; exact hv)
    exact hne (h.at_inj hi hl this.symm)
  have e : cache_descriptor.get o store d vtbl =
      (store, { d with cache := swap_slots d.cache (d.loc o vtbl) cv }, d.loc o vtbl) := by
    simp [cache_descriptor.get, hmiss, hcv]
  rw [e]
  refine ⟨rfl, ?_, ?_, ?_, fun _ => rfl, rfl, rfl, ?_⟩
  · exact swap_at d hli hlj
  · show (swap_slots d.cache (d.loc o vtbl) cv).getD cv 0 = _
    rw [swap_slots_getD _ _ _ _ hli hlj]
    simp [cache_descriptor.at]
  · intro j hj1 hj2
    show (swap_slots d.cache (d.loc o vtbl) cv).getD j 0 = _
    rw [swap_slots_getD _ _ _ _ hli hlj]
    simp [cache_descriptor.at, hj1, hj2]
  · show vtbl_at o store (cache_descriptor.at _ _) = vtbl
    rw [swap_at d hli hlj]
    exact hk

end claims2
section claims3
variable {T : Type}

theorem reachable_gets {κ σ : Type} [DecidableEq κ] [DecidableEq σ] {o : KeyOps κ σ}
    [Inhabited T] {cfg : Config} :
    ∀ (keys : List κ) (m : vtbl_map κ σ T), Reachable o cfg m →
      (∀ k ∈ keys, o.nonzero k = true) → Reachable o cfg (vtbl_map.gets o cfg m keys).1
  | [], _, h, _ => h
  | k :: ks, m, h, hk =>
    reachable_gets ks _ (Reachable.get m k h (hk k (List.mem_cons_self _ _)))
      (fun x hx => hk x (List.mem_cons_of_mem _ hx))

theorem reachable_example_map : Reachable ops1 sample_config example_map :=
  reachable_gets _ _ (Reachable.create 1 0 (by decide)) (by decide)

theorem reachable_ceiling_map : Reachable ops1 small_config ceiling_map :=
  reachable_gets _ _ (Reachable.create 1 0 (by decide)) (by decide)

/-- Witness of C6: in `example_map` the entry 0 holds `0x50`; after
`update(0x60)` a `get(0x50)` still returns entry 0. -/
theorem no_loss_on_reorganization_witness :
    (vtbl_map.get ops1 sample_config (vtbl_map.update ops1 sample_config example_map 0x60).1
      (vtbl_at ops1 example_map.store 0)).2 = 0 :=
  ((no_loss_on_reorganization sample_config).1 example_map 0x60 0 reachable_example_map
    (by decide) (by decide)).2.2.2

/-- C9 (reorganization trigger): on a miss, N = 1 or N = 2, the facade `get`
is the call `update(vtbl)` exactly when the table is full, or the entry in the
expected slot is occupied and the throttle counter less one is `≤ 0` and `used`
differs from `last_table_size`; the counter handed on is decremented, by one,
only when the table is not full and the expected slot's entry is occupied;
otherwise `get` is the call `descriptor->get(vtbl)`, with the same rule for the
counter, and `cache_mask`, the shift(s) and `last_table_size` stay. -/
theorem reorganization_trigger [Inhabited T] (cfg : Config) :
    (∀ (m : vtbl_map Nat Nat T) (vtbl : Nat),
      vtbl_at ops1 m.store (m.descriptor.at (m.descriptor.loc ops1 vtbl)) ≠ vtbl →
      ((m.descriptor.cache_mask < m.descriptor.used ∨
          (ops1.vacant (vtbl_at ops1 m.store (m.descriptor.at (m.descriptor.loc ops1 vtbl)))
              = false ∧
            m.collisions_before_update - 1 ≤ 0 ∧ m.descriptor.used ≠ m.last_table_size)) →
        vtbl_map.get ops1 cfg m vtbl =
          vtbl_map.update ops1 cfg
            { m with collisions_before_update :=
                if ¬ m.descriptor.cache_mask < m.descriptor.used ∧
                    ops1.vacant (vtbl_at ops1 m.store
                      (m.descriptor.at (m.descriptor.loc ops1 vtbl))) = false
                then m.collisions_before_update - 1 else m.collisions_before_update } vtbl) ∧
      (¬ (m.descriptor.cache_mask < m.descriptor.used ∨
          (ops1.vacant (vtbl_at ops1 m.store (m.descriptor.at (m.descriptor.loc ops1 vtbl)))
              = false ∧
            m.collisions_before_update - 1 ≤ 0 ∧ m.descriptor.used ≠ m.last_table_size)) →
        vtbl_map.get ops1 cfg m vtbl =
          ({ m with
              store := (cache_descriptor.get ops1 m.store m.descriptor vtbl).1
              descriptor := (cache_descriptor.get ops1 m.store m.descriptor vtbl).2.1
              collisions_before_update :=
                if ¬ m.descriptor.cache_mask < m.descriptor.used ∧
                    ops1.vacant (vtbl_at ops1 m.store
                      (m.descriptor.at (m.descriptor.loc ops1 vtbl))) = false
                then m.collisions_before_update - 1 else m.collisions_before_update },
           (cache_descriptor.get ops1 m.store m.descriptor vtbl).2.1.at
             (m.descriptor.loc ops1 vtbl)) ∧
        (vtbl_map.get ops1 cfg m vtbl).1.descriptor.cache_mask = m.descriptor.cache_mask ∧
        (vtbl_map.get ops1 cfg m vtbl).1.descriptor.optimal_shift =
          m.descriptor.optimal_shift ∧
        (vtbl_map.get ops1 cfg m vtbl).1.last_table_size = m.last_table_size)) ∧
    (∀ (m : vtbl_map (Nat × Nat) (Nat × Nat) T) (vtbl : (Nat × Nat)),
      vtbl_at ops2 m.store (m.descriptor.at (m.descriptor.loc ops2 vtbl)) ≠ vtbl →
      ((m.descriptor.cache_mask < m.descriptor.used ∨
          (ops2.vacant (vtbl_at ops2 m.store (m.descriptor.at (m.descriptor.loc ops2 vtbl)))
              = false ∧
            m.collisions_before_update - 1 ≤ 0 ∧ m.descriptor.used ≠ m.last_table_size)) →
        vtbl_map.get ops2 cfg m vtbl =
          vtbl_map.update ops2 cfg
            { m with collisions_before_update :=
                if ¬ m.descriptor.cache_mask < m.descriptor.used ∧
                    ops2.vacant (vtbl_at ops2 m.store
                      (m.descriptor.at (m.descriptor.loc ops2 vtbl))) = false
                then m.collisions_before_update - 1 else m.collisions_before_update } vtbl) ∧
      (¬ (m.descriptor.cache_mask < m.descriptor.used ∨
          (ops2.vacant (vtbl_at ops2 m.store (m.descriptor.at (m.descriptor.loc ops2 vtbl)))
              = false ∧
            m.collisions_before_update - 1 ≤ 0 ∧ m.descriptor.used ≠ m.last_table_size)) →
        vtbl_map.get ops2 cfg m vtbl =
          ({ m with
              store := (cache_descriptor.get ops2 m.store m.descriptor vtbl).1
              descriptor := (cache_descriptor.get ops2 m.store m.descriptor vtbl).2.1
              collisions_before_update :=
                if ¬ m.descriptor.cache_mask < m.descriptor.used ∧
                    ops2.vacant (vtbl_at ops2 m.store
                      (m.descriptor.at (m.descriptor.loc ops2 vtbl))) = false
                then m.collisions_before_update - 1 else m.collisions_before_update },
           (cache_descriptor.get ops2 m.store m.descriptor vtbl).2.1.at
             (m.descriptor.loc ops2 vtbl)) ∧
        (vtbl_map.get ops2 cfg m vtbl).1.descriptor.cache_mask = m.descriptor.cache_mask ∧
        (vtbl_map.get ops2 cfg m vtbl).1.descriptor.optimal_shift =
          m.descriptor.optimal_shift ∧
        (vtbl_map.get ops2 cfg m vtbl).1.last_table_size = m.last_table_size)) :=
  ⟨fun m vtbl h => map_get_trigger ops1 cfg m vtbl h,
   fun m vtbl h => map_get_trigger ops2 cfg m vtbl h⟩

/-- Witness of C9: the first `get(0x10)` on a new cache of two slots is a miss
on an empty entry; `update` is not called and `cache_mask` stays. -/
theorem reorganization_trigger_witness :
    (vtbl_map.get ops1 sample_config
      (vtbl_map.create ops1 sample_config 1 0 : vtbl_map Nat Nat Nat) 0x10).1.descriptor.cache_mask
      = (vtbl_map.create ops1 sample_config 1 0 : vtbl_map Nat Nat Nat).descriptor.cache_mask :=
  (((reorganization_trigger sample_config).1
    (vtbl_map.create ops1 sample_config 1 0 : vtbl_map Nat Nat Nat) 0x10 (by decide)).2
      (by decide)).2.1

/-- C10 (`cache_descriptor::get`, key present elsewhere): for every descriptor
that satisfies the representation invariant, N = 1 or N = 2, and every non-zero
key `vtbl` held by the entry of a slot `i` other than the expected slot,
`cache_descriptor::get(vtbl)` exchanges the pointers of slot `i` and of the
expected slot, changes no other slot, no key and not `used`, and returns the
expected slot, which now references the entry holding `vtbl`. -/
theorem get_key_elsewhere [Inhabited T] :
    (∀ (store : List (stored_type Nat T)) (d : cache_descriptor Nat) (vtbl : Nat) (i : Nat),
      d.Inv ops1 store → ops1.nonzero vtbl = true → i ≤ d.cache_mask → i ≠ d.loc ops1 vtbl →
      vtbl_at ops1 store (d.at i) = vtbl →
      cache_descriptor.get ops1 store d vtbl =
        (store, { d with cache := swap_slots d.cache (d.loc ops1 vtbl) i }, d.loc ops1 vtbl) ∧
      (cache_descriptor.get ops1 store d vtbl).2.1.at (d.loc ops1 vtbl) = d.at i ∧
      (cache_descriptor.get ops1 store d vtbl).2.1.at i = d.at (d.loc ops1 vtbl) ∧
      (∀ j, j ≠ i → j ≠ d.loc ops1 vtbl →
        (cache_descriptor.get ops1 store d vtbl).2.1.at j = d.at j) ∧
      (∀ p, vtbl_at ops1 (cache_descriptor.get ops1 store d vtbl).1 p = vtbl_at ops1 store p) ∧
      (cache_descriptor.get ops1 store d vtbl).2.1.used = d.used ∧
      (cache_descriptor.get ops1 store d vtbl).2.2 = d.loc ops1 vtbl ∧
      vtbl_at ops1 (cache_descriptor.get ops1 store d vtbl).1
        ((cache_descriptor.get ops1 store d vtbl).2.1.at (d.loc ops1 vtbl)) = vtbl) ∧
    (∀ (store : List (stored_type (Nat × Nat) T)) (d : cache_descriptor (Nat × Nat)) (vtbl : (Nat × Nat)) (i : Nat),
      d.Inv ops2 store → ops2.nonzero vtbl = true → i ≤ d.cache_mask → i ≠ d.loc ops2 vtbl →
      vtbl_at ops2 store (d.at i) = vtbl →
      cache_descriptor.get ops2 store d vtbl =
        (store, { d with cache := swap_slots d.cache (d.loc ops2 vtbl) i }, d.loc ops2 vtbl) ∧
      (cache_descriptor.get ops2 store d vtbl).2.1.at (d.loc ops2 vtbl) = d.at i ∧
      (cache_descriptor.get ops2 store d vtbl).2.1.at i = d.at (d.loc ops2 vtbl) ∧
      (∀ j, j ≠ i → j ≠ d.loc ops2 vtbl →
        (cache_descriptor.get ops2 store d vtbl).2.1.at j = d.at j) ∧
      (∀ p, vtbl_at ops2 (cache_descriptor.get ops2 store d vtbl).1 p = vtbl_at ops2 store p) ∧
      (cache_descriptor.get ops2 store d vtbl).2.1.used = d.used ∧
      (cache_descriptor.get ops2 store d vtbl).2.2 = d.loc ops2 vtbl ∧
      vtbl_at ops2 (cache_descriptor.get ops2 store d vtbl).1
        ((cache_descriptor.get ops2 store d vtbl).2.1.at (d.loc ops2 vtbl)) = vtbl) :=
  ⟨fun _ _ _ _ h hv hi hne hk => get_elsewhere lawful1 h hv hi hne hk,
   fun _ _ _ _ h hv hi hne hk => get_elsewhere lawful2 h hv hi hne hk⟩

/-- Witness of C10: in `example_map` the key `0x50` belongs in slot 1 and its
entry is referenced from slot 0; `cache_descriptor::get(0x50)` returns slot 1. -/
theorem get_key_elsewhere_witness :
    (cache_descriptor.get ops1 example_map.store example_map.descriptor 0x50).2.2 =
      example_map.descriptor.loc ops1 0x50 :=
  (get_key_elsewhere.1 example_map.store example_map.descriptor 0x50 0
    (reachable_inv lawful1 reachable_example_map) (by decide) (by decide) (by decide)
    (by decide)).2.2.2.2.2.2.1

end claims3
section claims4
variable {T : Type}

/-! ## Idempotence for stored keys -/

theorem map_get_idempotent {κ σ : Type} [DecidableEq κ] [DecidableEq σ] {o : KeyOps κ σ}
    [Inhabited T] (ho : o.Lawful) (cfg : Config) (m : vtbl_map κ σ T) (vtbl : κ)
    (hm : Reachable o cfg m) (hv : o.nonzero vtbl = true) (hs : m.stores o vtbl) :
    (vtbl_map.get o cfg m vtbl).1.descriptor.used = m.descriptor.used ∧
    (vtbl_at o m.store (m.descriptor.at (m.descriptor.loc o vtbl)) = vtbl →
      (vtbl_map.get o cfg m vtbl).1 = m) ∧
    (¬ m.descriptor.cache_mask < m.descriptor.used →
      ¬ (o.vacant (vtbl_at o m.store (m.descriptor.at (m.descriptor.loc o vtbl))) = false ∧
          m.collisions_before_update - 1 ≤ 0 ∧ m.descriptor.used ≠ m.last_table_size) →
      (vtbl_map.get o cfg m vtbl).1.descriptor.cache_mask = m.descriptor.cache_mask ∧
      (vtbl_map.get o cfg m vtbl).1.descriptor.optimal_shift = m.descriptor.optimal_shift) := by
  obtain ⟨p, hp⟩ := hs
  have hhit : vtbl_at o m.store (m.descriptor.at (m.descriptor.loc o vtbl)) = vtbl →
      (vtbl_map.get o cfg m vtbl).1 = m := by
    intro h
    simp [vtbl_map.get, h]
  refine ⟨(map_get_stored ho cfg (reachable_inv ho hm) hv hp).2.1, hhit, ?_⟩
  intro hf ht
  by_cases h : vtbl_at o m.store (m.descriptor.at (m.descriptor.loc o vtbl)) = vtbl
  · rw [hhit h]
    exact ⟨rfl, rfl⟩
  · have := (map_get_trigger o cfg m vtbl h).2 (by
      intro hc
      rcases hc with hc | hc
      · exact hf hc
      · exact ht hc)
    exact ⟨this.2.1, this.2.2.1⟩

/-- C7, as amended (idempotence for stored keys): for every reachable cache
state, N = 1 or N = 2, and every non-zero key that some entry holds, `get`
leaves `used` unchanged; when the entry sits in the expected slot nothing
changes at all; and when the table is not full and the throttle does not
expire, `cache_mask` and the shift(s) are unchanged. -/
theorem idempotence_for_stored_keys [Inhabited T] (cfg : Config) :
    (∀ (m : vtbl_map Nat Nat T) (vtbl : Nat), Reachable ops1 cfg m →
      ops1.nonzero vtbl = true → m.stores ops1 vtbl →
      (vtbl_map.get ops1 cfg m vtbl).1.descriptor.used = m.descriptor.used ∧
      (vtbl_at ops1 m.store (m.descriptor.at (m.descriptor.loc ops1 vtbl)) = vtbl →
        (vtbl_map.get ops1 cfg m vtbl).1 = m) ∧
      (¬ m.descriptor.cache_mask < m.descriptor.used →
        ¬ (ops1.vacant (vtbl_at ops1 m.store (m.descriptor.at (m.descriptor.loc ops1 vtbl)))
              = false ∧
            m.collisions_before_update - 1 ≤ 0 ∧ m.descriptor.used ≠ m.last_table_size) →
        (vtbl_map.get ops1 cfg m vtbl).1.descriptor.cache_mask = m.descriptor.cache_mask ∧
        (vtbl_map.get ops1 cfg m vtbl).1.descriptor.optimal_shift =
          m.descriptor.optimal_shift)) ∧
    (∀ (m : vtbl_map (Nat × Nat) (Nat × Nat) T) (vtbl : (Nat × Nat)), Reachable ops2 cfg m →
      ops2.nonzero vtbl = true → m.stores ops2 vtbl →
      (vtbl_map.get ops2 cfg m vtbl).1.descriptor.used = m.descriptor.used ∧
      (vtbl_at ops2 m.store (m.descriptor.at (m.descriptor.loc ops2 vtbl)) = vtbl →
        (vtbl_map.get ops2 cfg m vtbl).1 = m) ∧
      (¬ m.descriptor.cache_mask < m.descriptor.used →
        ¬ (ops2.vacant (vtbl_at ops2 m.store (m.descriptor.at (m.descriptor.loc ops2 vtbl)))
              = false ∧
            m.collisions_before_update - 1 ≤ 0 ∧ m.descriptor.used ≠ m.last_table_size) →
        (vtbl_map.get ops2 cfg m vtbl).1.descriptor.cache_mask = m.descriptor.cache_mask ∧
        (vtbl_map.get ops2 cfg m vtbl).1.descriptor.optimal_shift =
          m.descriptor.optimal_shift)) :=
  ⟨fun m vtbl hm hv hs => map_get_idempotent lawful1 cfg m vtbl hm hv hs,
   fun m vtbl hm hv hs => map_get_idempotent lawful2 cfg m vtbl hm hv hs⟩

/-- Witness of C7 as amended: `example_map` stores `0x30` and `get(0x30)`
leaves `used` unchanged. -/
theorem idempotence_for_stored_keys_witness :
    (vtbl_map.get ops1 sample_config example_map 0x30).1.descriptor.used =
      example_map.descriptor.used :=
  ((idempotence_for_stored_keys sample_config).1 example_map 0x30 reachable_example_map
    (by decide) ⟨1, by decide⟩).1

/-- Counterexample to C7 as stated: `example_map` is reachable and stores
`0x50`, whose entry sits in slot 0 instead of slot 1 while the table is full;
`get(0x50)` calls `update` and the table grows from 4 to 8 slots. -/
theorem idempotence_counterexample :
    Reachable ops1 sample_config example_map ∧
    vtbl_at ops1 example_map.store 0 = 0x50 ∧
    example_map.descriptor.cache_mask = 3 ∧
    (vtbl_map.get ops1 sample_config example_map 0x50).1.descriptor.cache_mask = 7 :=
  ⟨reachable_example_map, by decide, by decide, by decide⟩

/-! ## Construction -/

theorem smallest_pow2_req_bits (h : Nat) (h1 : 1 ≤ h) :
    smallest_pow2_ge (max h 2) (2 ^ req_bits (h - 1)) := by
  have hpos := req_bits_pos (h - 1)
  have hlt := lt_two_pow_req_bits (h - 1)
  have h2 : 2 ^ 1 ≤ 2 ^ req_bits (h - 1) := Nat.pow_le_pow_right (by omega) hpos
  refine ⟨⟨_, rfl⟩, ?_, ?_⟩
  · rw [Nat.max_le]
    constructor
    · omega
    · simpa using h2
  · intro j hj
    rw [Nat.max_le] at hj
    apply Nat.pow_le_pow_right (by omega)
    by_cases hh : h = 1
    · subst hh
      have : req_bits (1 - 1) = 1 := by decide
      rw [this]
      have : 2 ^ 1 ≤ 2 ^ j := by simpa using hj.2
      by_contra hc
      have : j = 0 := by omega
      subst this
      simp at hj
    · have hle := two_pow_req_bits_le (h - 1) (by omega)
      have : req_bits (h - 1) - 1 < j :=
        (Nat.pow_lt_pow_iff_right Nat.one_lt_two).1 (by omega)
      omega

theorem create_spec {κ σ : Type} [DecidableEq κ] [DecidableEq σ] (o : KeyOps κ σ)
    [Inhabited T] (cfg : Config) (expected_size lts : Nat) :
    (vtbl_map.create o cfg expected_size lts : vtbl_map κ σ T).descriptor.cache
      = List.range (2 ^ req_bits (expected_size - 1)) ∧
    (vtbl_map.create o cfg expected_size lts : vtbl_map κ σ T).descriptor.cache_mask
      = 2 ^ req_bits (expected_size - 1) - 1 ∧
    (vtbl_map.create o cfg expected_size lts : vtbl_map κ σ T).descriptor.used = 0 ∧
    (vtbl_map.create o cfg expected_size lts : vtbl_map κ σ T).descriptor.optimal_shift
      = o.fill cfg.irrelevant_bits ∧
    (vtbl_map.create o cfg expected_size lts : vtbl_map κ σ T).store
      = List.replicate (2 ^ req_bits (expected_size - 1))
          { vtbl := o.zero, value := default } := by
  have hpos := Nat.two_pow_pos (req_bits (expected_size - 1))
  have hs : 2 ^ req_bits (expected_size - 1) - 1 + 1 = 2 ^ req_bits (expected_size - 1) := by
    omega
  refine ⟨?_, rfl, rfl, rfl, ?_⟩
  · show List.map _ (List.range (2 ^ req_bits (expected_size - 1) - 1 + 1)) = _
    rw [hs]
    simp
  · show new_entries o [] _ = _
    simp [new_entries]

/-- C8, as amended (construction): for every hint `expected_size ≥ 1`, N = 1
or N = 2, the constructor yields a table of exactly `2^k` slots with
`k = req_bits(expected_size - 1)`, slot `i` referencing entry `i`; `2^k` is the
smallest power of two that is at least `max(expected_size, 2)`; `used` is 0,
the shift is `irrelevant_bits` in every dimension, and the store consists of
`2^k` entries with zero key and default value. -/
theorem construction [Inhabited T] (cfg : Config) :
    (∀ (expected_size lts : Nat), 1 ≤ expected_size →
      (vtbl_map.create ops1 cfg expected_size lts : vtbl_map Nat Nat T).descriptor.cache
        = List.range (2 ^ req_bits (expected_size - 1)) ∧
      (vtbl_map.create ops1 cfg expected_size lts : vtbl_map Nat Nat T).descriptor.cache_mask
        = 2 ^ req_bits (expected_size - 1) - 1 ∧
      smallest_pow2_ge (max expected_size 2) (2 ^ req_bits (expected_size - 1)) ∧
      (vtbl_map.create ops1 cfg expected_size lts : vtbl_map Nat Nat T).descriptor.used = 0 ∧
      (vtbl_map.create ops1 cfg expected_size lts : vtbl_map Nat Nat T).descriptor.optimal_shift
        = cfg.irrelevant_bits ∧
      (vtbl_map.create ops1 cfg expected_size lts : vtbl_map Nat Nat T).store
        = List.replicate (2 ^ req_bits (expected_size - 1))
            { vtbl := ops1.zero, value := default }) ∧
    (∀ (expected_size lts : Nat), 1 ≤ expected_size →
      (vtbl_map.create ops2 cfg expected_size lts : vtbl_map (Nat × Nat) (Nat × Nat) T).descriptor.cache
        = List.range (2 ^ req_bits (expected_size - 1)) ∧
      (vtbl_map.create ops2 cfg expected_size lts : vtbl_map (Nat × Nat) (Nat × Nat) T).descriptor.cache_mask
        = 2 ^ req_bits (expected_size - 1) - 1 ∧
      smallest_pow2_ge (max expected_size 2) (2 ^ req_bits (expected_size - 1)) ∧
      (vtbl_map.create ops2 cfg expected_size lts : vtbl_map (Nat × Nat) (Nat × Nat) T).descriptor.used = 0 ∧
      (vtbl_map.create ops2 cfg expected_size lts : vtbl_map (Nat × Nat) (Nat × Nat) T).descriptor.optimal_shift
        = (cfg.irrelevant_bits, cfg.irrelevant_bits) ∧
      (vtbl_map.create ops2 cfg expected_size lts : vtbl_map (Nat × Nat) (Nat × Nat) T).store
        = List.replicate (2 ^ req_bits (expected_size - 1))
            { vtbl := ops2.zero, value := default }) :=
  ⟨fun h lts h1 =>
    have c := create_spec (T := T) ops1 cfg h lts
    ⟨c.1, c.2.1, smallest_pow2_req_bits h h1, c.2.2.1, c.2.2.2.1, c.2.2.2.2⟩,
   fun h lts h1 =>
    have c := create_spec (T := T) ops2 cfg h lts
    ⟨c.1, c.2.1, smallest_pow2_req_bits h h1, c.2.2.1, c.2.2.2.1, c.2.2.2.2⟩⟩

/-- Witness of C8 as amended: the hint 3 gives a table of 4 slots. -/
theorem construction_witness :
    (vtbl_map.create ops1 sample_config 3 0 : vtbl_map Nat Nat Nat).descriptor.cache
      = List.range (2 ^ req_bits (3 - 1)) :=
  ((construction sample_config).1 3 0 (by decide)).1

/-- Counterexample to C8 as stated: with the hint 1 the table has 2 slots,
and 2 is not the smallest power of two that is at least 1. -/
theorem construction_counterexample :
    (vtbl_map.create ops1 sample_config 1 0 : vtbl_map Nat Nat Nat).descriptor.cache.length = 2 ∧
    ¬ smallest_pow2_ge 1
      (vtbl_map.create ops1 sample_config 1 0 : vtbl_map Nat Nat Nat).descriptor.cache.length := by
  refine ⟨by decide, ?_⟩
  intro h
  have := h.2.2 0 (by decide)
  revert this
  decide

end claims4
section claims5
variable {T : Type}

/-! ## The cache never writes a value -/

theorem map_get_first {κ σ : Type} [DecidableEq κ] [DecidableEq σ] {o : KeyOps κ σ}
    [Inhabited T] (ho : o.Lawful) (cfg : Config) (m : vtbl_map κ σ T) (vtbl : κ)
    (hm : Reachable o cfg m) (hs : ¬ m.stores o vtbl)
    (hc : ¬ m.at_ceiling cfg) :
    vtbl_at o (vtbl_map.get o cfg m vtbl).1.store (vtbl_map.get o cfg m vtbl).2 = vtbl ∧
    value_at (vtbl_map.get o cfg m vtbl).1.store (vtbl_map.get o cfg m vtbl).2
      = some default := by
  have hnew : ∀ p, vtbl_at o m.store p ≠ vtbl := fun p hp => hs ⟨p, hp⟩
  obtain ⟨hvac, hlt, _, hkeys⟩ := map_get_fresh ho cfg (reachable_inv ho hm) hnew hc
  refine ⟨by rw [hkeys]; simp, ?_⟩
  rw [map_get_value_at]
  by_cases hp : (vtbl_map.get o cfg m vtbl).2 < m.store.length
  · simp only [hp, if_true]
    exact reachable_default ho hm _ hp hvac
  · simp [hp, hlt]

/-- A `get` returns the entry that holds the key, unless the key is new and the
table is full at the ceiling. -/
theorem map_get_returns_key {κ σ : Type} [DecidableEq κ] [DecidableEq σ] {o : KeyOps κ σ}
    [Inhabited T] (ho : o.Lawful) (cfg : Config) (m : vtbl_map κ σ T) (vtbl : κ)
    (hm : Reachable o cfg m) (hv : o.nonzero vtbl = true)
    (hc : m.stores o vtbl ∨ ¬ m.at_ceiling cfg) :
    vtbl_at o (vtbl_map.get o cfg m vtbl).1.store (vtbl_map.get o cfg m vtbl).2 = vtbl := by
  by_cases hs : m.stores o vtbl
  · obtain ⟨p, hp⟩ := hs
    obtain ⟨e1, _, e3⟩ := map_get_stored ho cfg (reachable_inv ho hm) hv hp
    rw [e1, e3]
    exact hp
  · rcases hc with hc | hc
    · exact absurd hc hs
    · exact (map_get_first ho cfg m vtbl hm hs hc).1

theorem not_stores_of_keys (m : vtbl_map Nat Nat Nat) (vtbl : Nat) (hv : vtbl ≠ 0)
    (h : ∀ e ∈ m.store, e.vtbl ≠ vtbl) : ¬ m.stores ops1 vtbl := by
  rintro ⟨p, hp⟩
  unfold vtbl_at at hp
  rw [List.get?_eq_getElem?] at hp
  by_cases hlt : p < m.store.length
  · rw [List.getElem?_eq_getElem hlt] at hp
    exact h _ (List.getElem_mem hlt) hp
  · rw [List.getElem?_eq_none (Nat.le_of_not_lt hlt)] at hp
    exact hv hp.symm

/-- Evaluation for C2: `ceiling_map` is reachable and does not store `0x30`;
`get(0x30)` returns an entry whose key is `0x10`, so the assertion
`res->vtbl == vtbl` at the end of `update` fails. -/
theorem get_postcondition_fails_at_ceiling :
    Reachable ops1 small_config ceiling_map ∧
    ¬ ceiling_map.stores ops1 0x30 ∧
    vtbl_at ops1 (vtbl_map.get ops1 small_config ceiling_map 0x30).1.store
      (vtbl_map.get ops1 small_config ceiling_map 0x30).2 = 0x10 :=
  ⟨reachable_ceiling_map, not_stores_of_keys ceiling_map 0x30 (by decide) (by decide),
    by decide⟩

/-- Evaluation for C3: from the reachable `ceiling_map`, `get(0x10)` and then
`get(0x30)` return the same entry 0. -/
theorem distinct_storage_fails_at_ceiling :
    Reachable ops1 small_config ceiling_map ∧
    (vtbl_map.gets ops1 small_config ceiling_map [0x10, 0x30]).2 = [0, 0] :=
  ⟨reachable_ceiling_map, by decide⟩

/-- Evaluation for C1: on `vtbl_map<1,int>(1)` under `small_config` the calls
`get(4)`, `get(8)`, `get(12)`, `get(4)`, `get(12)` return the entries 0, 1, 1,
0, 0: the two calls `get(12)` return different entries. -/
theorem stability_fails_at_ceiling :
    (vtbl_map.gets ops1 small_config
      (vtbl_map.create ops1 small_config 1 0 : vtbl_map Nat Nat Nat) [4, 8, 12, 4, 12]).2
      = [0, 1, 1, 0, 0] := by
  decide

end claims5
section ceiling
variable {κ σ T : Type} [DecidableEq κ] [DecidableEq σ]

theorem search1_offsets_le (keys : List Nat) (vtbl used i U : Nat) (hi : i ≤ U) :
    ∀ (js : List Nat) (e : estimate Nat), e.no ≤ U →
      (search1_offsets keys vtbl used i js e).1.no ≤ U
  | [], e, h => by simpa [search1_offsets] using h
  | j :: js, e, h => by
    unfold search1_offsets
    simp only
    have he : (if entries1 keys vtbl i j > e.max_cache_entries then
        ({ max_cache_entries := entries1 keys vtbl i j, no := i, zo := j } : estimate Nat)
        else e).no ≤ U := by
      split <;> simp [hi, h]
    split
    · exact he
    · exact search1_offsets_le keys vtbl used i U hi js _ he

theorem search1_sizes_le (keys : List Nat) (vtbl used m z U : Nat) :
    ∀ (is : List Nat) (e : estimate Nat), (∀ i ∈ is, i ≤ U) → e.no ≤ U →
      (search1_sizes keys vtbl used m z is e).no ≤ U
  | [], e, _, h => by simpa [search1_sizes] using h
  | i :: is, e, hall, h => by
    unfold search1_sizes
    simp only
    have hi : i ≤ U := hall i (List.mem_cons_self _ _)
    have he := search1_offsets_le keys vtbl used i U hi (List.range' z (m + 1 - i - z)) e h
    split
    · exact he
    · exact search1_sizes_le keys vtbl used m z U is _
        (fun x hx => hall x (List.mem_cons_of_mem _ hx)) he

/-- The search of `vtbl_map<1,T>::update` never returns a log size above the
ceiling `max_log_size`. -/
theorem search1_le (cfg : Config) (cache_mask used : Nat) (keys : List Nat) (vtbl : Nat) :
    (search1 cfg cache_mask used keys vtbl).1 ≤ cfg.max_log_size := by
  unfold search1
  simp only
  apply search1_sizes_le
  · intro i hi
    have := (List.mem_range'_1.1 hi)
    have h2 : min cfg.max_log_size (max (req_bits cache_mask) (req_bits used + cfg.max_log_inc))
        ≤ cfg.max_log_size := min_le_left _ _
    omega
  · exact min_le_left _ _

/-- At the ceiling `update` cannot make room: when the table is full, its log
size has reached `max_log_size`, the search stays below the ceiling and no
entry holds the key, `get` returns an entry that holds another key. -/
theorem map_get_at_ceiling {o : KeyOps κ σ} [Inhabited T] (ho : o.Lawful) (cfg : Config)
    (hsearch : ∀ cache_mask used keys vtbl,
      (o.search cfg cache_mask used keys vtbl).1 ≤ cfg.max_log_size)
    (m : vtbl_map κ σ T) (vtbl : κ) (hm : Reachable o cfg m)
    (hs : ¬ m.stores o vtbl) (hc : m.at_ceiling cfg) :
    vtbl_at o (vtbl_map.get o cfg m vtbl).1.store (vtbl_map.get o cfg m vtbl).2 ≠ vtbl := by
  have hi := reachable_inv ho hm
  have hnew : ∀ p, vtbl_at o m.store p ≠ vtbl := fun p hp => hs ⟨p, hp⟩
  have hnew2 : ∀ p, vtbl_at o (vtbl_map.update_descriptor o cfg m vtbl).1 p ≠ vtbl := by
    intro p; rw [update_descriptor_vtbl_at]; exact hnew p
  have hfull : (vtbl_map.update_descriptor o cfg m vtbl).2.cache_mask <
      (vtbl_map.update_descriptor o cfg m vtbl).2.used := by
    rw [update_descriptor_used]
    rcases update_descriptor_cases o cfg m vtbl with e | ⟨ls, zo, hk, _, e, hle⟩
    · rw [e]; exact hc.1
    · have hno := hsearch m.descriptor.cache_mask m.descriptor.used
        ((List.range (m.descriptor.cache_mask + 1)).map
          (fun i => vtbl_at o m.store (m.descriptor.at i))) vtbl
      have h2 := hc.2
      have hls : ls = req_bits m.descriptor.cache_mask := by
        have := max_le (le_refl (req_bits m.descriptor.cache_mask)) (le_trans hno h2)
        omega
      rw [e, transplant_eq]
      show 2 ^ ls - 1 < _
      rw [hls, ← hi.size_eq_two_pow]
      have := hc.1
      omega
  rcases map_get_cases o cfg m vtbl with ⟨hk, _⟩ | ⟨_, e⟩ | ⟨_, hu, c, e⟩
  · exact absurd hk (hnew _)
  · rw [e]
    show vtbl_at o (cache_descriptor.get o _ _ vtbl).1 _ ≠ vtbl
    rw [get_stuck _ _ hnew2 hfull]
    exact hnew2 _
  · have := hc.1
    omega

/-- At the ceiling, N = 1: in every reachable state with a full table whose
log size has reached `max_log_size`, the `get` of a key that no entry holds
returns an entry holding another key, whatever the value of the constants. -/
theorem map_get_at_ceiling1 [Inhabited T] (cfg : Config) (m : vtbl_map Nat Nat T) (vtbl : Nat)
    (hm : Reachable ops1 cfg m) (hs : ¬ m.stores ops1 vtbl) (hc : m.at_ceiling cfg) :
    vtbl_at ops1 (vtbl_map.get ops1 cfg m vtbl).1.store (vtbl_map.get ops1 cfg m vtbl).2
      ≠ vtbl :=
  map_get_at_ceiling lawful1 cfg (fun a b c d => search1_le cfg a b c d) m vtbl hm hs hc

end ceiling
section claims6
variable {T : Type}

/-! ## `cache_descriptor::get`, key absent -/

theorem get_absent_room {κ σ : Type} [DecidableEq κ] [DecidableEq σ] {o : KeyOps κ σ}
    (ho : o.Lawful) {store : List (stored_type κ T)} {d : cache_descriptor σ}
    (h : d.Inv o store) {vtbl : κ} (hnew : ∀ p, vtbl_at o store p ≠ vtbl)
    (hu : d.used ≤ d.cache_mask) :
    ∃ cv, cv ≤ d.cache_mask ∧ o.vacant (vtbl_at o store (d.at cv)) = true ∧
      (∀ j, j < cv → o.vacant (vtbl_at o store (d.at j)) = false) ∧
      cache_descriptor.get o store d vtbl =
        (set_vtbl store (d.at cv) vtbl,
         { d with used := d.used + 1, cache := swap_slots d.cache (d.loc o vtbl) cv },
         d.loc o vtbl) ∧
      (∀ q, vtbl_at o (cache_descriptor.get o store d vtbl).1 q =
        if q = d.at cv then vtbl else vtbl_at o store q) ∧
      (∀ q, value_at (cache_descriptor.get o store d vtbl).1 q = value_at store q) ∧
      (cache_descriptor.get o store d vtbl).2.1.at (d.loc o vtbl) = d.at cv ∧
      (cache_descriptor.get o store d vtbl).2.1.at cv = d.at (d.loc o vtbl) ∧
      (∀ j, j ≠ cv → j ≠ d.loc o vtbl →
        (cache_descriptor.get o store d vtbl).2.1.at j = d.at j) := by
  have hl := loc_le ho d vtbl
  have hli : d.loc o vtbl < d.cache.length := by rw [h.size]; omega
  rcases get_cases o store d vtbl with
    ⟨hk, _⟩ | ⟨_, cv, hcv, _⟩ | ⟨_, hs, _, cv, hcv, e⟩ | ⟨_, hs, hf, e⟩
  · exact absurd hk (hnew _)
  · have := (first_slot_some hcv).2.1
    exact absurd (by simpa using this) (hnew _)
  · have hc := first_slot_some hcv
    have hlj : cv < d.cache.length := by rw [h.size]; omega
    refine ⟨cv, hc.1, hc.2.1, ?_, e, ?_, fun q => get_value_at o store d vtbl q, ?_, ?_, ?_⟩
    · intro j hj
      have := hc.2.2 j hj
      simpa using this
    · intro q
      rw [e]
      exact vtbl_at_set_vtbl o store _ _ _ (h.at_lt hc.1)
    · rw [e]; exact swap_at _ hli hlj
    · rw [e]
      show (swap_slots d.cache (d.loc o vtbl) cv).getD cv 0 = _
      rw [swap_slots_getD _ _ _ _ hli hlj]
      simp [cache_descriptor.at]
    · intro j hj1 hj2
      rw [e]
      show (swap_slots d.cache (d.loc o vtbl) cv).getD j 0 = _
      rw [swap_slots_getD _ _ _ _ hli hlj]
      simp [cache_descriptor.at, hj1, hj2]
  · rcases hf with hf | hf
    · omega
    · obtain ⟨cv, hcv⟩ := h.scan_vacant (o := o) hu
      rw [hf] at hcv
      cases hcv

/-- C11 (`cache_descriptor::get`, key absent and room left): for every
descriptor that satisfies the representation invariant, N = 1 or N = 2, in which
no entry holds `vtbl` and `used <= cache_mask`, there is a first slot `cv` whose
entry tests empty; `get` writes `vtbl` into that entry, increases `used` by one,
exchanges the pointers of slot `cv` and of the expected slot, and changes no
other slot, no other key and no value. -/
theorem get_key_absent_room :
    (∀ (store : List (stored_type Nat T)) (d : cache_descriptor Nat) (vtbl : Nat),
      d.Inv ops1 store → (∀ p, vtbl_at ops1 store p ≠ vtbl) → d.used ≤ d.cache_mask →
      ∃ cv, cv ≤ d.cache_mask ∧ ops1.vacant (vtbl_at ops1 store (d.at cv)) = true ∧
        (∀ j, j < cv → ops1.vacant (vtbl_at ops1 store (d.at j)) = false) ∧
        cache_descriptor.get ops1 store d vtbl =
          (set_vtbl store (d.at cv) vtbl,
           { d with used := d.used + 1, cache := swap_slots d.cache (d.loc ops1 vtbl) cv },
           d.loc ops1 vtbl) ∧
        (∀ q, vtbl_at ops1 (cache_descriptor.get ops1 store d vtbl).1 q =
          if q = d.at cv then vtbl else vtbl_at ops1 store q) ∧
        (∀ q, value_at (cache_descriptor.get ops1 store d vtbl).1 q = value_at store q) ∧
        (cache_descriptor.get ops1 store d vtbl).2.1.at (d.loc ops1 vtbl) = d.at cv ∧
        (cache_descriptor.get ops1 store d vtbl).2.1.at cv = d.at (d.loc ops1 vtbl) ∧
        (∀ j, j ≠ cv → j ≠ d.loc ops1 vtbl →
          (cache_descriptor.get ops1 store d vtbl).2.1.at j = d.at j)) ∧
    (∀ (store : List (stored_type (Nat × Nat) T)) (d : cache_descriptor (Nat × Nat)) (vtbl : (Nat × Nat)),
      d.Inv ops2 store → (∀ p, vtbl_at ops2 store p ≠ vtbl) → d.used ≤ d.cache_mask →
      ∃ cv, cv ≤ d.cache_mask ∧ ops2.vacant (vtbl_at ops2 store (d.at cv)) = true ∧
        (∀ j, j < cv → ops2.vacant (vtbl_at ops2 store (d.at j)) = false) ∧
        cache_descriptor.get ops2 store d vtbl =
          (set_vtbl store (d.at cv) vtbl,
           { d with used := d.used + 1, cache := swap_slots d.cache (d.loc ops2 vtbl) cv },
           d.loc ops2 vtbl) ∧
        (∀ q, vtbl_at ops2 (cache_descriptor.get ops2 store d vtbl).1 q =
          if q = d.at cv then vtbl else vtbl_at ops2 store q) ∧
        (∀ q, value_at (cache_descriptor.get ops2 store d vtbl).1 q = value_at store q) ∧
        (cache_descriptor.get ops2 store d vtbl).2.1.at (d.loc ops2 vtbl) = d.at cv ∧
        (cache_descriptor.get ops2 store d vtbl).2.1.at cv = d.at (d.loc ops2 vtbl) ∧
        (∀ j, j ≠ cv → j ≠ d.loc ops2 vtbl →
          (cache_descriptor.get ops2 store d vtbl).2.1.at j = d.at j)) :=
  ⟨fun _ _ _ h hnew hu => get_absent_room lawful1 h hnew hu,
   fun _ _ _ h hnew hu => get_absent_room lawful2 h hnew hu⟩

theorem reachable_fresh_map : Reachable ops1 sample_config fresh_map :=
  Reachable.create 1 0 (by decide)

theorem absent_of_keys (store : List (stored_type Nat T)) (vtbl : Nat) (hv : vtbl ≠ 0)
    (h : ∀ e ∈ store, e.vtbl ≠ vtbl) : ∀ p, vtbl_at ops1 store p ≠ vtbl := by
  intro p hp
  unfold vtbl_at at hp
  rw [List.get?_eq_getElem?] at hp
  by_cases hlt : p < store.length
  · rw [List.getElem?_eq_getElem hlt] at hp
    exact h _ (List.getElem_mem hlt) hp
  · rw [List.getElem?_eq_none (Nat.le_of_not_lt hlt)] at hp
    exact hv hp.symm

/-- Witness of C11: in the new cache `fresh_map` no entry holds `0x10` and the
table is not full; `cache_descriptor::get(0x10)` claims an entry. -/
theorem get_key_absent_room_witness :
    ∃ cv, cv ≤ fresh_map.descriptor.cache_mask ∧
      (cache_descriptor.get ops1 fresh_map.store fresh_map.descriptor 0x10).2.1.at
        (fresh_map.descriptor.loc ops1 0x10) = fresh_map.descriptor.at cv := by
  obtain ⟨cv, h1, _, _, _, _, _, h7, _⟩ :=
    get_key_absent_room.1 fresh_map.store fresh_map.descriptor 0x10
      (reachable_inv lawful1 reachable_fresh_map)
      (absent_of_keys _ 0x10 (by decide) (by decide)) (by decide)
  exact ⟨cv, h1, h7⟩

theorem get_absent_full {κ σ : Type} [DecidableEq κ] [DecidableEq σ] (o : KeyOps κ σ)
    (store : List (stored_type κ T)) (d : cache_descriptor σ) (vtbl : κ)
    (hu : d.cache_mask < d.used) (hnew : ∀ p, vtbl_at o store p ≠ vtbl) :
    cache_descriptor.get o store d vtbl = (store, d, d.loc o vtbl) ∧
    vtbl_at o (cache_descriptor.get o store d vtbl).1
      ((cache_descriptor.get o store d vtbl).2.1.at
        (cache_descriptor.get o store d vtbl).2.2) ≠ vtbl := by
  have e := get_stuck store d hnew hu
  refine ⟨e, ?_⟩
  rw [e]
  exact hnew _

/-- C12 (`cache_descriptor::get`, table full and key absent): for every
descriptor with `used > cache_mask`, N = 1 or N = 2, in which no entry holds
`vtbl`, `get` returns the store and the descriptor unchanged together with the
expected slot, whose entry holds a key different from `vtbl`; nothing else
tells the caller that the key was not placed. -/
theorem get_key_absent_full :
    (∀ (store : List (stored_type Nat T)) (d : cache_descriptor Nat) (vtbl : Nat),
      d.cache_mask < d.used → (∀ p, vtbl_at ops1 store p ≠ vtbl) →
      cache_descriptor.get ops1 store d vtbl = (store, d, d.loc ops1 vtbl) ∧
      vtbl_at ops1 (cache_descriptor.get ops1 store d vtbl).1
        ((cache_descriptor.get ops1 store d vtbl).2.1.at
          (cache_descriptor.get ops1 store d vtbl).2.2) ≠ vtbl) ∧
    (∀ (store : List (stored_type (Nat × Nat) T)) (d : cache_descriptor (Nat × Nat)) (vtbl : (Nat × Nat)),
      d.cache_mask < d.used → (∀ p, vtbl_at ops2 store p ≠ vtbl) →
      cache_descriptor.get ops2 store d vtbl = (store, d, d.loc ops2 vtbl) ∧
      vtbl_at ops2 (cache_descriptor.get ops2 store d vtbl).1
        ((cache_descriptor.get ops2 store d vtbl).2.1.at
          (cache_descriptor.get ops2 store d vtbl).2.2) ≠ vtbl) :=
  ⟨fun store d vtbl hu hnew => get_absent_full ops1 store d vtbl hu hnew,
   fun store d vtbl hu hnew => get_absent_full ops2 store d vtbl hu hnew⟩

/-- Witness of C12: the table of `ceiling_map` is full and no entry holds
`0x30`; `cache_descriptor::get(0x30)` changes nothing. -/
theorem get_key_absent_full_witness :
    cache_descriptor.get ops1 ceiling_map.store ceiling_map.descriptor 0x30 =
      (ceiling_map.store, ceiling_map.descriptor, ceiling_map.descriptor.loc ops1 0x30) :=
  (get_key_absent_full.1 ceiling_map.store ceiling_map.descriptor 0x30 (by decide)
    (absent_of_keys _ 0x30 (by decide) (by decide))).1

/-! ## The second constructor -/

/-- C20: after every call `update(vtbl)`, N = 1 or N = 2,
`collisions_before_update` is `renewed_collisions_before_update` and
`last_table_size` is `used` of the live descriptor, which is the descriptor as
the final `descriptor->get(vtbl)` left it. -/
theorem update_resets_throttle [Inhabited T] (cfg : Config) :
    (∀ (m : vtbl_map Nat Nat T) (vtbl : Nat),
      (vtbl_map.update ops1 cfg m vtbl).1.collisions_before_update
        = cfg.renewed_collisions_before_update ∧
      (vtbl_map.update ops1 cfg m vtbl).1.last_table_size
        = (vtbl_map.update ops1 cfg m vtbl).1.descriptor.used ∧
      (vtbl_map.update ops1 cfg m vtbl).1.descriptor
        = (cache_descriptor.get ops1 (vtbl_map.update_descriptor ops1 cfg m vtbl).1
            (vtbl_map.update_descriptor ops1 cfg m vtbl).2 vtbl).2.1) ∧
    (∀ (m : vtbl_map (Nat × Nat) (Nat × Nat) T) (vtbl : (Nat × Nat)),
      (vtbl_map.update ops2 cfg m vtbl).1.collisions_before_update
        = cfg.renewed_collisions_before_update ∧
      (vtbl_map.update ops2 cfg m vtbl).1.last_table_size
        = (vtbl_map.update ops2 cfg m vtbl).1.descriptor.used ∧
      (vtbl_map.update ops2 cfg m vtbl).1.descriptor
        = (cache_descriptor.get ops2 (vtbl_map.update_descriptor ops2 cfg m vtbl).1
            (vtbl_map.update_descriptor ops2 cfg m vtbl).2 vtbl).2.1) :=
  ⟨fun _ _ => ⟨rfl, rfl, rfl⟩, fun _ _ => ⟨rfl, rfl, rfl⟩⟩

end claims6
section claims7
variable {T : Type}

/-! ## The slot of a key -/

theorem loc_in_bounds {κ σ : Type} [DecidableEq κ] [DecidableEq σ] {o : KeyOps κ σ}
    [Inhabited T] (ho : o.Lawful) (cfg : Config) (m : vtbl_map κ σ T) (vtbl : κ)
    (hm : Reachable o cfg m) :
    m.descriptor.cache.length = 2 ^ req_bits m.descriptor.cache_mask ∧
    m.descriptor.loc o vtbl < m.descriptor.cache.length := by
  have hi := reachable_inv ho hm
  have hl := loc_le ho m.descriptor vtbl
  refine ⟨by rw [hi.size, hi.size_eq_two_pow], ?_⟩
  rw [hi.size]
  omega

/-- C13 (`index_of`): for N = 1 the slot `operator[]` designates, on which the
facade `get` decides a hit, and the slot `cache_descriptor::get` inspects and
returns are both `(vtbl >> optimal_shift) & cache_mask`; for N = 2 the slot is
`interleave(vtbl0 >> optimal_shift[0], vtbl1 >> optimal_shift[1]) & cache_mask`;
for N = 1 and N = 2 and every key the slot index is below `cache_mask + 1`, and
in every reachable state the index array has `cache_mask + 1 = 2^k` slots, so
that the slot is inside the array. -/
theorem index_of_in_bounds [Inhabited T] (cfg : Config) :
    ((∀ (d : cache_descriptor Nat) (vtbl : Nat),
        d.loc ops1 vtbl = (vtbl >>> d.optimal_shift) &&& d.cache_mask) ∧
      (∀ (store : List (stored_type Nat T)) (d : cache_descriptor Nat) (vtbl : Nat),
        (cache_descriptor.get ops1 store d vtbl).2.2
          = (vtbl >>> d.optimal_shift) &&& d.cache_mask) ∧
      (∀ (m : vtbl_map Nat Nat T) (vtbl : Nat),
        vtbl_at ops1 m.store
          (m.descriptor.at ((vtbl >>> m.descriptor.optimal_shift) &&& m.descriptor.cache_mask))
            = vtbl →
        vtbl_map.get ops1 cfg m vtbl =
          (m, m.descriptor.at
            ((vtbl >>> m.descriptor.optimal_shift) &&& m.descriptor.cache_mask))) ∧
      (∀ (d : cache_descriptor Nat) (vtbl : Nat), d.loc ops1 vtbl < d.cache_mask + 1) ∧
      (∀ (m : vtbl_map Nat Nat T) (vtbl : Nat), Reachable ops1 cfg m →
        m.descriptor.cache.length = 2 ^ req_bits m.descriptor.cache_mask ∧
        m.descriptor.loc ops1 vtbl < m.descriptor.cache.length)) ∧
    ((∀ (d : cache_descriptor (Nat × Nat)) (vtbl : Nat × Nat),
        d.loc ops2 vtbl =
          interleave (vtbl.1 >>> d.optimal_shift.1) (vtbl.2 >>> d.optimal_shift.2)
            &&& d.cache_mask) ∧
      (∀ (store : List (stored_type (Nat × Nat) T)) (d : cache_descriptor (Nat × Nat))
          (vtbl : Nat × Nat),
        (cache_descriptor.get ops2 store d vtbl).2.2 = d.loc ops2 vtbl) ∧
      (∀ (d : cache_descriptor (Nat × Nat)) (vtbl : Nat × Nat),
        d.loc ops2 vtbl < d.cache_mask + 1) ∧
      (∀ (m : vtbl_map (Nat × Nat) (Nat × Nat) T) (vtbl : Nat × Nat), Reachable ops2 cfg m →
        m.descriptor.cache.length = 2 ^ req_bits m.descriptor.cache_mask ∧
        m.descriptor.loc ops2 vtbl < m.descriptor.cache.length)) :=
  ⟨⟨fun _ _ => rfl,
    fun store d vtbl => get_slot ops1 store d vtbl,
    fun m vtbl h => (map_get_cases ops1 cfg m vtbl).elim (fun c => c.2)
      (fun c => c.elim (fun c => absurd h c.1) (fun c => absurd h c.1)),
    fun d vtbl => Nat.lt_succ_of_le (loc_le lawful1 d vtbl),
    fun m vtbl hm => loc_in_bounds lawful1 cfg m vtbl hm⟩,
   ⟨fun _ _ => rfl,
    fun store d vtbl => get_slot ops2 store d vtbl,
    fun d vtbl => Nat.lt_succ_of_le (loc_le lawful2 d vtbl),
    fun m vtbl hm => loc_in_bounds lawful2 cfg m vtbl hm⟩⟩

/-- Witness of C13: in the reachable `example_map` the slot of `0x50` is
inside the index array. -/
theorem index_of_in_bounds_witness :
    example_map.descriptor.loc ops1 0x50 < example_map.descriptor.cache.length :=
  ((index_of_in_bounds sample_config).1.2.2.2.2 example_map 0x50 reachable_example_map).2

end claims7
section differing_bits

theorem diff1_fold (b : Nat) :
    ∀ (keys : List Nat) (a : Nat × Nat) (S : List Nat), a.2 ∈ S →
      (a.1.testBit b = true ↔ ∃ x ∈ S, x.testBit b ≠ a.2.testBit b) →
      ((keys.foldl (fun (a : Nat × Nat) v => if v ≠ 0 then (a.1 ||| (a.2 ^^^ v), v) else a)
          a).1.testBit b = true ↔
        ∃ x ∈ S ++ keys.filter (fun v => decide (v ≠ 0)),
          x.testBit b ≠ (keys.foldl
            (fun (a : Nat × Nat) v => if v ≠ 0 then (a.1 ||| (a.2 ^^^ v), v) else a)
            a).2.testBit b) ∧
      (keys.foldl (fun (a : Nat × Nat) v => if v ≠ 0 then (a.1 ||| (a.2 ^^^ v), v) else a)
          a).2 ∈ S ++ keys.filter (fun v => decide (v ≠ 0))
  | [], a, S, hmem, h => by simpa using ⟨h, hmem⟩
  | v :: keys, a, S, hmem, h => by
    by_cases hv : v = 0
    · subst hv
      simpa using diff1_fold b keys a S hmem h
    · have hstep : ((a.1 ||| (a.2 ^^^ v), v) : Nat × Nat).1.testBit b = true ↔
          ∃ x ∈ S ++ [v], x.testBit b ≠ ((a.1 ||| (a.2 ^^^ v), v) : Nat × Nat).2.testBit b := by
        simp only [Nat.testBit_or, Nat.testBit_xor, Bool.or_eq_true, List.mem_append,
          List.mem_singleton]
        constructor
        · rintro (h1 | h1)
          · obtain ⟨x, hx, hne⟩ := h.1 h1
            by_cases e : a.2.testBit b = v.testBit b
            · exact ⟨x, Or.inl hx, by rw [← e]; exact hne⟩
            · exact ⟨a.2, Or.inl hmem, e⟩
          · refine ⟨a.2, Or.inl hmem, ?_⟩
            intro e
            rw [e] at h1
            simp at h1
        · rintro ⟨x, hx | hx, hne⟩
          · by_cases e : a.2.testBit b = v.testBit b
            · left
              exact h.2 ⟨x, hx, by rw [e]; exact hne⟩
            · right
              revert e
              cases a.2.testBit b <;> cases v.testBit b <;> simp
          · exact absurd (by rw [hx]) hne
      have ih := diff1_fold b keys (a.1 ||| (a.2 ^^^ v), v) (S ++ [v]) (by simp) hstep
      simpa [hv, List.filter_cons, List.append_assoc] using ih

/-- Bit `b` of `diff` is set exactly when two of the keys compared, the new one
and the non-zero stored ones, differ in bit `b`. -/
theorem diff1_testBit (keys : List Nat) (vtbl b : Nat) :
    (diff1 keys vtbl).testBit b = true ↔
      ∃ x ∈ vtbl :: keys.filter (fun v => decide (v ≠ 0)),
        ∃ y ∈ vtbl :: keys.filter (fun v => decide (v ≠ 0)), x.testBit b ≠ y.testBit b := by
  have h := diff1_fold b keys (0, vtbl) [vtbl] (by simp) (by simp)
  unfold diff1
  simp only [List.singleton_append] at h
  rw [h.1]
  constructor
  · rintro ⟨x, hx, hne⟩
    exact ⟨x, hx, _, h.2, hne⟩
  · rintro ⟨x, hx, y, hy, hne⟩
    by_cases e : x.testBit b = (keys.foldl
        (fun (a : Nat × Nat) v => if v ≠ 0 then (a.1 ||| (a.2 ^^^ v), v) else a)
        (0, vtbl)).2.testBit b
    · refine ⟨y, hy, ?_⟩
      rw [← e]
      exact fun e2 => hne e2.symm
    · exact ⟨x, hx, e⟩

theorem diff1_eq_zero (keys : List Nat) (vtbl : Nat) :
    diff1 keys vtbl = 0 ↔ ∀ x ∈ keys.filter (fun v => decide (v ≠ 0)), x = vtbl := by
  constructor
  · intro h x hx
    apply Nat.eq_of_testBit_eq
    intro b
    by_contra hne
    have := (diff1_testBit keys vtbl b).2
      ⟨x, List.mem_cons_of_mem _ hx, vtbl, List.mem_cons_self _ _, hne⟩
    rw [h, Nat.zero_testBit] at this
    cases this
  · intro h
    apply Nat.eq_of_testBit_eq
    intro b
    rw [Nat.zero_testBit]
    by_contra hb
    have hb' : (diff1 keys vtbl).testBit b = true := by
      cases hx : (diff1 keys vtbl).testBit b with
      | true => rfl
      | false => exact absurd hx hb
    obtain ⟨x, hx, y, hy, hne⟩ := (diff1_testBit keys vtbl b).1 hb'
    have ex : x = vtbl := by
      rcases List.mem_cons.1 hx with e | e
      · exact e
      · exact h x e
    have ey : y = vtbl := by
      rcases List.mem_cons.1 hy with e | e
      · exact e
      · exact h y e
    rw [ex, ey] at hne
    exact hne rfl

end differing_bits
section claims8

theorem diff1_map_testBit (f : Nat × Nat → Nat) (keys : List (Nat × Nat)) (vtbl : Nat × Nat)
    (b : Nat) :
    (diff1 (keys.map f) (f vtbl)).testBit b = true ↔
      ∃ x ∈ vtbl :: keys.filter (fun k => decide (f k ≠ 0)),
        ∃ y ∈ vtbl :: keys.filter (fun k => decide (f k ≠ 0)),
          (f x).testBit b ≠ (f y).testBit b := by
  rw [diff1_testBit, List.filter_map]
  have e : f vtbl :: List.map f (List.filter ((fun v => decide (v ≠ 0)) ∘ f) keys) =
      List.map f (vtbl :: keys.filter (fun k => decide (f k ≠ 0))) := rfl
  rw [e]
  constructor
  · rintro ⟨x, hx, y, hy, hne⟩
    obtain ⟨kx, hkx, rfl⟩ := List.mem_map.1 hx
    obtain ⟨ky, hky, rfl⟩ := List.mem_map.1 hy
    exact ⟨kx, hkx, ky, hky, hne⟩
  · rintro ⟨kx, hkx, ky, hky, hne⟩
    exact ⟨f kx, List.mem_map.2 ⟨kx, hkx, rfl⟩, f ky, List.mem_map.2 ⟨ky, hky, rfl⟩, hne⟩

theorem diff1_map_eq_zero (f : Nat × Nat → Nat) (keys : List (Nat × Nat)) (vtbl : Nat × Nat) :
    diff1 (keys.map f) (f vtbl) = 0 ↔
      ∀ x ∈ keys.filter (fun k => decide (f k ≠ 0)), f x = f vtbl := by
  rw [diff1_eq_zero, List.filter_map]
  constructor
  · intro h x hx
    exact h (f x) (List.mem_map.2 ⟨x, hx, rfl⟩)
  · intro h x hx
    obtain ⟨k, hk, rfl⟩ := List.mem_map.1 hx
    exact h k hk

theorem stored_filter_fst (keys : List (Nat × Nat)) :
    keys.filter (fun k => decide (k.1 ≠ 0)) = keys.filter (fun k => !ops2.vacant k) := by
  apply List.filter_congr
  intro k _
  by_cases e : k.1 = 0 <;> simp [ops2, e]

theorem stored_filter_snd (keys : List (Nat × Nat)) (h : ∀ k ∈ keys, (k.1 = 0 ↔ k.2 = 0)) :
    keys.filter (fun k => decide (k.2 ≠ 0)) = keys.filter (fun k => !ops2.vacant k) := by
  apply List.filter_congr
  intro k hk
  have := h k hk
  by_cases e : k.1 = 0
  · simp [ops2, e, this.1 e]
  · have e2 : k.2 ≠ 0 := fun c => e (this.2 c)
    simp [ops2, e, e2]

/-- C16 (differing-bits mask): `update` computes `diff` from the new key
`vtbl` and the keys `keys` it reads from the entries in slot order.  For N = 1,
bit `b` of `diff` is set exactly when two keys among `vtbl` and the non-zero
keys of `keys` differ in bit `b`, and `diff = 0` exactly when all of them equal
`vtbl`.  For N = 2, when every key read has both components zero or both
non-zero, the same holds in each dimension for `diff[0]` and `diff[1]` over the
new pair and the occupied pairs. -/
theorem differing_bits_mask :
    (∀ (keys : List Nat) (vtbl b : Nat),
      ((diff1 keys vtbl).testBit b = true ↔
        ∃ x ∈ vtbl :: keys.filter (fun v => decide (v ≠ 0)),
          ∃ y ∈ vtbl :: keys.filter (fun v => decide (v ≠ 0)),
            x.testBit b ≠ y.testBit b)) ∧
    (∀ (keys : List Nat) (vtbl : Nat),
      (diff1 keys vtbl = 0 ↔ ∀ x ∈ keys.filter (fun v => decide (v ≠ 0)), x = vtbl)) ∧
    (∀ (keys : List (Nat × Nat)) (vtbl : Nat × Nat) (b : Nat),
      (∀ k ∈ keys, (k.1 = 0 ↔ k.2 = 0)) →
      ((diff2 keys vtbl).1.testBit b = true ↔
        ∃ x ∈ vtbl :: keys.filter (fun k => !ops2.vacant k),
          ∃ y ∈ vtbl :: keys.filter (fun k => !ops2.vacant k),
            x.1.testBit b ≠ y.1.testBit b) ∧
      ((diff2 keys vtbl).2.testBit b = true ↔
        ∃ x ∈ vtbl :: keys.filter (fun k => !ops2.vacant k),
          ∃ y ∈ vtbl :: keys.filter (fun k => !ops2.vacant k),
            x.2.testBit b ≠ y.2.testBit b) ∧
      ((diff2 keys vtbl).1 = 0 ↔
        ∀ x ∈ keys.filter (fun k => !ops2.vacant k), x.1 = vtbl.1) ∧
      ((diff2 keys vtbl).2 = 0 ↔
        ∀ x ∈ keys.filter (fun k => !ops2.vacant k), x.2 = vtbl.2)) := by
  refine ⟨diff1_testBit, diff1_eq_zero, ?_⟩
  intro keys vtbl b h
  have e1 := stored_filter_fst keys
  have e2 := stored_filter_snd keys h
  refine ⟨?_, ?_, ?_, ?_⟩
  · rw [← e1]; exact diff1_map_testBit Prod.fst keys vtbl b
  · rw [← e2]; exact diff1_map_testBit Prod.snd keys vtbl b
  · rw [← e1]; exact diff1_map_eq_zero Prod.fst keys vtbl
  · rw [← e2]; exact diff1_map_eq_zero Prod.snd keys vtbl

/-- Witness of C16, N = 2: for the stored pairs `(0x100, 0x200)` and an empty
entry and the new pair `(0x100, 0x300)`, `diff[0]` is zero exactly when all
first components agree. -/
theorem differing_bits_mask_witness :
    (diff2 [(0x100, 0x200), (0, 0)] (0x100, 0x300)).1 = 0 ↔
      ∀ x ∈ [(0x100, 0x200), (0, 0)].filter (fun k => !ops2.vacant k),
        x.1 = ((0x100, 0x300) : Nat × Nat).1 :=
  (differing_bits_mask.2.2 [(0x100, 0x200), (0, 0)] (0x100, 0x300) 0 (by decide)).2.2.1

end claims8
section predecessor

theorem getD_set (l : List Nat) (i j a : Nat) :
    (l.set i a).getD j 0 = if i = j ∧ i < l.length then a else l.getD j 0 := by
  simp only [List.getD_eq_getElem?_getD, List.getElem?_set]
  by_cases h : i = j
  · subst h
    by_cases h2 : i < l.length
    · simp [h2]
    · simp [h2, List.getElem?_eq_none (Nat.le_of_not_lt h2)]
  · simp [h]

theorem transplant_loop_spec : ∀ (n s : Nat) (cache old : List Nat),
    s + n ≤ cache.length → s + n ≤ old.length →
    (transplant_loop (List.range' s n) cache old).1.length = cache.length ∧
    (transplant_loop (List.range' s n) cache old).2.length = old.length ∧
    (∀ i, (transplant_loop (List.range' s n) cache old).1.getD i 0 =
      if s ≤ i ∧ i < s + n then old.getD i 0 else cache.getD i 0) ∧
    (∀ i, (transplant_loop (List.range' s n) cache old).2.getD i 0 =
      if s ≤ i ∧ i < s + n then 0 else old.getD i 0)
  | 0, s, cache, old, _, _ => by
    have hn : ∀ i, ¬ (s ≤ i ∧ i < s) := by intro i; omega
    simp [transplant_loop, hn]
  | n + 1, s, cache, old, hc, ho => by
    have ih := transplant_loop_spec n (s + 1)
      ((cache.set s 0).set s (old.getD s 0)) (old.set s ((cache.set s 0).getD s 0))
      (by simp; omega) (by simp; omega)
    have hz : (cache.set s 0).getD s 0 = 0 := by
      rw [getD_set]
      have : s < cache.length := by omega
      simp [this]
    rw [hz] at ih
    have e : transplant_loop (List.range' s (n + 1)) cache old =
        transplant_loop (List.range' (s + 1) n) ((cache.set s 0).set s (old.getD s 0))
          (old.set s 0) := by
      rw [List.range'_succ]
      simp only [transplant_loop, hz]
    rw [e]
    obtain ⟨l1, l2, g1, g2⟩ := ih
    refine ⟨by simpa using l1, by simpa using l2, ?_, ?_⟩
    · intro i
      rw [g1, getD_set, getD_set, getD_set]
      by_cases h1 : s + 1 ≤ i ∧ i < s + 1 + n
      · have : s ≠ i := by omega
        have h2 : s ≤ i ∧ i < s + (n + 1) := by omega
        simp [h1, h2, this]
      · by_cases h3 : s = i
        · subst h3
          have h2 : s ≤ s ∧ s < s + (n + 1) := by omega
          have h4 : s < cache.length := by omega
          simp [h2, h4]
        · have h2 : ¬ (s ≤ i ∧ i < s + (n + 1)) := by omega
          simp [h1, h2, h3]
    · intro i
      rw [g2, getD_set]
      by_cases h1 : s + 1 ≤ i ∧ i < s + 1 + n
      · have h2 : s ≤ i ∧ i < s + (n + 1) := by omega
        simp [h1, h2]
      · by_cases h3 : s = i
        · subst h3
          have h2 : s ≤ s ∧ s < s + (n + 1) := by omega
          have h4 : s < old.length := by omega
          simp [h2, h4]
        · have h2 : ¬ (s ≤ i ∧ i < s + (n + 1)) := by omega
          simp [h1, h2, h3]

/-- After the first loop of the second constructor every slot of the
predecessor's array is null and the new array holds the predecessor's
pointers, slot for slot. -/
theorem transplant_loop_moves (cache old : List Nat) (h : old.length ≤ cache.length) :
    (transplant_loop (List.range old.length) cache old).2 = List.replicate old.length 0 ∧
    ∀ i, i < old.length →
      (transplant_loop (List.range old.length) cache old).1.getD i 0 = old.getD i 0 := by
  have hs := transplant_loop_spec old.length 0 cache old (by omega) (by omega)
  rw [← List.range_eq_range'] at hs
  obtain ⟨_, l2, g1, g2⟩ := hs
  constructor
  · rw [List.eq_replicate_iff]
    refine ⟨l2, ?_⟩
    intro b hb
    obtain ⟨i, hi, e⟩ := List.getElem_of_mem hb
    have := g2 i
    rw [List.getD_eq_getElem _ _ hi, e] at this
    rw [l2] at hi
    simpa [hi] using this
  · intro i hi
    rw [g1]
    simp [hi]

theorem destroy_loop_null (sizeof cache_mask : Nat) (cache : List Nat)
    (h : ∀ i, cache.getD i 0 = 0) :
    ∀ (fuel i : Nat), destroy_loop sizeof cache_mask cache fuel i = []
  | 0, _ => rfl
  | fuel + 1, i => by
    unfold destroy_loop
    simp only [h, ne_eq, not_true_eq_false, if_false]
    split
    · exact destroy_loop_null sizeof cache_mask cache h fuel (i + 1)
    · rfl

/-- The destructor of a descriptor whose slots are all null passes nothing to
`delete[]`. -/
theorem destroy_null (sizeof cache_mask n : Nat) :
    destroy sizeof cache_mask (List.replicate n 0) = [] := by
  unfold destroy
  apply destroy_loop_null
  intro i
  have hp := List.perm_insertionSort (fun a b : Nat => a ≤ b) (List.replicate n 0)
  by_cases hi : i < (List.insertionSort (fun a b : Nat => a ≤ b) (List.replicate n 0)).length
  · rw [List.getD_eq_getElem _ _ hi]
    have hm := (hp.mem_iff).1 (List.getElem_mem hi)
    exact (List.mem_replicate.1 hm).2
  · rw [List.getD_eq_getElem?_getD, List.getElem?_eq_none (Nat.le_of_not_lt hi)]
    rfl

end predecessor
section claims9
variable {T : Type}

theorem predecessor_empty {κ σ : Type} [DecidableEq κ] [DecidableEq σ] {o : KeyOps κ σ}
    [Inhabited T] (ho : o.Lawful) (cfg : Config) (m : vtbl_map κ σ T) (vtbl : κ)
    (addr : Nat → Nat) (raw : List Nat) (sizeof : Nat) (hm : Reachable o cfg m)
    (hraw : m.descriptor.cache_mask + 1 ≤ raw.length) :
    (transplant_loop (List.range (m.descriptor.cache_mask + 1)) raw
        (m.descriptor.cache.map addr)).2
      = List.replicate (m.descriptor.cache_mask + 1) 0 ∧
    destroy sizeof m.descriptor.cache_mask
        (transplant_loop (List.range (m.descriptor.cache_mask + 1)) raw
          (m.descriptor.cache.map addr)).2
      = [] ∧
    (∀ i, i ≤ m.descriptor.cache_mask →
      (transplant_loop (List.range (m.descriptor.cache_mask + 1)) raw
          (m.descriptor.cache.map addr)).1.getD i 0
        = addr ((vtbl_map.update_descriptor o cfg m vtbl).2.at i)) ∧
    (∀ p, p < m.store.length →
      p < (vtbl_map.update_descriptor o cfg m vtbl).1.length ∧
      vtbl_at o (vtbl_map.update_descriptor o cfg m vtbl).1 p = vtbl_at o m.store p ∧
      value_at (vtbl_map.update_descriptor o cfg m vtbl).1 p = value_at m.store p ∧
      ∃ i, i ≤ (vtbl_map.update_descriptor o cfg m vtbl).2.cache_mask ∧
        (vtbl_map.update_descriptor o cfg m vtbl).2.at i = p) := by
  have hi := reachable_inv ho hm
  have hlen : (m.descriptor.cache.map addr).length = m.descriptor.cache_mask + 1 := by
    rw [List.length_map, hi.size]
  have hmv := transplant_loop_moves raw (m.descriptor.cache.map addr) (by rw [hlen]; exact hraw)
  rw [hlen] at hmv
  refine ⟨hmv.1, ?_, ?_, ?_⟩
  · rw [hmv.1]
    exact destroy_null sizeof _ _
  · intro i hle
    rw [hmv.2 i (by omega), update_descriptor_at cfg hi vtbl hle]
    have hlt : i < m.descriptor.cache.length := by rw [hi.size]; omega
    simp [cache_descriptor.at, List.getD_eq_getElem?_getD, List.getElem?_eq_getElem hlt]
  · intro p hp
    have hl := update_descriptor_length o cfg m vtbl
    refine ⟨by omega, update_descriptor_vtbl_at o cfg m vtbl p, ?_, ?_⟩
    · rw [update_descriptor_value_at]
      simp [hp]
    · exact (update_descriptor_inv ho cfg hi vtbl).slot_of (by omega)

/-- C15: when `update`, called in a reachable state (N = 1 or N = 2), builds
the new descriptor from the old one, the first loop of the constructor leaves a
null pointer in every slot of the predecessor's array, so that the
predecessor's destructor passes nothing to `delete[]`; the new array holds in
its first slots the addresses of the entries the predecessor referenced, and
every entry that existed before is still in the store with its key and value
and is referenced by a slot of the new descriptor.  Here `addr` gives the
machine address of each entry, `raw` is the uninitialised new array and
`sizeof` is `sizeof(stored_type)`. -/
theorem predecessor_left_empty [Inhabited T] (cfg : Config) :
    (∀ (m : vtbl_map Nat Nat T) (vtbl : Nat) (addr : Nat → Nat) (raw : List Nat)
        (sizeof : Nat),
      Reachable ops1 cfg m → m.descriptor.cache_mask + 1 ≤ raw.length →
      (transplant_loop (List.range (m.descriptor.cache_mask + 1)) raw
          (m.descriptor.cache.map addr)).2
        = List.replicate (m.descriptor.cache_mask + 1) 0 ∧
      destroy sizeof m.descriptor.cache_mask
          (transplant_loop (List.range (m.descriptor.cache_mask + 1)) raw
            (m.descriptor.cache.map addr)).2
        = [] ∧
      (∀ i, i ≤ m.descriptor.cache_mask →
        (transplant_loop (List.range (m.descriptor.cache_mask + 1)) raw
            (m.descriptor.cache.map addr)).1.getD i 0
          = addr ((vtbl_map.update_descriptor ops1 cfg m vtbl).2.at i)) ∧
      (∀ p, p < m.store.length →
        p < (vtbl_map.update_descriptor ops1 cfg m vtbl).1.length ∧
        vtbl_at ops1 (vtbl_map.update_descriptor ops1 cfg m vtbl).1 p = vtbl_at ops1 m.store p ∧
        value_at (vtbl_map.update_descriptor ops1 cfg m vtbl).1 p = value_at m.store p ∧
        ∃ i, i ≤ (vtbl_map.update_descriptor ops1 cfg m vtbl).2.cache_mask ∧
          (vtbl_map.update_descriptor ops1 cfg m vtbl).2.at i = p)) ∧
    (∀ (m : vtbl_map (Nat × Nat) (Nat × Nat) T) (vtbl : (Nat × Nat)) (addr : Nat → Nat) (raw : List Nat)
        (sizeof : Nat),
      Reachable ops2 cfg m → m.descriptor.cache_mask + 1 ≤ raw.length →
      (transplant_loop (List.range (m.descriptor.cache_mask + 1)) raw
          (m.descriptor.cache.map addr)).2
        = List.replicate (m.descriptor.cache_mask + 1) 0 ∧
      destroy sizeof m.descriptor.cache_mask
          (transplant_loop (List.range (m.descriptor.cache_mask + 1)) raw
            (m.descriptor.cache.map addr)).2
        = [] ∧
      (∀ i, i ≤ m.descriptor.cache_mask →
        (transplant_loop (List.range (m.descriptor.cache_mask + 1)) raw
            (m.descriptor.cache.map addr)).1.getD i 0
          = addr ((vtbl_map.update_descriptor ops2 cfg m vtbl).2.at i)) ∧
      (∀ p, p < m.store.length →
        p < (vtbl_map.update_descriptor ops2 cfg m vtbl).1.length ∧
        vtbl_at ops2 (vtbl_map.update_descriptor ops2 cfg m vtbl).1 p = vtbl_at ops2 m.store p ∧
        value_at (vtbl_map.update_descriptor ops2 cfg m vtbl).1 p = value_at m.store p ∧
        ∃ i, i ≤ (vtbl_map.update_descriptor ops2 cfg m vtbl).2.cache_mask ∧
          (vtbl_map.update_descriptor ops2 cfg m vtbl).2.at i = p)) :=
  ⟨fun m vtbl addr raw sizeof hm hraw => predecessor_empty lawful1 cfg m vtbl addr raw sizeof hm hraw,
   fun m vtbl addr raw sizeof hm hraw => predecessor_empty lawful2 cfg m vtbl addr raw sizeof hm hraw⟩

/-- Witness of C15: for `example_map`, whose four entries are placed 16 bytes
apart from address 1000, the destructor of the predecessor deletes nothing. -/
theorem predecessor_left_empty_witness :
    destroy 16 example_map.descriptor.cache_mask
        (transplant_loop (List.range (example_map.descriptor.cache_mask + 1))
          (List.replicate 8 0)
          (example_map.descriptor.cache.map (fun p => 1000 + 16 * p))).2
      = [] :=
  ((predecessor_left_empty sample_config).1 example_map 0x60 (fun p => 1000 + 16 * p)
    (List.replicate 8 0) 16 reachable_example_map (by decide)).2.1

end claims9
section population_count

theorem bits_set_aux_eq : ∀ (f v n : Nat), v ≤ f → v < 2 ^ n →
    bits_set_aux f v = (List.range n).countP (fun b => v.testBit b)
  | 0, v, n, h, _ => by
    have : v = 0 := by omega
    subst this
    simp [bits_set_aux, List.countP_eq_zero]
  | f + 1, v, n, h, hn => by
    unfold bits_set_aux
    by_cases hv : v = 0
    · subst hv
      simp [List.countP_eq_zero]
    · simp only [hv, if_false]
      cases n with
      | zero => simp at hn; omega
      | succ n =>
        have ih := bits_set_aux_eq f (v / 2) n (by omega) (by rw [Nat.pow_succ] at hn; omega)
        rw [ih, List.range_succ_eq_map, List.countP_cons, List.countP_map, Nat.testBit_zero]
        have e : ((fun b => v.testBit b) ∘ Nat.succ) = (fun b => (v / 2).testBit b) := by
          funext b
          simp [Nat.testBit_succ]
        rw [e]
        rcases Nat.mod_two_eq_zero_or_one v with h0 | h1
        · simp [h0]
        · simp [h1]; omega

/-- The helper `bits_set` counts the bit positions that are set. -/
theorem bits_set_eq_countP (v n : Nat) (h : v < 2 ^ n) :
    bits_set v = (List.range n).countP (fun b => v.testBit b) :=
  bits_set_aux_eq v v n (le_refl _) h

theorem testBit_bit_set (hist pos b : Nat) :
    (bit_set hist pos).testBit b = (hist.testBit b || decide (pos = b)) := by
  unfold bit_set
  rw [Nat.testBit_or, Nat.one_shiftLeft, Nat.testBit_two_pow]

theorem testBit_marks : ∀ (L : List Nat) (h0 b : Nat),
    (L.foldl bit_set h0).testBit b = (h0.testBit b || decide (b ∈ L))
  | [], h0, b => by simp
  | p :: L, h0, b => by
    rw [List.foldl_cons, testBit_marks L, testBit_bit_set]
    by_cases e : p = b
    · simp [e]
    · have e2 : ¬ b = p := fun c => e c.symm
      simp [e, e2]

theorem countP_mem_range (L : List Nat) (N : Nat) (h : ∀ x ∈ L, x < N) :
    (List.range N).countP (fun b => decide (b ∈ L)) = L.dedup.length := by
  rw [List.countP_eq_length_filter]
  apply List.Perm.length_eq
  rw [List.perm_ext_iff_of_nodup ((List.nodup_range N).filter _) (List.nodup_dedup L)]
  intro a
  simp only [List.mem_filter, List.mem_range, decide_eq_true_eq, List.mem_dedup]
  constructor
  · exact fun h2 => h2.2
  · exact fun h2 => ⟨h a h2, h2⟩

/-- Marking the positions of a list in a cleared histogram and counting the
bits set gives the number of distinct positions. -/
theorem bits_set_marks (L : List Nat) (N : Nat) (h : ∀ x ∈ L, x < N) :
    bits_set (L.foldl bit_set 0) = L.dedup.length := by
  have hlt : L.foldl bit_set 0 < 2 ^ N := by
    apply Nat.lt_pow_two_of_testBit
    intro i hi
    rw [testBit_marks, Nat.zero_testBit]
    have : i ∉ L := fun c => by have := h i c; omega
    simp [this]
  rw [bits_set_eq_countP _ N hlt, ← countP_mem_range L N h]
  congr 1
  funext b
  rw [testBit_marks, Nat.zero_testBit]
  simp

theorem foldl_marks {α : Type} (P : α → Prop) [DecidablePred P] (slot : α → Nat) :
    ∀ (keys : List α) (h0 : Nat),
      keys.foldl (fun hist v => if P v then bit_set hist (slot v) else hist) h0 =
        ((keys.filter (fun v => decide (P v))).map slot).foldl bit_set h0
  | [], h0 => rfl
  | v :: keys, h0 => by
    by_cases hv : P v
    · simp [hv, List.filter_cons, foldl_marks P slot keys]
    · simp [hv, List.filter_cons, foldl_marks P slot keys]

end population_count
section search_optimal

theorem best_so_far_step {σ : Type} (score : Nat × σ → Nat) (e0 : estimate σ)
    (h0 : e0.max_cache_entries = 0) (e : estimate σ)
    (seen : List (Nat × σ)) (i : Nat) (j : σ) (h : best_so_far score e0 e seen)
    (hpos : 1 ≤ score (i, j)) :
    best_so_far score e0
      (if score (i, j) > e.max_cache_entries then
        { max_cache_entries := score (i, j), no := i, zo := j } else e)
      (seen ++ [(i, j)]) := by
  obtain ⟨h1, h2, h3⟩ := h
  by_cases hs : score (i, j) > e.max_cache_entries
  · simp only [hs, if_true]
    refine ⟨?_, by simp, fun _ => ⟨rfl, seen, [], rfl, ?_⟩⟩
    · intro x hx
      rcases List.mem_append.1 hx with hx | hx
      · exact le_of_lt (lt_of_le_of_lt (h1 x hx) hs)
      · rw [List.mem_singleton.1 hx]
    · intro x hx
      exact lt_of_le_of_lt (h1 x hx) hs
  · simp only [hs, if_false]
    have hne : seen ≠ [] := by
      intro c
      rw [h2 c] at hs
      omega
    obtain ⟨e1, before, after, e2, e3⟩ := h3 hne
    refine ⟨?_, by simp, fun _ => ⟨e1, before, after ++ [(i, j)], ?_, e3⟩⟩
    · intro x hx
      rcases List.mem_append.1 hx with hx | hx
      · exact h1 x hx
      · rw [List.mem_singleton.1 hx]
        omega
    · rw [e2]
      simp

theorem best_so_far_done {σ : Type} (score : Nat × σ → Nat) (e0 : estimate σ)
    (h0 : e0.max_cache_entries = 0) (e : estimate σ)
    (seen rest : List (Nat × σ)) (B : Nat) (h : best_so_far score e0 e seen)
    (hB : B ≤ e.max_cache_entries) (h1 : 1 ≤ B) (hrest : ∀ x ∈ rest, score x ≤ B) :
    best_so_far score e0 e (seen ++ rest) := by
  obtain ⟨a1, a2, a3⟩ := h
  have hne : seen ≠ [] := by
    intro c
    rw [a2 c] at hB
    omega
  obtain ⟨e1, before, after, e2, e3⟩ := a3 hne
  refine ⟨?_, ?_, fun _ => ⟨e1, before, after ++ rest, ?_, e3⟩⟩
  · intro x hx
    rcases List.mem_append.1 hx with hx | hx
    · exact a1 x hx
    · exact le_trans (hrest x hx) hB
  · intro c
    exact absurd (List.append_eq_nil.1 c).1 hne
  · rw [e2]
    simp

theorem first_maximum_of_best {σ : Type} (score : Nat × σ → Nat) (e0 e : estimate σ)
    (cands : List (Nat × σ)) (h : best_so_far score e0 e cands) (hne : cands ≠ []) :
    first_maximum score cands (e.no, e.zo) := by
  obtain ⟨a1, _, a3⟩ := h
  obtain ⟨e1, before, after, e2, e3⟩ := a3 hne
  refine ⟨before, after, e2, ?_, ?_⟩
  · intro x hx
    rw [e1]
    exact e3 x hx
  · intro x hx
    rw [e1]
    apply a1
    rw [e2]
    simp [hx]

theorem first_maximum_mem {α : Type} (score : α → Nat) (cands : List α) (c : α)
    (h : first_maximum score cands c) : c ∈ cands := by
  obtain ⟨before, after, e, _, _⟩ := h
  rw [e]
  simp

theorem first_maximum_ge {α : Type} (score : α → Nat) (cands : List α) (c : α)
    (h : first_maximum score cands c) : ∀ x ∈ cands, score x ≤ score c := by
  obtain ⟨before, after, e, h1, h2⟩ := h
  intro x hx
  rw [e] at hx
  rcases List.mem_append.1 hx with hx | hx
  · exact le_of_lt (h1 x hx)
  · rcases List.mem_cons.1 hx with hx | hx
    · rw [hx]
    · exact h2 x hx

theorem distinct_slots_pos {κ σ : Type} (o : KeyOps κ σ) (keys : List κ) (vtbl : κ) (i : Nat)
    (j : σ) : 1 ≤ distinct_slots o keys vtbl i j := by
  unfold distinct_slots
  apply List.length_pos_of_mem (a := o.slot j (2 ^ i - 1) vtbl)
  rw [List.mem_dedup]
  simp

theorem distinct_slots_le {κ σ : Type} (o : KeyOps κ σ) (keys : List κ) (vtbl : κ) (i : Nat)
    (j : σ) (used : Nat) (h : keys.countP (fun v => !o.vacant v) ≤ used) :
    distinct_slots o keys vtbl i j ≤ used + 1 := by
  unfold distinct_slots
  have := (List.dedup_sublist ((vtbl :: keys.filter (fun v => !o.vacant v)).map
    (o.slot j (2 ^ i - 1)))).length_le
  rw [List.countP_eq_length_filter] at h
  simp only [List.length_map, List.length_cons] at this
  omega

theorem filter_occupied1 (keys : List Nat) :
    keys.filter (fun v => decide (v ≠ 0)) = keys.filter (fun v => !ops1.vacant v) := by
  apply List.filter_congr
  intro x _
  by_cases e : x = 0 <;> simp [ops1, e]

theorem filter_occupied2 (keys : List (Nat × Nat)) :
    keys.filter (fun v => decide (v.1 ≠ 0)) = keys.filter (fun v => !ops2.vacant v) := by
  apply List.filter_congr
  intro x _
  by_cases e : x.1 = 0 <;> simp [ops2, e]

/-- The count of the loop body, N = 1, is the number of distinct slots. -/
theorem entries1_eq (keys : List Nat) (vtbl i j : Nat) :
    entries1 keys vtbl i j = distinct_slots ops1 keys vtbl i j := by
  unfold entries1 distinct_slots
  simp only
  rw [foldl_marks (fun v => v ≠ 0) (fun v => (v >>> j) &&& (2 ^ i - 1)) keys,
    ← filter_occupied1]
  have e : (List.map (fun v => (v >>> j) &&& (2 ^ i - 1))
        (List.filter (fun v => decide (v ≠ 0)) keys)).foldl bit_set
        (bit_set 0 ((vtbl >>> j) &&& (2 ^ i - 1))) =
      ((vtbl :: keys.filter (fun v => decide (v ≠ 0))).map
        (ops1.slot j (2 ^ i - 1))).foldl bit_set 0 := rfl
  rw [e]
  apply bits_set_marks _ (2 ^ i - 1 + 1)
  intro x hx
  obtain ⟨v, _, rfl⟩ := List.mem_map.1 hx
  exact Nat.lt_succ_of_le (lawful1.slot_le _ _ _)

theorem search1_offsets_best (keys : List Nat) (vtbl used i : Nat)
    (hB : keys.countP (fun v => !ops1.vacant v) ≤ used) (e0 : estimate Nat)
    (h0 : e0.max_cache_entries = 0) :
    ∀ (js : List Nat) (e : estimate Nat) (seen : List (Nat × Nat)),
      best_so_far (fun c => distinct_slots ops1 keys vtbl c.1 c.2) e0 e seen →
      best_so_far (fun c => distinct_slots ops1 keys vtbl c.1 c.2) e0
        (search1_offsets keys vtbl used i js e).1 (seen ++ js.map (fun j => (i, j))) ∧
      ((search1_offsets keys vtbl used i js e).2 = true →
        used + 1 ≤ (search1_offsets keys vtbl used i js e).1.max_cache_entries)
  | [], e, seen, h => by simpa [search1_offsets] using h
  | j :: js, e, seen, h => by
    have hstep := best_so_far_step (fun c => distinct_slots ops1 keys vtbl c.1 c.2) e0 h0 e seen
      i j h (distinct_slots_pos ops1 keys vtbl i j)
    unfold search1_offsets
    simp only [entries1_eq]
    simp only at hstep
    have hmax : distinct_slots ops1 keys vtbl i j ≤
        (if distinct_slots ops1 keys vtbl i j > e.max_cache_entries then
          ({ max_cache_entries := distinct_slots ops1 keys vtbl i j, no := i, zo := j } :
            estimate Nat) else e).max_cache_entries := by
      split
      · exact le_refl _
      · omega
    have hl : seen ++ List.map (fun j => (i, j)) (j :: js) =
        (seen ++ [(i, j)]) ++ List.map (fun j => (i, j)) js := by simp
    rw [hl]
    by_cases hp : distinct_slots ops1 keys vtbl i j = used + 1
    · simp only [hp, if_true]
      rw [hp] at hstep hmax
      refine ⟨?_, fun _ => hmax⟩
      apply best_so_far_done _ e0 h0 _ _ _ (used + 1) hstep hmax (by omega)
      intro x _
      exact distinct_slots_le ops1 keys vtbl x.1 x.2 used hB
    · simp only [hp, if_false]
      exact search1_offsets_best keys vtbl used i hB e0 h0 js _ _ hstep

theorem search1_sizes_best (keys : List Nat) (vtbl used m z : Nat)
    (hB : keys.countP (fun v => !ops1.vacant v) ≤ used) (e0 : estimate Nat)
    (h0 : e0.max_cache_entries = 0) :
    ∀ (is : List Nat) (e : estimate Nat) (seen : List (Nat × Nat)),
      best_so_far (fun c => distinct_slots ops1 keys vtbl c.1 c.2) e0 e seen →
      best_so_far (fun c => distinct_slots ops1 keys vtbl c.1 c.2) e0
        (search1_sizes keys vtbl used m z is e)
        (seen ++ is.flatMap
          (fun i => (List.range' z (m + 1 - i - z)).map (fun j => (i, j))))
  | [], e, seen, h => by simpa [search1_sizes] using h
  | i :: is, e, seen, h => by
    have ho := search1_offsets_best keys vtbl used i hB e0 h0
      (List.range' z (m + 1 - i - z)) e seen h
    unfold search1_sizes
    simp only
    have hl : seen ++ (i :: is).flatMap
          (fun i => (List.range' z (m + 1 - i - z)).map (fun j => (i, j))) =
        (seen ++ (List.range' z (m + 1 - i - z)).map (fun j => (i, j))) ++
          is.flatMap (fun i => (List.range' z (m + 1 - i - z)).map (fun j => (i, j))) := by
      simp [List.flatMap_cons]
    rw [hl]
    by_cases hb : (search1_offsets keys vtbl used i (List.range' z (m + 1 - i - z)) e).2 = true
    · simp only [hb, if_true]
      apply best_so_far_done _ e0 h0 _ _ _ (used + 1) ho.1 (ho.2 hb) (by omega)
      intro x _
      exact distinct_slots_le ops1 keys vtbl x.1 x.2 used hB
    · simp only [hb, if_false]
      exact search1_sizes_best keys vtbl used m z hB e0 h0 is _ _ ho.1

/-- The estimate the search of `vtbl_map<1,T>::update` ends with is the best of
its whole range. -/
theorem search1_best (cfg : Config) (cache_mask used : Nat) (keys : List Nat)
    (vtbl : Nat) (hB : keys.countP (fun v => !ops1.vacant v) ≤ used) :
    ∃ e : estimate Nat, search1 cfg cache_mask used keys vtbl = (e.no, e.zo) ∧
      best_so_far (fun c => distinct_slots ops1 keys vtbl c.1 c.2)
        { max_cache_entries := 0
          no := min cfg.max_log_size (max (req_bits cache_mask) (req_bits used))
          zo := trailing_zeros (diff1 keys vtbl % 2 ^ 32) } e
        (candidates1
          (min cfg.max_log_size (max (req_bits cache_mask) (req_bits used)))
          (min cfg.max_log_size (max (req_bits cache_mask) (req_bits used + cfg.max_log_inc)))
          (trailing_zeros (diff1 keys vtbl % 2 ^ 32)) (req_bits (diff1 keys vtbl))) := by
  have h := search1_sizes_best keys vtbl used (req_bits (diff1 keys vtbl))
    (trailing_zeros (diff1 keys vtbl % 2 ^ 32)) hB
    { max_cache_entries := 0
      no := min cfg.max_log_size (max (req_bits cache_mask) (req_bits used))
      zo := trailing_zeros (diff1 keys vtbl % 2 ^ 32) } rfl
    (List.range' (min cfg.max_log_size (max (req_bits cache_mask) (req_bits used)))
      (min cfg.max_log_size (max (req_bits cache_mask) (req_bits used + cfg.max_log_inc)) + 1 -
        min cfg.max_log_size (max (req_bits cache_mask) (req_bits used))))
    { max_cache_entries := 0
      no := min cfg.max_log_size (max (req_bits cache_mask) (req_bits used))
      zo := trailing_zeros (diff1 keys vtbl % 2 ^ 32) } []
    ⟨by simp, fun _ => rfl, fun c => absurd rfl c⟩
  rw [List.nil_append] at h
  exact ⟨_, rfl, h⟩

theorem mem_candidates1 (l1 l2 z m i j : Nat) :
    (i, j) ∈ candidates1 l1 l2 z m ↔ (l1 ≤ i ∧ i ≤ l2) ∧ z ≤ j ∧ j + i ≤ m := by
  unfold candidates1
  simp only [List.mem_flatMap, List.mem_map, List.mem_range'_1, Prod.mk.injEq]
  constructor
  · rintro ⟨a, ⟨h1, h2⟩, b, ⟨h3, h4⟩, rfl, rfl⟩
    omega
  · rintro ⟨⟨h1, h2⟩, h3, h4⟩
    exact ⟨i, ⟨h1, by omega⟩, j, ⟨h3, by omega⟩, rfl, rfl⟩

/-- The log size the search of `vtbl_map<1,T>::update` returns lies in `[l1, l2]`. -/
theorem search1_le_l2 (cfg : Config) (cache_mask used : Nat) (keys : List Nat)
    (vtbl : Nat) (hB : keys.countP (fun v => !ops1.vacant v) ≤ used) :
    (search1 cfg cache_mask used keys vtbl).1 ≤
      min cfg.max_log_size (max (req_bits cache_mask) (req_bits used + cfg.max_log_inc)) := by
  obtain ⟨e, he, hb⟩ := search1_best cfg cache_mask used keys vtbl hB
  rw [he]
  by_cases hne : candidates1
      (min cfg.max_log_size (max (req_bits cache_mask) (req_bits used)))
      (min cfg.max_log_size (max (req_bits cache_mask) (req_bits used + cfg.max_log_inc)))
      (trailing_zeros (diff1 keys vtbl % 2 ^ 32)) (req_bits (diff1 keys vtbl)) = []
  · rw [hb.2.1 hne]
    show min _ _ ≤ min _ _
    simp only [Nat.le_min, Nat.min_le_left, true_and]
    exact le_trans (Nat.min_le_right _ _) (max_le_max (le_refl _) (Nat.le_add_right _ _))
  · have hm := first_maximum_mem _ _ _ (first_maximum_of_best _ _ _ _ hb hne)
    exact ((mem_candidates1 _ _ _ _ _ _).1 hm).1.2

end search_optimal
section search_optimal2

/-- The count of the innermost loop body, N = 2, under any mask, is the number of
distinct slots. -/
theorem entries2_eq_mask (keys : List (Nat × Nat)) (vtbl : Nat × Nat) (mask j0 j1 : Nat) :
    entries2 keys vtbl mask j0 j1 =
      ((vtbl :: keys.filter (fun v => !ops2.vacant v)).map
        (ops2.slot (j0, j1) mask)).dedup.length := by
  unfold entries2
  rw [foldl_marks (fun (v : Nat × Nat) => v.1 ≠ 0)
    (fun v => interleave (v.1 >>> j0) (v.2 >>> j1) &&& mask) keys, ← filter_occupied2]
  have e : (List.map (fun (v : Nat × Nat) => interleave (v.1 >>> j0) (v.2 >>> j1) &&& mask)
        (List.filter (fun v => decide (v.1 ≠ 0)) keys)).foldl bit_set
        (bit_set 0 (interleave (vtbl.1 >>> j0) (vtbl.2 >>> j1) &&& mask)) =
      ((vtbl :: keys.filter (fun v => decide (v.1 ≠ 0))).map
        (ops2.slot (j0, j1) mask)).foldl bit_set 0 := rfl
  rw [e]
  apply bits_set_marks _ (mask + 1)
  intro x hx
  obtain ⟨v, _, rfl⟩ := List.mem_map.1 hx
  exact Nat.lt_succ_of_le (lawful2.slot_le _ _ _)

theorem entries2_eq (keys : List (Nat × Nat)) (vtbl : Nat × Nat) (i j0 j1 : Nat) :
    entries2 keys vtbl (2 ^ i - 1) j0 j1 = distinct_slots ops2 keys vtbl i (j0, j1) :=
  entries2_eq_mask keys vtbl (2 ^ i - 1) j0 j1

theorem entries2_le (keys : List (Nat × Nat)) (vtbl : Nat × Nat) (mask j0 j1 used : Nat)
    (h : keys.countP (fun v => !ops2.vacant v) ≤ used) :
    entries2 keys vtbl mask j0 j1 ≤ used + 1 := by
  rw [entries2_eq_mask]
  have := (List.dedup_sublist ((vtbl :: keys.filter (fun v => !ops2.vacant v)).map
    (ops2.slot (j0, j1) mask))).length_le
  rw [List.countP_eq_length_filter] at h
  simp only [List.length_map, List.length_cons] at this
  omega

/-- Once a perfect placement was found the innermost loop changes nothing. -/
theorem search2_offsets1_done (keys : List (Nat × Nat)) (vtbl : Nat × Nat)
    (used i cache_mask j0 : Nat) (hB : keys.countP (fun v => !ops2.vacant v) ≤ used) :
    ∀ (js : List Nat) (e : estimate (Nat × Nat)), used + 1 ≤ e.max_cache_entries →
      (search2_offsets1 keys vtbl used i cache_mask j0 js e).1 = e
  | [], e, _ => rfl
  | j1 :: js, e, h => by
    have hle := entries2_le keys vtbl cache_mask j0 j1 used hB
    unfold search2_offsets1
    have hn : ¬ entries2 keys vtbl cache_mask j0 j1 > e.max_cache_entries := by omega
    simp only [hn, if_false]
    split
    · rfl
    · exact search2_offsets1_done keys vtbl used i cache_mask j0 hB js e h

theorem search2_offsets1_best (keys : List (Nat × Nat)) (vtbl : Nat × Nat) (used i j0 : Nat)
    (hB : keys.countP (fun v => !ops2.vacant v) ≤ used)  (e0 : estimate (Nat × Nat))
    (h0 : e0.max_cache_entries = 0):
    ∀ (js : List Nat) (e : estimate (Nat × Nat)) (seen : List (Nat × (Nat × Nat))),
      best_so_far (fun c => distinct_slots ops2 keys vtbl c.1 c.2) e0 e seen →
      best_so_far (fun c => distinct_slots ops2 keys vtbl c.1 c.2) e0
        (search2_offsets1 keys vtbl used i (2 ^ i - 1) j0 js e).1
        (seen ++ js.map (fun j1 => (i, (j0, j1)))) ∧
      ((search2_offsets1 keys vtbl used i (2 ^ i - 1) j0 js e).2 = true →
        used + 1 ≤ (search2_offsets1 keys vtbl used i (2 ^ i - 1) j0 js e).1.max_cache_entries)
  | [], e, seen, h => by simpa [search2_offsets1] using h
  | j1 :: js, e, seen, h => by
    have hstep := best_so_far_step (fun c => distinct_slots ops2 keys vtbl c.1 c.2) e0 h0 e seen i
      (j0, j1) h (distinct_slots_pos ops2 keys vtbl i (j0, j1))
    unfold search2_offsets1
    simp only [entries2_eq]
    simp only at hstep
    have hmax : distinct_slots ops2 keys vtbl i (j0, j1) ≤
        (if distinct_slots ops2 keys vtbl i (j0, j1) > e.max_cache_entries then
          ({ max_cache_entries := distinct_slots ops2 keys vtbl i (j0, j1), no := i,
             zo := (j0, j1) } : estimate (Nat × Nat)) else e).max_cache_entries := by
      split
      · exact le_refl _
      · omega
    have hl : seen ++ List.map (fun j1 => (i, (j0, j1))) (j1 :: js) =
        (seen ++ [(i, (j0, j1))]) ++ List.map (fun j1 => (i, (j0, j1))) js := by simp
    rw [hl]
    by_cases hp : distinct_slots ops2 keys vtbl i (j0, j1) = used + 1
    · simp only [hp, if_true]
      rw [hp] at hstep hmax
      refine ⟨?_, fun _ => hmax⟩
      apply best_so_far_done _ e0 h0 _ _ _ (used + 1) hstep hmax (by omega)
      intro x _
      exact distinct_slots_le ops2 keys vtbl x.1 x.2 used hB
    · simp only [hp, if_false]
      exact search2_offsets1_best keys vtbl used i j0 hB e0 h0 js _ _ hstep

/-- Once a perfect placement was found the loop over the first offset changes
nothing, and it ends with `i = l2+1` when it started so. -/
theorem search2_offsets0_done (keys : List (Nat × Nat)) (vtbl : Nat × Nat)
    (used l2 cache_mask : Nat) (m z : Nat × Nat)
    (hB : keys.countP (fun v => !ops2.vacant v) ≤ used) :
    ∀ (fuel j0 : Nat) (e : estimate (Nat × Nat)), used + 1 ≤ e.max_cache_entries →
      search2_offsets0 keys vtbl used l2 cache_mask m z fuel j0 (l2 + 1) e = (e, l2 + 1)
  | 0, _, _, _ => rfl
  | fuel + 1, j0, e, h => by
    unfold search2_offsets0
    split
    · simp only [search2_offsets1_done keys vtbl used (l2 + 1) cache_mask j0 hB _ e h, ite_self]
      exact search2_offsets0_done keys vtbl used l2 cache_mask m z hB fuel (j0 + 1) e h
    · rfl

theorem search2_offsets0_best (keys : List (Nat × Nat)) (vtbl : Nat × Nat)
    (used l2 i : Nat) (m z : Nat × Nat)
    (hB : keys.countP (fun v => !ops2.vacant v) ≤ used)  (e0 : estimate (Nat × Nat))
    (h0 : e0.max_cache_entries = 0):
    ∀ (fuel j0 : Nat) (e : estimate (Nat × Nat)) (seen : List (Nat × (Nat × Nat))),
      m.1 + 1 ≤ fuel + j0 →
      best_so_far (fun c => distinct_slots ops2 keys vtbl c.1 c.2) e0 e seen →
      best_so_far (fun c => distinct_slots ops2 keys vtbl c.1 c.2) e0
        (search2_offsets0 keys vtbl used l2 (2 ^ i - 1) m z fuel j0 i e).1
        (seen ++ (List.range' j0 (m.1 + 1 - i - j0)).flatMap
          (fun j0 => (List.range' z.2 (m.2 + 1 - i - z.2)).map (fun j1 => (i, (j0, j1))))) ∧
      ((search2_offsets0 keys vtbl used l2 (2 ^ i - 1) m z fuel j0 i e).2 = i ∨
        ((search2_offsets0 keys vtbl used l2 (2 ^ i - 1) m z fuel j0 i e).2 = l2 + 1 ∧
          used + 1 ≤
            (search2_offsets0 keys vtbl used l2 (2 ^ i - 1) m z fuel j0 i e).1.max_cache_entries))
  | 0, j0, e, seen, hf, h => by
    have h0 : m.1 + 1 - i - j0 = 0 := by omega
    simp only [search2_offsets0, h0, List.range'_zero, List.flatMap_nil, List.append_nil]
    exact ⟨h, Or.inl trivial⟩
  | fuel + 1, j0, e, seen, hf, h => by
    unfold search2_offsets0
    by_cases hc : j0 + i ≤ m.1
    · simp only [hc, if_true]
      have hr : List.range' j0 (m.1 + 1 - i - j0) =
          j0 :: List.range' (j0 + 1) (m.1 + 1 - i - (j0 + 1)) := by
        have e1 : m.1 + 1 - i - j0 = (m.1 + 1 - i - (j0 + 1)) + 1 := by omega
        rw [e1, List.range'_succ]
      have hl : seen ++ (List.range' j0 (m.1 + 1 - i - j0)).flatMap
            (fun j0 => (List.range' z.2 (m.2 + 1 - i - z.2)).map (fun j1 => (i, (j0, j1)))) =
          (seen ++ (List.range' z.2 (m.2 + 1 - i - z.2)).map (fun j1 => (i, (j0, j1)))) ++
            (List.range' (j0 + 1) (m.1 + 1 - i - (j0 + 1))).flatMap
              (fun j0 => (List.range' z.2 (m.2 + 1 - i - z.2)).map
                (fun j1 => (i, (j0, j1)))) := by
        rw [hr]
        simp [List.flatMap_cons]
      rw [hl]
      have ho := search2_offsets1_best keys vtbl used i j0 hB e0 h0
        (List.range' z.2 (m.2 + 1 - i - z.2)) e seen h
      by_cases hb : (search2_offsets1 keys vtbl used i (2 ^ i - 1) j0
          (List.range' z.2 (m.2 + 1 - i - z.2)) e).2 = true
      · simp only [hb, if_true]
        rw [search2_offsets0_done keys vtbl used l2 (2 ^ i - 1) m z hB fuel (j0 + 1) _ (ho.2 hb)]
        refine ⟨?_, Or.inr ⟨rfl, ho.2 hb⟩⟩
        apply best_so_far_done _ e0 h0 _ _ _ (used + 1) ho.1 (ho.2 hb) (by omega)
        intro x _
        exact distinct_slots_le ops2 keys vtbl x.1 x.2 used hB
      · simp only [hb]
        exact search2_offsets0_best keys vtbl used l2 i m z hB e0 h0 fuel (j0 + 1) _ _ (by omega) ho.1
    · simp only [hc, if_false]
      have h0 : m.1 + 1 - i - j0 = 0 := by omega
      simp only [h0, List.range'_zero, List.flatMap_nil, List.append_nil]
      exact ⟨h, Or.inl trivial⟩

theorem search2_sizes_best (keys : List (Nat × Nat)) (vtbl : Nat × Nat) (used l2 : Nat)
    (m z : Nat × Nat) (hB : keys.countP (fun v => !ops2.vacant v) ≤ used)  (e0 : estimate (Nat × Nat))
    (h0 : e0.max_cache_entries = 0):
    ∀ (fuel i : Nat) (e : estimate (Nat × Nat)) (seen : List (Nat × (Nat × Nat))),
      l2 + 1 ≤ fuel + i →
      best_so_far (fun c => distinct_slots ops2 keys vtbl c.1 c.2) e0 e seen →
      best_so_far (fun c => distinct_slots ops2 keys vtbl c.1 c.2) e0
        (search2_sizes keys vtbl used l2 m z fuel i e)
        (seen ++ (List.range' i (l2 + 1 - i)).flatMap
          (fun i => (List.range' z.1 (m.1 + 1 - i - z.1)).flatMap
            (fun j0 => (List.range' z.2 (m.2 + 1 - i - z.2)).map (fun j1 => (i, (j0, j1))))))
  | 0, i, e, seen, hf, h => by
    have h0 : l2 + 1 - i = 0 := by omega
    simp only [search2_sizes, h0, List.range'_zero, List.flatMap_nil, List.append_nil]
    exact h
  | fuel + 1, i, e, seen, hf, h => by
    unfold search2_sizes
    by_cases hc : i ≤ l2
    · simp only [hc, if_true]
      have hr : List.range' i (l2 + 1 - i) = i :: List.range' (i + 1) (l2 + 1 - (i + 1)) := by
        have e1 : l2 + 1 - i = (l2 + 1 - (i + 1)) + 1 := by omega
        rw [e1, List.range'_succ]
      rw [hr, List.flatMap_cons, ← List.append_assoc]
      have ho := search2_offsets0_best keys vtbl used l2 i m z hB e0 h0 (m.1 + 1) z.1 e seen
        (by omega) h
      by_cases hd : used + 1 ≤ (search2_offsets0 keys vtbl used l2 (2 ^ i - 1) m z (m.1 + 1)
          z.1 i e).1.max_cache_entries
      · have hrest := best_so_far_done _ e0 h0 _ _
          ((List.range' (i + 1) (l2 + 1 - (i + 1))).flatMap
            (fun i => (List.range' z.1 (m.1 + 1 - i - z.1)).flatMap
              (fun j0 => (List.range' z.2 (m.2 + 1 - i - z.2)).map
                (fun j1 => (i, (j0, j1))))))
          (used + 1) ho.1 hd (by omega)
          (fun x _ => distinct_slots_le ops2 keys vtbl x.1 x.2 used hB)
        rcases ho.2 with e2 | ⟨e2, _⟩
        · rw [e2]
          exact search2_sizes_best keys vtbl used l2 m z hB e0 h0 fuel (i + 1) _ _ (by omega) ho.1
        · rw [e2]
          have : search2_sizes keys vtbl used l2 m z fuel (l2 + 1 + 1)
              (search2_offsets0 keys vtbl used l2 (2 ^ i - 1) m z (m.1 + 1) z.1 i e).1 =
              (search2_offsets0 keys vtbl used l2 (2 ^ i - 1) m z (m.1 + 1) z.1 i e).1 := by
            cases fuel with
            | zero => rfl
            | succ f =>
              unfold search2_sizes
              have hx : ¬ (l2 + 1 + 1 ≤ l2) := by omega
              simp only [hx, if_false]
          rw [this]
          exact hrest
      · rcases ho.2 with e2 | ⟨_, e3⟩
        · rw [e2]
          exact search2_sizes_best keys vtbl used l2 m z hB e0 h0 fuel (i + 1) _ _ (by omega) ho.1
        · exact absurd e3 hd
    · simp only [hc, if_false]
      have h0 : l2 + 1 - i = 0 := by omega
      simp only [h0, List.range'_zero, List.flatMap_nil, List.append_nil]
      exact h

/-- The estimate the search of `vtbl_map<2,T>::update` ends with is the best of
its whole range. -/
theorem search2_best (cfg : Config) (cache_mask used : Nat) (keys : List (Nat × Nat))
    (vtbl : Nat × Nat) (hB : keys.countP (fun v => !ops2.vacant v) ≤ used) :
    ∃ e : estimate (Nat × Nat), search2 cfg cache_mask used keys vtbl = (e.no, e.zo) ∧
      best_so_far (fun c => distinct_slots ops2 keys vtbl c.1 c.2)
        { max_cache_entries := 0
          no := min cfg.max_log_size (max (req_bits cache_mask) (req_bits used))
          zo := (trailing_zeros (diff2 keys vtbl).1, trailing_zeros (diff2 keys vtbl).2) } e
        (candidates2
          (min cfg.max_log_size (max (req_bits cache_mask) (req_bits used)))
          (min cfg.max_log_size (max (req_bits cache_mask) (req_bits used + cfg.max_log_inc)))
          (trailing_zeros (diff2 keys vtbl).1, trailing_zeros (diff2 keys vtbl).2)
          (req_bits (diff2 keys vtbl).1, req_bits (diff2 keys vtbl).2)) := by
  have h := search2_sizes_best keys vtbl used
    (min cfg.max_log_size (max (req_bits cache_mask) (req_bits used + cfg.max_log_inc)))
    (req_bits (diff2 keys vtbl).1, req_bits (diff2 keys vtbl).2)
    (trailing_zeros (diff2 keys vtbl).1, trailing_zeros (diff2 keys vtbl).2) hB
    { max_cache_entries := 0
      no := min cfg.max_log_size (max (req_bits cache_mask) (req_bits used))
      zo := (trailing_zeros (diff2 keys vtbl).1, trailing_zeros (diff2 keys vtbl).2) } rfl
    (min cfg.max_log_size (max (req_bits cache_mask) (req_bits used + cfg.max_log_inc)) + 1)
    (min cfg.max_log_size (max (req_bits cache_mask) (req_bits used)))
    { max_cache_entries := 0
      no := min cfg.max_log_size (max (req_bits cache_mask) (req_bits used))
      zo := (trailing_zeros (diff2 keys vtbl).1, trailing_zeros (diff2 keys vtbl).2) } []
    (by omega) ⟨by simp, fun _ => rfl, fun c => absurd rfl c⟩
  rw [List.nil_append] at h
  exact ⟨_, rfl, h⟩

theorem mem_candidates2 (l1 l2 : Nat) (z m : Nat × Nat) (i j0 j1 : Nat) :
    (i, (j0, j1)) ∈ candidates2 l1 l2 z m ↔
      (l1 ≤ i ∧ i ≤ l2) ∧ (z.1 ≤ j0 ∧ j0 + i ≤ m.1) ∧ z.2 ≤ j1 ∧ j1 + i ≤ m.2 := by
  unfold candidates2
  simp only [List.mem_flatMap, List.mem_map, List.mem_range'_1, Prod.mk.injEq]
  constructor
  · rintro ⟨a, ⟨h1, h2⟩, b, ⟨h3, h4⟩, c, ⟨h5, h6⟩, rfl, rfl, rfl⟩
    omega
  · rintro ⟨⟨h1, h2⟩, ⟨h3, h4⟩, h5, h6⟩
    exact ⟨i, ⟨h1, by omega⟩, j0, ⟨h3, by omega⟩, j1, ⟨h5, by omega⟩, rfl, rfl, rfl⟩

/-- The log size the search of `vtbl_map<2,T>::update` returns lies in `[l1, l2]`. -/
theorem search2_le_l2 (cfg : Config) (cache_mask used : Nat) (keys : List (Nat × Nat))
    (vtbl : Nat × Nat) (hB : keys.countP (fun v => !ops2.vacant v) ≤ used) :
    (search2 cfg cache_mask used keys vtbl).1 ≤
      min cfg.max_log_size (max (req_bits cache_mask) (req_bits used + cfg.max_log_inc)) := by
  obtain ⟨e, he, hb⟩ := search2_best cfg cache_mask used keys vtbl hB
  rw [he]
  by_cases hne : candidates2
      (min cfg.max_log_size (max (req_bits cache_mask) (req_bits used)))
      (min cfg.max_log_size (max (req_bits cache_mask) (req_bits used + cfg.max_log_inc)))
      (trailing_zeros (diff2 keys vtbl).1, trailing_zeros (diff2 keys vtbl).2)
      (req_bits (diff2 keys vtbl).1, req_bits (diff2 keys vtbl).2) = []
  · rw [hb.2.1 hne]
    show min _ _ ≤ min _ _
    simp only [Nat.le_min, Nat.min_le_left, true_and]
    exact le_trans (Nat.min_le_right _ _) (max_le_max (le_refl _) (Nat.le_add_right _ _))
  · have hm := first_maximum_mem _ _ _ (first_maximum_of_best _ _ _ _ hb hne)
    exact ((mem_candidates2 _ _ _ _ _ _ _).1 hm).1.2

end search_optimal2
section exponent_bounds
variable {T : Type}

theorem slot_keys_eq {κ σ : Type} [DecidableEq κ] [DecidableEq σ] {o : KeyOps κ σ}
    {m : vtbl_map κ σ T} (h : m.descriptor.Inv o m.store) :
    m.slot_keys o = m.descriptor.cache.map (vtbl_at o m.store) := by
  unfold vtbl_map.slot_keys cache_descriptor.at
  have := map_getD_range m.descriptor.cache (m.descriptor.cache_mask + 1) h.size
  conv => rhs; rw [← this]
  rw [List.map_map]
  rfl

/-- The occupied entries the loops of `update` meet are `used` many. -/
theorem slot_keys_countP {κ σ : Type} [DecidableEq κ] [DecidableEq σ] {o : KeyOps κ σ}
    {m : vtbl_map κ σ T} (h : m.descriptor.Inv o m.store) :
    (m.slot_keys o).countP (fun v => !o.vacant v) = m.descriptor.used := by
  rw [slot_keys_eq h, List.countP_map, h.count]
  rfl

/-- Parameters of the live descriptor after the first part of `update`: the
offsets the search returned and the larger of the current log size and the one
the search returned. -/
theorem update_descriptor_params {κ σ : Type} [DecidableEq κ] [DecidableEq σ]
    {o : KeyOps κ σ} [Inhabited T] (cfg : Config) {m : vtbl_map κ σ T}
    (h : m.descriptor.Inv o m.store) (vtbl : κ) :
    (vtbl_map.update_descriptor o cfg m vtbl).2.cache_mask =
      2 ^ (max (req_bits m.descriptor.cache_mask)
        (o.search cfg m.descriptor.cache_mask m.descriptor.used (m.slot_keys o) vtbl).1) - 1 ∧
    (vtbl_map.update_descriptor o cfg m vtbl).2.optimal_shift =
      (o.search cfg m.descriptor.cache_mask m.descriptor.used (m.slot_keys o) vtbl).2 := by
  unfold vtbl_map.update_descriptor
  simp only
  split
  · rw [transplant_eq]
    refine ⟨?_, rfl⟩
    show 2 ^ _ - 1 = _
    congr 2
    unfold vtbl_map.slot_keys
    split
    · rw [max_eq_left (by omega)]
    · rw [max_eq_right (by omega)]
  · rename_i hc
    push_neg at hc
    have hp := h.size_eq_two_pow
    refine ⟨?_, hc.1⟩
    show m.descriptor.cache_mask = _
    have e : (o.search cfg m.descriptor.cache_mask m.descriptor.used (m.slot_keys o) vtbl).1 =
        req_bits m.descriptor.cache_mask := hc.2
    rw [e, max_self]
    omega

/-- Log size of the live descriptor after `update`. -/
theorem update_exponent {κ σ : Type} [DecidableEq κ] [DecidableEq σ]
    {o : KeyOps κ σ} [Inhabited T] (cfg : Config) {m : vtbl_map κ σ T}
    (h : m.descriptor.Inv o m.store) (vtbl : κ) :
    (vtbl_map.update o cfg m vtbl).1.descriptor.cache_mask + 1 =
      2 ^ req_bits (vtbl_map.update o cfg m vtbl).1.descriptor.cache_mask ∧
    req_bits (vtbl_map.update o cfg m vtbl).1.descriptor.cache_mask =
      max (req_bits m.descriptor.cache_mask)
        (o.search cfg m.descriptor.cache_mask m.descriptor.used (m.slot_keys o) vtbl).1 ∧
    (vtbl_map.update o cfg m vtbl).1.descriptor.optimal_shift =
      (o.search cfg m.descriptor.cache_mask m.descriptor.used (m.slot_keys o) vtbl).2 := by
  have e1 : (vtbl_map.update o cfg m vtbl).1.descriptor.cache_mask =
      (vtbl_map.update_descriptor o cfg m vtbl).2.cache_mask := get_cache_mask _ _ _ _
  have e2 : (vtbl_map.update o cfg m vtbl).1.descriptor.optimal_shift =
      (vtbl_map.update_descriptor o cfg m vtbl).2.optimal_shift := get_optimal_shift _ _ _ _
  obtain ⟨p1, p2⟩ := update_descriptor_params cfg h vtbl
  have hk := req_bits_pos m.descriptor.cache_mask
  have hr := mch.req_bits_mask (k := max (req_bits m.descriptor.cache_mask)
    (o.search cfg m.descriptor.cache_mask m.descriptor.used (m.slot_keys o) vtbl).1)
    (le_trans hk (le_max_left _ _))
  rw [e1, e2, p1, p2, hr]
  refine ⟨?_, rfl, rfl⟩
  have := Nat.two_pow_pos (max (req_bits m.descriptor.cache_mask)
    (o.search cfg m.descriptor.cache_mask m.descriptor.used (m.slot_keys o) vtbl).1)
  omega

theorem update_exponent_bounds {κ σ : Type} [DecidableEq κ] [DecidableEq σ]
    {o : KeyOps κ σ} [Inhabited T] (ho : o.Lawful) (cfg : Config) {m : vtbl_map κ σ T}
    (h : m.descriptor.Inv o m.store) (vtbl : κ)
    (hle : (o.search cfg m.descriptor.cache_mask m.descriptor.used (m.slot_keys o) vtbl).1 ≤
      min cfg.max_log_size (max (req_bits m.descriptor.cache_mask)
        (req_bits m.descriptor.used + cfg.max_log_inc)))
    (hk : req_bits m.descriptor.cache_mask ≤ cfg.max_log_size) :
    min cfg.max_log_size (max (req_bits m.descriptor.cache_mask) (req_bits m.descriptor.used)) ≤
      req_bits (vtbl_map.update o cfg m vtbl).1.descriptor.cache_mask ∧
    req_bits (vtbl_map.update o cfg m vtbl).1.descriptor.cache_mask ≤
      min cfg.max_log_size (max (req_bits m.descriptor.cache_mask)
        (req_bits m.descriptor.used + cfg.max_log_inc)) ∧
    req_bits m.descriptor.cache_mask ≤
      req_bits (vtbl_map.update o cfg m vtbl).1.descriptor.cache_mask ∧
    req_bits (vtbl_map.update o cfg m vtbl).1.descriptor.cache_mask ≤ cfg.max_log_size ∧
    (vtbl_map.update o cfg m vtbl).1.descriptor.cache_mask + 1 =
      2 ^ req_bits (vtbl_map.update o cfg m vtbl).1.descriptor.cache_mask := by
  obtain ⟨e0, e1, _⟩ := update_exponent cfg h vtbl
  have hge := ho.search_ge cfg m.descriptor.cache_mask m.descriptor.used (m.slot_keys o) vtbl
  have hkl : req_bits m.descriptor.cache_mask ≤
      min cfg.max_log_size (max (req_bits m.descriptor.cache_mask)
        (req_bits m.descriptor.used + cfg.max_log_inc)) :=
    Nat.le_min.2 ⟨hk, le_max_left _ _⟩
  have hup : req_bits (vtbl_map.update o cfg m vtbl).1.descriptor.cache_mask ≤
      min cfg.max_log_size (max (req_bits m.descriptor.cache_mask)
        (req_bits m.descriptor.used + cfg.max_log_inc)) := by
    rw [e1]
    exact max_le hkl hle
  refine ⟨?_, hup, ?_, le_trans hup (Nat.min_le_left _ _), e0⟩
  · rw [e1]
    exact le_trans hge (le_max_right _ _)
  · rw [e1]
    exact le_max_left _ _

/-- C17 (exponent bounds of a reorganization): for N = 1 and N = 2, for every
reachable map whose current log size `k = req_bits(cache_mask)` is at most
`max_log_size`, and every key, the log size `k'` of the live descriptor after
`update` satisfies `min(max_log_size, max(k, n)) <= k'` and
`k' <= min(max_log_size, max(k, n + max_log_inc))` with `n = req_bits(used)`;
in particular `k <= k'` and `k' <= max_log_size`, and the table has `2^k'`
slots. -/
theorem update_exponent_in_bounds [Inhabited T] :
    (∀ (cfg : Config) (m : vtbl_map Nat Nat T) (vtbl : Nat), Reachable ops1 cfg m →
      req_bits m.descriptor.cache_mask ≤ cfg.max_log_size →
      min cfg.max_log_size
          (max (req_bits m.descriptor.cache_mask) (req_bits m.descriptor.used)) ≤
        req_bits (vtbl_map.update ops1 cfg m vtbl).1.descriptor.cache_mask ∧
      req_bits (vtbl_map.update ops1 cfg m vtbl).1.descriptor.cache_mask ≤
        min cfg.max_log_size (max (req_bits m.descriptor.cache_mask)
          (req_bits m.descriptor.used + cfg.max_log_inc)) ∧
      req_bits m.descriptor.cache_mask ≤
        req_bits (vtbl_map.update ops1 cfg m vtbl).1.descriptor.cache_mask ∧
      req_bits (vtbl_map.update ops1 cfg m vtbl).1.descriptor.cache_mask ≤ cfg.max_log_size ∧
      (vtbl_map.update ops1 cfg m vtbl).1.descriptor.cache_mask + 1 =
        2 ^ req_bits (vtbl_map.update ops1 cfg m vtbl).1.descriptor.cache_mask) ∧
    (∀ (cfg : Config) (m : vtbl_map (Nat × Nat) (Nat × Nat) T) (vtbl : (Nat × Nat)), Reachable ops2 cfg m →
      req_bits m.descriptor.cache_mask ≤ cfg.max_log_size →
      min cfg.max_log_size
          (max (req_bits m.descriptor.cache_mask) (req_bits m.descriptor.used)) ≤
        req_bits (vtbl_map.update ops2 cfg m vtbl).1.descriptor.cache_mask ∧
      req_bits (vtbl_map.update ops2 cfg m vtbl).1.descriptor.cache_mask ≤
        min cfg.max_log_size (max (req_bits m.descriptor.cache_mask)
          (req_bits m.descriptor.used + cfg.max_log_inc)) ∧
      req_bits m.descriptor.cache_mask ≤
        req_bits (vtbl_map.update ops2 cfg m vtbl).1.descriptor.cache_mask ∧
      req_bits (vtbl_map.update ops2 cfg m vtbl).1.descriptor.cache_mask ≤ cfg.max_log_size ∧
      (vtbl_map.update ops2 cfg m vtbl).1.descriptor.cache_mask + 1 =
        2 ^ req_bits (vtbl_map.update ops2 cfg m vtbl).1.descriptor.cache_mask) := by
  constructor
  · intro cfg m vtbl hm hk
    have hi := reachable_inv lawful1 hm
    exact update_exponent_bounds lawful1 cfg hi vtbl
      (search1_le_l2 cfg _ _ _ vtbl (le_of_eq (slot_keys_countP hi))) hk
  · intro cfg m vtbl hm hk
    have hi := reachable_inv lawful2 hm
    exact update_exponent_bounds lawful2 cfg hi vtbl
      (search2_le_l2 cfg _ _ _ vtbl (le_of_eq (slot_keys_countP hi))) hk

/-- Witness of C17: `example_map` has four slots (`k = 2`), all occupied, so
`n = 3`; after `update(0x60)` the log size is at least 3 and at most 4. -/
theorem update_exponent_in_bounds_witness :
    req_bits example_map.descriptor.cache_mask ≤ sample_config.max_log_size ∧
    3 ≤ req_bits (vtbl_map.update ops1 sample_config example_map 0x60).1.descriptor.cache_mask ∧
    req_bits (vtbl_map.update ops1 sample_config example_map 0x60).1.descriptor.cache_mask ≤ 4 :=
  ⟨by decide,
   ((update_exponent_in_bounds.1 sample_config example_map 0x60 reachable_example_map
      (by decide)).1 : 3 ≤ _),
   ((update_exponent_in_bounds.1 sample_config example_map 0x60 reachable_example_map
      (by decide)).2.1 : _ ≤ 4)⟩

end exponent_bounds
section search_claims
variable {T : Type}

theorem search1_selects [Inhabited T] (cfg : Config) (m : vtbl_map Nat Nat T) (vtbl : Nat)
    (hm : Reachable ops1 cfg m) (hne : search_range1 cfg m vtbl ≠ []) :
    first_maximum (fun c => distinct_slots ops1 (m.slot_keys ops1) vtbl c.1 c.2)
      (search_range1 cfg m vtbl)
      (ops1.search cfg m.descriptor.cache_mask m.descriptor.used (m.slot_keys ops1) vtbl) := by
  have hi := reachable_inv lawful1 hm
  obtain ⟨e, he, hb⟩ := search1_best cfg m.descriptor.cache_mask m.descriptor.used
    (m.slot_keys ops1) vtbl (le_of_eq (slot_keys_countP hi))
  have hs : ops1.search cfg m.descriptor.cache_mask m.descriptor.used (m.slot_keys ops1) vtbl =
      (e.no, e.zo) := he
  rw [hs]
  exact first_maximum_of_best _ _ _ _ hb hne

theorem search2_selects [Inhabited T] (cfg : Config) (m : vtbl_map (Nat × Nat) (Nat × Nat) T)
    (vtbl : Nat × Nat) (hm : Reachable ops2 cfg m) (hne : search_range2 cfg m vtbl ≠ []) :
    first_maximum (fun c => distinct_slots ops2 (m.slot_keys ops2) vtbl c.1 c.2)
      (search_range2 cfg m vtbl)
      (ops2.search cfg m.descriptor.cache_mask m.descriptor.used (m.slot_keys ops2) vtbl) := by
  have hi := reachable_inv lawful2 hm
  obtain ⟨e, he, hb⟩ := search2_best cfg m.descriptor.cache_mask m.descriptor.used
    (m.slot_keys ops2) vtbl (le_of_eq (slot_keys_countP hi))
  have hs : ops2.search cfg m.descriptor.cache_mask m.descriptor.used (m.slot_keys ops2) vtbl =
      (e.no, e.zo) := he
  rw [hs]
  exact first_maximum_of_best _ _ _ _ hb hne

/-- C18 (search optimality): for N = 1 and N = 2, for every reachable map and
every key for which the search range of `update` (log sizes `l1 <= i <= l2`,
each offset `z_d <= j_d <= m_d - i`) is not empty, the log size and offsets the
search ends with are those of the first candidate, in iteration order, that
attains the maximal number of distinct slots given to the keys of the occupied
entries and the new key; whether or not a candidate is free of collisions, the
live descriptor after `update` has these offsets and the larger of this log
size and the current one. -/
theorem search_selects_first_maximum [Inhabited T] :
    (∀ (cfg : Config) (m : vtbl_map Nat Nat T) (vtbl : Nat), Reachable ops1 cfg m →
      search_range1 cfg m vtbl ≠ [] →
      first_maximum (fun c => distinct_slots ops1 (m.slot_keys ops1) vtbl c.1 c.2)
        (search_range1 cfg m vtbl)
        (ops1.search cfg m.descriptor.cache_mask m.descriptor.used (m.slot_keys ops1) vtbl) ∧
      (vtbl_map.update ops1 cfg m vtbl).1.descriptor.optimal_shift =
        (ops1.search cfg m.descriptor.cache_mask m.descriptor.used (m.slot_keys ops1) vtbl).2 ∧
      req_bits (vtbl_map.update ops1 cfg m vtbl).1.descriptor.cache_mask =
        max (req_bits m.descriptor.cache_mask)
          (ops1.search cfg m.descriptor.cache_mask m.descriptor.used
            (m.slot_keys ops1) vtbl).1) ∧
    (∀ (cfg : Config) (m : vtbl_map (Nat × Nat) (Nat × Nat) T) (vtbl : (Nat × Nat)), Reachable ops2 cfg m →
      search_range2 cfg m vtbl ≠ [] →
      first_maximum (fun c => distinct_slots ops2 (m.slot_keys ops2) vtbl c.1 c.2)
        (search_range2 cfg m vtbl)
        (ops2.search cfg m.descriptor.cache_mask m.descriptor.used (m.slot_keys ops2) vtbl) ∧
      (vtbl_map.update ops2 cfg m vtbl).1.descriptor.optimal_shift =
        (ops2.search cfg m.descriptor.cache_mask m.descriptor.used (m.slot_keys ops2) vtbl).2 ∧
      req_bits (vtbl_map.update ops2 cfg m vtbl).1.descriptor.cache_mask =
        max (req_bits m.descriptor.cache_mask)
          (ops2.search cfg m.descriptor.cache_mask m.descriptor.used
            (m.slot_keys ops2) vtbl).1) := by
  constructor
  · intro cfg m vtbl hm hne
    have hu := update_exponent (o := ops1) cfg (reachable_inv lawful1 hm) vtbl
    exact ⟨search1_selects cfg m vtbl hm hne, hu.2.2, hu.2.1⟩
  · intro cfg m vtbl hm hne
    have hu := update_exponent (o := ops2) cfg (reachable_inv lawful2 hm) vtbl
    exact ⟨search2_selects cfg m vtbl hm hne, hu.2.2, hu.2.1⟩

/-- Witness of C18: for `example_map` and the key `0x90` the range is
`(3,4), (3,5), (4,4)` with 4, 4 and 5 distinct slots; the search selects
`(4,4)`. -/
theorem search_selects_first_maximum_witness :
    search_range1 sample_config example_map 0x90 ≠ [] ∧
    first_maximum (fun c => distinct_slots ops1 (example_map.slot_keys ops1) 0x90 c.1 c.2)
      [(3, 4), (3, 5), (4, 4)] (4, 4) :=
  ⟨by decide,
   (search_selects_first_maximum.1 sample_config example_map 0x90 reachable_example_map
      (by decide)).1⟩

end search_claims
section placement
variable {T : Type}

theorem and_mask_mask (x i k : Nat) (h : i ≤ k) :
    (x &&& (2 ^ k - 1)) &&& (2 ^ i - 1) = x &&& (2 ^ i - 1) := by
  apply Nat.eq_of_testBit_eq
  intro j
  simp only [Nat.testBit_and, Nat.testBit_two_pow_sub_one]
  by_cases hj : j < i
  · have : j < k := by omega
    simp [hj, this]
  · simp [hj]

theorem slot1_mask (zo a i k : Nat) (h : i ≤ k) :
    ops1.slot zo (2 ^ k - 1) a &&& (2 ^ i - 1) = ops1.slot zo (2 ^ i - 1) a :=
  and_mask_mask _ i k h

theorem slot2_mask (zo a : Nat × Nat) (i k : Nat) (h : i ≤ k) :
    ops2.slot zo (2 ^ k - 1) a &&& (2 ^ i - 1) = ops2.slot zo (2 ^ i - 1) a :=
  and_mask_mask _ i k h

theorem vtbl_at_set_vtbl_cases {κ σ : Type} [DecidableEq κ] [DecidableEq σ] (o : KeyOps κ σ)
    (store : List (stored_type κ T)) (p q : Nat) (vtbl : κ) :
    vtbl_at o (set_vtbl store p vtbl) q = vtbl ∨
      vtbl_at o (set_vtbl store p vtbl) q = vtbl_at o store q := by
  by_cases hp : p < store.length
  · rw [vtbl_at_set_vtbl o store p q vtbl hp]
    by_cases e : q = p
    · left; simp [e]
    · right; simp [e]
  · right
    have : set_vtbl store p vtbl = store := by
      unfold set_vtbl
      simp [List.get?_eq_getElem?, List.getElem?_eq_none (Nat.le_of_not_lt hp)]
    rw [this]

theorem get_vtbl_at_cases {κ σ : Type} [DecidableEq κ] [DecidableEq σ] (o : KeyOps κ σ)
    (store : List (stored_type κ T)) (d : cache_descriptor σ) (vtbl : κ) (q : Nat) :
    vtbl_at o (cache_descriptor.get o store d vtbl).1 q = vtbl ∨
      vtbl_at o (cache_descriptor.get o store d vtbl).1 q = vtbl_at o store q := by
  rcases get_cases o store d vtbl with h | ⟨_, cv, _, h⟩ | ⟨_, _, _, cv, _, h⟩ | ⟨_, _, _, h⟩
  · rw [h.2]; exact Or.inr rfl
  · rw [h]; exact Or.inr rfl
  · rw [h]; exact vtbl_at_set_vtbl_cases o store _ q vtbl
  · rw [h]; exact Or.inr rfl

/-- The key of an occupied entry is among those the loops of `update` mark. -/
theorem mem_slot_keys {κ σ : Type} [DecidableEq κ] [DecidableEq σ] {o : KeyOps κ σ}
    (ho : o.Lawful) {m : vtbl_map κ σ T} (h : m.descriptor.Inv o m.store) (p : Nat)
    (hocc : o.vacant (vtbl_at o m.store p) = false) :
    vtbl_at o m.store p ∈ (m.slot_keys o).filter (fun v => !o.vacant v) := by
  rw [List.mem_filter]
  refine ⟨?_, by simp [hocc]⟩
  have hp : p < m.store.length := by
    apply lt_of_vtbl_at_ne o
    intro e
    rw [e, ho.vacant_zero] at hocc
    cases hocc
  rw [slot_keys_eq h]
  exact List.mem_map.2 ⟨p, (h.perm.mem_iff).2 (List.mem_range.2 hp), rfl⟩

theorem distinct_slots_le_size {κ σ : Type} {o : KeyOps κ σ} (ho : o.Lawful) (keys : List κ)
    (vtbl : κ) (i : Nat) (j : σ) : distinct_slots o keys vtbl i j ≤ 2 ^ i := by
  unfold distinct_slots
  have hsub : ((vtbl :: keys.filter (fun v => !o.vacant v)).map
      (o.slot j (2 ^ i - 1))).dedup ⊆ List.range (2 ^ i) := by
    intro x hx
    rw [List.mem_dedup] at hx
    obtain ⟨v, _, rfl⟩ := List.mem_map.1 hx
    have := ho.slot_le j (2 ^ i - 1) v
    have := Nat.two_pow_pos i
    exact List.mem_range.2 (by omega)
  have := (List.subperm_of_subset (List.nodup_dedup _) hsub).length_le
  rwa [List.length_range] at this

/-- When the parameters the search returned give `used + 1` distinct slots,
`update` stores the new key and the new descriptor maps the stored keys to
distinct slots. -/
theorem update_injective {κ σ : Type} [DecidableEq κ] [DecidableEq σ] {o : KeyOps κ σ}
    [Inhabited T] (ho : o.Lawful)
    (hslot : ∀ zo a i k, i ≤ k → o.slot zo (2 ^ k - 1) a &&& (2 ^ i - 1) = o.slot zo (2 ^ i - 1) a)
    (cfg : Config) {m : vtbl_map κ σ T} (h : m.descriptor.Inv o m.store) {vtbl : κ}
    (hsel : distinct_slots o (m.slot_keys o) vtbl
      (o.search cfg m.descriptor.cache_mask m.descriptor.used (m.slot_keys o) vtbl).1
      (o.search cfg m.descriptor.cache_mask m.descriptor.used (m.slot_keys o) vtbl).2 =
        m.descriptor.used + 1) :
    (o.nonzero vtbl = true → (vtbl_map.update o cfg m vtbl).1.stores o vtbl) ∧
    ∀ a b, (vtbl_map.update o cfg m vtbl).1.stores o a →
      (vtbl_map.update o cfg m vtbl).1.stores o b → o.vacant a = false → o.vacant b = false →
      (vtbl_map.update o cfg m vtbl).1.descriptor.loc o a =
        (vtbl_map.update o cfg m vtbl).1.descriptor.loc o b → a = b := by
  have hcount := slot_keys_countP h
  rw [List.countP_eq_length_filter] at hcount
  have hsize := distinct_slots_le_size ho (m.slot_keys o) vtbl
    (o.search cfg m.descriptor.cache_mask m.descriptor.used (m.slot_keys o) vtbl).1
    (o.search cfg m.descriptor.cache_mask m.descriptor.used (m.slot_keys o) vtbl).2
  unfold distinct_slots at hsel
  have hnd : ((vtbl :: (m.slot_keys o).filter (fun v => !o.vacant v)).map
      (o.slot (o.search cfg m.descriptor.cache_mask m.descriptor.used (m.slot_keys o) vtbl).2
        (2 ^ (o.search cfg m.descriptor.cache_mask m.descriptor.used
          (m.slot_keys o) vtbl).1 - 1))).Nodup := by
    have heq := List.Sublist.eq_of_length
      (List.dedup_sublist ((vtbl :: (m.slot_keys o).filter (fun v => !o.vacant v)).map
        (o.slot (o.search cfg m.descriptor.cache_mask m.descriptor.used (m.slot_keys o) vtbl).2
          (2 ^ (o.search cfg m.descriptor.cache_mask m.descriptor.used
            (m.slot_keys o) vtbl).1 - 1))))
      (by rw [hsel, List.length_map, List.length_cons, hcount])
    have hd := List.nodup_dedup ((vtbl :: (m.slot_keys o).filter (fun v => !o.vacant v)).map
        (o.slot (o.search cfg m.descriptor.cache_mask m.descriptor.used (m.slot_keys o) vtbl).2
          (2 ^ (o.search cfg m.descriptor.cache_mask m.descriptor.used
            (m.slot_keys o) vtbl).1 - 1)))
    rwa [heq] at hd
  have hinj := List.inj_on_of_nodup_map hnd
  have hL := List.Nodup.of_map _ hnd
  obtain ⟨p1, p2⟩ := update_descriptor_params cfg h vtbl
  obtain ⟨q0, q1, q2⟩ := update_exponent cfg h vtbl
  have hin : ∀ a, (vtbl_map.update o cfg m vtbl).1.stores o a → o.vacant a = false →
      a ∈ vtbl :: (m.slot_keys o).filter (fun v => !o.vacant v) := by
    rintro a ⟨q, hq⟩ ha
    rw [update_store] at hq
    rcases get_vtbl_at_cases o _ _ vtbl q with e | e
    · rw [← hq, e]
      exact List.mem_cons_self _ _
    · rw [e, update_descriptor_vtbl_at] at hq
      rw [← hq]
      exact List.mem_cons_of_mem _ (mem_slot_keys ho h q (by rw [hq]; exact ha))
  refine ⟨?_, ?_⟩
  · intro hv
    have hvac := ho.vacant_of_nonzero vtbl hv
    have hnew : ∀ p, vtbl_at o m.store p ≠ vtbl := by
      intro p hp
      have hmem := mem_slot_keys ho h p (by rw [hp]; exact hvac)
      rw [hp] at hmem
      exact (List.nodup_cons.1 hL).1 hmem
    have hi := update_descriptor_inv ho cfg h vtbl
    have hpow : 2 ^ (o.search cfg m.descriptor.cache_mask m.descriptor.used
        (m.slot_keys o) vtbl).1 ≤ 2 ^ (max (req_bits m.descriptor.cache_mask)
          (o.search cfg m.descriptor.cache_mask m.descriptor.used (m.slot_keys o) vtbl).1) :=
      Nat.pow_le_pow_right (by omega) (le_max_right _ _)
    have hroom : (vtbl_map.update_descriptor o cfg m vtbl).2.used ≤
        (vtbl_map.update_descriptor o cfg m vtbl).2.cache_mask := by
      rw [update_descriptor_used, p1]
      unfold distinct_slots at hsize
      omega
    have hnew2 : ∀ p, vtbl_at o (vtbl_map.update_descriptor o cfg m vtbl).1 p ≠ vtbl := by
      intro p; rw [update_descriptor_vtbl_at]; exact hnew p
    obtain ⟨p, hlt, _, e1, _, _⟩ := get_fresh ho hi hnew2 hroom
    refine ⟨p, ?_⟩
    rw [update_store, e1, vtbl_at_set_vtbl o _ p p vtbl hlt]
    simp
  · intro a b sa sb ha hb hab
    apply hinj (hin a sa ha) (hin b sb hb)
    have hmask : (vtbl_map.update o cfg m vtbl).1.descriptor.cache_mask =
        2 ^ (max (req_bits m.descriptor.cache_mask)
          (o.search cfg m.descriptor.cache_mask m.descriptor.used (m.slot_keys o) vtbl).1) - 1 := by
      rw [← q1]
      omega
    unfold cache_descriptor.loc at hab
    rw [q2, hmask] at hab
    rw [← hslot _ a _ _ (le_max_right (req_bits m.descriptor.cache_mask) _),
      ← hslot _ b _ _ (le_max_right (req_bits m.descriptor.cache_mask) _), hab]

/-- C19 (perfect placement): for N = 1 and N = 2, for every reachable map and
every key, if some candidate of the search range gives `used + 1` distinct
slots to the keys of the occupied entries and the new key, then after `update`
the live descriptor maps no two stored keys to the same slot, and the new key
is one of them when it passes the `XTL_ASSERT`s of `get`. -/
theorem perfect_placement [Inhabited T] :
    (∀ (cfg : Config) (m : vtbl_map Nat Nat T) (vtbl : Nat), Reachable ops1 cfg m →
      (∃ c ∈ search_range1 cfg m vtbl,
        distinct_slots ops1 (m.slot_keys ops1) vtbl c.1 c.2 = m.descriptor.used + 1) →
      (ops1.nonzero vtbl = true → (vtbl_map.update ops1 cfg m vtbl).1.stores ops1 vtbl) ∧
      ∀ a b, (vtbl_map.update ops1 cfg m vtbl).1.stores ops1 a →
        (vtbl_map.update ops1 cfg m vtbl).1.stores ops1 b →
        ops1.vacant a = false → ops1.vacant b = false →
        (vtbl_map.update ops1 cfg m vtbl).1.descriptor.loc ops1 a =
          (vtbl_map.update ops1 cfg m vtbl).1.descriptor.loc ops1 b → a = b) ∧
    (∀ (cfg : Config) (m : vtbl_map (Nat × Nat) (Nat × Nat) T) (vtbl : (Nat × Nat)), Reachable ops2 cfg m →
      (∃ c ∈ search_range2 cfg m vtbl,
        distinct_slots ops2 (m.slot_keys ops2) vtbl c.1 c.2 = m.descriptor.used + 1) →
      (ops2.nonzero vtbl = true → (vtbl_map.update ops2 cfg m vtbl).1.stores ops2 vtbl) ∧
      ∀ a b, (vtbl_map.update ops2 cfg m vtbl).1.stores ops2 a →
        (vtbl_map.update ops2 cfg m vtbl).1.stores ops2 b →
        ops2.vacant a = false → ops2.vacant b = false →
        (vtbl_map.update ops2 cfg m vtbl).1.descriptor.loc ops2 a =
          (vtbl_map.update ops2 cfg m vtbl).1.descriptor.loc ops2 b → a = b) := by
  constructor
  · rintro cfg m vtbl hm ⟨c, hc, hs⟩
    have hi := reachable_inv lawful1 hm
    have hf := search1_selects cfg m vtbl hm (List.ne_nil_of_mem hc)
    have h1 := first_maximum_ge _ _ _ hf c hc
    have h2 := distinct_slots_le ops1 (m.slot_keys ops1) vtbl
      (ops1.search cfg m.descriptor.cache_mask m.descriptor.used (m.slot_keys ops1) vtbl).1
      (ops1.search cfg m.descriptor.cache_mask m.descriptor.used (m.slot_keys ops1) vtbl).2
      m.descriptor.used (le_of_eq (slot_keys_countP hi))
    simp only [hs] at h1
    exact update_injective lawful1 slot1_mask cfg hi (by omega)
  · rintro cfg m vtbl hm ⟨c, hc, hs⟩
    have hi := reachable_inv lawful2 hm
    have hf := search2_selects cfg m vtbl hm (List.ne_nil_of_mem hc)
    have h1 := first_maximum_ge _ _ _ hf c hc
    have h2 := distinct_slots_le ops2 (m.slot_keys ops2) vtbl
      (ops2.search cfg m.descriptor.cache_mask m.descriptor.used (m.slot_keys ops2) vtbl).1
      (ops2.search cfg m.descriptor.cache_mask m.descriptor.used (m.slot_keys ops2) vtbl).2
      m.descriptor.used (le_of_eq (slot_keys_countP hi))
    simp only [hs] at h1
    exact update_injective lawful2 slot2_mask cfg hi (by omega)

/-- Witness of C19: for `example_map` and the key `0x90` the candidate `(4,4)`
gives five distinct slots to the four stored keys and the new one; after
`update(0x90)` the key is stored. -/
theorem perfect_placement_witness :
    (∃ c ∈ search_range1 sample_config example_map 0x90,
      distinct_slots ops1 (example_map.slot_keys ops1) 0x90 c.1 c.2 =
        example_map.descriptor.used + 1) ∧
    (vtbl_map.update ops1 sample_config example_map 0x90).1.stores ops1 0x90 :=
  ⟨⟨(4, 4), by decide, by decide⟩,
   (perfect_placement.1 sample_config example_map 0x90 reachable_example_map
      ⟨(4, 4), by decide, by decide⟩).1 (by decide)⟩

end placement
section occupancy
variable {T : Type}

theorem full_no_vacant {κ σ : Type} [DecidableEq κ] [DecidableEq σ] {o : KeyOps κ σ}
    {store : List (stored_type κ T)} {d : cache_descriptor σ} (h : d.Inv o store)
    (hf : d.cache_mask < d.used) :
    ∀ i, i ≤ d.cache_mask → o.vacant (vtbl_at o store (d.at i)) = false := by
  have hu := h.used_le
  have hc : d.cache.countP (fun p => !o.vacant (vtbl_at o store p)) = d.cache.length := by
    rw [← h.count, h.size]
    omega
  rw [List.countP_eq_length] at hc
  intro i hi
  have := hc (d.at i) (h.at_mem hi)
  simpa using this

theorem occupancy {κ σ : Type} [DecidableEq κ] [DecidableEq σ] {o : KeyOps κ σ}
    [Inhabited T] (ho : o.Lawful) (cfg : Config) (m : vtbl_map κ σ T)
    (hm : Reachable o cfg m) :
    m.descriptor.used ≤ m.descriptor.cache_mask + 1 ∧
    m.descriptor.cache_mask + 1 = 2 ^ req_bits m.descriptor.cache_mask ∧
    (m.descriptor.is_full = true ↔
      ∀ i, i ≤ m.descriptor.cache_mask →
        o.vacant (vtbl_at o m.store (m.descriptor.at i)) = false) := by
  have hi := reachable_inv ho hm
  refine ⟨hi.used_le, hi.size_eq_two_pow, ?_⟩
  unfold cache_descriptor.is_full
  rw [decide_eq_true_iff]
  constructor
  · exact full_no_vacant hi
  · intro hall
    by_contra hc
    obtain ⟨cv, hcv⟩ := hi.scan_vacant (by omega)
    have h1 := first_slot_some hcv
    rw [hall cv h1.1] at h1
    exact absurd h1.2.1 (by simp)

/-- C21 (occupancy bound): in every reachable state, N = 1 or N = 2,
`used <= cache_mask + 1 = 2^k` with `k = req_bits(cache_mask)`, and `is_full()`
(`used > cache_mask`) holds exactly when no slot references an unoccupied
entry. -/
theorem occupancy_bound [Inhabited T] :
    (∀ (cfg : Config) (m : vtbl_map Nat Nat T), Reachable ops1 cfg m →
      m.descriptor.used ≤ m.descriptor.cache_mask + 1 ∧
      m.descriptor.cache_mask + 1 = 2 ^ req_bits m.descriptor.cache_mask ∧
      (m.descriptor.is_full = true ↔
        ∀ i, i ≤ m.descriptor.cache_mask →
          ops1.vacant (vtbl_at ops1 m.store (m.descriptor.at i)) = false)) ∧
    (∀ (cfg : Config) (m : vtbl_map (Nat × Nat) (Nat × Nat) T), Reachable ops2 cfg m →
      m.descriptor.used ≤ m.descriptor.cache_mask + 1 ∧
      m.descriptor.cache_mask + 1 = 2 ^ req_bits m.descriptor.cache_mask ∧
      (m.descriptor.is_full = true ↔
        ∀ i, i ≤ m.descriptor.cache_mask →
          ops2.vacant (vtbl_at ops2 m.store (m.descriptor.at i)) = false)) :=
  ⟨fun cfg m hm => occupancy lawful1 cfg m hm, fun cfg m hm => occupancy lawful2 cfg m hm⟩

/-- Witness of C21: `example_map` is reachable; its four slots are all used. -/
theorem occupancy_bound_witness :
    example_map.descriptor.used ≤ example_map.descriptor.cache_mask + 1 :=
  (occupancy_bound.1 sample_config example_map reachable_example_map).1

end occupancy
section index_array
variable {T : Type}

theorem one_to_one_iff {κ σ : Type} (store : List (stored_type κ T)) (d : cache_descriptor σ) :
    d.one_to_one store ↔
      d.cache.length = d.cache_mask + 1 ∧ (∀ p ∈ d.cache, p < store.length) ∧ d.cache.Nodup := by
  unfold cache_descriptor.one_to_one cache_descriptor.at
  constructor
  · rintro ⟨hl, hlt, hinj⟩
    refine ⟨hl, ?_, ?_⟩
    · intro p hp
      obtain ⟨i, hi, e⟩ := List.getElem_of_mem hp
      have := hlt i (by omega)
      rw [List.getD_eq_getElem _ _ hi, e] at this
      exact this
    · rw [List.nodup_iff_injective_get]
      rintro ⟨i, hi⟩ ⟨j, hj⟩ e
      have := hinj i j (by omega) (by omega)
        (by rw [List.getD_eq_getElem _ _ hi, List.getD_eq_getElem _ _ hj]; exact e)
      exact Fin.ext this
  · rintro ⟨hl, hlt, hnd⟩
    refine ⟨hl, ?_, ?_⟩
    · intro i hi
      have hi2 : i < d.cache.length := by omega
      rw [List.getD_eq_getElem _ _ hi2]
      exact hlt _ (List.getElem_mem hi2)
    · intro i j hi hj e
      have hi2 : i < d.cache.length := by omega
      have hj2 : j < d.cache.length := by omega
      rw [List.getD_eq_getElem _ _ hi2, List.getD_eq_getElem _ _ hj2] at e
      exact (hnd.getElem_inj_iff).1 e

theorem one_to_one_of_inv {κ σ : Type} [DecidableEq κ] [DecidableEq σ] {o : KeyOps κ σ}
    {store : List (stored_type κ T)} {d : cache_descriptor σ} (h : d.Inv o store) :
    d.one_to_one store :=
  ⟨h.size, fun _ hi => h.at_lt hi, fun _ _ hi hj e => h.at_inj hi hj e⟩

/-- The first constructor establishes a one-to-one index array. -/
theorem create_one_to_one {κ σ : Type} [DecidableEq κ] [DecidableEq σ] (o : KeyOps κ σ)
    [Inhabited T] (log_size shift : Nat) (store : List (stored_type κ T)) :
    (cache_descriptor.create o log_size shift store).2.one_to_one
      (cache_descriptor.create o log_size shift store).1 := by
  have hpos := Nat.two_pow_pos log_size
  rw [one_to_one_iff]
  unfold cache_descriptor.create
  simp only [new_entries_length]
  refine ⟨by simp, ?_, ?_⟩
  · intro p hp
    obtain ⟨i, hi, rfl⟩ := List.mem_map.1 hp
    have := List.mem_range.1 hi
    omega
  · apply List.Nodup.map _ (List.nodup_range _)
    intro a b e
    simpa using e

/-- The pointer swap of `cache_descriptor::get` keeps the index array
one-to-one. -/
theorem get_one_to_one {κ σ : Type} [DecidableEq κ] [DecidableEq σ] {o : KeyOps κ σ}
    (ho : o.Lawful) (store : List (stored_type κ T)) (d : cache_descriptor σ) (vtbl : κ)
    (h : d.one_to_one store) :
    (cache_descriptor.get o store d vtbl).2.1.one_to_one
      (cache_descriptor.get o store d vtbl).1 := by
  rw [one_to_one_iff] at h ⊢
  obtain ⟨hl, hlt, hnd⟩ := h
  have hloc : d.loc o vtbl < d.cache.length := by
    have := loc_le ho d vtbl
    omega
  rcases get_cases o store d vtbl with e | ⟨_, cv, hcv, e⟩ | ⟨_, _, _, cv, hcv, e⟩ | ⟨_, _, _, e⟩
  · rw [e.2]; exact ⟨hl, hlt, hnd⟩
  · rw [e]
    have hc : cv < d.cache.length := by
      have := (first_slot_some hcv).1
      omega
    have hp := swap_slots_perm d.cache (d.loc o vtbl) cv hloc hc
    exact ⟨by simp [swap_slots_length, hl], fun p hp2 => hlt p (hp.mem_iff.1 hp2),
      hp.nodup_iff.2 hnd⟩
  · rw [e]
    have hc : cv < d.cache.length := by
      have := (first_slot_some hcv).1
      omega
    have hp := swap_slots_perm d.cache (d.loc o vtbl) cv hloc hc
    refine ⟨by simp [swap_slots_length, hl], fun p hp2 => ?_, hp.nodup_iff.2 hnd⟩
    simp only [set_vtbl_length]
    exact hlt p (hp.mem_iff.1 hp2)
  · rw [e]; exact ⟨hl, hlt, hnd⟩

/-- The second constructor keeps the index array one-to-one. -/
theorem transplant_one_to_one {κ σ : Type} [DecidableEq κ] [DecidableEq σ] (o : KeyOps κ σ)
    [Inhabited T] (log_size : Nat) (shifts : σ) (old : cache_descriptor σ)
    (store : List (stored_type κ T)) (h : old.one_to_one store)
    (hm : old.cache_mask ≤ 2 ^ log_size - 1) :
    (cache_descriptor.transplant o log_size shifts old store).2.one_to_one
      (cache_descriptor.transplant o log_size shifts old store).1 := by
  rw [one_to_one_iff] at h ⊢
  obtain ⟨hl, hlt, hnd⟩ := h
  rw [transplant_eq, map_getD_range _ _ hl]
  simp only [new_entries_length]
  refine ⟨?_, ?_, ?_⟩
  · simp only [List.length_append, List.length_map, List.length_range, hl]
    omega
  · intro p hp
    rcases List.mem_append.1 hp with hp | hp
    · have := hlt p hp
      omega
    · obtain ⟨j, hj, rfl⟩ := List.mem_map.1 hp
      have := List.mem_range.1 hj
      omega
  · rw [List.nodup_append]
    refine ⟨hnd, ?_, ?_⟩
    · apply List.Nodup.map _ (List.nodup_range _)
      intro a b e
      simpa using e
    · intro p hp hp2
      obtain ⟨j, _, rfl⟩ := List.mem_map.1 hp2
      have := hlt _ hp
      omega

/-- C22 (the index array is one-to-one): in every reachable state, N = 1 or
N = 2, the index array of the live descriptor has `cache_mask + 1` slots, every
slot holds the address of an allocated entry, and no two slots hold the same
address; the first constructor establishes this for any store, and
`cache_descriptor::get` and the second constructor (for a target mask that is
not below the old one, as its assertion requires) preserve it. -/
theorem index_array_one_to_one [Inhabited T] :
    ((∀ (cfg : Config) (m : vtbl_map Nat Nat T), Reachable ops1 cfg m →
        m.descriptor.one_to_one m.store) ∧
      (∀ (log_size shift : Nat) (store : List (stored_type Nat T)),
        (cache_descriptor.create ops1 log_size shift store).2.one_to_one
          (cache_descriptor.create ops1 log_size shift store).1) ∧
      (∀ (store : List (stored_type Nat T)) (d : cache_descriptor Nat) (vtbl : Nat),
        d.one_to_one store →
        (cache_descriptor.get ops1 store d vtbl).2.1.one_to_one
          (cache_descriptor.get ops1 store d vtbl).1) ∧
      (∀ (log_size : Nat) (shifts : Nat) (old : cache_descriptor Nat)
          (store : List (stored_type Nat T)),
        old.one_to_one store → old.cache_mask ≤ 2 ^ log_size - 1 →
        (cache_descriptor.transplant ops1 log_size shifts old store).2.one_to_one
          (cache_descriptor.transplant ops1 log_size shifts old store).1)) ∧
    ((∀ (cfg : Config) (m : vtbl_map (Nat × Nat) (Nat × Nat) T), Reachable ops2 cfg m →
        m.descriptor.one_to_one m.store) ∧
      (∀ (log_size shift : Nat) (store : List (stored_type (Nat × Nat) T)),
        (cache_descriptor.create ops2 log_size shift store).2.one_to_one
          (cache_descriptor.create ops2 log_size shift store).1) ∧
      (∀ (store : List (stored_type (Nat × Nat) T)) (d : cache_descriptor (Nat × Nat)) (vtbl : (Nat × Nat)),
        d.one_to_one store →
        (cache_descriptor.get ops2 store d vtbl).2.1.one_to_one
          (cache_descriptor.get ops2 store d vtbl).1) ∧
      (∀ (log_size : Nat) (shifts : (Nat × Nat)) (old : cache_descriptor (Nat × Nat))
          (store : List (stored_type (Nat × Nat) T)),
        old.one_to_one store → old.cache_mask ≤ 2 ^ log_size - 1 →
        (cache_descriptor.transplant ops2 log_size shifts old store).2.one_to_one
          (cache_descriptor.transplant ops2 log_size shifts old store).1)) :=
  ⟨⟨fun _ _ hm => one_to_one_of_inv (reachable_inv lawful1 hm),
    fun ls s store => create_one_to_one ops1 ls s store,
    fun store d vtbl h => get_one_to_one lawful1 store d vtbl h,
    fun ls s old store h hm => transplant_one_to_one ops1 ls s old store h hm⟩,
   ⟨fun _ _ hm => one_to_one_of_inv (reachable_inv lawful2 hm),
    fun ls s store => create_one_to_one ops2 ls s store,
    fun store d vtbl h => get_one_to_one lawful2 store d vtbl h,
    fun ls s old store h hm => transplant_one_to_one ops2 ls s old store h hm⟩⟩

/-- Witness of C22: the index array of the reachable `example_map` is
one-to-one, and stays so when `cache_descriptor::get(0x50)` swaps two of its
pointers. -/
theorem index_array_one_to_one_witness :
    example_map.descriptor.one_to_one example_map.store ∧
    (cache_descriptor.get ops1 example_map.store example_map.descriptor 0x50).2.1.one_to_one
      (cache_descriptor.get ops1 example_map.store example_map.descriptor 0x50).1 :=
  ⟨index_array_one_to_one.1.1 sample_config example_map reachable_example_map,
   index_array_one_to_one.1.2.2.1 example_map.store example_map.descriptor 0x50
     (index_array_one_to_one.1.1 sample_config example_map reachable_example_map)⟩

end index_array
section refinement

theorem dedup_length_le_of_comp {α : Type} (L : List α) (f g : α → Nat) (h : Nat → Nat)
    (hf : ∀ v, f v = h (g v)) : (L.map f).dedup.length ≤ (L.map g).dedup.length := by
  have hsub : (L.map f).dedup ⊆ ((L.map g).dedup).map h := by
    intro x hx
    rw [List.mem_dedup] at hx
    obtain ⟨v, hv, rfl⟩ := List.mem_map.1 hx
    rw [hf]
    exact List.mem_map.2 ⟨g v, List.mem_dedup.2 (List.mem_map.2 ⟨v, hv, rfl⟩), rfl⟩
  have := (List.subperm_of_subset (List.nodup_dedup _) hsub).length_le
  rwa [List.length_map] at this

theorem dedup_length_le_twice {α : Type} (L : List α) (f g : α → Nat) (c : Nat)
    (hg : ∀ v, g v = f v ∨ g v = f v + c) :
    (L.map g).dedup.length ≤ 2 * (L.map f).dedup.length := by
  have hsub : (L.map g).dedup ⊆
      (L.map f).dedup ++ ((L.map f).dedup).map (fun x => x + c) := by
    intro x hx
    rw [List.mem_dedup] at hx
    obtain ⟨v, hv, rfl⟩ := List.mem_map.1 hx
    have hm : f v ∈ (L.map f).dedup := List.mem_dedup.2 (List.mem_map.2 ⟨v, hv, rfl⟩)
    rcases hg v with e | e
    · rw [e]
      exact List.mem_append_left _ hm
    · rw [e]
      exact List.mem_append_right _ (List.mem_map.2 ⟨f v, hm, rfl⟩)
  have := (List.subperm_of_subset (List.nodup_dedup _) hsub).length_le
  rw [List.length_append, List.length_map] at this
  omega

theorem mod_two_pow_succ (x k : Nat) (hx : x ≤ 2 ^ (k + 1) - 1) :
    x = x % 2 ^ k ∨ x = x % 2 ^ k + 2 ^ k := by
  have hp := Nat.two_pow_pos k
  have h2 : 2 ^ (k + 1) = 2 ^ k * 2 := by rw [Nat.pow_succ]
  have hq : x / 2 ^ k < 2 := Nat.div_lt_of_lt_mul (by omega)
  have hd := Nat.div_add_mod x (2 ^ k)
  have hc : x / 2 ^ k = 0 ∨ x / 2 ^ k = 1 := by
    generalize x / 2 ^ k = q at hq
    omega
  rcases hc with e | e
  · left
    rw [e, Nat.mul_zero, Nat.zero_add] at hd
    exact hd.symm
  · right
    rw [e, Nat.mul_one] at hd
    rw [Nat.add_comm]
    exact hd.symm

/-- One more bit of log size refines the slot: the slot at log size `k` is the
slot at `k + 1` modulo `2^k`, and the numbers of distinct slots of any keys
differ by at most a factor two. -/
theorem slot_refines {κ σ : Type} {o : KeyOps κ σ} (ho : o.Lawful)
    (hslot : ∀ zo a i k, i ≤ k → o.slot zo (2 ^ k - 1) a &&& (2 ^ i - 1) = o.slot zo (2 ^ i - 1) a)
    (zo : σ) (k : Nat) :
    (∀ v, o.slot zo (2 ^ k - 1) v = o.slot zo (2 ^ (k + 1) - 1) v % 2 ^ k) ∧
    (∀ v, o.slot zo (2 ^ (k + 1) - 1) v = o.slot zo (2 ^ k - 1) v ∨
      o.slot zo (2 ^ (k + 1) - 1) v = o.slot zo (2 ^ k - 1) v + 2 ^ k) ∧
    (∀ keys : List κ,
      (keys.map (o.slot zo (2 ^ k - 1))).dedup.length ≤
        (keys.map (o.slot zo (2 ^ (k + 1) - 1))).dedup.length ∧
      (keys.map (o.slot zo (2 ^ (k + 1) - 1))).dedup.length ≤
        2 * (keys.map (o.slot zo (2 ^ k - 1))).dedup.length) := by
  have h1 : ∀ v, o.slot zo (2 ^ k - 1) v = o.slot zo (2 ^ (k + 1) - 1) v % 2 ^ k := by
    intro v
    rw [← hslot zo v k (k + 1) (Nat.le_succ k), Nat.and_pow_two_sub_one_eq_mod]
  have h2 : ∀ v, o.slot zo (2 ^ (k + 1) - 1) v = o.slot zo (2 ^ k - 1) v ∨
      o.slot zo (2 ^ (k + 1) - 1) v = o.slot zo (2 ^ k - 1) v + 2 ^ k := by
    intro v
    rw [h1 v]
    exact mod_two_pow_succ _ k (ho.slot_le zo _ v)
  exact ⟨h1, h2, fun keys =>
    ⟨dedup_length_le_of_comp keys _ _ (fun x => x % 2 ^ k) h1,
     dedup_length_le_twice keys _ _ (2 ^ k) h2⟩⟩

/-- C26 (growing the log size refines the index): for N = 1 and N = 2, any
fixed offsets and every key, the slot at log size `k` is the slot at `k + 1`
modulo `2^k`, so the slot at `k + 1` is that at `k` or that plus `2^k`; hence
for every list of keys the number of distinct slots at `k + 1` is at least
the number at `k` and at most twice it. -/
theorem exponent_refines_index :
    (∀ (zo : Nat) (k : Nat),
      (∀ v : Nat, ops1.slot zo (2 ^ k - 1) v = ops1.slot zo (2 ^ (k + 1) - 1) v % 2 ^ k) ∧
      (∀ v : Nat, ops1.slot zo (2 ^ (k + 1) - 1) v = ops1.slot zo (2 ^ k - 1) v ∨
        ops1.slot zo (2 ^ (k + 1) - 1) v = ops1.slot zo (2 ^ k - 1) v + 2 ^ k) ∧
      (∀ keys : List Nat,
        (keys.map (ops1.slot zo (2 ^ k - 1))).dedup.length ≤
          (keys.map (ops1.slot zo (2 ^ (k + 1) - 1))).dedup.length ∧
        (keys.map (ops1.slot zo (2 ^ (k + 1) - 1))).dedup.length ≤
          2 * (keys.map (ops1.slot zo (2 ^ k - 1))).dedup.length)) ∧
    (∀ (zo : (Nat × Nat)) (k : Nat),
      (∀ v : (Nat × Nat), ops2.slot zo (2 ^ k - 1) v = ops2.slot zo (2 ^ (k + 1) - 1) v % 2 ^ k) ∧
      (∀ v : (Nat × Nat), ops2.slot zo (2 ^ (k + 1) - 1) v = ops2.slot zo (2 ^ k - 1) v ∨
        ops2.slot zo (2 ^ (k + 1) - 1) v = ops2.slot zo (2 ^ k - 1) v + 2 ^ k) ∧
      (∀ keys : List (Nat × Nat),
        (keys.map (ops2.slot zo (2 ^ k - 1))).dedup.length ≤
          (keys.map (ops2.slot zo (2 ^ (k + 1) - 1))).dedup.length ∧
        (keys.map (ops2.slot zo (2 ^ (k + 1) - 1))).dedup.length ≤
          2 * (keys.map (ops2.slot zo (2 ^ k - 1))).dedup.length)) :=
  ⟨fun zo k => slot_refines lawful1 slot1_mask zo k,
   fun zo k => slot_refines lawful2 slot2_mask zo k⟩

end refinement
section repeated_lookup
variable {T : Type}

theorem get_loc {κ σ : Type} [DecidableEq κ] [DecidableEq σ] (o : KeyOps κ σ)
    (store : List (stored_type κ T)) (d : cache_descriptor σ) (vtbl w : κ) :
    (cache_descriptor.get o store d vtbl).2.1.loc o w = d.loc o w := by
  unfold cache_descriptor.loc
  rw [get_cache_mask, get_optimal_shift]

/-- The entry `get` returns is the one its final descriptor references from
the slot of the key. -/
theorem map_get_result_slot {κ σ : Type} [DecidableEq κ] [DecidableEq σ] (o : KeyOps κ σ)
    [Inhabited T] (cfg : Config) (m : vtbl_map κ σ T) (vtbl : κ) :
    (vtbl_map.get o cfg m vtbl).2 =
      (vtbl_map.get o cfg m vtbl).1.descriptor.at
        ((vtbl_map.get o cfg m vtbl).1.descriptor.loc o vtbl) := by
  rcases map_get_cases o cfg m vtbl with ⟨_, e⟩ | ⟨_, e⟩ | ⟨_, _, c, e⟩
  · rw [e]
  · rw [e]
    show (cache_descriptor.get o _ _ vtbl).2.1.at (cache_descriptor.get o _ _ vtbl).2.2 =
      (cache_descriptor.get o _ _ vtbl).2.1.at ((cache_descriptor.get o _ _ vtbl).2.1.loc o vtbl)
    rw [get_slot, get_loc]
  · rw [e]
    show (cache_descriptor.get o _ _ vtbl).2.1.at (m.descriptor.loc o vtbl) =
      (cache_descriptor.get o _ _ vtbl).2.1.at ((cache_descriptor.get o _ _ vtbl).2.1.loc o vtbl)
    rw [get_loc]

theorem map_get_repeat {κ σ : Type} [DecidableEq κ] [DecidableEq σ] (o : KeyOps κ σ)
    [Inhabited T] (cfg : Config) (m : vtbl_map κ σ T) (vtbl : κ)
    (h : vtbl_at o (vtbl_map.get o cfg m vtbl).1.store (vtbl_map.get o cfg m vtbl).2 = vtbl) :
    vtbl_at o (vtbl_map.get o cfg m vtbl).1.store
      ((vtbl_map.get o cfg m vtbl).1.descriptor.at
        ((vtbl_map.get o cfg m vtbl).1.descriptor.loc o vtbl)) = vtbl ∧
    vtbl_map.get o cfg (vtbl_map.get o cfg m vtbl).1 vtbl =
      ((vtbl_map.get o cfg m vtbl).1, (vtbl_map.get o cfg m vtbl).2) := by
  have hs := map_get_result_slot o cfg m vtbl
  rw [hs] at h
  refine ⟨h, ?_⟩
  rcases map_get_cases o cfg (vtbl_map.get o cfg m vtbl).1 vtbl with ⟨_, e⟩ | ⟨c, _⟩ | ⟨c, _⟩
  · rw [e, ← hs]
  · exact absurd h c
  · exact absurd h c

/-- C29 (a repeated lookup is a pure hit): for N = 1 and N = 2, every state
and every key `vtbl`, if `get(vtbl)` returned an entry holding `vtbl`, then
the entry in the slot of `vtbl` holds `vtbl`, and an immediately following
`get(vtbl)` returns the same entry and the same cache: store, index array,
`used`, mask, shifts, `collisions_before_update` and `last_table_size` are as
they were.  In every reachable state the premise holds for a key that passes
the `XTL_ASSERT`s and is stored, and for one that is not stored unless the
table is full at the ceiling. -/
theorem repeated_lookup_is_hit [Inhabited T] :
    ((∀ (cfg : Config) (m : vtbl_map Nat Nat T) (vtbl : Nat),
        vtbl_at ops1 (vtbl_map.get ops1 cfg m vtbl).1.store (vtbl_map.get ops1 cfg m vtbl).2
          = vtbl →
        vtbl_at ops1 (vtbl_map.get ops1 cfg m vtbl).1.store
          ((vtbl_map.get ops1 cfg m vtbl).1.descriptor.at
            ((vtbl_map.get ops1 cfg m vtbl).1.descriptor.loc ops1 vtbl)) = vtbl ∧
        vtbl_map.get ops1 cfg (vtbl_map.get ops1 cfg m vtbl).1 vtbl =
          ((vtbl_map.get ops1 cfg m vtbl).1, (vtbl_map.get ops1 cfg m vtbl).2)) ∧
      (∀ (cfg : Config) (m : vtbl_map Nat Nat T) (vtbl : Nat), Reachable ops1 cfg m →
        ops1.nonzero vtbl = true → (m.stores ops1 vtbl ∨ ¬ m.at_ceiling cfg) →
        vtbl_map.get ops1 cfg (vtbl_map.get ops1 cfg m vtbl).1 vtbl =
          ((vtbl_map.get ops1 cfg m vtbl).1, (vtbl_map.get ops1 cfg m vtbl).2))) ∧
    ((∀ (cfg : Config) (m : vtbl_map (Nat × Nat) (Nat × Nat) T) (vtbl : (Nat × Nat)),
        vtbl_at ops2 (vtbl_map.get ops2 cfg m vtbl).1.store (vtbl_map.get ops2 cfg m vtbl).2
          = vtbl →
        vtbl_at ops2 (vtbl_map.get ops2 cfg m vtbl).1.store
          ((vtbl_map.get ops2 cfg m vtbl).1.descriptor.at
            ((vtbl_map.get ops2 cfg m vtbl).1.descriptor.loc ops2 vtbl)) = vtbl ∧
        vtbl_map.get ops2 cfg (vtbl_map.get ops2 cfg m vtbl).1 vtbl =
          ((vtbl_map.get ops2 cfg m vtbl).1, (vtbl_map.get ops2 cfg m vtbl).2)) ∧
      (∀ (cfg : Config) (m : vtbl_map (Nat × Nat) (Nat × Nat) T) (vtbl : (Nat × Nat)), Reachable ops2 cfg m →
        ops2.nonzero vtbl = true → (m.stores ops2 vtbl ∨ ¬ m.at_ceiling cfg) →
        vtbl_map.get ops2 cfg (vtbl_map.get ops2 cfg m vtbl).1 vtbl =
          ((vtbl_map.get ops2 cfg m vtbl).1, (vtbl_map.get ops2 cfg m vtbl).2))) :=
  ⟨⟨fun cfg m vtbl h => map_get_repeat ops1 cfg m vtbl h,
    fun cfg m vtbl hm hv hc =>
      (map_get_repeat ops1 cfg m vtbl (map_get_returns_key lawful1 cfg m vtbl hm hv hc)).2⟩,
   ⟨fun cfg m vtbl h => map_get_repeat ops2 cfg m vtbl h,
    fun cfg m vtbl hm hv hc =>
      (map_get_repeat ops2 cfg m vtbl (map_get_returns_key lawful2 cfg m vtbl hm hv hc)).2⟩⟩

/-- Witness of C29: in `example_map` the stored key `0x50` is not in its slot;
`get(0x50)` reorganizes the full table and returns the entry holding `0x50`,
and a second `get(0x50)` changes nothing. -/
theorem repeated_lookup_is_hit_witness :
    vtbl_map.get ops1 sample_config (vtbl_map.get ops1 sample_config example_map 0x50).1 0x50 =
      ((vtbl_map.get ops1 sample_config example_map 0x50).1,
       (vtbl_map.get ops1 sample_config example_map 0x50).2) :=
  (repeated_lookup_is_hit.1.1 sample_config example_map 0x50 (by decide)).2

end repeated_lookup
section permanence
variable {T : Type}

theorem map_get_vtbl_at_cases {κ σ : Type} [DecidableEq κ] [DecidableEq σ] (o : KeyOps κ σ)
    [Inhabited T] (cfg : Config) (m : vtbl_map κ σ T) (vtbl : κ) (q : Nat) :
    vtbl_at o (vtbl_map.get o cfg m vtbl).1.store q = vtbl ∨
      vtbl_at o (vtbl_map.get o cfg m vtbl).1.store q = vtbl_at o m.store q := by
  rcases map_get_cases o cfg m vtbl with ⟨_, e⟩ | ⟨_, e⟩ | ⟨_, _, c, e⟩
  · rw [e]; exact Or.inr rfl
  · rw [e, update_store]
    rcases get_vtbl_at_cases o _ _ vtbl q with h | h
    · exact Or.inl h
    · right
      rw [h, update_descriptor_vtbl_at]
  · rw [e]
    exact get_vtbl_at_cases o m.store m.descriptor vtbl q

/-- A key is written only into an entry whose key is zero, and only when no
entry holds that key. -/
theorem map_get_writes {κ σ : Type} [DecidableEq κ] [DecidableEq σ] {o : KeyOps κ σ}
    [Inhabited T] (ho : o.Lawful) (cfg : Config) (m : vtbl_map κ σ T) (vtbl : κ)
    (hm : Reachable o cfg m) (hv : o.nonzero vtbl = true) (p : Nat)
    (hne : vtbl_at o (vtbl_map.get o cfg m vtbl).1.store p ≠ vtbl_at o m.store p) :
    vtbl_at o m.store p = o.zero ∧
    vtbl_at o (vtbl_map.get o cfg m vtbl).1.store p = vtbl ∧
    ∀ q, vtbl_at o m.store q ≠ vtbl := by
  have hi := reachable_inv ho hm
  refine ⟨?_, ?_, ?_⟩
  · rcases hi.keys p with e | e
    · exact e
    · exact absurd (map_get_vtbl_at o cfg m vtbl p (ho.vacant_of_nonzero _ e)) hne
  · rcases map_get_vtbl_at_cases o cfg m vtbl p with e | e
    · exact e
    · exact absurd e hne
  · intro q hq
    exact hne ((map_get_stored ho cfg hi hv hq).2.2 p)

theorem later_reachable {κ σ : Type} [DecidableEq κ] [DecidableEq σ] {o : KeyOps κ σ}
    [Inhabited T] {cfg : Config} {m m' : vtbl_map κ σ T} (hm : Reachable o cfg m)
    (h : Later o cfg m m') : Reachable o cfg m' := by
  induction h with
  | refl => exact hm
  | get m' vtbl _ hv ih => exact Reachable.get m' vtbl ih hv
  | assign m' p v _ hocc ih => exact Reachable.assign m' p v ih hocc

/-- The key of an occupied entry is the same in every later state. -/
theorem later_vtbl_at {κ σ : Type} [DecidableEq κ] [DecidableEq σ] {o : KeyOps κ σ}
    [Inhabited T] {cfg : Config} {m m' : vtbl_map κ σ T} (h : Later o cfg m m') (p : Nat)
    (hocc : o.vacant (vtbl_at o m.store p) = false) :
    vtbl_at o m'.store p = vtbl_at o m.store p := by
  induction h with
  | refl => rfl
  | get m' vtbl _ _ ih =>
    rw [map_get_vtbl_at o cfg m' vtbl p (by rw [ih]; exact hocc), ih]
  | assign m' q v _ _ ih =>
    show vtbl_at o (set_value m'.store q v) p = _
    rw [vtbl_at_set_value, ih]

theorem key_permanence {κ σ : Type} [DecidableEq κ] [DecidableEq σ] {o : KeyOps κ σ}
    [Inhabited T] (ho : o.Lawful) (cfg : Config) (m : vtbl_map κ σ T)
    (hm : Reachable o cfg m) :
    (∀ p q, vtbl_at o m.store p = vtbl_at o m.store q →
      o.vacant (vtbl_at o m.store p) = false → p = q) ∧
    (∀ m' p, Later o cfg m m' → o.vacant (vtbl_at o m.store p) = false →
      vtbl_at o m'.store p = vtbl_at o m.store p) ∧
    (∀ vtbl p, o.nonzero vtbl = true →
      vtbl_at o (vtbl_map.get o cfg m vtbl).1.store p ≠ vtbl_at o m.store p →
      vtbl_at o m.store p = o.zero ∧
      vtbl_at o (vtbl_map.get o cfg m vtbl).1.store p = vtbl ∧
      ∀ q, vtbl_at o m.store q ≠ vtbl) ∧
    (∀ p (v : T) q, vtbl_at o (set_value m.store p v) q = vtbl_at o m.store q) := by
  have hi := reachable_inv ho hm
  refine ⟨?_, fun m' p h hocc => later_vtbl_at h p hocc,
    fun vtbl p hv hne => map_get_writes ho cfg m vtbl hm hv p hne,
    fun p v q => vtbl_at_set_value o m.store p q v⟩
  intro p q e hocc
  exact hi.uniq p q e (hi.nonzero_of_occupied ho hocc)

/-- C30 (key uniqueness and permanence): in every reachable state, N = 1 or
N = 2, no two entries hold the same key of an occupied entry; the key of an
occupied entry is the same in every later state, whatever `get` calls and
assignments through returned references lead there; `get(vtbl)` changes the
key of an entry only if that key was zero, writes `vtbl` there, and does so
only when no entry held `vtbl`; an assignment to a value changes no key. -/
theorem key_unique_and_permanent [Inhabited T] :
    (∀ (cfg : Config) (m : vtbl_map Nat Nat T), Reachable ops1 cfg m →
      (∀ p q, vtbl_at ops1 m.store p = vtbl_at ops1 m.store q →
        ops1.vacant (vtbl_at ops1 m.store p) = false → p = q) ∧
      (∀ m' p, Later ops1 cfg m m' → ops1.vacant (vtbl_at ops1 m.store p) = false →
        vtbl_at ops1 m'.store p = vtbl_at ops1 m.store p) ∧
      (∀ vtbl p, ops1.nonzero vtbl = true →
        vtbl_at ops1 (vtbl_map.get ops1 cfg m vtbl).1.store p ≠ vtbl_at ops1 m.store p →
        vtbl_at ops1 m.store p = ops1.zero ∧
        vtbl_at ops1 (vtbl_map.get ops1 cfg m vtbl).1.store p = vtbl ∧
        ∀ q, vtbl_at ops1 m.store q ≠ vtbl) ∧
      (∀ p (v : T) q, vtbl_at ops1 (set_value m.store p v) q = vtbl_at ops1 m.store q)) ∧
    (∀ (cfg : Config) (m : vtbl_map (Nat × Nat) (Nat × Nat) T), Reachable ops2 cfg m →
      (∀ p q, vtbl_at ops2 m.store p = vtbl_at ops2 m.store q →
        ops2.vacant (vtbl_at ops2 m.store p) = false → p = q) ∧
      (∀ m' p, Later ops2 cfg m m' → ops2.vacant (vtbl_at ops2 m.store p) = false →
        vtbl_at ops2 m'.store p = vtbl_at ops2 m.store p) ∧
      (∀ vtbl p, ops2.nonzero vtbl = true →
        vtbl_at ops2 (vtbl_map.get ops2 cfg m vtbl).1.store p ≠ vtbl_at ops2 m.store p →
        vtbl_at ops2 m.store p = ops2.zero ∧
        vtbl_at ops2 (vtbl_map.get ops2 cfg m vtbl).1.store p = vtbl ∧
        ∀ q, vtbl_at ops2 m.store q ≠ vtbl) ∧
      (∀ p (v : T) q, vtbl_at ops2 (set_value m.store p v) q = vtbl_at ops2 m.store q)) :=
  ⟨fun cfg m hm => key_permanence lawful1 cfg m hm,
   fun cfg m hm => key_permanence lawful2 cfg m hm⟩

/-- Witness of C30: entry 0 of `example_map` holds `0x50`; after `get(0x60)`,
which reorganizes the full table, and `get(0x70)` it still does. -/
theorem key_unique_and_permanent_witness :
    vtbl_at ops1
      (vtbl_map.get ops1 sample_config
        (vtbl_map.get ops1 sample_config example_map 0x60).1 0x70).1.store 0 =
      vtbl_at ops1 example_map.store 0 :=
  (key_unique_and_permanent.1 sample_config example_map reachable_example_map).2.1 _ 0
    (Later.get _ 0x70 (Later.get _ 0x60 (Later.refl) (by decide)) (by decide)) (by decide)

end permanence
section zero_key
variable {T : Type}

/-- C27 (a zero key is not rejected and aliases storage): in every state of a
`vtbl_map<1,T>` whose slot 0 references an entry with key zero, `get` with key
0 is a hit on that entry and returns it with the cache unchanged; and the
freshly constructed `fresh_map` is such a reachable state, in which `get(0)`
returns the unoccupied entry 0, leaves `used` at 0, and the following
`get(0x10)` returns the same entry 0, which then holds `0x10`. -/
theorem zero_key_aliases [Inhabited T] :
    (∀ (cfg : Config) (m : vtbl_map Nat Nat T),
      vtbl_at ops1 m.store (m.descriptor.at 0) = 0 →
      vtbl_map.get ops1 cfg m 0 = (m, m.descriptor.at 0)) ∧
    (∃ (m : vtbl_map Nat Nat Nat) (K : Nat), Reachable ops1 sample_config m ∧ K ≠ 0 ∧
      ops1.vacant (vtbl_at ops1 m.store (vtbl_map.get ops1 sample_config m 0).2) = true ∧
      (vtbl_map.get ops1 sample_config m 0).1.descriptor.used = m.descriptor.used ∧
      (vtbl_map.get ops1 sample_config (vtbl_map.get ops1 sample_config m 0).1 K).2 =
        (vtbl_map.get ops1 sample_config m 0).2 ∧
      vtbl_at ops1
        (vtbl_map.get ops1 sample_config (vtbl_map.get ops1 sample_config m 0).1 K).1.store
        (vtbl_map.get ops1 sample_config m 0).2 = K) := by
  constructor
  · intro cfg m h
    have hl : m.descriptor.loc ops1 0 = 0 := by
      show (0 >>> m.descriptor.optimal_shift) &&& m.descriptor.cache_mask = 0
      simp
    rcases map_get_cases ops1 cfg m 0 with ⟨_, e⟩ | ⟨c, _⟩ | ⟨c, _⟩
    · rw [e, hl]
    · rw [hl] at c; exact absurd h c
    · rw [hl] at c; exact absurd h c
  · exact ⟨fresh_map, 0x10, reachable_fresh_map, by decide, by decide, by decide, by decide,
      by decide⟩

/-- Witness of C27: slot 0 of `fresh_map` references an entry with key zero,
and `get(0)` returns that entry and the unchanged cache. -/
theorem zero_key_aliases_witness :
    vtbl_map.get ops1 sample_config fresh_map 0 = (fresh_map, fresh_map.descriptor.at 0) :=
  zero_key_aliases.1 sample_config fresh_map (by decide)

end zero_key
section shared_component
variable {T : Type}

/-- Unless the table is full at the ceiling when a key that is not stored
arrives, two calls of `get` with different keys return different entries. -/
theorem map_get_distinct {κ σ : Type} [DecidableEq κ] [DecidableEq σ] {o : KeyOps κ σ}
    [Inhabited T] (ho : o.Lawful) (cfg : Config) (m : vtbl_map κ σ T) (a b : κ)
    (hm : Reachable o cfg m) (ha : o.nonzero a = true) (hb : o.nonzero b = true)
    (hab : a ≠ b) (h1 : m.stores o a ∨ ¬ m.at_ceiling cfg)
    (h2 : (vtbl_map.get o cfg m a).1.stores o b ∨ ¬ (vtbl_map.get o cfg m a).1.at_ceiling cfg) :
    (vtbl_map.get o cfg m a).2 ≠ (vtbl_map.get o cfg (vtbl_map.get o cfg m a).1 b).2 := by
  have e1 := map_get_returns_key ho cfg m a hm ha h1
  have e2 := map_get_returns_key ho cfg _ b (Reachable.get m a hm ha) hb h2
  have e3 := map_get_vtbl_at o cfg (vtbl_map.get o cfg m a).1 b (vtbl_map.get o cfg m a).2
    (by rw [e1]; exact ho.vacant_of_nonzero a ha)
  intro e
  rw [← e, e3, e1] at e2
  exact hab e2

theorem reachable_ceiling_map2 : Reachable ops2 small_config ceiling_map2 :=
  reachable_gets _ _ (Reachable.create 1 0 (by decide)) (by decide)

/-- Evaluation for C25: `ceiling_map2` is reachable, its two slots are used and
it is at the ceiling of `small_config`; from it `get(0x100, 0x400)` and then
`get(0x100, 0x500)` return the same entry 1, which holds `(0x100, 0x300)`. -/
theorem shared_component_fails_at_ceiling :
    Reachable ops2 small_config ceiling_map2 ∧
    ceiling_map2.at_ceiling small_config ∧
    (vtbl_map.gets ops2 small_config ceiling_map2 [(0x100, 0x400), (0x100, 0x500)]).2
      = [1, 1] ∧
    vtbl_at ops2
      (vtbl_map.gets ops2 small_config ceiling_map2 [(0x100, 0x400), (0x100, 0x500)]).1.store 1
      = (0x100, 0x300) :=
  ⟨reachable_ceiling_map2, ⟨by decide, by decide⟩, by decide, by decide⟩

end shared_component
section key_count
variable {T : Type}

theorem mem_stored_keys {κ σ : Type} [DecidableEq κ] [DecidableEq σ] {o : KeyOps κ σ}
    (ho : o.Lawful) {m : vtbl_map κ σ T} (h : m.descriptor.Inv o m.store) (K : κ) :
    K ∈ m.stored_keys o ↔ m.stores o K ∧ o.vacant K = false := by
  constructor
  · intro hK
    unfold vtbl_map.stored_keys at hK
    rw [List.mem_filter, slot_keys_eq h] at hK
    obtain ⟨p, _, e⟩ := List.mem_map.1 hK.1
    exact ⟨⟨p, e⟩, by simpa using hK.2⟩
  · rintro ⟨⟨p, e⟩, hv⟩
    have := mem_slot_keys ho h p (by rw [e]; exact hv)
    rw [e] at this
    exact this

theorem later_trans {κ σ : Type} [DecidableEq κ] [DecidableEq σ] {o : KeyOps κ σ}
    [Inhabited T] {cfg : Config} {a b c : vtbl_map κ σ T} (h1 : Later o cfg a b)
    (h2 : Later o cfg b c) : Later o cfg a c := by
  induction h2 with
  | refl => exact h1
  | get m' vtbl _ hv ih => exact Later.get m' vtbl ih hv
  | assign m' p v _ hocc ih => exact Later.assign m' p v ih hocc

theorem later_gets {κ σ : Type} [DecidableEq κ] [DecidableEq σ] {o : KeyOps κ σ}
    [Inhabited T] {cfg : Config} :
    ∀ (ks : List κ) (m : vtbl_map κ σ T), (∀ K ∈ ks, o.nonzero K = true) →
      Later o cfg m (vtbl_map.gets o cfg m ks).1
  | [], _, _ => Later.refl
  | K :: ks, m, hk =>
    later_trans (Later.get m K Later.refl (hk K (List.mem_cons_self _ _)))
      (later_gets ks _ (fun K' h => hk K' (List.mem_cons_of_mem _ h)))

end key_count
section growth
variable {T : Type}

end growth
section capacity
variable {T : Type}

/-- One `get` of a key of `ks` in a state where every stored key is in its
slot and the keys of `ks` have different slots: `update` is not called, mask
and shifts stay, every stored key is still in its slot, and the entry
returned holds the key. -/
theorem at_home_step {κ σ : Type} [DecidableEq κ] [DecidableEq σ] {o : KeyOps κ σ}
    [Inhabited T] (ho : o.Lawful) (cfg : Config) (ks : List κ) (m : vtbl_map κ σ T)
    (hm : Reachable o cfg m) (hh : m.at_home o ks)
    (hinj : ∀ a ∈ ks, ∀ b ∈ ks, m.descriptor.loc o a = m.descriptor.loc o b → a = b)
    (K : κ) (hK : K ∈ ks) (hv : o.nonzero K = true) :
    ¬ m.calls_update o K ∧
    (vtbl_map.get o cfg m K).1.descriptor.cache_mask = m.descriptor.cache_mask ∧
    (vtbl_map.get o cfg m K).1.descriptor.optimal_shift = m.descriptor.optimal_shift ∧
    (vtbl_map.get o cfg m K).1.at_home o ks ∧
    vtbl_at o (vtbl_map.get o cfg m K).1.store (vtbl_map.get o cfg m K).2 = K := by
  have hi := reachable_inv ho hm
  have hloc := loc_le ho m.descriptor K
  by_cases hit : vtbl_at o m.store (m.descriptor.at (m.descriptor.loc o K)) = K
  · rcases map_get_cases o cfg m K with ⟨_, e⟩ | ⟨c, _⟩ | ⟨c, _⟩
    · rw [e]
      exact ⟨fun c => c.1 hit, rfl, rfl, hh, hit⟩
    · exact absurd hit c
    · exact absurd hit c
  · have hvac : o.vacant (vtbl_at o m.store (m.descriptor.at (m.descriptor.loc o K))) = true := by
      rcases hh _ hloc with c | ⟨c1, c2⟩
      · exact c
      · exact absurd (hinj _ c1 K hK c2) hit
    have hroom : m.descriptor.used ≤ m.descriptor.cache_mask := by
      by_contra c
      have := full_no_vacant hi (by omega) _ hloc
      rw [hvac] at this
      cases this
    have hcond : ¬ (m.descriptor.cache_mask < m.descriptor.used ∨
        (o.vacant (vtbl_at o m.store (m.descriptor.at (m.descriptor.loc o K))) = false ∧
          m.collisions_before_update - 1 ≤ 0 ∧ m.descriptor.used ≠ m.last_table_size)) := by
      rintro (c | ⟨c, _⟩)
      · omega
      · rw [hvac] at c
        cases c
    have hnew : ∀ p, vtbl_at o m.store p ≠ K := by
      intro p hp
      have hocc : o.vacant (vtbl_at o m.store p) = false := by
        rw [hp]; exact ho.vacant_of_nonzero K hv
      have hlt : p < m.store.length := by
        apply lt_of_vtbl_at_ne o
        intro c
        rw [c, ho.vacant_zero] at hocc
        cases hocc
      obtain ⟨j, hj, ej⟩ := hi.slot_of hlt
      rcases hh j hj with c | ⟨_, c2⟩
      · rw [ej, hocc] at c
        cases c
      · rw [ej, hp] at c2
        rw [c2, ej] at hit
        exact hit hp
    obtain ⟨e, hmask, hshift, _⟩ := (map_get_trigger o cfg m K hit).2 hcond
    obtain ⟨cv, hcv, hcvvac, _, _, hkeys, _, hat1, hat2, hat3⟩ :=
      get_absent_room ho hi hnew hroom
    have hst : (vtbl_map.get o cfg m K).1.store =
        (cache_descriptor.get o m.store m.descriptor K).1 := by rw [e]
    have hde : (vtbl_map.get o cfg m K).1.descriptor =
        (cache_descriptor.get o m.store m.descriptor K).2.1 := by rw [e]
    have hres : (vtbl_map.get o cfg m K).2 =
        (cache_descriptor.get o m.store m.descriptor K).2.1.at (m.descriptor.loc o K) := by
      rw [e]
    refine ⟨?_, hmask, hshift, ?_, ?_⟩
    · rintro ⟨_, c⟩
      apply hcond
      rcases c with c | c
      · left
        simpa [cache_descriptor.is_full] using c
      · exact Or.inr c
    · intro j hj
      rw [hmask] at hj
      rw [hst, hde, get_loc]
      by_cases hj1 : j = m.descriptor.loc o K
      · right
        rw [hj1, hat1, hkeys, if_pos rfl]
        exact ⟨hK, rfl⟩
      · by_cases hj2 : j = cv
        · left
          rw [hj2, hat2, hkeys]
          have hne : m.descriptor.at (m.descriptor.loc o K) ≠ m.descriptor.at cv := by
            intro c
            have := hi.at_inj hloc hcv c
            exact hj1 (by rw [hj2, this])
          rw [if_neg hne]
          exact hvac
        · rw [hat3 j hj2 hj1, hkeys]
          have hne : m.descriptor.at j ≠ m.descriptor.at cv := by
            intro c
            exact hj2 (hi.at_inj hj hcv c)
          rw [if_neg hne]
          exact hh j hj
    · rw [hst, hres, hat1, hkeys, if_pos rfl]

/-- A sequence of `get` calls with keys of `ks` from a state where every stored
key is in its slot: `update` is never called, mask and shifts stay, and every
call has returned the entry that holds its key. -/
theorem at_home_gets {κ σ : Type} [DecidableEq κ] [DecidableEq σ] {o : KeyOps κ σ}
    [Inhabited T] (ho : o.Lawful) (cfg : Config) (ks : List κ) (mask : Nat) (shift : σ)
    (hinj : ∀ a ∈ ks, ∀ b ∈ ks, o.slot shift mask a = o.slot shift mask b → a = b) :
    ∀ (l : List κ) (m : vtbl_map κ σ T), Reachable o cfg m → m.at_home o ks →
      m.descriptor.cache_mask = mask → m.descriptor.optimal_shift = shift →
      (∀ K ∈ l, K ∈ ks ∧ o.nonzero K = true) →
      (∀ pre K post, l = pre ++ K :: post →
        ¬ (vtbl_map.gets o cfg m pre).1.calls_update o K) ∧
      (vtbl_map.gets o cfg m l).1.descriptor.cache_mask = mask ∧
      (vtbl_map.gets o cfg m l).1.descriptor.optimal_shift = shift ∧
      (vtbl_map.gets o cfg m l).2.length = l.length ∧
      ∀ i, i < l.length →
        vtbl_at o (vtbl_map.gets o cfg m l).1.store ((vtbl_map.gets o cfg m l).2.getD i 0) =
          l[i]?.getD o.zero
  | [], m, _, _, hmask, hshift, _ => by
    refine ⟨?_, hmask, hshift, rfl, ?_⟩
    · intro pre K post e
      cases pre <;> cases e
    · intro i hi
      cases hi
  | K :: l, m, hm, hh, hmask, hshift, hl => by
    obtain ⟨hK, hv⟩ := hl K (List.mem_cons_self _ _)
    have hl' : ∀ K' ∈ l, K' ∈ ks ∧ o.nonzero K' = true :=
      fun K' h => hl K' (List.mem_cons_of_mem _ h)
    have hinj' : ∀ a ∈ ks, ∀ b ∈ ks, m.descriptor.loc o a = m.descriptor.loc o b → a = b := by
      intro a ha b hb e
      unfold cache_descriptor.loc at e
      rw [hmask, hshift] at e
      exact hinj a ha b hb e
    obtain ⟨s1, s2, s3, s4, s5⟩ := at_home_step ho cfg ks m hm hh hinj' K hK hv
    have hm1 := Reachable.get m K hm hv
    obtain ⟨i1, i2, i3, i4, i5⟩ := at_home_gets ho cfg ks mask shift hinj l
      (vtbl_map.get o cfg m K).1 hm1 s4 (by rw [s2, hmask]) (by rw [s3, hshift]) hl'
    have hgets : vtbl_map.gets o cfg m (K :: l) =
        ((vtbl_map.gets o cfg (vtbl_map.get o cfg m K).1 l).1,
         (vtbl_map.get o cfg m K).2 :: (vtbl_map.gets o cfg (vtbl_map.get o cfg m K).1 l).2) :=
      rfl
    refine ⟨?_, ?_, ?_, ?_, ?_⟩
    · intro pre K' post e
      cases pre with
      | nil =>
        simp only [List.nil_append, List.cons.injEq] at e
        rw [← e.1]
        exact s1
      | cons a pre' =>
        simp only [List.cons_append, List.cons.injEq] at e
        rw [← e.1]
        exact i1 pre' K' post e.2
    · rw [hgets]; exact i2
    · rw [hgets]; exact i3
    · rw [hgets]; simp [i4]
    · intro i hi
      rw [hgets]
      cases i with
      | zero =>
        have hlater : Later o cfg (vtbl_map.get o cfg m K).1
            (vtbl_map.gets o cfg (vtbl_map.get o cfg m K).1 l).1 :=
          later_gets l _ (fun K' h => (hl' K' h).2)
        have := later_vtbl_at hlater (vtbl_map.get o cfg m K).2
          (by rw [s5]; exact ho.vacant_of_nonzero K hv)
        simpa [s5] using this
      | succ j =>
        have := i5 j (by simpa using hi)
        simpa using this

end capacity
section capacity_claim
variable {T : Type}

theorem create_at_home {κ σ : Type} [DecidableEq κ] [DecidableEq σ] {o : KeyOps κ σ}
    [Inhabited T] (ho : o.Lawful) (cfg : Config) (h lts : Nat) (hh : 1 ≤ h) (ks : List κ) :
    (vtbl_map.create o cfg h lts : vtbl_map κ σ T).at_home o ks := by
  have hm0 : Reachable o cfg (vtbl_map.create o cfg h lts : vtbl_map κ σ T) :=
    Reachable.create h lts hh
  have hi := reachable_inv ho hm0
  intro i hi2
  left
  have hc := hi.count
  have hu : (vtbl_map.create o cfg h lts : vtbl_map κ σ T).descriptor.used = 0 := rfl
  rw [hu] at hc
  have := (List.countP_eq_zero.1 hc.symm) _ (hi.at_mem hi2)
  simpa using this

/-- C23 as amended (no reorganization for keys with different slots, N = 1):
for every hint `h >= 1` and every sequence of `get` calls on the freshly
constructed cache whose keys are non-zero and have pairwise different slots
under the construction parameters (shift `irrelevant_bits`, mask
`2^req_bits(h-1) - 1`), `update` is never called, mask and shift stay those
chosen at construction, and every call has returned the entry that holds its
key, the same entry for the same key.  For the keys `0x1000`, `0x2000`,
`0x1000` and hint 2 under `sample_config`, which share slot 0, the three calls
return the entries 0, 1 and 0, whether the indeterminate `last_table_size` is 0
or 1. -/
theorem no_update_for_separate_slots [Inhabited T] :
    (∀ (cfg : Config) (h lts : Nat) (ks : List Nat), 1 ≤ h → (∀ K ∈ ks, K ≠ 0) →
      (∀ a ∈ ks, ∀ b ∈ ks,
        ops1.slot cfg.irrelevant_bits (2 ^ req_bits (h - 1) - 1) a =
          ops1.slot cfg.irrelevant_bits (2 ^ req_bits (h - 1) - 1) b → a = b) →
      (∀ pre K post, ks = pre ++ K :: post →
        ¬ (vtbl_map.gets ops1 cfg (vtbl_map.create ops1 cfg h lts : vtbl_map Nat Nat T)
          pre).1.calls_update ops1 K) ∧
      (vtbl_map.gets ops1 cfg (vtbl_map.create ops1 cfg h lts : vtbl_map Nat Nat T)
        ks).1.descriptor.cache_mask = 2 ^ req_bits (h - 1) - 1 ∧
      (vtbl_map.gets ops1 cfg (vtbl_map.create ops1 cfg h lts : vtbl_map Nat Nat T)
        ks).1.descriptor.optimal_shift = cfg.irrelevant_bits ∧
      (vtbl_map.gets ops1 cfg (vtbl_map.create ops1 cfg h lts : vtbl_map Nat Nat T)
        ks).2.length = ks.length ∧
      (∀ i, i < ks.length →
        vtbl_at ops1
          (vtbl_map.gets ops1 cfg (vtbl_map.create ops1 cfg h lts : vtbl_map Nat Nat T)
            ks).1.store
          ((vtbl_map.gets ops1 cfg (vtbl_map.create ops1 cfg h lts : vtbl_map Nat Nat T)
            ks).2.getD i 0) = ks.getD i 0) ∧
      (∀ i j, i < ks.length → j < ks.length → ks.getD i 0 = ks.getD j 0 →
        (vtbl_map.gets ops1 cfg (vtbl_map.create ops1 cfg h lts : vtbl_map Nat Nat T)
            ks).2.getD i 0 =
          (vtbl_map.gets ops1 cfg (vtbl_map.create ops1 cfg h lts : vtbl_map Nat Nat T)
            ks).2.getD j 0)) ∧
    (vtbl_map.gets ops1 sample_config
      (vtbl_map.create ops1 sample_config 2 0 : vtbl_map Nat Nat Nat)
      [0x1000, 0x2000, 0x1000]).2 = [0, 1, 0] ∧
    (vtbl_map.gets ops1 sample_config
      (vtbl_map.create ops1 sample_config 2 1 : vtbl_map Nat Nat Nat)
      [0x1000, 0x2000, 0x1000]).2 = [0, 1, 0] := by
  refine ⟨?_, by decide, by decide⟩
  intro cfg h lts ks hh hk hinj
  have hm0 : Reachable ops1 cfg (vtbl_map.create ops1 cfg h lts : vtbl_map Nat Nat T) :=
    Reachable.create h lts hh
  have hnz : ∀ K ∈ ks, K ∈ ks ∧ ops1.nonzero K = true := by
    intro K hK
    have := hk K hK
    exact ⟨hK, by simp [ops1, this]⟩
  obtain ⟨g1, g2, g3, g4, g5⟩ := at_home_gets lawful1 cfg ks (2 ^ req_bits (h - 1) - 1)
    cfg.irrelevant_bits hinj ks _ hm0 (create_at_home lawful1 cfg h lts hh ks) rfl rfl hnz
  have hholds : ∀ i, i < ks.length →
      vtbl_at ops1
        (vtbl_map.gets ops1 cfg (vtbl_map.create ops1 cfg h lts : vtbl_map Nat Nat T)
          ks).1.store
        ((vtbl_map.gets ops1 cfg (vtbl_map.create ops1 cfg h lts : vtbl_map Nat Nat T)
          ks).2.getD i 0) = ks.getD i 0 := by
    intro i hi
    rw [g5 i hi, List.getD_eq_getElem?_getD]
    rfl
  refine ⟨g1, g2, g3, g4, hholds, ?_⟩
  intro i j hi hj e
  have hif := reachable_inv lawful1
    (reachable_gets ks _ hm0 (fun K hK => (hnz K hK).2))
  apply hif.uniq
  · rw [hholds i hi, hholds j hj, e]
  · rw [hholds i hi]
    apply (hnz _ _).2
    rw [List.getD_eq_getElem _ _ hi]
    exact List.getElem_mem hi

/-- Witness of C23: hint 2 and the keys `0x10`, `0x18`, `0x10`, whose slots
under shift 3 and mask 1 are 0 and 1: mask and shift stay 1 and 3. -/
theorem no_update_for_separate_slots_witness :
    (1 ≤ 2 ∧ (∀ K ∈ [0x10, 0x18, 0x10], K ≠ 0) ∧
      (∀ a ∈ [0x10, 0x18, 0x10], ∀ b ∈ [0x10, 0x18, 0x10],
        ops1.slot sample_config.irrelevant_bits (2 ^ req_bits (2 - 1) - 1) a =
          ops1.slot sample_config.irrelevant_bits (2 ^ req_bits (2 - 1) - 1) b → a = b)) ∧
    (vtbl_map.gets ops1 sample_config
      (vtbl_map.create ops1 sample_config 2 0 : vtbl_map Nat Nat Nat)
      [0x10, 0x18, 0x10]).1.descriptor.cache_mask = 2 ^ req_bits (2 - 1) - 1 ∧
    (vtbl_map.gets ops1 sample_config
      (vtbl_map.create ops1 sample_config 2 0 : vtbl_map Nat Nat Nat)
      [0x10, 0x18, 0x10]).1.descriptor.optimal_shift = sample_config.irrelevant_bits :=
  ⟨⟨by decide, by decide, by decide⟩,
   (no_update_for_separate_slots.1 sample_config 2 0 [0x10, 0x18, 0x10] (by decide)
      (by decide) (by decide)).2.1,
   (no_update_for_separate_slots.1 sample_config 2 0 [0x10, 0x18, 0x10] (by decide)
      (by decide) (by decide)).2.2.1⟩

/-- Counterexample to C23 as stated: with hint 2 under `sample_config` the two
keys `0x1000` and `0x2000` share slot 0.  When `last_table_size` starts as 0
the second call `get(0x2000)` calls `update`, which changes the shift from 3
to 12; when it starts as 1 the third call `get(0x1000)` finds the table full,
calls `update`, and the table grows from two slots to four. -/
theorem no_update_counterexample :
    [0x1000, 0x2000].dedup.length ≤ 2 ∧
    (vtbl_map.create ops1 sample_config 2 0 : vtbl_map Nat Nat Nat).descriptor.optimal_shift
      = 3 ∧
    (vtbl_map.get ops1 sample_config
      (vtbl_map.create ops1 sample_config 2 0 : vtbl_map Nat Nat Nat)
      0x1000).1.calls_update ops1 0x2000 ∧
    (vtbl_map.gets ops1 sample_config
      (vtbl_map.create ops1 sample_config 2 0 : vtbl_map Nat Nat Nat)
      [0x1000, 0x2000]).1.descriptor.optimal_shift = 12 ∧
    (vtbl_map.create ops1 sample_config 2 1 : vtbl_map Nat Nat Nat).descriptor.cache_mask
      = 1 ∧
    (vtbl_map.gets ops1 sample_config
      (vtbl_map.create ops1 sample_config 2 1 : vtbl_map Nat Nat Nat)
      [0x1000, 0x2000]).1.calls_update ops1 0x1000 ∧
    (vtbl_map.gets ops1 sample_config
      (vtbl_map.create ops1 sample_config 2 1 : vtbl_map Nat Nat Nat)
      [0x1000, 0x2000, 0x1000]).1.descriptor.cache_mask = 3 :=
  ⟨by decide, by decide, ⟨by decide, Or.inr ⟨by decide, by decide, by decide⟩⟩, by decide,
   by decide, ⟨by decide, Or.inl (by decide)⟩, by decide⟩

end capacity_claim
section destruction

/-- Evaluation for C28: `example_map` is reachable; during its lifetime the
first constructor allocated the chunk of the entries 0 and 1 and the `get`
calls one more chunk, of the entries 2 and 3.  With 16-byte entries and the
chunks at the addresses 1000 and 1032, the second beginning where the first
ends, the destructor passes only 1000 to `delete[]`; so it does with 1968 only
when the chunks are at 2000 and 1968; with the chunks at 1000 and 2000 it
passes both base addresses. -/
theorem destructor_misses_adjacent_chunk :
    Reachable ops1 sample_config example_map ∧
    vtbl_map.lifetime_chunks (T := Nat) ops1 sample_config 1 0 [0x50, 0x30, 0x20, 0x10]
      = [(0, 2), (2, 2)] ∧
    destroy 16 example_map.descriptor.cache_mask
      (example_map.descriptor.cache.map (entry_addr 16 [(0, 2), (2, 2)] [1000, 1032]))
      = [1000] ∧
    destroy 16 example_map.descriptor.cache_mask
      (example_map.descriptor.cache.map (entry_addr 16 [(0, 2), (2, 2)] [2000, 1968]))
      = [1968] ∧
    destroy 16 example_map.descriptor.cache_mask
      (example_map.descriptor.cache.map (entry_addr 16 [(0, 2), (2, 2)] [1000, 2000]))
      = [1000, 2000] :=
  ⟨reachable_example_map, by decide, by decide, by decide, by decide⟩

end destruction
section accounting
variable {T : Type}

theorem accounting {κ σ : Type} [DecidableEq κ] [DecidableEq σ] {o : KeyOps κ σ}
    [Inhabited T] (ho : o.Lawful) (cfg : Config) (m : vtbl_map κ σ T)
    (hm : Reachable o cfg m) :
    m.descriptor.used =
      (List.range (m.descriptor.cache_mask + 1)).countP
        (fun i => !o.vacant (vtbl_at o m.store (m.descriptor.at i))) ∧
    (m.descriptor.cache_mask < m.descriptor.used ↔
      ∀ i, i ≤ m.descriptor.cache_mask →
        o.vacant (vtbl_at o m.store (m.descriptor.at i)) = false) ∧
    (m.descriptor.used ≤ m.descriptor.cache_mask →
      ∃ cv, first_slot (fun i => o.vacant (vtbl_at o m.store (m.descriptor.at i)))
          m.descriptor.cache_mask = some cv ∧
        cv ≤ m.descriptor.cache_mask ∧
        o.vacant (vtbl_at o m.store (m.descriptor.at cv)) = true ∧
        ∀ j, j < cv → o.vacant (vtbl_at o m.store (m.descriptor.at j)) = false) := by
  have hi := reachable_inv ho hm
  refine ⟨?_, ?_, ?_⟩
  · have h1 := slot_keys_countP hi
    unfold vtbl_map.slot_keys at h1
    rw [List.countP_map] at h1
    rw [← h1]
    rfl
  · have h := (occupancy ho cfg m hm).2.2
    unfold cache_descriptor.is_full at h
    rw [decide_eq_true_iff] at h
    exact h
  · intro hu
    obtain ⟨cv, hcv⟩ := hi.scan_vacant hu
    have h := first_slot_some hcv
    exact ⟨cv, hcv, h.1, h.2.1, h.2.2⟩

/-- C31 (occupancy accounting): in every reachable state, N = 1 or N = 2,
`used` is the number of slots whose entry is occupied; `is_full()`
(`used > cache_mask`) holds exactly when no slot references an unoccupied
entry; and whenever `used <= cache_mask` the scan of `cache_descriptor::get`
for an empty slot finds one, the first slot whose entry is unoccupied. -/
theorem occupancy_accounting [Inhabited T] :
    (∀ (cfg : Config) (m : vtbl_map Nat Nat T), Reachable ops1 cfg m →
      m.descriptor.used =
        (List.range (m.descriptor.cache_mask + 1)).countP
          (fun i => !ops1.vacant (vtbl_at ops1 m.store (m.descriptor.at i))) ∧
      (m.descriptor.cache_mask < m.descriptor.used ↔
        ∀ i, i ≤ m.descriptor.cache_mask →
          ops1.vacant (vtbl_at ops1 m.store (m.descriptor.at i)) = false) ∧
      (m.descriptor.used ≤ m.descriptor.cache_mask →
        ∃ cv, first_slot (fun i => ops1.vacant (vtbl_at ops1 m.store (m.descriptor.at i)))
            m.descriptor.cache_mask = some cv ∧
          cv ≤ m.descriptor.cache_mask ∧
          ops1.vacant (vtbl_at ops1 m.store (m.descriptor.at cv)) = true ∧
          ∀ j, j < cv → ops1.vacant (vtbl_at ops1 m.store (m.descriptor.at j)) = false)) ∧
    (∀ (cfg : Config) (m : vtbl_map (Nat × Nat) (Nat × Nat) T), Reachable ops2 cfg m →
      m.descriptor.used =
        (List.range (m.descriptor.cache_mask + 1)).countP
          (fun i => !ops2.vacant (vtbl_at ops2 m.store (m.descriptor.at i))) ∧
      (m.descriptor.cache_mask < m.descriptor.used ↔
        ∀ i, i ≤ m.descriptor.cache_mask →
          ops2.vacant (vtbl_at ops2 m.store (m.descriptor.at i)) = false) ∧
      (m.descriptor.used ≤ m.descriptor.cache_mask →
        ∃ cv, first_slot (fun i => ops2.vacant (vtbl_at ops2 m.store (m.descriptor.at i)))
            m.descriptor.cache_mask = some cv ∧
          cv ≤ m.descriptor.cache_mask ∧
          ops2.vacant (vtbl_at ops2 m.store (m.descriptor.at cv)) = true ∧
          ∀ j, j < cv → ops2.vacant (vtbl_at ops2 m.store (m.descriptor.at j)) = false)) :=
  ⟨fun cfg m hm => accounting lawful1 cfg m hm, fun cfg m hm => accounting lawful2 cfg m hm⟩

/-- Witness of C31: in the reachable `example_map` all four slots reference
occupied entries and `used` is 4. -/
theorem occupancy_accounting_witness :
    example_map.descriptor.used =
      (List.range (example_map.descriptor.cache_mask + 1)).countP
        (fun i => !ops1.vacant (vtbl_at ops1 example_map.store (example_map.descriptor.at i))) :=
  (occupancy_accounting.1 sample_config example_map reachable_example_map).1

end accounting
section pair_components
variable {T : Type}

/-- C32 (N = 2): in every state reachable by `get` calls whose two key
components are both non-zero, every entry has both key components zero or
both non-zero; so an entry whose first component is zero passes the assertion
`vtbl[1] == 0`, one whose first component is non-zero passes the assertion
`vtbl1 != 0`, and the emptiness test on `vtbl[0]` alone decides whether the
entry holds a key. -/
theorem pair_components_agree [Inhabited T] :
    ∀ (cfg : Config) (m : vtbl_map (Nat × Nat) (Nat × Nat) T), Reachable ops2 cfg m →
      ∀ p, ((vtbl_at ops2 m.store p).1 = 0 → (vtbl_at ops2 m.store p).2 = 0) ∧
        ((vtbl_at ops2 m.store p).1 ≠ 0 → (vtbl_at ops2 m.store p).2 ≠ 0) ∧
        (ops2.vacant (vtbl_at ops2 m.store p) = true ↔ vtbl_at ops2 m.store p = (0, 0)) ∧
        (ops2.vacant (vtbl_at ops2 m.store p) = false ↔
          ops2.nonzero (vtbl_at ops2 m.store p) = true) := by
  intro cfg m hm p
  have hi := reachable_inv lawful2 hm
  rcases hi.keys p with e | e
  · have e2 : vtbl_at ops2 m.store p = (0, 0) := e
    rw [e2]
    simp [ops2]
  · have h1 : (vtbl_at ops2 m.store p).1 ≠ 0 ∧ (vtbl_at ops2 m.store p).2 ≠ 0 := by
      simpa [ops2] using e
    refine ⟨fun c => absurd c h1.1, fun _ => h1.2, ?_, ?_⟩
    · constructor
      · intro c
        rw [lawful2.vacant_of_nonzero _ e] at c
        cases c
      · intro c
        rw [c] at h1
        exact absurd rfl h1.1
    · exact ⟨fun _ => e, fun _ => lawful2.vacant_of_nonzero _ e⟩

/-- Witness of C32: entry 1 of the reachable `ceiling_map2` holds a pair with
a non-zero first component, so its second component is non-zero. -/
theorem pair_components_agree_witness :
    (vtbl_at ops2 ceiling_map2.store 1).1 ≠ 0 ∧ (vtbl_at ops2 ceiling_map2.store 1).2 ≠ 0 :=
  ⟨by decide,
   (pair_components_agree small_config ceiling_map2 reachable_ceiling_map2 1).2.1 (by decide)⟩

end pair_components
section update_assertion
variable {T : Type}

theorem map_get_lts_le {κ σ : Type} [DecidableEq κ] [DecidableEq σ] (o : KeyOps κ σ)
    [Inhabited T] (cfg : Config) (m : vtbl_map κ σ T) (vtbl : κ)
    (h : m.last_table_size ≤ m.descriptor.used) :
    (vtbl_map.get o cfg m vtbl).1.last_table_size ≤
      (vtbl_map.get o cfg m vtbl).1.descriptor.used := by
  rcases map_get_cases o cfg m vtbl with ⟨_, e⟩ | ⟨_, e⟩ | ⟨_, _, c, e⟩
  · rw [e]; exact h
  · rw [e]
    exact le_refl _
  · rw [e]
    exact le_trans h (get_used_le o m.store m.descriptor vtbl)

theorem later_lts_le {κ σ : Type} [DecidableEq κ] [DecidableEq σ] {o : KeyOps κ σ}
    [Inhabited T] {cfg : Config} {m m' : vtbl_map κ σ T} (h : Later o cfg m m')
    (h0 : m.last_table_size ≤ m.descriptor.used) :
    m'.last_table_size ≤ m'.descriptor.used := by
  induction h with
  | refl => exact h0
  | get m' vtbl _ _ ih => exact map_get_lts_le o cfg m' vtbl ih
  | assign m' p v _ _ ih => exact ih

theorem update_assertion {κ σ : Type} [DecidableEq κ] [DecidableEq σ] {o : KeyOps κ σ}
    [Inhabited T] (cfg : Config) (h : Nat) (m : vtbl_map κ σ T)
    (hl : Later o cfg (vtbl_map.create o cfg h 0) m) :
    m.last_table_size ≤ m.descriptor.used ∧
    ∀ vtbl, m.calls_update o vtbl →
      m.last_table_size < m.descriptor.used ∨ m.descriptor.is_full = true := by
  have hle := later_lts_le hl (Nat.zero_le _)
  refine ⟨hle, ?_⟩
  rintro vtbl ⟨_, c | ⟨_, _, c⟩⟩
  · exact Or.inr c
  · left
    omega

/-- C33 (precondition of `update`): for a cache whose `last_table_size` is 0
at construction, N = 1 or N = 2, in every state that `get` calls and
assignments lead to, `last_table_size <= used`; hence whenever the facade
`get` calls `update`, the assertion at the top of `update` holds:
`last_table_size < used` or the table is full. -/
theorem update_precondition [Inhabited T] :
    (∀ (cfg : Config) (h : Nat) (m : vtbl_map Nat Nat T),
      Later ops1 cfg (vtbl_map.create ops1 cfg h 0) m →
      m.last_table_size ≤ m.descriptor.used ∧
      ∀ vtbl, m.calls_update ops1 vtbl →
        m.last_table_size < m.descriptor.used ∨ m.descriptor.is_full = true) ∧
    (∀ (cfg : Config) (h : Nat) (m : vtbl_map (Nat × Nat) (Nat × Nat) T),
      Later ops2 cfg (vtbl_map.create ops2 cfg h 0) m →
      m.last_table_size ≤ m.descriptor.used ∧
      ∀ vtbl, m.calls_update ops2 vtbl →
        m.last_table_size < m.descriptor.used ∨ m.descriptor.is_full = true) :=
  ⟨fun cfg h m hl => update_assertion cfg h m hl,
   fun cfg h m hl => update_assertion cfg h m hl⟩

/-- Witness of C33: `example_map` follows the construction with
`last_table_size = 0`; its `last_table_size` is at most `used`. -/
theorem update_precondition_witness :
    example_map.last_table_size ≤ example_map.descriptor.used :=
  (update_precondition.1 sample_config 1 example_map
    (later_gets [0x50, 0x30, 0x20, 0x10] _ (by decide))).1

end update_assertion
section determinism

/-- Evaluation for C37: two runs of `vtbl_map<1,int>(2)` under `sample_config`
with the same keys `0x30`, `0x20`, `0x30`, `0x8`, one with `last_table_size`
holding 0 after construction and one with 1.  After the second `get` the first
run has shift 4 and the second shift 3; after the third the first has two
slots and the second four; and the fourth `get` returns entry 2 in the first
run and entry 3 in the second. -/
theorem construction_value_changes_run :
    (vtbl_map.gets ops1 sample_config
      (vtbl_map.create ops1 sample_config 2 0 : vtbl_map Nat Nat Nat)
      [0x30, 0x20]).1.descriptor.optimal_shift = 4 ∧
    (vtbl_map.gets ops1 sample_config
      (vtbl_map.create ops1 sample_config 2 1 : vtbl_map Nat Nat Nat)
      [0x30, 0x20]).1.descriptor.optimal_shift = 3 ∧
    (vtbl_map.gets ops1 sample_config
      (vtbl_map.create ops1 sample_config 2 0 : vtbl_map Nat Nat Nat)
      [0x30, 0x20, 0x30]).1.descriptor.cache_mask = 1 ∧
    (vtbl_map.gets ops1 sample_config
      (vtbl_map.create ops1 sample_config 2 1 : vtbl_map Nat Nat Nat)
      [0x30, 0x20, 0x30]).1.descriptor.cache_mask = 3 ∧
    (vtbl_map.gets ops1 sample_config
      (vtbl_map.create ops1 sample_config 2 0 : vtbl_map Nat Nat Nat)
      [0x30, 0x20, 0x30, 0x8]).2 = [0, 1, 0, 2] ∧
    (vtbl_map.gets ops1 sample_config
      (vtbl_map.create ops1 sample_config 2 1 : vtbl_map Nat Nat Nat)
      [0x30, 0x20, 0x30, 0x8]).2 = [0, 1, 0, 3] := by
  decide

end determinism
section bounded_updates
variable {T : Type}

theorem calls_update_iff {κ σ : Type} [DecidableEq κ] (o : KeyOps κ σ) (m : vtbl_map κ σ T)
    (vtbl : κ) :
    m.calls_update o vtbl ↔
      vtbl_at o m.store (m.descriptor.at (m.descriptor.loc o vtbl)) ≠ vtbl ∧
      (m.descriptor.cache_mask < m.descriptor.used ∨
        (o.vacant (vtbl_at o m.store (m.descriptor.at (m.descriptor.loc o vtbl))) = false ∧
          m.collisions_before_update - 1 ≤ 0 ∧ m.descriptor.used ≠ m.last_table_size)) := by
  unfold vtbl_map.calls_update cache_descriptor.is_full
  simp only [decide_eq_true_iff, gt_iff_lt]

/-- Without a call of `update`, `get` keeps mask, shifts and `last_table_size`. -/
theorem map_get_quiet {κ σ : Type} [DecidableEq κ] [DecidableEq σ] (o : KeyOps κ σ)
    [Inhabited T] (cfg : Config) (m : vtbl_map κ σ T) (vtbl : κ)
    (h : ¬ m.calls_update o vtbl) :
    (vtbl_map.get o cfg m vtbl).1.descriptor.cache_mask = m.descriptor.cache_mask ∧
    (vtbl_map.get o cfg m vtbl).1.descriptor.optimal_shift = m.descriptor.optimal_shift ∧
    (vtbl_map.get o cfg m vtbl).1.last_table_size = m.last_table_size := by
  by_cases hit : vtbl_at o m.store (m.descriptor.at (m.descriptor.loc o vtbl)) = vtbl
  · rcases map_get_cases o cfg m vtbl with ⟨_, e⟩ | ⟨c, _⟩ | ⟨c, _⟩
    · rw [e]
      exact ⟨rfl, rfl, rfl⟩
    · exact absurd hit c
    · exact absurd hit c
  · rw [calls_update_iff] at h
    have hc := (map_get_trigger o cfg m vtbl hit).2 (fun c => h ⟨hit, c⟩)
    exact hc.2

/-- A call of `update` for a stored key below the ceiling leaves a table that
is not full, with `last_table_size = used`. -/
theorem map_get_settles {κ σ : Type} [DecidableEq κ] [DecidableEq σ] {o : KeyOps κ σ}
    [Inhabited T] (ho : o.Lawful) (cfg : Config) (m : vtbl_map κ σ T) (vtbl : κ)
    (hm : Reachable o cfg m) (hk : req_bits m.descriptor.cache_mask < cfg.max_log_size)
    (hv : o.nonzero vtbl = true) (hs : m.stores o vtbl) (h : m.calls_update o vtbl) :
    (vtbl_map.get o cfg m vtbl).1.descriptor.used ≤
      (vtbl_map.get o cfg m vtbl).1.descriptor.cache_mask ∧
    (vtbl_map.get o cfg m vtbl).1.descriptor.used =
      (vtbl_map.get o cfg m vtbl).1.last_table_size := by
  have hi := reachable_inv ho hm
  rw [calls_update_iff] at h
  have e := (map_get_trigger o cfg m vtbl h.1).1 h.2
  rw [e, update_congr o cfg m m.last_table_size _ vtbl]
  have hroom := update_descriptor_room ho cfg hi vtbl (fun c => by omega)
  obtain ⟨p, hp⟩ := hs
  have hp2 : vtbl_at o (vtbl_map.update_descriptor o cfg m vtbl).1 p = vtbl := by
    rw [update_descriptor_vtbl_at]; exact hp
  obtain ⟨_, e2, _⟩ := get_stored ho (update_descriptor_inv ho cfg hi vtbl) hv hp2
  refine ⟨?_, rfl⟩
  show (cache_descriptor.get o _ _ vtbl).2.1.used ≤ (cache_descriptor.get o _ _ vtbl).2.1.cache_mask
  rw [e2, get_cache_mask]
  exact hroom

theorem map_get_stores {κ σ : Type} [DecidableEq κ] [DecidableEq σ] {o : KeyOps κ σ}
    [Inhabited T] (ho : o.Lawful) (cfg : Config) (m : vtbl_map κ σ T) (vtbl : κ)
    (hm : Reachable o cfg m) (hv : o.nonzero vtbl = true) (hs : m.stores o vtbl) :
    (vtbl_map.get o cfg m vtbl).1.descriptor.used = m.descriptor.used ∧
    ∀ w, m.stores o w → (vtbl_map.get o cfg m vtbl).1.stores o w := by
  obtain ⟨p, hp⟩ := hs
  obtain ⟨_, hu, hq⟩ := map_get_stored ho cfg (reachable_inv ho hm) hv hp
  refine ⟨hu, ?_⟩
  rintro w ⟨q, e⟩
  exact ⟨q, by rw [hq]; exact e⟩

/-- In a table that is not full and has `last_table_size = used`, `get` calls
with stored keys never call `update`. -/
theorem settled_gets {κ σ : Type} [DecidableEq κ] [DecidableEq σ] {o : KeyOps κ σ}
    [Inhabited T] (ho : o.Lawful) (cfg : Config) :
    ∀ (ks : List κ) (m : vtbl_map κ σ T), Reachable o cfg m →
      m.descriptor.used ≤ m.descriptor.cache_mask →
      m.descriptor.used = m.last_table_size →
      (∀ K ∈ ks, o.nonzero K = true ∧ m.stores o K) →
      vtbl_map.update_calls o cfg m ks = 0
  | [], _, _, _, _, _ => rfl
  | K :: ks, m, hm, hroom, hlts, hk => by
    obtain ⟨hv, hs⟩ := hk K (List.mem_cons_self _ _)
    have hq : ¬ m.calls_update o K := by
      rw [calls_update_iff]
      rintro ⟨_, c | ⟨_, _, c⟩⟩
      · omega
      · exact c hlts
    obtain ⟨q1, _, q3⟩ := map_get_quiet o cfg m K hq
    obtain ⟨s1, s2⟩ := map_get_stores ho cfg m K hm hv hs
    unfold vtbl_map.update_calls
    rw [if_neg hq, Nat.zero_add]
    exact settled_gets ho cfg ks _ (Reachable.get m K hm hv) (by rw [s1, q1]; exact hroom)
      (by rw [s1, q3]; exact hlts)
      (fun K' h => ⟨(hk K' (List.mem_cons_of_mem _ h)).1,
        s2 K' (hk K' (List.mem_cons_of_mem _ h)).2⟩)

/-- A sequence that counts no call of `update` has none at any position. -/
theorem update_calls_eq_zero {κ σ : Type} [DecidableEq κ] [DecidableEq σ] (o : KeyOps κ σ)
    [Inhabited T] (cfg : Config) :
    ∀ (ks : List κ) (m : vtbl_map κ σ T), vtbl_map.update_calls o cfg m ks = 0 →
      ∀ pre K post, ks = pre ++ K :: post →
        ¬ (vtbl_map.gets o cfg m pre).1.calls_update o K
  | [], _, _ => by
    intro pre K post e
    cases pre <;> cases e
  | K0 :: ks, m, h => by
    unfold vtbl_map.update_calls at h
    have h1 : ¬ m.calls_update o K0 := by
      intro c
      rw [if_pos c] at h
      omega
    rw [if_neg h1, Nat.zero_add] at h
    intro pre K post e
    cases pre with
    | nil =>
      simp only [List.nil_append, List.cons.injEq] at e
      rw [← e.1]
      exact h1
    | cons a pre' =>
      simp only [List.cons_append, List.cons.injEq] at e
      obtain ⟨e1, e2⟩ := e
      subst e1
      exact update_calls_eq_zero o cfg ks _ h pre' K post e2

/-- Below the ceiling, `get` calls with stored keys call `update` at most once,
and after that call the table is not full, `last_table_size` is `used`, and
the rest of the sequence calls `update` no more. -/
theorem stored_gets_update_once {κ σ : Type} [DecidableEq κ] [DecidableEq σ] {o : KeyOps κ σ}
    [Inhabited T] (ho : o.Lawful) (cfg : Config) :
    ∀ (ks : List κ) (m : vtbl_map κ σ T), Reachable o cfg m →
      req_bits m.descriptor.cache_mask < cfg.max_log_size →
      (∀ K ∈ ks, o.nonzero K = true ∧ m.stores o K) →
      vtbl_map.update_calls o cfg m ks ≤ 1 ∧
      ∀ pre K post, ks = pre ++ K :: post →
        (vtbl_map.gets o cfg m pre).1.calls_update o K →
        (vtbl_map.gets o cfg m (pre ++ [K])).1.descriptor.used ≤
          (vtbl_map.gets o cfg m (pre ++ [K])).1.descriptor.cache_mask ∧
        (vtbl_map.gets o cfg m (pre ++ [K])).1.descriptor.used =
          (vtbl_map.gets o cfg m (pre ++ [K])).1.last_table_size ∧
        vtbl_map.update_calls o cfg (vtbl_map.gets o cfg m (pre ++ [K])).1 post = 0
  | [], _, _, _, _ => by
    refine ⟨Nat.zero_le _, ?_⟩
    intro pre K post e
    cases pre <;> cases e
  | K :: ks, m, hm, hkM, hk => by
    obtain ⟨hv, hs⟩ := hk K (List.mem_cons_self _ _)
    obtain ⟨s1, s2⟩ := map_get_stores ho cfg m K hm hv hs
    have hm1 := Reachable.get m K hm hv
    have hk' : ∀ K' ∈ ks, o.nonzero K' = true ∧ (vtbl_map.get o cfg m K).1.stores o K' :=
      fun K' h => ⟨(hk K' (List.mem_cons_of_mem _ h)).1,
        s2 K' (hk K' (List.mem_cons_of_mem _ h)).2⟩
    by_cases hc : m.calls_update o K
    · obtain ⟨t1, t2⟩ := map_get_settles ho cfg m K hm hkM hv hs hc
      have hz := settled_gets ho cfg ks _ hm1 t1 t2 hk'
      refine ⟨?_, ?_⟩
      · unfold vtbl_map.update_calls
        rw [if_pos hc, hz]
      · intro pre K' post e hcall
        cases pre with
        | nil =>
          simp only [List.nil_append, List.cons.injEq] at e
          obtain ⟨e1, e2⟩ := e
          subst e1 e2
          exact ⟨t1, t2, hz⟩
        | cons a pre' =>
          simp only [List.cons_append, List.cons.injEq] at e
          obtain ⟨e1, e2⟩ := e
          subst e1
          exact absurd hcall (update_calls_eq_zero o cfg ks _ hz pre' K' post e2)
    · obtain ⟨q1, _, _⟩ := map_get_quiet o cfg m K hc
      obtain ⟨i1, i2⟩ := stored_gets_update_once ho cfg ks _ hm1 (by rw [q1]; exact hkM) hk'
      refine ⟨?_, ?_⟩
      · unfold vtbl_map.update_calls
        rw [if_neg hc, Nat.zero_add]
        exact i1
      · intro pre K' post e hcall
        cases pre with
        | nil =>
          simp only [List.nil_append, List.cons.injEq] at e
          rw [← e.1] at hcall
          exact absurd hcall hc
        | cons a pre' =>
          simp only [List.cons_append, List.cons.injEq] at e
          obtain ⟨e1, e2⟩ := e
          subst e1
          exact i2 pre' K' post e2 hcall

end bounded_updates
section bounded_updates_claim
variable {T : Type}

/-- C34 (reorganizations are bounded without new keys): for every reachable
state, N = 1 or N = 2, whose log size is below `max_log_size`, and every
sequence of `get` calls with keys that pass the `XTL_ASSERT`s and are stored,
`update` is called at most once during the sequence; after the call in which
it is called the table is not full and `used` equals `last_table_size`, and
no later call of the sequence calls `update`. -/
theorem update_at_most_once [Inhabited T] :
    (∀ (cfg : Config) (m : vtbl_map Nat Nat T) (ks : List Nat), Reachable ops1 cfg m →
      req_bits m.descriptor.cache_mask < cfg.max_log_size →
      (∀ K ∈ ks, ops1.nonzero K = true ∧ m.stores ops1 K) →
      vtbl_map.update_calls ops1 cfg m ks ≤ 1 ∧
      ∀ pre K post, ks = pre ++ K :: post →
        (vtbl_map.gets ops1 cfg m pre).1.calls_update ops1 K →
        (vtbl_map.gets ops1 cfg m (pre ++ [K])).1.descriptor.used ≤
          (vtbl_map.gets ops1 cfg m (pre ++ [K])).1.descriptor.cache_mask ∧
        (vtbl_map.gets ops1 cfg m (pre ++ [K])).1.descriptor.used =
          (vtbl_map.gets ops1 cfg m (pre ++ [K])).1.last_table_size ∧
        vtbl_map.update_calls ops1 cfg (vtbl_map.gets ops1 cfg m (pre ++ [K])).1 post = 0) ∧
    (∀ (cfg : Config) (m : vtbl_map (Nat × Nat) (Nat × Nat) T) (ks : List (Nat × Nat)), Reachable ops2 cfg m →
      req_bits m.descriptor.cache_mask < cfg.max_log_size →
      (∀ K ∈ ks, ops2.nonzero K = true ∧ m.stores ops2 K) →
      vtbl_map.update_calls ops2 cfg m ks ≤ 1 ∧
      ∀ pre K post, ks = pre ++ K :: post →
        (vtbl_map.gets ops2 cfg m pre).1.calls_update ops2 K →
        (vtbl_map.gets ops2 cfg m (pre ++ [K])).1.descriptor.used ≤
          (vtbl_map.gets ops2 cfg m (pre ++ [K])).1.descriptor.cache_mask ∧
        (vtbl_map.gets ops2 cfg m (pre ++ [K])).1.descriptor.used =
          (vtbl_map.gets ops2 cfg m (pre ++ [K])).1.last_table_size ∧
        vtbl_map.update_calls ops2 cfg (vtbl_map.gets ops2 cfg m (pre ++ [K])).1 post = 0) :=
  ⟨fun cfg m ks hm hk hs => stored_gets_update_once lawful1 cfg ks m hm hk hs,
   fun cfg m ks hm hk hs => stored_gets_update_once lawful2 cfg ks m hm hk hs⟩

/-- Witness of C34: the table of `example_map` is full and the stored key
`0x50` is not in its slot; the calls `get(0x50)`, `get(0x10)`, `get(0x50)`
call `update` once, in the first call. -/
theorem update_at_most_once_witness :
    req_bits example_map.descriptor.cache_mask < sample_config.max_log_size ∧
    example_map.calls_update ops1 0x50 ∧
    vtbl_map.update_calls ops1 sample_config example_map [0x50, 0x10, 0x50] ≤ 1 :=
  ⟨by decide, by decide,
   (update_at_most_once.1 sample_config example_map [0x50, 0x10, 0x50] reachable_example_map
      (by decide)
      (fun K hK => by
        simp only [List.mem_cons, List.mem_singleton, List.not_mem_nil, or_false] at hK
        rcases hK with e | e | e
        · exact ⟨by rw [e]; decide, ⟨0, by rw [e]; decide⟩⟩
        · exact ⟨by rw [e]; decide, ⟨3, by rw [e]; decide⟩⟩
        · exact ⟨by rw [e]; decide, ⟨0, by rw [e]; decide⟩⟩)).1⟩

end bounded_updates_claim
section no_eviction
variable {T : Type}

/-- Under parameters that give the stored keys and `vtbl` different slots,
`cache_descriptor::get(vtbl)` moves no occupied entry out of the slot of its
key. -/
theorem get_keeps_home {κ σ : Type} [DecidableEq κ] [DecidableEq σ] {o : KeyOps κ σ}
    (ho : o.Lawful) (store : List (stored_type κ T)) (d : cache_descriptor σ) (vtbl : κ)
    (h : d.Inv o store)
    (hinj : ∀ a, stored_in o store a → d.loc o a = d.loc o vtbl → a = vtbl)
    (i : Nat)
    (hocc : o.vacant (vtbl_at o store (d.at i)) = false)
    (hhome : d.loc o (vtbl_at o store (d.at i)) = i) :
    (cache_descriptor.get o store d vtbl).2.1.at i = d.at i ∧
    vtbl_at o (cache_descriptor.get o store d vtbl).1 (d.at i) = vtbl_at o store (d.at i) := by
  refine ⟨?_, get_vtbl_at vtbl (d.at i) hocc⟩
  have hloc := loc_le ho d vtbl
  have hl1 : d.loc o vtbl < d.cache.length := by rw [h.size]; omega
  have hne1 : vtbl_at o store (d.at (d.loc o vtbl)) ≠ vtbl → i ≠ d.loc o vtbl := by
    intro hmiss c
    apply hmiss
    rw [← c]
    exact hinj _ ⟨⟨_, rfl⟩, hocc⟩ (by rw [hhome, c])
  rcases get_cases o store d vtbl with e | ⟨hm, cv, hcv, e⟩ | ⟨hm, _, _, cv, hcv, e⟩ | ⟨_, _, _, e⟩
  · rw [e.2]
  · rw [e]
    have hc := first_slot_some hcv
    have hl2 : cv < d.cache.length := by rw [h.size]; omega
    have hkey : vtbl_at o store (d.at cv) = vtbl := by simpa using hc.2.1
    have hne2 : i ≠ cv := by
      intro c
      rw [c, hkey] at hhome
      rw [hhome, hkey] at hm
      exact hm rfl
    show (swap_slots d.cache (d.loc o vtbl) cv).getD i 0 = d.cache.getD i 0
    rw [swap_slots_getD _ _ _ _ hl1 hl2, if_neg hne2, if_neg (hne1 hm)]
  · rw [e]
    have hc := first_slot_some hcv
    have hl2 : cv < d.cache.length := by rw [h.size]; omega
    have hne2 : i ≠ cv := by
      intro c
      rw [c, hc.2.1] at hocc
      cases hocc
    show (swap_slots d.cache (d.loc o vtbl) cv).getD i 0 = d.cache.getD i 0
    rw [swap_slots_getD _ _ _ _ hl1 hl2, if_neg hne2, if_neg (hne1 hm)]
  · rw [e]

/-- A key in its slot is found there by `cache_descriptor::get` and by the
facade `get`, which change nothing. -/
theorem placed_hit {κ σ : Type} [DecidableEq κ] [DecidableEq σ] (o : KeyOps κ σ)
    [Inhabited T] (store : List (stored_type κ T)) (d : cache_descriptor σ) (vtbl : κ)
    (h : d.placed o store vtbl) :
    cache_descriptor.get o store d vtbl = (store, d, d.loc o vtbl) ∧
    ∀ (cfg : Config) (lts : Nat) (c : Int),
      vtbl_map.get o cfg
          { store := store, descriptor := d, last_table_size := lts,
            collisions_before_update := c } vtbl =
        ({ store := store, descriptor := d, last_table_size := lts,
           collisions_before_update := c }, d.at (d.loc o vtbl)) := by
  constructor
  · rcases get_cases o store d vtbl with e | ⟨c, _⟩ | ⟨c, _⟩ | ⟨c, _⟩
    · exact e.2
    · exact absurd h c
    · exact absurd h c
    · exact absurd h c
  · intro cfg lts c
    rcases map_get_cases o cfg
        { store := store, descriptor := d, last_table_size := lts,
          collisions_before_update := c } vtbl with e | ⟨c, _⟩ | ⟨c, _⟩
    · exact e.2
    · exact absurd h c
    · exact absurd h c

/-- Looking up stored keys one after the other under parameters that give the
stored keys different slots puts each of them in its slot, and leaves there
those that were. -/
theorem gets_place {κ σ : Type} [DecidableEq κ] [DecidableEq σ] {o : KeyOps κ σ}
    (ho : o.Lawful) :
    ∀ (ks : List κ) (store : List (stored_type κ T)) (d : cache_descriptor σ) (D : List κ),
      d.Inv o store →
      (∀ a b, stored_in o store a → stored_in o store b → d.loc o a = d.loc o b → a = b) →
      (∀ K ∈ ks, o.nonzero K = true ∧ stored_in o store K) →
      (∀ K ∈ D, o.nonzero K = true ∧ d.placed o store K) →
      ∀ K, K ∈ D ∨ K ∈ ks →
        (cache_descriptor.gets o store d ks).2.placed o (cache_descriptor.gets o store d ks).1 K
  | [], store, d, D, _, _, _, hD => by
    intro K hK
    rcases hK with c | c
    · exact (hD K c).2
    · cases c
  | K0 :: ks, store, d, D, h, hinj, hk, hD => by
    obtain ⟨hv, hs⟩ := hk K0 (List.mem_cons_self _ _)
    obtain ⟨p, hp⟩ := hs.1
    obtain ⟨e1, _, e3⟩ := get_stored ho h hv hp
    have hi1 := get_inv ho h hv
    have hgets : cache_descriptor.gets o store d (K0 :: ks) =
        cache_descriptor.gets o (cache_descriptor.get o store d K0).1
          (cache_descriptor.get o store d K0).2.1 ks := rfl
    rw [hgets]
    have hloc : ∀ w, (cache_descriptor.get o store d K0).2.1.loc o w = d.loc o w :=
      fun w => get_loc o store d K0 w
    have hD' : ∀ K ∈ K0 :: D, o.nonzero K = true ∧
        (cache_descriptor.get o store d K0).2.1.placed o (cache_descriptor.get o store d K0).1 K := by
      intro K hK
      rcases List.mem_cons.1 hK with c | c
      · subst c
        refine ⟨hv, ?_⟩
        unfold cache_descriptor.placed
        rw [hloc, e3, e1]
        exact hp
      · obtain ⟨hvK, hpK⟩ := hD K c
        refine ⟨hvK, ?_⟩
        unfold cache_descriptor.placed at hpK ⊢
        have hoccK : o.vacant (vtbl_at o store (d.at (d.loc o K))) = false := by
          rw [hpK]; exact ho.vacant_of_nonzero K hvK
        obtain ⟨k1, k2⟩ := get_keeps_home ho store d K0 h
          (fun a ha e => hinj a K0 ha hs e) (d.loc o K) hoccK (by rw [hpK])
        rw [hloc, k1, k2]
        exact hpK
    intro K hK
    apply gets_place ho ks _ _ (K0 :: D) hi1
    · intro a b ha hb e
      rw [e1] at ha hb
      rw [hloc, hloc] at e
      exact hinj a b ha hb e
    · intro K' hK'
      rw [e1]
      exact hk K' (List.mem_cons_of_mem _ hK')
    · exact hD'
    · rcases hK with c | c
      · exact Or.inl (List.mem_cons_of_mem _ c)
      · rcases List.mem_cons.1 c with c | c
        · exact Or.inl (by rw [c]; exact List.mem_cons_self _ _)
        · exact Or.inr c

end no_eviction
section settled_lookups
variable {T : Type}

/-- In a table that is not full and has `last_table_size = used`, the facade
`get` of any key does to store and descriptor what `cache_descriptor::get`
does, and keeps `last_table_size`. -/
theorem settled_get_descriptor {κ σ : Type} [DecidableEq κ] [DecidableEq σ] (o : KeyOps κ σ)
    [Inhabited T] (cfg : Config) (m : vtbl_map κ σ T) (vtbl : κ)
    (hroom : m.descriptor.used ≤ m.descriptor.cache_mask)
    (hlts : m.descriptor.used = m.last_table_size) :
    (vtbl_map.get o cfg m vtbl).1.store = (cache_descriptor.get o m.store m.descriptor vtbl).1 ∧
    (vtbl_map.get o cfg m vtbl).1.descriptor =
      (cache_descriptor.get o m.store m.descriptor vtbl).2.1 ∧
    (vtbl_map.get o cfg m vtbl).1.last_table_size = m.last_table_size := by
  by_cases hit : vtbl_at o m.store (m.descriptor.at (m.descriptor.loc o vtbl)) = vtbl
  · rcases map_get_cases o cfg m vtbl with ⟨_, e⟩ | ⟨c, _⟩ | ⟨c, _⟩
    · rw [e, (placed_hit o m.store m.descriptor vtbl hit).1]
      exact ⟨rfl, rfl, rfl⟩
    · exact absurd hit c
    · exact absurd hit c
  · have hq : ¬ (m.descriptor.cache_mask < m.descriptor.used ∨
        (o.vacant (vtbl_at o m.store (m.descriptor.at (m.descriptor.loc o vtbl))) = false ∧
          m.collisions_before_update - 1 ≤ 0 ∧ m.descriptor.used ≠ m.last_table_size)) := by
      rintro (c | ⟨_, _, c⟩)
      · omega
      · exact c hlts
    obtain ⟨e, _⟩ := (map_get_trigger o cfg m vtbl hit).2 hq
    rw [e]
    exact ⟨rfl, rfl, rfl⟩

/-- In a table that is not full and has `last_table_size = used`, a sequence
of facade `get` calls with stored keys does to store and descriptor what the
same sequence of `cache_descriptor::get` calls does. -/
theorem settled_gets_descriptor {κ σ : Type} [DecidableEq κ] [DecidableEq σ] {o : KeyOps κ σ}
    [Inhabited T] (ho : o.Lawful) (cfg : Config) :
    ∀ (ks : List κ) (m : vtbl_map κ σ T), m.descriptor.Inv o m.store →
      m.descriptor.used ≤ m.descriptor.cache_mask →
      m.descriptor.used = m.last_table_size →
      (∀ K ∈ ks, o.nonzero K = true ∧ stored_in o m.store K) →
      (vtbl_map.gets o cfg m ks).1.store = (cache_descriptor.gets o m.store m.descriptor ks).1 ∧
      (vtbl_map.gets o cfg m ks).1.descriptor =
        (cache_descriptor.gets o m.store m.descriptor ks).2
  | [], _, _, _, _, _ => ⟨rfl, rfl⟩
  | K :: ks, m, hi, hroom, hlts, hk => by
    obtain ⟨hv, hs⟩ := hk K (List.mem_cons_self _ _)
    obtain ⟨p, hp⟩ := hs.1
    obtain ⟨e1, e2, _⟩ := get_stored ho hi hv hp
    obtain ⟨q1, q2, q3⟩ := settled_get_descriptor o cfg m K hroom hlts
    have hi1 := get_inv ho hi hv
    have ih := settled_gets_descriptor ho cfg ks (vtbl_map.get o cfg m K).1
      (by rw [q1, q2]; exact hi1)
      (by rw [q2, e2, get_cache_mask]; exact hroom)
      (by rw [q2, e2, q3]; exact hlts)
      (fun K' h => by
        rw [q1, e1]
        exact hk K' (List.mem_cons_of_mem _ h))
    rw [q1, q2] at ih
    exact ih

end settled_lookups
section no_eviction_claim
variable {T : Type}

theorem reachable_perfect_map : Reachable ops1 sample_config perfect_map :=
  reachable_gets _ _ reachable_example_map (by decide)

/-- In `perfect_map` the keys stored have different slots, and a slot
different from that of the key `0x60`. -/
theorem perfect_map_injective (K : Nat) (hK : K = 0x50 ∨ K = 0x60) (a b : Nat)
    (ha : stored_in ops1 perfect_map.store a ∨ a = K)
    (hb : stored_in ops1 perfect_map.store b ∨ b = K)
    (e : perfect_map.descriptor.loc ops1 a = perfect_map.descriptor.loc ops1 b) : a = b := by
  have hi := reachable_inv lawful1 reachable_perfect_map
  have hmem : ∀ x, (stored_in ops1 perfect_map.store x ∨ x = K) →
      x ∈ [0x50, 0x10, 0x20, 0x30, 0x90, 0x60] := by
    intro x hx
    rcases hx with hx | hx
    · have h1 : x ∈ perfect_map.stored_keys ops1 := (mem_stored_keys lawful1 hi x).2 ⟨hx.1, hx.2⟩
      have h2 : perfect_map.stored_keys ops1 = [0x50, 0x10, 0x20, 0x30, 0x90] := by decide
      rw [h2] at h1
      exact List.mem_append_left [0x60] h1
    · rcases hK with c | c
      · rw [hx, c]; decide
      · rw [hx, c]; decide
  have hall : ∀ x ∈ [0x50, 0x10, 0x20, 0x30, 0x90, 0x60],
      ∀ y ∈ [0x50, 0x10, 0x20, 0x30, 0x90, 0x60],
        perfect_map.descriptor.loc ops1 x = perfect_map.descriptor.loc ops1 y → x = y := by
    decide
  exact hall a (hmem a ha) b (hmem b hb) e

/-- C36 (swaps never evict a key from its slot under collision-free
parameters): for N = 1 and N = 2, every descriptor state that satisfies the
representation invariant and every non-zero key `K` such that the stored keys
together with `K` have different slots, `cache_descriptor::get(K)` leaves every
occupied entry that is referenced from the slot of its key referenced from
that slot, with its key; after the stored keys of a list `ks` have been looked
up by `cache_descriptor::get` under parameters that give the stored keys
different slots, every later lookup of a key of `ks` finds it in its slot:
`cache_descriptor::get` and the facade `get` return it and change nothing; and
in a reachable state with such parameters whose table is not full and whose
`last_table_size` is `used`, the same holds for lookups through the facade
`get`: after the keys of `ks` have been looked up, every later `get` of one of
them is a hit that changes nothing. -/
theorem swaps_never_evict [Inhabited T] :
    ((∀ (store : List (stored_type Nat T)) (d : cache_descriptor Nat) (K : Nat),
        d.Inv ops1 store → ops1.nonzero K = true →
        (∀ a b, (stored_in ops1 store a ∨ a = K) → (stored_in ops1 store b ∨ b = K) →
          d.loc ops1 a = d.loc ops1 b → a = b) →
        ∀ i, ops1.vacant (vtbl_at ops1 store (d.at i)) = false →
          d.loc ops1 (vtbl_at ops1 store (d.at i)) = i →
          (cache_descriptor.get ops1 store d K).2.1.at i = d.at i ∧
          vtbl_at ops1 (cache_descriptor.get ops1 store d K).1 (d.at i) =
            vtbl_at ops1 store (d.at i) ∧
          (cache_descriptor.get ops1 store d K).2.1.loc ops1 (vtbl_at ops1 store (d.at i)) = i) ∧
     (∀ (store : List (stored_type Nat T)) (d : cache_descriptor Nat) (ks pre : List Nat)
        (K : Nat), d.Inv ops1 store →
        (∀ a b, stored_in ops1 store a → stored_in ops1 store b →
          d.loc ops1 a = d.loc ops1 b → a = b) →
        (∀ k ∈ ks, ops1.nonzero k = true ∧ stored_in ops1 store k) →
        (∀ k ∈ pre, k ∈ ks) → K ∈ ks →
        (cache_descriptor.gets ops1 store d (ks ++ pre)).2.placed ops1
          (cache_descriptor.gets ops1 store d (ks ++ pre)).1 K ∧
        cache_descriptor.get ops1 (cache_descriptor.gets ops1 store d (ks ++ pre)).1
            (cache_descriptor.gets ops1 store d (ks ++ pre)).2 K =
          ((cache_descriptor.gets ops1 store d (ks ++ pre)).1,
           (cache_descriptor.gets ops1 store d (ks ++ pre)).2,
           (cache_descriptor.gets ops1 store d (ks ++ pre)).2.loc ops1 K) ∧
        ∀ (cfg : Config) (lts : Nat) (c : Int),
          vtbl_map.get ops1 cfg
              { store := (cache_descriptor.gets ops1 store d (ks ++ pre)).1,
                descriptor := (cache_descriptor.gets ops1 store d (ks ++ pre)).2,
                last_table_size := lts, collisions_before_update := c } K =
            ({ store := (cache_descriptor.gets ops1 store d (ks ++ pre)).1,
               descriptor := (cache_descriptor.gets ops1 store d (ks ++ pre)).2,
               last_table_size := lts, collisions_before_update := c },
             (cache_descriptor.gets ops1 store d (ks ++ pre)).2.at
               ((cache_descriptor.gets ops1 store d (ks ++ pre)).2.loc ops1 K))) ∧
     (∀ (cfg : Config) (m : vtbl_map Nat Nat T) (ks pre : List Nat) (K : Nat),
        Reachable ops1 cfg m →
        (∀ a b, stored_in ops1 m.store a → stored_in ops1 m.store b →
          m.descriptor.loc ops1 a = m.descriptor.loc ops1 b → a = b) →
        m.descriptor.used ≤ m.descriptor.cache_mask →
        m.descriptor.used = m.last_table_size →
        (∀ k ∈ ks, ops1.nonzero k = true ∧ stored_in ops1 m.store k) →
        (∀ k ∈ pre, k ∈ ks) → K ∈ ks →
        vtbl_at ops1 (vtbl_map.gets ops1 cfg m (ks ++ pre)).1.store
          ((vtbl_map.gets ops1 cfg m (ks ++ pre)).1.descriptor.at
            ((vtbl_map.gets ops1 cfg m (ks ++ pre)).1.descriptor.loc ops1 K)) = K ∧
        vtbl_map.get ops1 cfg (vtbl_map.gets ops1 cfg m (ks ++ pre)).1 K =
          ((vtbl_map.gets ops1 cfg m (ks ++ pre)).1,
           (vtbl_map.gets ops1 cfg m (ks ++ pre)).1.descriptor.at
             ((vtbl_map.gets ops1 cfg m (ks ++ pre)).1.descriptor.loc ops1 K)))) ∧
    ((∀ (store : List (stored_type (Nat × Nat) T)) (d : cache_descriptor (Nat × Nat)) (K : (Nat × Nat)),
        d.Inv ops2 store → ops2.nonzero K = true →
        (∀ a b, (stored_in ops2 store a ∨ a = K) → (stored_in ops2 store b ∨ b = K) →
          d.loc ops2 a = d.loc ops2 b → a = b) →
        ∀ i, ops2.vacant (vtbl_at ops2 store (d.at i)) = false →
          d.loc ops2 (vtbl_at ops2 store (d.at i)) = i →
          (cache_descriptor.get ops2 store d K).2.1.at i = d.at i ∧
          vtbl_at ops2 (cache_descriptor.get ops2 store d K).1 (d.at i) =
            vtbl_at ops2 store (d.at i) ∧
          (cache_descriptor.get ops2 store d K).2.1.loc ops2 (vtbl_at ops2 store (d.at i)) = i) ∧
     (∀ (store : List (stored_type (Nat × Nat) T)) (d : cache_descriptor (Nat × Nat)) (ks pre : List (Nat × Nat))
        (K : (Nat × Nat)), d.Inv ops2 store →
        (∀ a b, stored_in ops2 store a → stored_in ops2 store b →
          d.loc ops2 a = d.loc ops2 b → a = b) →
        (∀ k ∈ ks, ops2.nonzero k = true ∧ stored_in ops2 store k) →
        (∀ k ∈ pre, k ∈ ks) → K ∈ ks →
        (cache_descriptor.gets ops2 store d (ks ++ pre)).2.placed ops2
          (cache_descriptor.gets ops2 store d (ks ++ pre)).1 K ∧
        cache_descriptor.get ops2 (cache_descriptor.gets ops2 store d (ks ++ pre)).1
            (cache_descriptor.gets ops2 store d (ks ++ pre)).2 K =
          ((cache_descriptor.gets ops2 store d (ks ++ pre)).1,
           (cache_descriptor.gets ops2 store d (ks ++ pre)).2,
           (cache_descriptor.gets ops2 store d (ks ++ pre)).2.loc ops2 K) ∧
        ∀ (cfg : Config) (lts : Nat) (c : Int),
          vtbl_map.get ops2 cfg
              { store := (cache_descriptor.gets ops2 store d (ks ++ pre)).1,
                descriptor := (cache_descriptor.gets ops2 store d (ks ++ pre)).2,
                last_table_size := lts, collisions_before_update := c } K =
            ({ store := (cache_descriptor.gets ops2 store d (ks ++ pre)).1,
               descriptor := (cache_descriptor.gets ops2 store d (ks ++ pre)).2,
               last_table_size := lts, collisions_before_update := c },
             (cache_descriptor.gets ops2 store d (ks ++ pre)).2.at
               ((cache_descriptor.gets ops2 store d (ks ++ pre)).2.loc ops2 K))) ∧
     (∀ (cfg : Config) (m : vtbl_map (Nat × Nat) (Nat × Nat) T) (ks pre : List (Nat × Nat)) (K : (Nat × Nat)),
        Reachable ops2 cfg m →
        (∀ a b, stored_in ops2 m.store a → stored_in ops2 m.store b →
          m.descriptor.loc ops2 a = m.descriptor.loc ops2 b → a = b) →
        m.descriptor.used ≤ m.descriptor.cache_mask →
        m.descriptor.used = m.last_table_size →
        (∀ k ∈ ks, ops2.nonzero k = true ∧ stored_in ops2 m.store k) →
        (∀ k ∈ pre, k ∈ ks) → K ∈ ks →
        vtbl_at ops2 (vtbl_map.gets ops2 cfg m (ks ++ pre)).1.store
          ((vtbl_map.gets ops2 cfg m (ks ++ pre)).1.descriptor.at
            ((vtbl_map.gets ops2 cfg m (ks ++ pre)).1.descriptor.loc ops2 K)) = K ∧
        vtbl_map.get ops2 cfg (vtbl_map.gets ops2 cfg m (ks ++ pre)).1 K =
          ((vtbl_map.gets ops2 cfg m (ks ++ pre)).1,
           (vtbl_map.gets ops2 cfg m (ks ++ pre)).1.descriptor.at
             ((vtbl_map.gets ops2 cfg m (ks ++ pre)).1.descriptor.loc ops2 K)))) := by
  refine ⟨⟨?_, ?_, ?_⟩, ⟨?_, ?_, ?_⟩⟩
  · intro store d K h _ hinj i hocc hhome
    obtain ⟨k1, k2⟩ := get_keeps_home lawful1 store d K h
      (fun a ha e => hinj a K (Or.inl ha) (Or.inr rfl) e) i hocc hhome
    exact ⟨k1, k2, by rw [get_loc]; exact hhome⟩
  · intro store d ks pre K h hinj hk hpre hK
    have hp := gets_place lawful1 (ks ++ pre) store d [] h hinj
      (fun k hk' => by
        rcases List.mem_append.1 hk' with c | c
        · exact hk k c
        · exact hk k (hpre k c))
      (fun k hk' => by cases hk') K (Or.inr (List.mem_append_left _ hK))
    obtain ⟨q1, q2⟩ := placed_hit ops1 _ _ K hp
    exact ⟨hp, q1, q2⟩
  · intro cfg m ks pre K hm hinj hroom hlts hk hpre hK
    have hk2 : ∀ k ∈ ks ++ pre, ops1.nonzero k = true ∧ stored_in ops1 m.store k := by
      intro k hk'
      rcases List.mem_append.1 hk' with c | c
      · exact hk k c
      · exact hk k (hpre k c)
    have hi := reachable_inv lawful1 hm
    have hp := gets_place lawful1 (ks ++ pre) m.store m.descriptor [] hi hinj hk2
      (fun k hk' => by cases hk') K (Or.inr (List.mem_append_left _ hK))
    obtain ⟨e1, e2⟩ := settled_gets_descriptor lawful1 cfg (ks ++ pre) m hi hroom hlts hk2
    unfold cache_descriptor.placed at hp
    rw [← e1, ← e2] at hp
    refine ⟨hp, ?_⟩
    rcases map_get_cases ops1 cfg (vtbl_map.gets ops1 cfg m (ks ++ pre)).1 K with
      e | ⟨c, _⟩ | ⟨c, _⟩
    · exact e.2
    · exact absurd hp c
    · exact absurd hp c
  · intro store d K h _ hinj i hocc hhome
    obtain ⟨k1, k2⟩ := get_keeps_home lawful2 store d K h
      (fun a ha e => hinj a K (Or.inl ha) (Or.inr rfl) e) i hocc hhome
    exact ⟨k1, k2, by rw [get_loc]; exact hhome⟩
  · intro store d ks pre K h hinj hk hpre hK
    have hp := gets_place lawful2 (ks ++ pre) store d [] h hinj
      (fun k hk' => by
        rcases List.mem_append.1 hk' with c | c
        · exact hk k c
        · exact hk k (hpre k c))
      (fun k hk' => by cases hk') K (Or.inr (List.mem_append_left _ hK))
    obtain ⟨q1, q2⟩ := placed_hit ops2 _ _ K hp
    exact ⟨hp, q1, q2⟩
  · intro cfg m ks pre K hm hinj hroom hlts hk hpre hK
    have hk2 : ∀ k ∈ ks ++ pre, ops2.nonzero k = true ∧ stored_in ops2 m.store k := by
      intro k hk'
      rcases List.mem_append.1 hk' with c | c
      · exact hk k c
      · exact hk k (hpre k c)
    have hi := reachable_inv lawful2 hm
    have hp := gets_place lawful2 (ks ++ pre) m.store m.descriptor [] hi hinj hk2
      (fun k hk' => by cases hk') K (Or.inr (List.mem_append_left _ hK))
    obtain ⟨e1, e2⟩ := settled_gets_descriptor lawful2 cfg (ks ++ pre) m hi hroom hlts hk2
    unfold cache_descriptor.placed at hp
    rw [← e1, ← e2] at hp
    refine ⟨hp, ?_⟩
    rcases map_get_cases ops2 cfg (vtbl_map.gets ops2 cfg m (ks ++ pre)).1 K with
      e | ⟨c, _⟩ | ⟨c, _⟩
    · exact e.2
    · exact absurd hp c
    · exact absurd hp c

/-- Witness of C36: in `perfect_map` the entry of the key `0x10` is referenced
from slot 1, the slot of `0x10`; `get(0x50)`, which swaps slots 5 and 0, leaves
it there.  The table of `perfect_map` is not full and `last_table_size` is
`used`; after `get(0x50)` and `get(0x10)` through the facade, `get(0x50)` is a
hit. -/
theorem swaps_never_evict_witness :
    vtbl_at ops1 perfect_map.store (perfect_map.descriptor.at 1) = 0x10 ∧
    perfect_map.descriptor.loc ops1 0x10 = 1 ∧
    (cache_descriptor.get ops1 perfect_map.store perfect_map.descriptor 0x50).2.1.cache ≠
      perfect_map.descriptor.cache ∧
    (cache_descriptor.get ops1 perfect_map.store perfect_map.descriptor 0x50).2.1.at 1 =
      perfect_map.descriptor.at 1 ∧
    perfect_map.descriptor.used ≤ perfect_map.descriptor.cache_mask ∧
    perfect_map.descriptor.used = perfect_map.last_table_size ∧
    vtbl_at ops1 (vtbl_map.gets ops1 sample_config perfect_map ([0x50, 0x10] ++ [])).1.store
      ((vtbl_map.gets ops1 sample_config perfect_map ([0x50, 0x10] ++ [])).1.descriptor.at
        ((vtbl_map.gets ops1 sample_config perfect_map ([0x50, 0x10] ++ [])).1.descriptor.loc
          ops1 0x50)) = 0x50 :=
  ⟨by decide, by decide, by decide,
   (swaps_never_evict.1.1 perfect_map.store perfect_map.descriptor 0x50
      (reachable_inv lawful1 reachable_perfect_map) (by decide)
      (perfect_map_injective 0x50 (Or.inl rfl)) 1 (by decide) (by decide)).1,
   by decide, by decide,
   (swaps_never_evict.1.2.2 sample_config perfect_map [0x50, 0x10] [] 0x50
      reachable_perfect_map
      (fun a b ha hb => perfect_map_injective 0x50 (Or.inl rfl) a b (Or.inl ha) (Or.inl hb))
      (by decide) (by decide)
      (fun k hk => by
        simp only [List.mem_cons, List.mem_singleton, List.not_mem_nil, or_false] at hk
        rcases hk with e | e
        · exact ⟨by rw [e]; decide, ⟨0, by rw [e]; decide⟩, by rw [e]; decide⟩
        · exact ⟨by rw [e]; decide, ⟨3, by rw [e]; decide⟩, by rw [e]; decide⟩)
      (fun k hk => by cases hk) (by decide)).1⟩

/-- Counterexample to C36 as claimed: the fourth call `get(0x30)` that builds
`full_perfect_map` calls `update`, which finds a perfect placement: the four
stored keys have the slots 2, 0, 1, 3 of the four-slot table, which is full.
Then each stored key is looked up once through the facade, `get(0x30)`,
`get(0x20)`, `get(0x10)`, `get(0x8)`; the second call misses on the full table
and reorganizes to eight slots.  After these lookups the key `0x30` is not in
its slot: the later `get(0x30)` is a miss, which swaps two slots. -/
theorem lookups_miss_after_full_update :
    (vtbl_map.gets ops1 sample_config
      (vtbl_map.create ops1 sample_config 4 0 : vtbl_map Nat Nat Nat)
      [0x8, 0x10, 0x20]).1.calls_update ops1 0x30 ∧
    full_perfect_map.stored_keys ops1 = [0x20, 0x8, 0x10, 0x30] ∧
    (full_perfect_map.stored_keys ops1).map (full_perfect_map.descriptor.loc ops1) =
      [2, 0, 1, 3] ∧
    full_perfect_map.descriptor.cache_mask = 3 ∧
    full_perfect_map.descriptor.used = 4 ∧
    (vtbl_map.gets ops1 sample_config full_perfect_map
      [0x30, 0x20, 0x10, 0x8]).1.descriptor.cache_mask = 7 ∧
    vtbl_at ops1
      (vtbl_map.gets ops1 sample_config full_perfect_map [0x30, 0x20, 0x10, 0x8]).1.store
      ((vtbl_map.gets ops1 sample_config full_perfect_map
          [0x30, 0x20, 0x10, 0x8]).1.descriptor.at
        ((vtbl_map.gets ops1 sample_config full_perfect_map
          [0x30, 0x20, 0x10, 0x8]).1.descriptor.loc ops1 0x30)) ≠ 0x30 ∧
    (vtbl_map.get ops1 sample_config
      (vtbl_map.gets ops1 sample_config full_perfect_map [0x30, 0x20, 0x10, 0x8]).1
      0x30).1.descriptor.cache ≠
      (vtbl_map.gets ops1 sample_config full_perfect_map
        [0x30, 0x20, 0x10, 0x8]).1.descriptor.cache := by
  refine ⟨?_, ?_, ?_, ?_, ?_, ?_, ?_, ?_⟩ <;> decide

end no_eviction_claim
section shift_lower_bound

set_option maxRecDepth 1000000 in
/-- C38 (lower bound of the shift search, N = 1), evaluation: in `wide_map`,
whose table is full, `get(0x30000000000)` and `get(0x10800000000)` call
`update`.  In the first call the keys differ in bits 40 and 41 only: `diff` is
`0x30000000000`, with 40 trailing zero bits; in the second `diff` has 35
trailing zero bits.  The low 32 bits of `diff`, which are what `trailing_zeros`
is given, are zero in both calls, and both searches begin with the shift 0.
`req_bits(diff)` is 42 in both calls, one more than the position 41 of the
highest bit. -/
theorem shift_lower_bound_truncated :
    wide_map.calls_update ops1 0x30000000000 ∧
    wide_map.calls_update ops1 0x10800000000 ∧
    diff1 (wide_map.slot_keys ops1) 0x30000000000 = 0x30000000000 ∧
    trailing_zeros (diff1 (wide_map.slot_keys ops1) 0x30000000000) = 40 ∧
    trailing_zeros (diff1 (wide_map.slot_keys ops1) 0x10800000000) = 35 ∧
    diff1 (wide_map.slot_keys ops1) 0x30000000000 % 2 ^ 32 = 0 ∧
    diff1 (wide_map.slot_keys ops1) 0x10800000000 % 2 ^ 32 = 0 ∧
    (search_range1 sample_config wide_map 0x30000000000).head? = some (2, 0) ∧
    (search_range1 sample_config wide_map 0x10800000000).head? = some (2, 0) ∧
    req_bits (diff1 (wide_map.slot_keys ops1) 0x30000000000) = 42 ∧
    req_bits (diff1 (wide_map.slot_keys ops1) 0x10800000000) = 42 := by
  refine ⟨?_, ?_, ?_, ?_, ?_, ?_, ?_, ?_, ?_, ?_, ?_⟩ <;> decide

end shift_lower_bound

section type_switches

/-- The one-argument reference and the two pattern-matching versions return
the same integer for every argument. -/
theorem do_visit_1_eq (a : VP) :
    do_visit_1 a = do_mach7_1 a ∧ do_visit_1 a = do_mach7_1v a := by
  cases a <;> exact ⟨rfl, rfl⟩

/-- The two pattern-matching versions with two arguments agree. -/
theorem do_mach7_2v_eq (a b : VP) : do_mach7_2v a b = do_mach7_2 a b := by
  cases a <;> cases b <;> rfl

/-- When the first argument holds a `P`, or neither a `Q` nor an `R`, the
reference `do_visit_2` returns what `do_mach7_2` returns. -/
theorem do_visit_2_eq_of_P (a b : VP) (h : (∀ q, a ≠ VP.Q q) ∧ ∀ r, a ≠ VP.R r) :
    do_visit_2 a b = do_mach7_2 a b := by
  cases a with
  | P p => cases b <;> rfl
  | Q q => exact absurd rfl (h.1 q)
  | R r => exact absurd rfl (h.2 r)
  | other => cases b <;> rfl

/-- C40 (the hand-written reference equals the pattern-matching version),
evaluation: for the arguments `Q(1)` and `P(0)`, both in the array `args`,
`do_visit_2` returns `20*1 + 0 = 20` while `do_mach7_2` and `do_mach7_2v`
return `40*1 + 0 = 40`; for a first argument `Q(q)` and a second `P(p)` the
results differ by `20*q`, and for a first argument `R(r)` by `40*r`. -/
theorem do_visit_2_differs :
    VP.Q 1 ∈ args ∧ VP.P 0 ∈ args ∧
    do_visit_2 (VP.Q 1) (VP.P 0) = 20 ∧
    do_mach7_2 (VP.Q 1) (VP.P 0) = 40 ∧
    do_mach7_2v (VP.Q 1) (VP.P 0) = 40 ∧
    (∀ q p : Int, do_mach7_2 (VP.Q q) (VP.P p) - do_visit_2 (VP.Q q) (VP.P p) = 20 * q) ∧
    (∀ r p : Int, do_mach7_2 (VP.R r) (VP.P p) - do_visit_2 (VP.R r) (VP.P p) = 40 * r) := by
  refine ⟨by decide, by decide, by decide, by decide, by decide, ?_, ?_⟩
  · intro q p
    show 40 * q + p - (20 * q + p) = 20 * q
    ring
  · intro r p
    show 60 * r + p - (20 * r + p) = 40 * r
    ring

end type_switches
section fibonacci_functions

theorem fibonacci_eq_fib (n : Nat) : fibonacci n = (Nat.fib n : Int) ∧
    fibonacci (n + 1) = (Nat.fib (n + 1) : Int) := by
  induction n with
  | zero => exact ⟨rfl, rfl⟩
  | succ n ih =>
    refine ⟨ih.2, ?_⟩
    show fibonacci (n + 1) + fibonacci n = _
    rw [ih.1, ih.2, Nat.fib_add_two]
    push_cast
    ring

/-- The identity `fib (2*n+1) = (fib(n+1))^2 + (fib n)^2` of the file comment. -/
theorem fibonacci_odd (j : Nat) :
    sqr (fibonacci (j + 1)) + sqr (fibonacci j) = fibonacci (2 * j + 1) := by
  rw [(fibonacci_eq_fib j).1, (fibonacci_eq_fib j).2, (fibonacci_eq_fib (2 * j + 1)).1,
    Nat.fib_two_mul_add_one]
  unfold sqr
  push_cast
  ring

/-- The identity `fib (2*n) = (fib(n+1))^2 - (fib(n-1))^2` of the file comment,
for `n = j + 1`. -/
theorem fibonacci_even (j : Nat) :
    sqr (fibonacci (j + 2)) - sqr (fibonacci j) = fibonacci (2 * (j + 1)) := by
  have e : 2 * (j + 1) = j + (j + 1) + 1 := by ring
  have h2 : fibonacci (j + 2) = fibonacci (j + 1) + fibonacci j := rfl
  rw [h2, e, (fibonacci_eq_fib (j + (j + 1) + 1)).1, Nat.fib_add, Nat.fib_add_two,
    (fibonacci_eq_fib j).1, (fibonacci_eq_fib j).2]
  unfold sqr
  push_cast
  ring

theorem tdiv_two (k : Nat) : Int.tdiv (k : Int) 2 = ((k / 2 : Nat) : Int) := by
  rw [Int.tdiv_eq_ediv (Int.ofNat_nonneg k) (by norm_num)]
  norm_cast

theorem tmod_two (k : Nat) : Int.tmod (k : Int) 2 = ((k % 2 : Nat) : Int) := by
  rw [Int.tmod_eq_emod (Int.ofNat_nonneg k) (by norm_num)]
  norm_cast

/-- With recursion depth `k` or more, `fib(k)` and `fib_opt(k)` return the
`k`-th Fibonacci number, for `k >= 1`. -/
theorem fib_nat : ∀ (N k : Nat), k ≤ N → 1 ≤ k → ∀ fuel, k ≤ fuel →
    fib fuel (k : Int) = some (fibonacci k) ∧ fib_opt fuel (k : Int) = some (fibonacci k) := by
  intro N
  induction N with
  | zero => intro k h1 h2; omega
  | succ N ih =>
    intro k hk h1 fuel hf
    obtain ⟨f, rfl⟩ : ∃ f, fuel = f + 1 := ⟨fuel - 1, by omega⟩
    by_cases h12 : k = 1 ∨ k = 2
    · have hc : ((k : Int) = 1 ∨ (k : Int) = 2) := by
        rcases h12 with c | c
        · exact Or.inl (by rw [c]; rfl)
        · exact Or.inr (by rw [c]; rfl)
      have hv : fibonacci k = 1 := by
        rcases h12 with c | c
        · rw [c]; rfl
        · rw [c]; rfl
      unfold fib fib_opt
      rw [if_pos hc, if_pos hc, hv]
      exact ⟨rfl, rfl⟩
    · have hc : ¬ ((k : Int) = 1 ∨ (k : Int) = 2) := by
        intro c
        apply h12
        rcases c with c | c
        · exact Or.inl (by exact_mod_cast c)
        · exact Or.inr (by exact_mod_cast c)
      have hk3 : 3 ≤ k := by omega
      unfold fib fib_opt
      rw [if_neg hc, if_neg hc, tmod_two, tdiv_two]
      rcases Nat.mod_two_eq_zero_or_one k with hm | hm
      · have e0 : (((k % 2 : Nat) : Int) = 0) := by rw [hm]; rfl
        rw [if_pos e0, if_pos e0]
        obtain ⟨j, hj⟩ : ∃ j, k / 2 = j + 2 := ⟨k / 2 - 2, by omega⟩
        have ek : k = 2 * (j + 1 + 1) := by omega
        have a1 : ((k / 2 : Nat) : Int) + 1 = ((j + 3 : Nat) : Int) := by
          rw [hj]; push_cast; ring
        have a2 : ((k / 2 : Nat) : Int) - 1 = ((j + 1 : Nat) : Int) := by
          rw [hj]; push_cast; ring
        rw [a1, a2]
        obtain ⟨p1, q1⟩ := ih (j + 3) (by omega) (by omega) f (by omega)
        obtain ⟨p2, q2⟩ := ih (j + 1) (by omega) (by omega) f (by omega)
        rw [p1, p2, q1, q2]
        have := fibonacci_even (j + 1)
        rw [← ek] at this
        simp only [Option.bind_some, Option.some_bind]
        exact ⟨congrArg some this, congrArg some this⟩
      · have e0 : ¬ (((k % 2 : Nat) : Int) = 0) := by rw [hm]; decide
        have e1 : (((k % 2 : Nat) : Int) = 1) := by rw [hm]; rfl
        rw [if_neg e0, if_neg e0, if_pos e1]
        obtain ⟨j, hj⟩ : ∃ j, k / 2 = j + 1 := ⟨k / 2 - 1, by omega⟩
        have ek : k = 2 * (j + 1) + 1 := by omega
        have a1 : ((k / 2 : Nat) : Int) + 1 = ((j + 2 : Nat) : Int) := by
          rw [hj]; push_cast; ring
        rw [a1, hj]
        obtain ⟨p1, q1⟩ := ih (j + 2) (by omega) (by omega) f (by omega)
        obtain ⟨p2, q2⟩ := ih (j + 1) (by omega) (by omega) f (by omega)
        rw [p1, p2, q1, q2]
        have := fibonacci_odd (j + 1)
        rw [← ek] at this
        simp only [Option.bind_some, Option.some_bind]
        exact ⟨congrArg some this, congrArg some this⟩

/-- C39 (fast Fibonacci): for every integer `n >= 1`, the calls `fib(n)` and
`fib_opt(n)` of `numbers.cpp`, computed over the unbounded integers, return
within recursion depth `n`, and with any greater depth, the `n`-th Fibonacci
number (`F(1) = F(2) = 1`, `F(n) = F(n-1) + F(n-2)`); so `fib_opt(n)` is
`fib(n)`. -/
theorem fast_fibonacci (n : Int) (h : 1 ≤ n) (fuel : Nat) (hf : n.toNat ≤ fuel) :
    fib fuel n = some (fibonacci n.toNat) ∧ fib_opt fuel n = some (fibonacci n.toNat) ∧
    fib_opt fuel n = fib fuel n := by
  have e : ((n.toNat : Nat) : Int) = n := Int.toNat_of_nonneg (by omega)
  have h1 : 1 ≤ n.toNat := by omega
  obtain ⟨p, q⟩ := fib_nat n.toNat n.toNat (Nat.le_refl _) h1 fuel hf
  rw [e] at p q
  exact ⟨p, q, by rw [p, q]⟩

/-- Witness of C39: `fib(9)` and `fib_opt(9)` return `F(9) = 34` within
recursion depth 9. -/
theorem fast_fibonacci_witness :
    (1 : Int) ≤ 9 ∧ fibonacci 9 = 34 ∧ fib 9 9 = some (fibonacci 9) ∧
    fib_opt 9 9 = some (fibonacci 9) ∧ fib_opt 9 9 = fib 9 9 :=
  ⟨by decide, by decide, fast_fibonacci 9 (by decide) 9 (by decide)⟩

end fibonacci_functions
section histograms

theorem entries1_histogram (keys : List Nat) (vtbl i j : Nat) :
    entries1 keys vtbl i j = bits_set (histogram1 keys vtbl i j) := rfl

theorem entries2_histogram (keys : List (Nat × Nat)) (vtbl : Nat × Nat) (mask j0 j1 : Nat) :
    entries2 keys vtbl mask j0 j1 = bits_set (histogram2 keys vtbl mask j0 j1) := rfl

/-- Marking positions below `N` in a histogram whose bits are below `N` sets
bits below `N` only. -/
theorem testBit_foldl_lt {α : Type} (P : α → Prop) [DecidablePred P] (slot : α → Nat) (N : Nat)
    (hs : ∀ v, slot v < N) :
    ∀ (keys : List α) (h0 : Nat), (∀ b, h0.testBit b = true → b < N) →
      ∀ b, (keys.foldl (fun hist v => if P v then bit_set hist (slot v) else hist)
        h0).testBit b = true → b < N
  | [], _, h, b, hb => h b hb
  | v :: keys, h0, h, b, hb => by
    rw [List.foldl_cons] at hb
    refine testBit_foldl_lt P slot N hs keys _ ?_ b hb
    intro c hc
    by_cases hv : P v
    · rw [if_pos hv, testBit_bit_set] at hc
      rcases Bool.or_eq_true _ _ ▸ hc with h1 | h1
      · exact h c h1
      · have : slot v = c := of_decide_eq_true h1
        rw [← this]
        exact hs v
    · rw [if_neg hv] at hc
      exact h c hc

theorem and_mask_lt (x i : Nat) : x &&& (2 ^ i - 1) < 2 ^ i := by
  have h1 : x &&& (2 ^ i - 1) ≤ 2 ^ i - 1 := Nat.and_le_right
  have h2 : 0 < 2 ^ i := Nat.pow_pos (by decide)
  omega

theorem bit_set_zero_lt (p N b : Nat) (hp : p < N) (hb : (bit_set 0 p).testBit b = true) :
    b < N := by
  rw [testBit_bit_set, Nat.zero_testBit, Bool.false_or] at hb
  have : p = b := of_decide_eq_true hb
  rw [← this]
  exact hp

theorem histogram1_lt (keys : List Nat) (vtbl i j b : Nat)
    (hb : (histogram1 keys vtbl i j).testBit b = true) : b < 2 ^ i :=
  testBit_foldl_lt (fun v => v ≠ 0) (fun v => (v >>> j) &&& (2 ^ i - 1)) (2 ^ i)
    (fun _ => and_mask_lt _ i) keys _ (fun _ hc => bit_set_zero_lt _ _ _ (and_mask_lt _ i) hc) b hb

theorem histogram2_lt (keys : List (Nat × Nat)) (vtbl : Nat × Nat) (i j0 j1 b : Nat)
    (hb : (histogram2 keys vtbl (2 ^ i - 1) j0 j1).testBit b = true) : b < 2 ^ i :=
  testBit_foldl_lt (fun (v : Nat × Nat) => v.1 ≠ 0)
    (fun v => interleave (v.1 >>> j0) (v.2 >>> j1) &&& (2 ^ i - 1)) (2 ^ i)
    (fun _ => and_mask_lt _ i) keys _ (fun _ hc => bit_set_zero_lt _ _ _ (and_mask_lt _ i) hc) b hb

theorem search1_offsets_histograms_lt (keys : List Nat) (vtbl used i : Nat) :
    ∀ (js : List Nat), ∀ h ∈ search1_offsets_histograms keys vtbl used i js,
      ∀ b, h.testBit b = true → b < 2 ^ i
  | [], h, hh, _, _ => by cases hh
  | j :: js, h, hh, b, hb => by
    unfold search1_offsets_histograms at hh
    rcases List.mem_cons.1 hh with c | c
    · rw [c] at hb
      exact histogram1_lt keys vtbl i j b hb
    · by_cases e : entries1 keys vtbl i j = used + 1
      · rw [if_pos e] at c
        cases c
      · rw [if_neg e] at c
        exact search1_offsets_histograms_lt keys vtbl used i js h c b hb

theorem search1_sizes_histograms_lt (keys : List Nat) (vtbl used m z l2 : Nat) :
    ∀ (is : List Nat) (e : estimate Nat), (∀ i ∈ is, i ≤ l2) →
      ∀ h ∈ search1_sizes_histograms keys vtbl used m z is e,
        ∀ b, h.testBit b = true → b < 2 ^ l2
  | [], _, _, h, hh, _, _ => by cases hh
  | i :: is, e, hi, h, hh, b, hb => by
    unfold search1_sizes_histograms at hh
    rcases List.mem_append.1 hh with c | c
    · have := search1_offsets_histograms_lt keys vtbl used i _ h c b hb
      have h2 : 2 ^ i ≤ 2 ^ l2 :=
        Nat.pow_le_pow_right (by decide) (hi i (List.mem_cons_self _ _))
      omega
    · by_cases q : (search1_offsets keys vtbl used i (List.range' z (m + 1 - i - z)) e).2 = true
      · simp only [q, if_true] at c
        cases c
      · simp only [q] at c
        exact search1_sizes_histograms_lt keys vtbl used m z l2 is _
          (fun x hx => hi x (List.mem_cons_of_mem _ hx)) h c b hb

theorem search2_offsets1_histograms_lt (keys : List (Nat × Nat)) (vtbl : Nat × Nat)
    (used i j0 : Nat) :
    ∀ (js : List Nat), ∀ h ∈ search2_offsets1_histograms keys vtbl used (2 ^ i - 1) j0 js,
      ∀ b, h.testBit b = true → b < 2 ^ i
  | [], h, hh, _, _ => by cases hh
  | j1 :: js, h, hh, b, hb => by
    unfold search2_offsets1_histograms at hh
    rcases List.mem_cons.1 hh with c | c
    · rw [c] at hb
      exact histogram2_lt keys vtbl i j0 j1 b hb
    · by_cases e : entries2 keys vtbl (2 ^ i - 1) j0 j1 = used + 1
      · rw [if_pos e] at c
        cases c
      · rw [if_neg e] at c
        exact search2_offsets1_histograms_lt keys vtbl used i j0 js h c b hb

/-- The loop over the first offset builds histograms with bits below
`2^i0` only, where `2^i0 - 1` is the mask of the iteration of the outer loop,
whatever `i` is. -/
theorem search2_offsets0_histograms_lt (keys : List (Nat × Nat)) (vtbl : Nat × Nat)
    (used l2 i0 : Nat) (m z : Nat × Nat) :
    ∀ (fuel j0 i : Nat) (e : estimate (Nat × Nat)),
      ∀ h ∈ search2_offsets0_histograms keys vtbl used l2 (2 ^ i0 - 1) m z fuel j0 i e,
        ∀ b, h.testBit b = true → b < 2 ^ i0
  | 0, _, _, _, h, hh, _, _ => by
    unfold search2_offsets0_histograms at hh
    cases hh
  | fuel + 1, j0, i, e, h, hh, b, hb => by
    unfold search2_offsets0_histograms at hh
    by_cases g : j0 + i ≤ m.1
    · rw [if_pos g] at hh
      rcases List.mem_append.1 hh with c | c
      · exact search2_offsets1_histograms_lt keys vtbl used i0 j0 _ h c b hb
      · exact search2_offsets0_histograms_lt keys vtbl used l2 i0 m z fuel _ _ _ h c b hb
    · rw [if_neg g] at hh
      cases hh

theorem search2_sizes_histograms_lt (keys : List (Nat × Nat)) (vtbl : Nat × Nat)
    (used l2 : Nat) (m z : Nat × Nat) :
    ∀ (fuel i : Nat) (e : estimate (Nat × Nat)),
      ∀ h ∈ search2_sizes_histograms keys vtbl used l2 m z fuel i e,
        ∀ b, h.testBit b = true → b < 2 ^ l2
  | 0, _, _, h, hh, _, _ => by
    unfold search2_sizes_histograms at hh
    cases hh
  | fuel + 1, i, e, h, hh, b, hb => by
    unfold search2_sizes_histograms at hh
    by_cases g : i ≤ l2
    · rw [if_pos g] at hh
      rcases List.mem_append.1 hh with c | c
      · have := search2_offsets0_histograms_lt keys vtbl used l2 i m z _ _ _ _ h c b hb
        have h2 : 2 ^ i ≤ 2 ^ l2 := Nat.pow_le_pow_right (by decide) g
        omega
      · exact search2_sizes_histograms_lt keys vtbl used l2 m z fuel _ _ h c b hb
    · rw [if_neg g] at hh
      cases hh

theorem update_histograms1_lt (cfg : Config) (cache_mask used : Nat) (keys : List Nat)
    (vtbl : Nat) : ∀ h ∈ update_histograms1 cfg cache_mask used keys vtbl,
      ∀ b, h.testBit b = true → b < 2 ^ update_l2 cfg cache_mask used := by
  intro h hh b hb
  unfold update_histograms1 at hh
  refine search1_sizes_histograms_lt keys vtbl used _ _ (update_l2 cfg cache_mask used) _ _ ?_
    h hh b hb
  intro i hi
  have := List.mem_range'_1.1 hi
  unfold update_l2
  omega

theorem update_histograms2_lt (cfg : Config) (cache_mask used : Nat) (keys : List (Nat × Nat))
    (vtbl : Nat × Nat) : ∀ h ∈ update_histograms2 cfg cache_mask used keys vtbl,
      ∀ b, h.testBit b = true → b < 2 ^ update_l2 cfg cache_mask used := by
  intro h hh b hb
  unfold update_histograms2 at hh
  exact search2_sizes_histograms_lt keys vtbl used _ _ _ _ _ _ h hh b hb

/-- A bit position below `2^l2` lies in one of the `cache_histogram_size`
words. -/
theorem word_lt (bit_size l2 b : Nat) (hb : b < 2 ^ l2) :
    b / bit_size < cache_histogram_size bit_size l2 := by
  unfold cache_histogram_size
  have : b / bit_size ≤ (2 ^ l2 - 1) / bit_size := Nat.div_le_div_right (by omega)
  omega

theorem update_l2_le (cfg : Config) (cache_mask used : Nat) :
    update_l2 cfg cache_mask used ≤ cfg.max_log_size :=
  Nat.min_le_left _ _

theorem cache_histogram_size_le (bit_size l2 l : Nat) (h : l2 ≤ l) :
    cache_histogram_size bit_size l2 ≤ cache_histogram_size bit_size l := by
  unfold cache_histogram_size
  have h2 : 2 ^ l2 ≤ 2 ^ l := Nat.pow_le_pow_right (by decide) h
  have : (2 ^ l2 - 1) / bit_size ≤ (2 ^ l - 1) / bit_size := Nat.div_le_div_right (by omega)
  omega

/-- C35 (bitmap accesses of the search stay in bounds): in every call of the
search of `update`, N = 1 and N = 2, the bound `l2` is at most `max_log_size`,
so that the `cache_histogram_size` words fit the array that `XTL_VLA` provides,
and every bit set in a histogram that the search builds is at a position below
`2^l2`, in one of the `cache_histogram_size` words; for N = 2 this holds for
the loop over the first offset whatever `i` is, so also when it runs on with
`i = l2+1` and the mask of the current log size after a perfect placement. -/
theorem histogram_in_bounds :
    (∀ (cfg : Config) (cache_mask used : Nat) (keys : List Nat) (vtbl bit_size : Nat),
      update_l2 cfg cache_mask used ≤ cfg.max_log_size ∧
      cache_histogram_size bit_size (update_l2 cfg cache_mask used) ≤
        cache_histogram_size bit_size cfg.max_log_size ∧
      ∀ h ∈ update_histograms1 cfg cache_mask used keys vtbl, ∀ b, h.testBit b = true →
        b < 2 ^ update_l2 cfg cache_mask used ∧
        b / bit_size < cache_histogram_size bit_size (update_l2 cfg cache_mask used)) ∧
    (∀ (cfg : Config) (cache_mask used : Nat) (keys : List (Nat × Nat)) (vtbl : Nat × Nat)
        (bit_size : Nat),
      update_l2 cfg cache_mask used ≤ cfg.max_log_size ∧
      cache_histogram_size bit_size (update_l2 cfg cache_mask used) ≤
        cache_histogram_size bit_size cfg.max_log_size ∧
      ∀ h ∈ update_histograms2 cfg cache_mask used keys vtbl, ∀ b, h.testBit b = true →
        b < 2 ^ update_l2 cfg cache_mask used ∧
        b / bit_size < cache_histogram_size bit_size (update_l2 cfg cache_mask used)) ∧
    (∀ (keys : List (Nat × Nat)) (vtbl : Nat × Nat) (used l2 i0 : Nat) (m z : Nat × Nat)
        (fuel j0 i : Nat) (e : estimate (Nat × Nat)) (bit_size : Nat), i0 ≤ l2 →
      ∀ h ∈ search2_offsets0_histograms keys vtbl used l2 (2 ^ i0 - 1) m z fuel j0 i e,
        ∀ b, h.testBit b = true →
          b < 2 ^ l2 ∧ b / bit_size < cache_histogram_size bit_size l2) := by
  refine ⟨?_, ?_, ?_⟩
  · intro cfg cache_mask used keys vtbl bit_size
    refine ⟨update_l2_le _ _ _, cache_histogram_size_le _ _ _ (update_l2_le _ _ _), ?_⟩
    intro h hh b hb
    have := update_histograms1_lt cfg cache_mask used keys vtbl h hh b hb
    exact ⟨this, word_lt _ _ _ this⟩
  · intro cfg cache_mask used keys vtbl bit_size
    refine ⟨update_l2_le _ _ _, cache_histogram_size_le _ _ _ (update_l2_le _ _ _), ?_⟩
    intro h hh b hb
    have := update_histograms2_lt cfg cache_mask used keys vtbl h hh b hb
    exact ⟨this, word_lt _ _ _ this⟩
  · intro keys vtbl used l2 i0 m z fuel j0 i e bit_size hi h hh b hb
    have h1 := search2_offsets0_histograms_lt keys vtbl used l2 i0 m z fuel j0 i e h hh b hb
    have h2 : 2 ^ i0 ≤ 2 ^ l2 := Nat.pow_le_pow_right (by decide) hi
    have h3 : b < 2 ^ l2 := by omega
    exact ⟨h3, word_lt _ _ _ h3⟩

set_option maxRecDepth 100000 in
/-- Witness of C35: when `get((0x501,0x701))` reorganizes `pair_map`, `l2` is 3
and the ninth histogram that the search builds is `13`, with three bits set: a
perfect placement.  The loop over the first offset runs on; the tenth
histogram is `5`, whose bit 2 is set, at a position below `2^3`, in the one
word of 64 bits. -/
theorem histogram_in_bounds_witness :
    update_l2 sample_config pair_map.descriptor.cache_mask pair_map.descriptor.used = 3 ∧
    (update_histograms2 sample_config pair_map.descriptor.cache_mask pair_map.descriptor.used
      (pair_map.slot_keys ops2) (0x501, 0x701)).get? 8 = some 13 ∧
    bits_set 13 = pair_map.descriptor.used + 1 ∧
    (update_histograms2 sample_config pair_map.descriptor.cache_mask pair_map.descriptor.used
      (pair_map.slot_keys ops2) (0x501, 0x701)).get? 9 = some 5 ∧
    Nat.testBit 5 2 = true ∧
    2 < 2 ^ update_l2 sample_config pair_map.descriptor.cache_mask pair_map.descriptor.used ∧
    2 / 64 < cache_histogram_size 64
      (update_l2 sample_config pair_map.descriptor.cache_mask pair_map.descriptor.used) :=
  ⟨by decide, by decide, by decide, by decide, by decide,
   (histogram_in_bounds.2.1 sample_config pair_map.descriptor.cache_mask
      pair_map.descriptor.used (pair_map.slot_keys ops2) (0x501, 0x701) 64).2.2 5 (by decide) 2
      (by decide)⟩

end histograms

end mch
